import Mathlib

/-! randSpg: space-group constrained initialisation

A shallow embedding of `spgInit.cpp` and `spgInitCombinatorics.cpp`, with the properties of
the Wyckoff combinatorics solver, of the coordinate expression evaluator, of the lattice
sampler, of the assignment realizer and of the placement of one atom.

* `std::vector` is `List`; `std::string` is `String`, read through its list of characters; an
  index into a string becomes the characters that remain from that index on.
* `uint` is a `Nat` below `UINT_MOD = 2 ^ 32`; every source operation that narrows to
  `uint` or computes in `uint` carries an explicit `% UINT_MOD`.
* `double` is `ℚ`, with exact arithmetic; the `float` that `std::stof` returns is the rational
  it denotes, obtained from the decimal by `SpgInit.floatRound`.
* `std::sort` promises `SpgInit.SortContract` and no order of equal elements:
  `SpgInit.getNumOfEachType` runs a stable sort, `SpgInit.getNumOfEachTypeWith` any behaviour
  within the contract, and `Libstdcxx.sort` is the introsort of libstdc++.
* The recursion of `findAllCombinations` is driven by a fuel argument; `none` is
  "fuel exhausted", never a result of the source.
* A C++ exception is the `Except.error` branch of the result.
* The Wyckoff database is a parameter; what the absent headers declare is modelled from the
  specification and marked so.
* The random number generators are oracles: a function of the number of the call and of the
  bounds passed; their contract is a hypothesis where it is needed.
* The members of `Crystal` are oracles on a crystal state of any type.
-/

/-! ## Data model -/

deriving instance DecidableEq for Except

/-- Number of values of the 32-bit `uint` of the source. -/
def UINT_MOD : Nat := 4294967296

/-- The `wyckPos` tuple `(letter, multiplicity, first position)` of `spgInit.h`. -/
structure wyckPos where
  letter : Char
  multiplicity : Nat
  coords : String
  deriving DecidableEq, Repr

/-- The `wyckoffPositions` typedef of `spgInit.h`. -/
abbrev wyckoffPositions := List wyckPos

/-- The `similarWyckPositions` typedef: one group of similar Wyckoff positions. -/
abbrev similarWyckPositions := List wyckPos

/-- The `numAndType` typedef: `(number of atoms, atomic number)`. -/
abbrev numAndType := Nat × Nat

/-- Modelled from the spec: the struct `similarWyckPosAndNumToChoose` of the absent header
`spgInitCombinatorics.h` (the spec's `Pick { num_to_choose; choosable }`). -/
structure similarWyckPosAndNumToChoose where
  numToChoose : Nat
  choosablePositions : similarWyckPositions
  deriving DecidableEq, Repr

/-- The `assignments` typedef of the absent header `spgInitCombinatorics.h`. -/
abbrev assignments := List similarWyckPosAndNumToChoose

/-- Modelled from the spec: the struct `singleAtomPossibility` of the absent header
`spgInitCombinatorics.h` (the spec's `SAP { atomic_num; picks }`). -/
structure singleAtomPossibility where
  atomicNum : Nat
  assigns : assignments
  deriving DecidableEq, Repr

/-- The `singleAtomPossibilities` typedef. -/
abbrev singleAtomPossibilities := List singleAtomPossibility

/-- The `systemPossibility` typedef: one single-atom possibility per species. -/
abbrev systemPossibility := List singleAtomPossibility

/-- The `systemPossibilities` typedef. -/
abbrev systemPossibilities := List systemPossibility

/-- The struct `combinationSettings` of `spgInitCombinatorics.cpp`. -/
structure combinationSettings where
  numAtoms : Nat
  findOnlyOne : Bool
  findOnlyNonUnique : Bool
  deriving DecidableEq, Repr

/-- Modelled from the spec: the struct `WyckPosTrackingInfo` of the absent header
`wyckPosTrackingInfo.h` (the spec's `TrackInfo { group; num_used; keep_using; unique;
multiplicity }`). -/
structure WyckPosTrackingInfo where
  positions : similarWyckPositions
  numTimesUsed : Nat
  keepUsing : Bool
  unique : Bool
  multiplicity : Nat
  deriving DecidableEq, Repr

/-- The `usageTracker` typedef of `spgInitCombinatorics.cpp`. -/
abbrev usageTracker := List WyckPosTrackingInfo

/-- The Wyckoff database `wyckoffPositionsDatabase` of the absent header `wyckoffDatabase.h`,
taken as a parameter: entry `0` is the empty sentinel, entries `1 .. 230` are the tables. -/
abbrev WyckoffDatabase := Nat → wyckoffPositions

/-! ## Helpers of the absent header `utilityFunctions.h` -/

/-- Modelled from the spec: `split` of the absent `utilityFunctions.h`, on the characters of a
string: the pieces between the delimiters. -/
def splitChars (delim : Char) : List Char → List (List Char)
  | [] => [[]]
  | c :: cs =>
    if c = delim then [] :: splitChars delim cs
    else
      match splitChars delim cs with
      | [] => [[c]]
      | w :: ws => (c :: w) :: ws

/-- Modelled from the spec: `split(s, delim)` of the absent `utilityFunctions.h`. -/
def split (s : String) (delim : Char) : List String :=
  (splitChars delim s.data).map String.mk

/-- Modelled from the spec: `isNumber` of the absent `utilityFunctions.h`; the spec calls a
component a number when it "mentions" none of `x`, `y`, `z`. -/
def isNumber (s : String) : Bool :=
  s.data.all (fun c => !(c = 'x' || c = 'y' || c = 'z'))

/-- Modelled from the spec: `isDigit` of the absent `utilityFunctions.h`. -/
def isDigit (c : Char) : Bool :=
  decide ('0'.toNat ≤ c.toNat) && decide (c.toNat ≤ '9'.toNat)

/-- Modelled from the spec: `numIsOdd` of the absent `utilityFunctions.h`. -/
def numIsOdd (n : Nat) : Bool :=
  n % 2 == 1

/-- Modelled from the spec: the comparator `greaterThan` of the absent `utilityFunctions.h`
("sorted in descending count"). -/
def greaterThan (a b : numAndType) : Bool :=
  decide (a.1 > b.1)

/-! ## `std::sort` of libstdc++ -/

namespace Libstdcxx

/-- The constant `_S_threshold` of `bits/stl_algo.h`. -/
def S_threshold : Nat := 16

/-- The halvings that `std::__lg` counts, at most `fuel` of them. -/
def lgLoop : Nat → Nat → Nat
  | 0, _ => 0
  | fuel + 1, n => if 2 ≤ n then lgLoop fuel (n / 2) + 1 else 0

/-- The function `std::__lg`: the binary logarithm, rounded down. -/
def lg (n : Nat) : Nat := lgLoop n n

/-- The function `std::iter_swap` on the positions `a` and `b` of the sequence `v`; `none` is
an access outside the sequence. -/
def iter_swap {α : Type} (v : List α) (a b : Nat) : Option (List α) :=
  match v[a]?, v[b]? with
  | some x, some y => some ((v.set a y).set b x)
  | _, _ => none

/-- The function `std::__move_median_to_first`: the median of the elements at `a`, `b` and `c`
is swapped to the position `result`. -/
def move_median_to_first {α : Type} (comp : α → α → Bool) (v : List α)
    (result a b c : Nat) : Option (List α) :=
  match v[a]?, v[b]?, v[c]? with
  | some va, some vb, some vc =>
    if comp va vb then
      if comp vb vc then iter_swap v result b
      else if comp va vc then iter_swap v result c
      else iter_swap v result a
    else if comp va vc then iter_swap v result a
    else if comp vb vc then iter_swap v result c
    else iter_swap v result b
  | _, _, _ => none

/-- The loop `while (comp(first, pivot)) ++first;` of `std::__unguarded_partition`; the
result is the new `first`. -/
def advanceFirst {α : Type} (comp : α → α → Bool) (v : List α) (pivot : Nat) :
    Nat → Nat → Option Nat
  | 0, _ => none
  | fuel + 1, first =>
    match v[first]?, v[pivot]? with
    | some a, some p =>
      if comp a p then advanceFirst comp v pivot fuel (first + 1) else some first
    | _, _ => none

/-- The statements `--last; while (comp(pivot, last)) --last;` of
`std::__unguarded_partition`; the result is the new `last`. -/
def retreatLast {α : Type} (comp : α → α → Bool) (v : List α) (pivot : Nat) :
    Nat → Nat → Option Nat
  | 0, _ => none
  | _ + 1, 0 => none
  | fuel + 1, last + 1 =>
    match v[last]?, v[pivot]? with
    | some a, some p =>
      if comp p a then retreatLast comp v pivot fuel last else some last
    | _, _ => none

/-- The function `std::__unguarded_partition`: the sequence after the swaps, and the
iterator returned. -/
def unguarded_partition {α : Type} (comp : α → α → Bool) (pivot : Nat) :
    Nat → List α → Nat → Nat → Option (List α × Nat)
  | 0, _, _, _ => none
  | fuel + 1, v, first, last =>
    match advanceFirst comp v pivot (v.length + 1) first with
    | none => none
    | some first1 =>
      match retreatLast comp v pivot (v.length + 1) last with
      | none => none
      | some last1 =>
        if ¬ first1 < last1 then some (v, first1)
        else
          match iter_swap v first1 last1 with
          | none => none
          | some v1 => unguarded_partition comp pivot fuel v1 (first1 + 1) last1

/-- The function `std::__unguarded_partition_pivot`. -/
def unguarded_partition_pivot {α : Type} (comp : α → α → Bool) (v : List α)
    (first last : Nat) : Option (List α × Nat) :=
  let mid := first + (last - first) / 2
  match move_median_to_first comp v first (first + 1) mid (last - 1) with
  | none => none
  | some v1 => unguarded_partition comp first (v.length + 1) v1 (first + 1) last

/-- The function `std::__introsort_loop` on the range from `first` to `last`: while the
range has more than `_S_threshold` elements it is partitioned around the median of three,
the function is called on the upper part and the loop goes on with the lower part. With the
depth limit used up the source calls `std::__partial_sort`, a heap sort, which is not part of
this model: `none`. -/
def introsort_loop {α : Type} (comp : α → α → Bool) :
    Nat → List α → Nat → Nat → Option (List α)
  | 0, v, first, last => if last - first > S_threshold then none else some v
  | depth_limit + 1, v, first, last =>
    if last - first > S_threshold then
      match unguarded_partition_pivot comp v first last with
      | none => none
      | some (v1, cut) =>
        match introsort_loop comp depth_limit v1 cut last with
        | none => none
        | some v2 => introsort_loop comp depth_limit v2 first cut
    else some v

/-- The loop of `std::__unguarded_linear_insert`, which moves the hole at `last` down while
`val` goes before the element in front of the hole, and then stores `val`. Nothing guards
the front of the sequence. -/
def unguardedLinearInsertLoop {α : Type} (comp : α → α → Bool) (val : α) :
    Nat → List α → Nat → Option (List α)
  | 0, _, _ => none
  | _ + 1, _, 0 => none
  | fuel + 1, v, next + 1 =>
    match v[next]? with
    | none => none
    | some b =>
      if comp val b then unguardedLinearInsertLoop comp val fuel (v.set (next + 1) b) next
      else some (v.set (next + 1) val)

/-- The function `std::__unguarded_linear_insert`. -/
def unguarded_linear_insert {α : Type} (comp : α → α → Bool) (v : List α) (last : Nat) :
    Option (List α) :=
  match v[last]? with
  | none => none
  | some val => unguardedLinearInsertLoop comp val (v.length + 1) v last

/-- The statements `val = *i; move_backward(first, i, i + 1); *first = val;` of
`std::__insertion_sort`. -/
def moveToFirst {α : Type} (v : List α) (first i : Nat) (val : α) : List α :=
  v.take first ++ val :: (v.drop first).take (i - first) ++ v.drop (i + 1)

/-- The `for` loop of `std::__insertion_sort`, from the iterator `i` on. -/
def insertionSortLoop {α : Type} (comp : α → α → Bool) (first last : Nat) :
    Nat → List α → Nat → Option (List α)
  | 0, _, _ => none
  | fuel + 1, v, i =>
    if i = last then some v
    else
      match v[i]?, v[first]? with
      | some a, some f =>
        if comp a f then insertionSortLoop comp first last fuel (moveToFirst v first i a) (i + 1)
        else
          match unguarded_linear_insert comp v i with
          | none => none
          | some v1 => insertionSortLoop comp first last fuel v1 (i + 1)
      | _, _ => none

/-- The function `std::__insertion_sort`. -/
def insertion_sort {α : Type} (comp : α → α → Bool) (v : List α) (first last : Nat) :
    Option (List α) :=
  if first = last then some v
  else insertionSortLoop comp first last (v.length + 1) v (first + 1)

/-- The function `std::__unguarded_insertion_sort`: its `for` loop from the iterator `i`
on. -/
def unguarded_insertion_sort {α : Type} (comp : α → α → Bool) (last : Nat) :
    Nat → List α → Nat → Option (List α)
  | 0, _, _ => none
  | fuel + 1, v, i =>
    if i = last then some v
    else
      match unguarded_linear_insert comp v i with
      | none => none
      | some v1 => unguarded_insertion_sort comp last fuel v1 (i + 1)

/-- The function `std::__final_insertion_sort`. -/
def final_insertion_sort {α : Type} (comp : α → α → Bool) (v : List α)
    (first last : Nat) : Option (List α) :=
  if last - first > S_threshold then
    match insertion_sort comp v first (first + S_threshold) with
    | none => none
    | some v1 => unguarded_insertion_sort comp last (v.length + 1) v1 (first + S_threshold)
  else insertion_sort comp v first last

/-- The function `std::sort(first, last, comp)` of libstdc++ (`std::__sort` of
`bits/stl_algo.h`) on a whole sequence: an introsort, that is a quicksort on ranges of more
than 16 elements followed by one insertion sort. `none` stands for what the model leaves
out: the heap sort at an exhausted depth limit, an access outside the sequence, and
exhausted fuel. -/
def sort {α : Type} (comp : α → α → Bool) (v : List α) : Option (List α) :=
  if v.length = 0 then some v
  else
    match introsort_loop comp (lg v.length * 2) v 0 v.length with
    | none => none
    | some v1 => final_insertion_sort comp v1 0 v.length

end Libstdcxx

/-! ## `spgInit.cpp`: accessors and counting -/

namespace SpgInit

/-- The accessor `getWyckLet` of `spgInit.h`. -/
def getWyckLet (pos : wyckPos) : Char := pos.letter

/-- The accessor `getMultiplicity` of `spgInit.h`. -/
def getMultiplicity (pos : wyckPos) : Nat := pos.multiplicity

/-- The accessor `getWyckCoords` of `spgInit.h`. -/
def getWyckCoords (pos : wyckPos) : String := pos.coords

/-- The lookup `getWyckoffPositions` of `spgInit.cpp`: out of range gives entry `0`. -/
def getWyckoffPositions (db : WyckoffDatabase) (spg : Nat) : wyckoffPositions :=
  if spg < 1 || spg > 230 then db 0 else db spg

/-- The first loop of `getNumOfEachType`: one pair per atomic number not counted before, in
order of first occurrence; the `size_t` count is narrowed to the `uint` of the pair. -/
def countEachType (atoms : List Nat) :
    List Nat → List Nat → List numAndType → List numAndType
  | [], _, numOfEachType => numOfEachType
  | a :: rest, atomsAlreadyCounted, numOfEachType =>
    if a ∈ atomsAlreadyCounted then countEachType atoms rest atomsAlreadyCounted numOfEachType
    else
      countEachType atoms rest (atomsAlreadyCounted ++ [a])
        (numOfEachType ++ [((atoms.count a) % UINT_MOD, a)])

/-- A stable sort in descending order of count, for the call `sort(begin, end, greaterThan)`
inside `getNumOfEachType`. It is one of the behaviours that `SortContract` admits of
`std::sort`, and not the only one: it keeps pairs of equal count in their order, which
`std::sort` need not do (see `Libstdcxx.sort`). -/
def sortGreaterThan (l : List numAndType) : List numAndType :=
  l.insertionSort (fun a b => ¬ greaterThan b a = true)

/-- The function `getNumOfEachType` of `spgInit.cpp`, with `sortGreaterThan` for the call of
`std::sort`: the instance with which the callers of the function are studied, which use of the
order of the pairs only that the counts descend. -/
def getNumOfEachType (atoms : List Nat) : List numAndType :=
  sortGreaterThan (countEachType atoms atoms [] [])

/-- What the C++ standard promises of the call `sort(begin, end, greaterThan)`: it returns,
and the elements are permuted so that none goes before an element in front of it. The order
of the elements that `greaterThan` does not separate is left open. -/
def SortContract (sort : List numAndType → Option (List numAndType)) : Prop :=
  ∀ l, ∃ r, sort l = some r ∧ r.Perm l ∧ r.Pairwise (fun a b => ¬ greaterThan b a = true)

/-- The function `getNumOfEachType` of `spgInit.cpp` over a behaviour `sort` of the call
`sort(begin, end, greaterThan)`; `none` is a call of `sort` without a result. -/
def getNumOfEachTypeWith (sort : List numAndType → Option (List numAndType))
    (atoms : List Nat) : Option (List numAndType) :=
  sort (countEachType atoms atoms [] [])

/-- The function `containsUniquePosition` of `spgInit.cpp`: no component of the coordinate
string has an `x`, `y` or `z`. The `assert` on three components is a precondition on the table
and is not part of the value. -/
def containsUniquePosition (pos : wyckPos) : Bool :=
  (split (getWyckCoords pos) ',').all isNumber

/-- The exceptions of the C++ standard library that the evaluator can raise: `at` past the end
of a string throws `std::out_of_range`. -/
inductive CppException where
  | outOfRange
  deriving DecidableEq, Repr

/-- The value of a string of decimal digits, most significant first. -/
def digitsValue (ds : List Char) : Nat :=
  ds.foldl (fun acc c => 10 * acc + (c.toNat - '0'.toNat)) 0

/-- Rounding of a rational to the nearest integer, a tie going to the even one. -/
def roundHalfEven (q : ℚ) : Int :=
  if q - ⌊q⌋ < 1 / 2 then ⌊q⌋
  else if 1 / 2 < q - ⌊q⌋ then ⌊q⌋ + 1
  else if ⌊q⌋ % 2 = 0 then ⌊q⌋
  else ⌊q⌋ + 1

/-- The multiple of `2 ^ (e - 23)` nearest to `q`, a tie going to the even multiple: `q` with 24
significant bits when `e` is its binary exponent. -/
def roundAt (q : ℚ) (e : Int) : ℚ :=
  (roundHalfEven (q / 2 ^ (e - 23)) : ℚ) * 2 ^ (e - 23)

/-- The conversion of a decimal value `q ≥ 0` to `float` (IEEE 754 binary32: 24 significant
bits, binary exponents from -126 to 127, rounding to nearest with ties to even), as `strtof`
of glibc carries it out under `std::stof` of libstdc++. `none` is the range error `ERANGE` on
which `std::stof` throws `std::out_of_range`: the value rounded to 24 bits reaches `2 ^ 128`
(overflow), or it lies below the least normal number `2 ^ -126` and the result, rounded to a
multiple of `2 ^ -149`, is not exact (underflow). -/
def floatRound (q : ℚ) : Option ℚ :=
  if q = 0 then some 0
  else if 2 ^ 128 ≤ roundAt q (Int.log 2 q) then none
  else if roundAt q (Int.log 2 q) < 2 ^ (-126 : Int) ∧
      roundAt q (max (Int.log 2 q) (-126)) ≠ q then none
  else some (roundAt q (max (Int.log 2 q) (-126)))

/-- The library function `std::stof` on the strings `getNumberInFirstTerm` passes to it, which
start with the run of digits and dots it measured: the longest prefix `digits [. digits]` is
read and its value is converted to `float` by `floatRound`, so that a decimal like `0.1` is
read rounded. `none` is an exception: `std::invalid_argument` when the prefix has no digit and
nothing is converted, `std::out_of_range` when the value is out of the range of `float`. The
caller catches both alike. -/
def stof (s : List Char) : Option ℚ :=
  let intDigits := s.takeWhile isDigit
  let fracDigits :=
    match s.dropWhile isDigit with
    | '.' :: r => r.takeWhile isDigit
    | _ => []
  if intDigits.isEmpty && fracDigits.isEmpty then none
  else floatRound
    ((digitsValue intDigits : ℚ) + (digitsValue fracDigits : ℚ) / 10 ^ fracDigits.length)

/-- The function `getNumberInFirstTerm` of `spgInit.cpp` on the characters of `s`.
`Except.ok none` is the return value `false`; `Except.ok (some (result, len))` is `true` with
the two output parameters; `Except.error` is an exception of `s.at(i)`. -/
def getNumberInFirstTerm (s : List Char) : Except CppException (Option (ℚ × Nat)) :=
  if s.length = 0 then .ok none
  else
    let isNeg := decide (s.head? = some '-')
    let i := if isNeg then 1 else 0
    let len := if isNeg then 1 else 0
    match s[i]? with
    | none => .error .outOfRange
    | some c =>
      if c = 'x' || c = 'y' || c = 'z' then .ok (some ((if isNeg then -1 else 1), len))
      else
        let len := len + ((s.drop i).takeWhile (fun d => isDigit d || d = '.')).length
        if len = 0 then .ok none
        else
          match stof ((s.drop i).take len) with
          | none => .ok none
          | some ret => .ok (some ((if isNeg then -1 * ret else ret), len))

/-- The `while` loop of `interpretComponent`, on the characters from index `i` on. The fuel
bounds the number of iterations; `none` is "fuel exhausted". -/
def interpretLoop : Nat → List Char → ℚ → ℚ → ℚ → ℚ → Option (Except CppException ℚ)
  | 0, _, _, _, _, _ => none
  | fuel + 1, rest, result, x, y, z =>
    match rest with
    | [] => some (.ok result)
    | c :: cs =>
      let rest1 := if c = '+' then cs else rest
      match getNumberInFirstTerm rest1 with
      | .error e => some (.error e)
      | .ok none => some (.ok 0)
      | .ok (some (numInFront, len)) =>
        match rest1.drop len with
        | [] => some (.ok (result + numInFront))
        | v :: r =>
          if v = 'x' then interpretLoop fuel r (result + numInFront * x) x y z
          else if v = 'y' then interpretLoop fuel r (result + numInFront * y) x y z
          else if v = 'z' then interpretLoop fuel r (result + numInFront * z) x y z
          else interpretLoop fuel (v :: r) (result + numInFront) x y z

/-- The function `interpretComponent` of `spgInit.cpp`. Every iteration of the loop consumes a
character, so `component.length + 1` iterations are never exceeded. -/
def interpretComponent (component : String) (x y z : ℚ) : Option (Except CppException ℚ) :=
  if component.length = 0 then some (.ok (-1))
  else interpretLoop (component.length + 1) component.data 0 x y z

/-- The static function `spgMultsAreAllEven` of `spgInit.cpp`. -/
def spgMultsAreAllEven (db : WyckoffDatabase) (spg : Nat) : Bool :=
  let wyckVector := getWyckoffPositions db spg
  if wyckVector.length = 0 then false
  else wyckVector.all (fun p => !numIsOdd (getMultiplicity p))

end SpgInit

/-! ## `spgInitCombinatorics.cpp` -/

/-- Modelled from the spec: the constructor of `WyckPosTrackingInfo` (absent header): a fresh
entry has `num_used = 0`, `keep_using = true`, and the uniqueness and multiplicity its group
shares. -/
def WyckPosTrackingInfo.init (pos : similarWyckPositions) : WyckPosTrackingInfo :=
  match pos with
  | [] => ⟨pos, 0, true, false, 0⟩
  | p :: _ => ⟨pos, 0, true, SpgInit.containsUniquePosition p, SpgInit.getMultiplicity p⟩

/-- Modelled from the spec: the member `getNumPositions` of `WyckPosTrackingInfo`. -/
def WyckPosTrackingInfo.getNumPositions (info : WyckPosTrackingInfo) : Nat :=
  info.positions.length

/-- Modelled from the spec: the member `getPositions` of `WyckPosTrackingInfo`. -/
def WyckPosTrackingInfo.getPositions (info : WyckPosTrackingInfo) : similarWyckPositions :=
  info.positions

/-- The template `vecContains` of `spgInitCombinatorics.cpp`. -/
def vecContains {T : Type} [DecidableEq T] (vec : List T) (element : T) : Bool :=
  vec.any (fun e => decide (e = element))

/-- The function `getNumAtomsUsed`: the `size_t` sum is returned as `uint`. -/
def getNumAtomsUsed (tracker : usageTracker) : Nat :=
  (tracker.map (fun t => t.multiplicity * t.numTimesUsed)).sum % UINT_MOD

/-- The function `getFirstAvailableIndex`; `none` is the source's `-1`. -/
def getFirstAvailableIndex : usageTracker → Option Nat
  | [] => none
  | t :: rest =>
    if t.keepUsing then some 0
    else (getFirstAvailableIndex rest).map (fun i => i + 1)

/-- The function `getNumAtomsLeft`: an unsigned subtraction, which wraps around. -/
def getNumAtomsLeft (tracker : usageTracker) (numAtoms : Nat) : Nat :=
  (numAtoms + UINT_MOD - getNumAtomsUsed tracker) % UINT_MOD

/-- The function `positionIsUsable`. -/
def positionIsUsable (info : WyckPosTrackingInfo) (numAtomsLeft : Nat)
    (findOnlyNonUnique : Bool) : Bool :=
  let multiplicity := info.multiplicity
  if findOnlyNonUnique && info.unique then false
  else if decide (multiplicity ≤ numAtomsLeft) && info.keepUsing &&
      (!info.unique || decide (info.numTimesUsed < info.getNumPositions)) then true
  else false

/-- The function `convertToPossibility`. -/
def convertToPossibility (tempTracker : usageTracker) (atomicNum : Nat) :
    singleAtomPossibility :=
  { atomicNum := atomicNum
    assigns := tempTracker.filterMap (fun info =>
      if info.numTimesUsed = 0 then none
      else some { numToChoose := info.numTimesUsed, choosablePositions := info.getPositions }) }

/-- The function `wyckPositionsAreSimilar`. -/
def wyckPositionsAreSimilar (wyckPos1 wyckPos2 : wyckPos) : Bool :=
  if (SpgInit.containsUniquePosition wyckPos1 == SpgInit.containsUniquePosition wyckPos2) &&
      (SpgInit.getMultiplicity wyckPos1 == SpgInit.getMultiplicity wyckPos2) then true
  else false

/-- The inner loop of `groupSimilarWyckPositions` over `j > i`: the positions similar to
`pos_i` whose letter is not used yet, with the letters used afterwards. -/
def addSimilarPositions (pos_i : wyckPos) :
    List wyckPos → List Char → similarWyckPositions → similarWyckPositions × List Char
  | [], wyckPositionsUsed, tempVec => (tempVec, wyckPositionsUsed)
  | pos_j :: rest, wyckPositionsUsed, tempVec =>
    if wyckPositionsAreSimilar pos_i pos_j &&
        !vecContains wyckPositionsUsed (SpgInit.getWyckLet pos_j) then
      addSimilarPositions pos_i rest (wyckPositionsUsed ++ [SpgInit.getWyckLet pos_j])
        (tempVec ++ [pos_j])
    else addSimilarPositions pos_i rest wyckPositionsUsed tempVec

/-- The outer loop of `groupSimilarWyckPositions` over `i`. -/
def groupSimilarLoop : List wyckPos → List Char → List similarWyckPositions
  | [], _ => []
  | pos_i :: rest, wyckPositionsUsed =>
    if !vecContains wyckPositionsUsed (SpgInit.getWyckLet pos_i) then
      let r := addSimilarPositions pos_i rest
        (wyckPositionsUsed ++ [SpgInit.getWyckLet pos_i]) [pos_i]
      r.1 :: groupSimilarLoop rest r.2
    else groupSimilarLoop rest wyckPositionsUsed

/-- The function `groupSimilarWyckPositions`. -/
def groupSimilarWyckPositions (wyckVec : wyckoffPositions) : List similarWyckPositions :=
  groupSimilarLoop wyckVec []

/-- The function `createUsageTracker(const wyckoffPositions&)`. -/
def createUsageTracker (wyckVec : wyckoffPositions) : usageTracker :=
  (groupSimilarWyckPositions wyckVec).map WyckPosTrackingInfo.init

/-- The function `similarWyckPosAndNumToChooseIsUnique`. -/
def similarWyckPosAndNumToChooseIsUnique (s : similarWyckPosAndNumToChoose) : Bool :=
  match s.choosablePositions with
  | [] => false
  | p :: _ => SpgInit.containsUniquePosition p

/-- The function `moreUniquePositionsUsedThanAvailable`; `numAvailable` is a `uint`. -/
def moreUniquePositionsUsedThanAvailable (poss : singleAtomPossibility) : Bool :=
  poss.assigns.any (fun a =>
    similarWyckPosAndNumToChooseIsUnique a &&
      decide (a.numToChoose > a.choosablePositions.length % UINT_MOD))

/-- The function `numTimesAPositionIsUsed`, accumulating in `uint`. -/
def numTimesAPositionIsUsed (sPoss : singleAtomPossibility) (simPos : similarWyckPositions) :
    Nat :=
  sPoss.assigns.foldl (fun numTimesUsed a =>
    if a.choosablePositions = simPos then (numTimesUsed + a.numToChoose) % UINT_MOD
    else numTimesUsed) 0

/-- The innermost loop of `tooManyOfAUniquePositionUsed` over `k > i`, accumulating in
`uint`. -/
def numTimesUsedWithLater (simPos : similarWyckPosAndNumToChoose)
    (later : List singleAtomPossibility) : Nat :=
  later.foldl (fun numTimesUsed p =>
    (numTimesUsed + numTimesAPositionIsUsed p simPos.choosablePositions) % UINT_MOD)
    simPos.numToChoose

/-- The function `tooManyOfAUniquePositionUsed`. -/
def tooManyOfAUniquePositionUsed : systemPossibility → Bool
  | [] => false
  | p :: later =>
    moreUniquePositionsUsedThanAvailable p ||
    p.assigns.any (fun simPos =>
      similarWyckPosAndNumToChooseIsUnique simPos &&
        decide (numTimesUsedWithLater simPos later > simPos.choosablePositions.length)) ||
    tooManyOfAUniquePositionUsed later

/-- The function `joinSingleWithSystem`. -/
def joinSingleWithSystem (saPoss : singleAtomPossibilities) (sysPoss : systemPossibilities) :
    systemPossibilities :=
  if sysPoss.length = 0 then saPoss.map (fun p => [p])
  else
    sysPoss.flatMap (fun s =>
      saPoss.filterMap (fun p =>
        let tempSysPoss := s ++ [p]
        if !tooManyOfAUniquePositionUsed tempSysPoss then some tempSysPoss else none))

/-- The function `findAllCombinations`. The result is `none` when the fuel is exhausted (or if
`tracker.at` were out of range, which the index found excludes), `Except.error p` when the
possibility `p` is thrown, `Except.ok appendVec` on return. -/
def findAllCombinations : Nat → singleAtomPossibilities → usageTracker → Nat →
    combinationSettings → Option (Except singleAtomPossibility singleAtomPossibilities)
  | 0, _, _, _, _ => none
  | fuel + 1, appendVec, tracker, atomicNum, sets =>
    if sets.numAtoms = 0 then some (.ok appendVec)
    else
      let numAtomsLeft := getNumAtomsLeft tracker sets.numAtoms
      match getFirstAvailableIndex tracker with
      | none => some (.ok appendVec)
      | some firstAvailableIndex =>
        match tracker[firstAvailableIndex]? with
        | none => none
        | some info =>
          let afterUse : Option (Except singleAtomPossibility singleAtomPossibilities) :=
            if positionIsUsable info numAtomsLeft sets.findOnlyNonUnique then
              let tempTracker := tracker.set firstAvailableIndex
                { info with numTimesUsed := (info.numTimesUsed + 1) % UINT_MOD }
              if getNumAtomsLeft tempTracker sets.numAtoms = 0 then
                if sets.findOnlyOne then
                  some (.error (convertToPossibility tempTracker atomicNum))
                else some (.ok (appendVec ++ [convertToPossibility tempTracker atomicNum]))
              else findAllCombinations fuel appendVec tempTracker atomicNum sets
            else some (.ok appendVec)
          match afterUse with
          | none => none
          | some (.error p) => some (.error p)
          | some (.ok appendVec1) =>
            findAllCombinations fuel appendVec1
              (tracker.set firstAvailableIndex { info with keepUsing := false }) atomicNum sets

/-- The function `findOnlyOneCombinationIfPossible`; the `catch` turns a thrown possibility
into the whole result. -/
def findOnlyOneCombinationIfPossible (fuel : Nat) (appendVec : singleAtomPossibilities)
    (tracker : usageTracker) (atomicNum : Nat) (sets : combinationSettings)
    (finalAtom : Bool) : Option singleAtomPossibilities :=
  let tempSets : combinationSettings :=
    { sets with findOnlyOne := true, findOnlyNonUnique := true }
  let tempSets : combinationSettings :=
    if sets.findOnlyNonUnique then tempSets
    else if finalAtom then { tempSets with findOnlyNonUnique := false }
    else tempSets
  match findAllCombinations fuel appendVec tracker atomicNum tempSets with
  | none => none
  | some (.error pos) => some [pos]
  | some (.ok appendVec1) =>
    if appendVec1.length = 0 then
      let tempSets2 : combinationSettings :=
        { tempSets with findOnlyOne := false, findOnlyNonUnique := sets.findOnlyNonUnique }
      match findAllCombinations fuel appendVec1 tracker atomicNum tempSets2 with
      | none => none
      | some (.error pos) => some [pos]
      | some (.ok appendVec2) => some appendVec2
    else some appendVec1

namespace SpgInitCombinatorics

/-- The loop of `getSystemPossibilities` over the species still to be placed. A possibility
thrown by `findAllCombinations` outside the `try` would leave the function; it is reported as
`none` (it cannot arise, the call having `findOnlyOne = false`). -/
def systemPossibilitiesLoop (fuel : Nat) (wyckVec : wyckoffPositions)
    (findOnlyOne findOnlyNonUnique : Bool) :
    List numAndType → systemPossibilities → Option systemPossibilities
  | [], sysPossibilities => some sysPossibilities
  | nt :: rest, sysPossibilities =>
    let atomicNum := nt.2
    let tracker := createUsageTracker wyckVec
    let numAtoms := nt.1
    let sets : combinationSettings := ⟨numAtoms, findOnlyOne, findOnlyNonUnique⟩
    let last := rest.isEmpty
    let found : Option singleAtomPossibilities :=
      if findOnlyOne then findOnlyOneCombinationIfPossible fuel [] tracker atomicNum sets last
      else
        match findAllCombinations fuel [] tracker atomicNum sets with
        | some (.ok v) => some v
        | _ => none
    match found with
    | none => none
    | some saPossibilities =>
      if saPossibilities.length = 0 then some []
      else
        systemPossibilitiesLoop fuel wyckVec findOnlyOne findOnlyNonUnique rest
          (joinSingleWithSystem saPossibilities sysPossibilities)

/-- The function `getSystemPossibilities`. -/
def getSystemPossibilities (fuel : Nat) (db : WyckoffDatabase) (spg : Nat) (atoms : List Nat)
    (findOnlyOne findOnlyNonUnique : Bool) : Option systemPossibilities :=
  systemPossibilitiesLoop fuel (SpgInit.getWyckoffPositions db spg) findOnlyOne
    findOnlyNonUnique (SpgInit.getNumOfEachType atoms) []

end SpgInitCombinatorics

namespace SpgInit

/-- The function `isSpgPossible` of `spgInit.cpp`. -/
def isSpgPossible (fuel : Nat) (db : WyckoffDatabase) (spg : Nat) (atoms : List Nat) :
    Option Bool :=
  if spg < 1 || spg > 230 then some false
  else
    let numOfEachType := getNumOfEachType atoms
    let containsOdd := numOfEachType.any (fun p => numIsOdd p.1)
    if containsOdd && spgMultsAreAllEven db spg then some false
    else
      match SpgInitCombinatorics.getSystemPossibilities fuel db spg atoms true false with
      | none => none
      | some possibilities => if possibilities.length = 0 then some false else some true

end SpgInit

/-! ## Specification-level notions -/

/-- The sum of `multiplicity * numTimesUsed` over a tracker, without narrowing. -/
def usedSum (tracker : usageTracker) : Nat :=
  (tracker.map (fun t => t.multiplicity * t.numTimesUsed)).sum

/-- The multiplicity shared by the positions of a similar-WP group (that of its first). -/
def groupMultiplicity (g : similarWyckPositions) : Nat :=
  match g with
  | [] => 0
  | p :: _ => SpgInit.getMultiplicity p

/-- The uniqueness shared by the positions of a similar-WP group (that of its first). -/
def groupIsUnique (g : similarWyckPositions) : Bool :=
  match g with
  | [] => false
  | p :: _ => SpgInit.containsUniquePosition p

/-- The total `numToChoose` of the picks of group `g` in a single-atom possibility. -/
def usesOfGroup (p : singleAtomPossibility) (g : similarWyckPositions) : Nat :=
  ((p.assigns.filter (fun a => decide (a.choosablePositions = g))).map
    (fun a => a.numToChoose)).sum

/-- The number of atoms a single-atom possibility places: the sum over its picks of
`multiplicity * numToChoose`. -/
def atomsPlaced (p : singleAtomPossibility) : Nat :=
  (p.assigns.map (fun a => groupMultiplicity a.choosablePositions * a.numToChoose)).sum

/-- The tracker after the first available entry `info` at index `i` is used once more. -/
def useEntry (T : usageTracker) (i : Nat) (info : WyckPosTrackingInfo) : usageTracker :=
  T.set i { info with numTimesUsed := (info.numTimesUsed + 1) % UINT_MOD }

/-- The tracker after the first available entry `info` at index `i` is given up. -/
def skipEntry (T : usageTracker) (i : Nat) (info : WyckPosTrackingInfo) : usageTracker :=
  T.set i { info with keepUsing := false }

/-- A possibility that `findAllCombinations` emits from a tracker satisfying `P`: the
conversion of a tracker with no atoms left. -/
def Emitted (P : usageTracker → Prop) (z : Nat) (sets : combinationSettings)
    (p : singleAtomPossibility) : Prop :=
  ∃ T, P T ∧ getNumAtomsLeft T sets.numAtoms = 0 ∧ p = convertToPossibility T z

/-- The invariant of the trackers `findAllCombinations` visits from a fresh tracker over the
groups `groups`, for `N` atoms: the groups stay in place, every entry carries the multiplicity
and uniqueness of its group, a unique entry is used at most once per letter, and no more
than `N` atoms are used. -/
def TrackerInv (groups : List similarWyckPositions) (N : Nat) (T : usageTracker) : Prop :=
  T.map (fun t => t.positions) = groups ∧
  (∀ t ∈ T, t.multiplicity = groupMultiplicity t.positions ∧
    t.unique = groupIsUnique t.positions ∧ t.numTimesUsed < UINT_MOD ∧
    (t.unique = true → t.numTimesUsed ≤ t.positions.length)) ∧
  usedSum T ≤ N

/-- The shape of the possibilities the solver emits over the groups `groups`: the picks are
taken from the groups in order, each group at most once, and a unique group is picked at most
once per letter. -/
def NiceSap (groups : List similarWyckPositions) (p : singleAtomPossibility) : Prop :=
  List.Sublist (p.assigns.map (fun a => a.choosablePositions)) groups ∧
  ∀ a ∈ p.assigns, a.numToChoose < UINT_MOD ∧
    (groupIsUnique a.choosablePositions = true → a.numToChoose ≤ a.choosablePositions.length)

/-- What the solver guarantees of a possibility for `N` atoms of atomic number `z` over the
groups `groups`. -/
def SolverSap (groups : List similarWyckPositions) (z N : Nat) (p : singleAtomPossibility) :
    Prop :=
  p.atomicNum = z ∧ atomsPlaced p = N ∧ NiceSap groups p

/-- The total `numToChoose` of the picks of group `g` over a whole system possibility. -/
def totalUsesOfGroup (S : systemPossibility) (g : similarWyckPositions) : Nat :=
  (S.map (fun p => usesOfGroup p g)).sum

/-- The picks of a single-atom possibility name pairwise different groups. -/
def DistinctPicks (p : singleAtomPossibility) : Prop :=
  (p.assigns.map (fun a => a.choosablePositions)).Nodup

/-- The first half of the body of `findAllCombinations`: what using the first available entry
once more yields. -/
def useBranch (fuel : Nat) (acc : singleAtomPossibilities) (T : usageTracker) (i : Nat)
    (info : WyckPosTrackingInfo) (z : Nat) (sets : combinationSettings) :
    Option (Except singleAtomPossibility singleAtomPossibilities) :=
  if positionIsUsable info (getNumAtomsLeft T sets.numAtoms) sets.findOnlyNonUnique then
    if getNumAtomsLeft (useEntry T i info) sets.numAtoms = 0 then
      if sets.findOnlyOne then some (.error (convertToPossibility (useEntry T i info) z))
      else some (.ok (acc ++ [convertToPossibility (useEntry T i info) z]))
    else findAllCombinations fuel acc (useEntry T i info) z sets
  else some (.ok acc)

/-- The number of entries of a tracker that are still in use. -/
def keepCount (T : usageTracker) : Nat :=
  (T.map (fun t => if t.keepUsing then 1 else 0)).sum

/-- The atoms a tracker would use if every entry were used `f` times. -/
def targetSum (T : usageTracker) (f : similarWyckPositions → Nat) : Nat :=
  (T.map (fun t => t.multiplicity * f t.positions)).sum

/-- A distribution of the species over the similar-WP groups of a table: `n z g` is how often
species `z` uses group `g`. It is valid when every species is consumed exactly and no unique
group is used more often, over all species, than it has letters. -/
def ValidDistribution (wyckVec : wyckoffPositions) (atoms : List Nat)
    (n : Nat → similarWyckPositions → Nat) : Prop :=
  (∀ z ∈ atoms, ((groupSimilarWyckPositions wyckVec).map
      (fun g => groupMultiplicity g * n z g)).sum = atoms.count z) ∧
  (∀ g ∈ groupSimilarWyckPositions wyckVec, groupIsUnique g = true →
      (atoms.dedup.map (fun z => n z g)).sum ≤ g.length)

/-- The single-atom possibility that encodes the uses of species `z`: one pick per group that
is used, in the order of the groups. -/
def encodeSingle (groups : List similarWyckPositions) (z : Nat)
    (n : Nat → similarWyckPositions → Nat) : singleAtomPossibility :=
  { atomicNum := z
    assigns := groups.filterMap (fun g =>
      if n z g = 0 then none else some { numToChoose := n z g, choosablePositions := g }) }

/-- The system possibility that encodes a distribution: the species in the given order. -/
def encodeSpecies (groups : List similarWyckPositions) (n : Nat → similarWyckPositions → Nat)
    (species : List numAndType) : systemPossibility :=
  species.map (fun nt => encodeSingle groups nt.2 n)

/-- The system possibility that encodes a distribution for a table and an atom list: the
species in the order of `getNumOfEachType`. -/
def encodeDistribution (wyckVec : wyckoffPositions) (atoms : List Nat)
    (n : Nat → similarWyckPositions → Nat) : systemPossibility :=
  encodeSpecies (groupSimilarWyckPositions wyckVec) n (SpgInit.getNumOfEachType atoms)

/-- The invariant of the completeness proof of the solver: the tracker can still reach the
use counts `f`, which place exactly `N` atoms. -/
def CompInv (groups : List similarWyckPositions) (N : Nat) (f : similarWyckPositions → Nat)
    (T : usageTracker) : Prop :=
  T.map (fun t => t.positions) = groups ∧
  (∀ t ∈ T, 1 ≤ t.multiplicity ∧ t.numTimesUsed ≤ f t.positions ∧
    (t.keepUsing = false → t.numTimesUsed = f t.positions) ∧
    (t.unique = true → f t.positions ≤ t.positions.length)) ∧
  targetSum T f = N ∧ N < UINT_MOD

/-! ## The grammar of a component -/

/-- One term of a component: an optional minus sign, a decimal numeral (digits, then
optionally a dot and digits; empty for a bare variable) and an optional variable. -/
structure ComponentTerm where
  negative : Bool
  intDigits : List Char
  fracDigits : Option (List Char)
  var : Option Char
  deriving DecidableEq, Repr

/-- The characters of the numeral of a term. -/
def ComponentTerm.numberChars (t : ComponentTerm) : List Char :=
  t.intDigits ++ (match t.fracDigits with
    | none => []
    | some f => '.' :: f)

/-- The characters of the variable of a term. -/
def ComponentTerm.varChars (t : ComponentTerm) : List Char :=
  match t.var with
  | none => []
  | some v => [v]

/-- A term of the grammar: its numeral is made of decimal digits and has at least one, unless
the term is a bare variable; its variable is `x`, `y` or `z`. -/
def ComponentTerm.WellFormed (t : ComponentTerm) : Prop :=
  (∀ c ∈ t.intDigits, isDigit c = true) ∧
  (∀ c ∈ t.fracDigits.getD [], isDigit c = true) ∧
  (t.numberChars = [] → t.var ≠ none) ∧
  (t.numberChars ≠ [] → t.intDigits ≠ [] ∨ t.fracDigits.getD [] ≠ []) ∧
  (t.var = none ∨ t.var = some 'x' ∨ t.var = some 'y' ∨ t.var = some 'z')

instance (t : ComponentTerm) : Decidable t.WellFormed := by
  unfold ComponentTerm.WellFormed
  infer_instance

/-- The value of the numeral of a term, exactly as the decimal denotes it: 1 for a bare
variable. -/
def ComponentTerm.magnitude (t : ComponentTerm) : ℚ :=
  if t.numberChars = [] then 1
  else (SpgInit.digitsValue t.intDigits : ℚ) +
    (SpgInit.digitsValue (t.fracDigits.getD []) : ℚ) / 10 ^ (t.fracDigits.getD []).length

/-- The value of the variable of a term, or 1 if it has none. -/
def ComponentTerm.variableValue (t : ComponentTerm) (x y z : ℚ) : ℚ :=
  if t.var = some 'x' then x
  else if t.var = some 'y' then y
  else if t.var = some 'z' then z
  else 1

/-- The characters of a term: sign, numeral, variable. -/
def renderTerm (t : ComponentTerm) : List Char :=
  (if t.negative then ['-'] else []) ++ t.numberChars ++ t.varChars

/-- The characters of a sequence of terms: a term with a minus sign brings it along, another
one is preceded by `+` (the first one only if `plus` is set). -/
def renderFrom (plus : Bool) : List ComponentTerm → List Char
  | [] => []
  | t :: ts =>
    (if t.negative then [] else if plus then ['+'] else []) ++ renderTerm t ++ renderFrom true ts

/-- The magnitude of a term as the evaluator reads it: what `std::stof` makes of the numeral,
1 for a bare variable; `none` when `std::stof` throws on the numeral. -/
def ComponentTerm.readMagnitude (t : ComponentTerm) : Option ℚ :=
  if t.numberChars = [] then some 1 else SpgInit.stof t.numberChars

/-- The signed coefficient of a term as the evaluator reads it. -/
def ComponentTerm.readCoefficient (t : ComponentTerm) : Option ℚ :=
  t.readMagnitude.map (fun m => if t.negative then -m else m)

/-- The sum the terms denote with the coefficients as they are read, accumulated from left to
right onto `acc`; `none` when the numeral of some term cannot be read. -/
def termsValueRead (x y z : ℚ) : List ComponentTerm → ℚ → Option ℚ
  | [], acc => some acc
  | t :: ts, acc =>
    match t.readCoefficient with
    | none => none
    | some c => termsValueRead x y z ts (acc + c * t.variableValue x y z)

/-! ## Small tables and inputs for concrete runs -/

/-- A table with one unique position of multiplicity 1 and a general position of
multiplicity 2. -/
def tableUniqueGeneral : wyckoffPositions :=
  [⟨'a', 1, "0,0,0"⟩, ⟨'b', 2, "x,y,z"⟩]

/-- A database that installs `tableUniqueGeneral` for space group 1. -/
def databaseUniqueGeneral : WyckoffDatabase :=
  fun spg => if spg = 1 then tableUniqueGeneral else []

/-- A table with unique positions of multiplicity 1 and 2 and a general position of
multiplicity 3. -/
def tableThreeGroups : wyckoffPositions :=
  [⟨'a', 1, "0,0,0"⟩, ⟨'b', 2, "0,0,0.5"⟩, ⟨'c', 3, "x,y,z"⟩]

/-- A database that installs `tableThreeGroups` for space group 1. -/
def databaseThreeGroups : WyckoffDatabase :=
  fun spg => if spg = 1 then tableThreeGroups else []

/-- A valid distribution of four atoms of species 1 and three of species 2 over
`tableThreeGroups`: species 1 on `a` and `c`, species 2 on `c`. -/
def distributionThreeGroups : Nat → similarWyckPositions → Nat :=
  fun z g =>
    if z = 1 then (if g = [⟨'a', 1, "0,0,0"⟩] ∨ g = [⟨'c', 3, "x,y,z"⟩] then 1 else 0)
    else if z = 2 then (if g = [⟨'c', 3, "x,y,z"⟩] then 1 else 0)
    else 0

/-- A table whose only position is general, of multiplicity 2. -/
def tableEvenGeneral : wyckoffPositions :=
  [⟨'a', 2, "x,y,z"⟩]

/-- A database that installs `tableEvenGeneral` for space group 2. -/
def databaseEvenGeneral : WyckoffDatabase :=
  fun spg => if spg = 2 then tableEvenGeneral else []

/-- Seventeen atoms, one of each of the species 1 to 17. -/
def atomsSeventeen : List Nat :=
  [1, 2, 3, 4, 5, 6, 7, 8, 9, 10, 11, 12, 13, 14, 15, 16, 17]

/-- Modelled from the spec: the struct `latticeStruct` of the absent header `crystal.h`: the
three lengths and the three angles in degrees, as exact rationals. -/
structure latticeStruct where
  a : ℚ
  b : ℚ
  c : ℚ
  alpha : ℚ
  beta : ℚ
  gamma : ℚ
  deriving DecidableEq

/-- Modelled from the spec: the default constructor of `latticeStruct` (absent header), which
`generateLatticeForSpg` relies on: "latticeStruct is initialized to have all 0 values". -/
def latticeStruct.zero : latticeStruct :=
  { a := 0, b := 0, c := 0, alpha := 0, beta := 0, gamma := 0 }

/-- The template `getSmallest` of `spgInit.cpp`. -/
def getSmallest (a b c : ℚ) : ℚ :=
  if a ≤ b ∧ a ≤ c then a
  else if b ≤ a ∧ b ≤ c then b
  else c

/-- The template `getLargest` of `spgInit.cpp`. -/
def getLargest (a b c : ℚ) : ℚ :=
  if a ≥ b ∧ a ≥ c then a
  else if b ≥ a ∧ b ≥ c then b
  else c

namespace SpgInit

/-- The function `generateLatticeForSpg` of `spgInit.cpp`. The random number generator of the
absent header `rng.h` is the oracle `getRandDouble`: its first argument is the number of the
call inside this function, the other two are the bounds passed. -/
def generateLatticeForSpg (getRandDouble : Nat → ℚ → ℚ → ℚ) (spg : Nat)
    (mins maxes : latticeStruct) : latticeStruct :=
  let st := latticeStruct.zero
  if spg < 1 ∨ spg > 230 then st
  else if spg = 1 ∨ spg = 2 then
    { a := getRandDouble 0 mins.a maxes.a
      b := getRandDouble 1 mins.b maxes.b
      c := getRandDouble 2 mins.c maxes.c
      alpha := getRandDouble 3 mins.alpha maxes.alpha
      beta := getRandDouble 4 mins.beta maxes.beta
      gamma := getRandDouble 5 mins.gamma maxes.gamma }
  else if 3 ≤ spg ∧ spg ≤ 15 then
    if mins.alpha > 90 ∨ maxes.alpha < 90 ∨ mins.gamma > 90 ∨ maxes.gamma < 90 then st
    else
      { a := getRandDouble 0 mins.a maxes.a
        b := getRandDouble 1 mins.b maxes.b
        c := getRandDouble 2 mins.c maxes.c
        alpha := 90
        gamma := 90
        beta := getRandDouble 3 mins.beta maxes.beta }
  else if 16 ≤ spg ∧ spg ≤ 74 then
    if mins.alpha > 90 ∨ maxes.alpha < 90 ∨ mins.beta > 90 ∨ maxes.beta < 90 ∨
        mins.gamma > 90 ∨ maxes.gamma < 90 then st
    else
      { a := getRandDouble 0 mins.a maxes.a
        b := getRandDouble 1 mins.b maxes.b
        c := getRandDouble 2 mins.c maxes.c
        alpha := 90
        beta := 90
        gamma := 90 }
  else if 75 ≤ spg ∧ spg ≤ 142 then
    if mins.alpha > 90 ∨ maxes.alpha < 90 ∨ mins.beta > 90 ∨ maxes.beta < 90 ∨
        mins.gamma > 90 ∨ maxes.gamma < 90 then st
    else
      let largerMin := if mins.a > mins.b then mins.a else mins.b
      let smallerMax := if maxes.a < maxes.b then maxes.a else maxes.b
      if largerMin > smallerMax then st
      else
        { a := getRandDouble 0 largerMin smallerMax
          b := getRandDouble 0 largerMin smallerMax
          c := getRandDouble 1 mins.c maxes.c
          alpha := 90
          beta := 90
          gamma := 90 }
  else if 143 ≤ spg ∧ spg ≤ 167 then
    if mins.alpha > 90 ∨ maxes.alpha < 90 ∨ mins.beta > 90 ∨ maxes.beta < 90 then st
    else if mins.gamma > 120 ∨ maxes.gamma < 120 then st
    else
      let largerMin := if mins.a > mins.b then mins.a else mins.b
      let smallerMax := if maxes.a < maxes.b then maxes.a else maxes.b
      if largerMin > smallerMax then st
      else
        { a := getRandDouble 0 largerMin smallerMax
          b := getRandDouble 0 largerMin smallerMax
          c := getRandDouble 1 mins.c maxes.c
          alpha := 90
          beta := 90
          gamma := 120 }
  else if 168 ≤ spg ∧ spg ≤ 194 then
    if mins.alpha > 90 ∨ maxes.alpha < 90 ∨ mins.beta > 90 ∨ maxes.beta < 90 then st
    else if mins.gamma > 120 ∨ maxes.gamma < 120 then st
    else
      let largerMin := if mins.a > mins.b then mins.a else mins.b
      let smallerMax := if maxes.a < maxes.b then maxes.a else maxes.b
      if largerMin > smallerMax then st
      else
        { a := getRandDouble 0 largerMin smallerMax
          b := getRandDouble 0 largerMin smallerMax
          c := getRandDouble 1 mins.c maxes.c
          alpha := 90
          beta := 90
          gamma := 120 }
  else if spg ≥ 195 then
    if mins.alpha > 90 ∨ maxes.alpha < 90 ∨ mins.beta > 90 ∨ maxes.beta < 90 ∨
        mins.gamma > 90 ∨ maxes.gamma < 90 then st
    else
      let largestMin := getLargest mins.a mins.b mins.c
      let smallestMax := getSmallest maxes.a maxes.b maxes.c
      if largestMin > smallestMax then st
      else
        { alpha := 90
          beta := 90
          gamma := 90
          a := getRandDouble 0 largestMin smallestMax
          b := getRandDouble 0 largestMin smallestMax
          c := getRandDouble 0 largestMin smallestMax }
  else st

end SpgInit

/-- The contract of the random number generator on reals: a draw between bounds in order lies
between them. -/
def RandDoubleContract (getRandDouble : Nat → ℚ → ℚ → ℚ) : Prop :=
  ∀ n lo hi, lo ≤ hi → lo ≤ getRandDouble n lo hi ∧ getRandDouble n lo hi ≤ hi

/-- The six windows of the bounds are in order. -/
def BoundsOrdered (mins maxes : latticeStruct) : Prop :=
  mins.a ≤ maxes.a ∧ mins.b ≤ maxes.b ∧ mins.c ≤ maxes.c ∧
  mins.alpha ≤ maxes.alpha ∧ mins.beta ≤ maxes.beta ∧ mins.gamma ≤ maxes.gamma

/-- The six lower bounds are positive. -/
def BoundsPositive (mins : latticeStruct) : Prop :=
  0 < mins.a ∧ 0 < mins.b ∧ 0 < mins.c ∧ 0 < mins.alpha ∧ 0 < mins.beta ∧ 0 < mins.gamma

/-- The constraints of the crystal system of `spg` on a lattice, as the specification lists
them. -/
def CrystalSystemConstraints (spg : Nat) (st : latticeStruct) : Prop :=
  (3 ≤ spg ∧ spg ≤ 15 → st.alpha = 90 ∧ st.gamma = 90) ∧
  (16 ≤ spg ∧ spg ≤ 74 → st.alpha = 90 ∧ st.beta = 90 ∧ st.gamma = 90) ∧
  (75 ≤ spg ∧ spg ≤ 142 → st.alpha = 90 ∧ st.beta = 90 ∧ st.gamma = 90 ∧ st.a = st.b) ∧
  (143 ≤ spg ∧ spg ≤ 194 → st.alpha = 90 ∧ st.beta = 90 ∧ st.gamma = 120 ∧ st.a = st.b) ∧
  (195 ≤ spg ∧ spg ≤ 230 →
    st.alpha = 90 ∧ st.beta = 90 ∧ st.gamma = 90 ∧ st.a = st.b ∧ st.b = st.c)

/-- An angle that the crystal system of `spg` forces (to 90 or 120 degrees, as the
specification lists them) lies outside its window. -/
def ForcedAngleExcluded (spg : Nat) (mins maxes : latticeStruct) : Prop :=
  (3 ≤ spg ∧ spg ≤ 230 ∧ (90 < mins.alpha ∨ maxes.alpha < 90)) ∨
  (16 ≤ spg ∧ spg ≤ 230 ∧ (90 < mins.beta ∨ maxes.beta < 90)) ∨
  (((3 ≤ spg ∧ spg ≤ 142) ∨ (195 ≤ spg ∧ spg ≤ 230)) ∧ (90 < mins.gamma ∨ maxes.gamma < 90)) ∨
  (143 ≤ spg ∧ spg ≤ 194 ∧ (120 < mins.gamma ∨ maxes.gamma < 120))

/-- The windows of the lengths that the crystal system of `spg` forces equal have an empty
intersection `[max(mins), min(maxes)]`. -/
def ForcedLengthsDisjoint (spg : Nat) (mins maxes : latticeStruct) : Prop :=
  (75 ≤ spg ∧ spg ≤ 194 ∧ min maxes.a maxes.b < max mins.a mins.b) ∨
  (195 ≤ spg ∧ spg ≤ 230 ∧
    min (min maxes.a maxes.b) maxes.c < max (max mins.a mins.b) mins.c)

/-- A generator of reals that returns the lower bound. -/
def randDoubleLow : Nat → ℚ → ℚ → ℚ := fun _ lo _ => lo

/-- Each parameter of the lattice lies in its own inclusive window. -/
def WithinBounds (mins maxes st : latticeStruct) : Prop :=
  (mins.a ≤ st.a ∧ st.a ≤ maxes.a) ∧ (mins.b ≤ st.b ∧ st.b ≤ maxes.b) ∧
  (mins.c ≤ st.c ∧ st.c ≤ maxes.c) ∧ (mins.alpha ≤ st.alpha ∧ st.alpha ≤ maxes.alpha) ∧
  (mins.beta ≤ st.beta ∧ st.beta ≤ maxes.beta) ∧ (mins.gamma ≤ st.gamma ∧ st.gamma ≤ maxes.gamma)

/-- The length that the crystal system of `spg` forces equal lies in the intersection
`[max(mins), min(maxes)]` of the windows of the lengths forced equal. -/
def ForcedLengthInIntersection (spg : Nat) (mins maxes st : latticeStruct) : Prop :=
  (75 ≤ spg ∧ spg ≤ 194 → max mins.a mins.b ≤ st.a ∧ st.a ≤ min maxes.a maxes.b) ∧
  (195 ≤ spg ∧ spg ≤ 230 →
    max (max mins.a mins.b) mins.c ≤ st.a ∧ st.a ≤ min (min maxes.a maxes.b) maxes.c)

/-- A component of a coordinate string mentions one of the variables `x`, `y`, `z`. -/
def MentionsVariable (component : String) : Prop :=
  'x' ∈ component.data ∨ 'y' ∈ component.data ∨ 'z' ∈ component.data

/-- The order of the pairs of `getNumOfEachType` that the specification describes: a larger
count first, and with equal counts the species that occurs first in `atoms` first. -/
def SpeciesBefore (atoms : List Nat) (x y : numAndType) : Prop :=
  x.1 > y.1 ∨ (x.1 = y.1 ∧ atoms.indexOf x.2 < atoms.indexOf y.2)

/-! ## Placing one atom: `addWyckoffAtomRandomly` -/

/-- Modelled from the spec: the struct `atomStruct` of the absent header `crystal.h`: an
atomic number and three fractional coordinates. -/
structure atomStruct where
  atomicNum : Nat
  x : ℚ
  y : ℚ
  z : ℚ
  deriving DecidableEq

/-- Modelled from the spec: the member functions of the class `Crystal` (absent header
`crystal.h`) that `addWyckoffAtomRandomly` calls, as oracles on a crystal state of any type;
`fillCellWithAtom` returns its verdict and the crystal it leaves. -/
structure CrystalOps (Crystal : Type) where
  addAtom : Crystal → atomStruct → Crystal
  removeAtom : Crystal → atomStruct → Crystal
  areIADsOkay : Crystal → atomStruct → Bool
  fillCellWithAtom : Crystal → Nat → atomStruct → Bool × Crystal

namespace SpgInit

/-- The head of the body of the loop of `addWyckoffAtomRandomly`, in attempt number `i`: three
draws in `[0, 1]` (calls `3 i`, `3 i + 1`, `3 i + 2` of the oracle `getRandDouble`), the three
components of the coordinate string, and their values. The result is `some (.ok none)` when
a component evaluates to the sentinel `-1` (the function then returns `false`), `none` when
the evaluation has no result (fewer than three components, which `components[k]` does not
check), and an error when the evaluator throws. -/
def newAtomOfAttempt (getRandDouble : Nat → ℚ → ℚ → ℚ) (position : wyckPos) (atomicNum : Nat)
    (i : Nat) : Option (Except CppException (Option atomStruct)) :=
  let x := getRandDouble (3 * i) 0 1
  let y := getRandDouble (3 * i + 1) 0 1
  let z := getRandDouble (3 * i + 2) 0 1
  let components := split (getWyckCoords position) ','
  match components[0]?, components[1]?, components[2]? with
  | some c0, some c1, some c2 =>
    match interpretComponent c0 x y z with
    | none => none
    | some (.error e) => some (.error e)
    | some (.ok newX) =>
      match interpretComponent c1 x y z with
      | none => none
      | some (.error e) => some (.error e)
      | some (.ok newY) =>
        match interpretComponent c2 x y z with
        | none => none
        | some (.error e) => some (.error e)
        | some (.ok newZ) =>
          if newX = -1 ∨ newY = -1 ∨ newZ = -1 then some (.ok none)
          else some (.ok (some ⟨atomicNum, newX, newY, newZ⟩))
  | _, _, _ => none

/-- The `do ... while` loop of `addWyckoffAtomRandomly`, entered with the crystal, the counter
`i` and the flag `success`. The result carries the value returned, the crystal left behind and
the final value of `i`, which is the number of attempts made; `none` when the fuel is
exhausted. -/
def addWyckoffAtomLoop {Crystal : Type} (ops : CrystalOps Crystal)
    (getRandDouble : Nat → ℚ → ℚ → ℚ) (position : wyckPos) (atomicNum spg : Nat)
    (maxAttempts : Int) :
    Nat → Crystal → Nat → Bool → Option (Except CppException (Bool × Crystal × Nat))
  | 0, _, _, _ => none
  | fuel + 1, crystal, i, success =>
    match newAtomOfAttempt getRandDouble position atomicNum i with
    | none => none
    | some (.error e) => some (.error e)
    | some (.ok none) => some (.ok (false, crystal, i))
    | some (.ok (some newAtom)) =>
      let crystal1 := ops.addAtom crystal newAtom
      let filled :=
        if ops.areIADsOkay crystal1 newAtom then ops.fillCellWithAtom crystal1 spg newAtom
        else (false, crystal1)
      let success1 := if filled.1 then true else success
      let crystal2 := if !success1 then ops.removeAtom filled.2 newAtom else filled.2
      if ((i + 1 : Nat) : Int) < maxAttempts ∧ success1 = false then
        addWyckoffAtomLoop ops getRandDouble position atomicNum spg maxAttempts fuel crystal2
          (i + 1) success1
      else some (.ok (success1, crystal2, i + 1))

/-- The function `addWyckoffAtomRandomly` of `spgInit.cpp`; see `addWyckoffAtomLoop` for the
result. -/
def addWyckoffAtomRandomly {Crystal : Type} (fuel : Nat) (ops : CrystalOps Crystal)
    (getRandDouble : Nat → ℚ → ℚ → ℚ) (crystal : Crystal) (position : wyckPos)
    (atomicNum spg : Nat) (maxAttempts : Int) :
    Option (Except CppException (Bool × Crystal × Nat)) :=
  let maxAttempts1 := if containsUniquePosition position then 1 else maxAttempts
  addWyckoffAtomLoop ops getRandDouble position atomicNum spg maxAttempts1 fuel crystal 0 false

end SpgInit

/-- The crystal before attempt number `k` of `addWyckoffAtomRandomly` when every attempt
before it failed: each failed attempt adds its atom, checks the distances, fills the cell if
they are fine, and removes its atom again. -/
def crystalBeforeAttempt {Crystal : Type} (ops : CrystalOps Crystal) (newAtoms : Nat → atomStruct)
    (spg : Nat) (crystal : Crystal) : Nat → Crystal
  | 0 => crystal
  | k + 1 =>
    let before := crystalBeforeAttempt ops newAtoms spg crystal k
    let added := ops.addAtom before (newAtoms k)
    if ops.areIADsOkay added (newAtoms k) then
      ops.removeAtom (ops.fillCellWithAtom added spg (newAtoms k)).2 (newAtoms k)
    else ops.removeAtom added (newAtoms k)

/-- Attempt number `k` passes both `areIADsOkay` and `fillCellWithAtom`. -/
def attemptPasses {Crystal : Type} (ops : CrystalOps Crystal) (newAtoms : Nat → atomStruct)
    (spg : Nat) (crystal : Crystal) (k : Nat) : Bool :=
  let added := ops.addAtom (crystalBeforeAttempt ops newAtoms spg crystal k) (newAtoms k)
  ops.areIADsOkay added (newAtoms k) && (ops.fillCellWithAtom added spg (newAtoms k)).1

/-- The crystal that a passing attempt number `k` leaves. -/
def crystalOfPassingAttempt {Crystal : Type} (ops : CrystalOps Crystal)
    (newAtoms : Nat → atomStruct) (spg : Nat) (crystal : Crystal) (k : Nat) : Crystal :=
  (ops.fillCellWithAtom
    (ops.addAtom (crystalBeforeAttempt ops newAtoms spg crystal k) (newAtoms k)) spg
    (newAtoms k)).2

/-- A crystal that is the list of its atoms, with oracles that accept an atom exactly when its
`x` coordinate is at least one half. -/
def listCrystalOps : CrystalOps (List atomStruct) where
  addAtom := fun c a => c ++ [a]
  removeAtom := fun c a => c.erase a
  areIADsOkay := fun _ a => decide (1 / 2 ≤ a.x)
  fillCellWithAtom := fun c _ _ => (true, c)

/-- A generator of reals whose draws for attempt `i` are `i / 4`, capped at one. -/
def randDoubleRamp : Nat → ℚ → ℚ → ℚ := fun n _ _ => min 1 ((n / 3 : Nat) / 4)

/-- A general position and a unique position for concrete runs. -/
def generalPosition : wyckPos := ⟨'c', 3, "x,y,z"⟩

/-- A unique position for concrete runs. -/
def uniquePosition : wyckPos := ⟨'a', 1, "0,0,0.5"⟩

/-- The atoms of the attempts at `generalPosition` under `randDoubleRamp`. -/
def rampAtoms : Nat → atomStruct :=
  fun k => ⟨7, min 1 ((k : Nat) / 4), min 1 ((k : Nat) / 4), min 1 ((k : Nat) / 4)⟩

/-! ## The realizer: `getRandomAtomAssignments` -/

/-- The typedef `atomAssignment` of `spgInit.h`: a Wyckoff position and an atomic number. -/
abbrev atomAssignment := wyckPos × Nat

/-- The typedef `atomAssignments` of `spgInit.h`. -/
abbrev atomAssignments := List atomAssignment

/-- The member `at` of `std::vector` with an `int` index: out of range, which includes a
negative index converted to `size_t`, throws. -/
def vectorAt {T : Type} (vec : List T) (index : Int) : Except SpgInit.CppException T :=
  if index < 0 then .error .outOfRange
  else
    match vec[index.toNat]? with
    | some v => .ok v
    | none => .error .outOfRange

namespace SpgInitCombinatorics

/-- The function `removePositionFromSystemPossibility`: in every pick of every single-atom
possibility, the loop over `k` erases the positions whose letter is `wyckLet`. -/
def removePositionFromSystemPossibility (pos : systemPossibility) (wyckLet : Char) :
    systemPossibility :=
  pos.map (fun siPos =>
    { siPos with
      assigns := siPos.assigns.map (fun a =>
        { a with
          choosablePositions :=
            a.choosablePositions.filter (fun p => !(SpgInit.getWyckLet p == wyckLet)) }) })

/-- The function `getRandomSystemPossibility`. The generator of integers of the absent header
`rng.h` is the oracle `getRandInt`: its first argument is the number of the call inside
`getRandomAtomAssignments`, the other two are the bounds passed. -/
def getRandomSystemPossibility (getRandInt : Nat → Int → Int → Int)
    (sysPoss : systemPossibilities) : Except SpgInit.CppException systemPossibility :=
  vectorAt sysPoss (getRandInt 0 0 ((sysPoss.length : Int) - 1))

/-- The loop `while (atomsLeft > 0)` of `getRandomAtomAssignments` for pick `j` of single-atom
possibility `i`; `simPos` is a reference into `tempPos`, read again at every draw. The state
is `tempPos`, `ret` and the number of calls of the generator so far. -/
def drawAtoms (getRandInt : Nat → Int → Int → Int) (i j atomicNum : Nat) :
    Nat → systemPossibility × atomAssignments × Nat →
      Except SpgInit.CppException (systemPossibility × atomAssignments × Nat)
  | 0, st => .ok st
  | atomsLeft + 1, (tempPos, ret, n) =>
    match tempPos[i]? with
    | none => .error .outOfRange
    | some siPos =>
      match siPos.assigns[j]? with
      | none => .error .outOfRange
      | some simAndNum =>
        let simPos := simAndNum.choosablePositions
        match vectorAt simPos (getRandInt n 0 ((simPos.length : Int) - 1)) with
        | .error e => .error e
        | .ok wyckPos =>
          drawAtoms getRandInt i j atomicNum atomsLeft
            (if SpgInit.containsUniquePosition wyckPos then
                removePositionFromSystemPossibility tempPos (SpgInit.getWyckLet wyckPos)
              else tempPos,
              ret ++ [(wyckPos, atomicNum)], n + 1)

/-- The loop over `j` of `getRandomAtomAssignments`, with `k` iterations to go: the removal
does not change the number of picks, so the bound is the one at entry. -/
def assignsLoop (getRandInt : Nat → Int → Int → Int) (i atomicNum : Nat) :
    Nat → Nat → systemPossibility × atomAssignments × Nat →
      Except SpgInit.CppException (systemPossibility × atomAssignments × Nat)
  | 0, _, st => .ok st
  | k + 1, j, st =>
    match st.1[i]? with
    | none => .error .outOfRange
    | some siPos =>
      match siPos.assigns[j]? with
      | none => .error .outOfRange
      | some simAndNum =>
        match drawAtoms getRandInt i j atomicNum simAndNum.numToChoose st with
        | .error e => .error e
        | .ok st1 => assignsLoop getRandInt i atomicNum k (j + 1) st1

/-- The loop over `i` of `getRandomAtomAssignments`, with `k` iterations to go. -/
def speciesLoop (getRandInt : Nat → Int → Int → Int) :
    Nat → Nat → systemPossibility × atomAssignments × Nat →
      Except SpgInit.CppException (systemPossibility × atomAssignments × Nat)
  | 0, _, st => .ok st
  | k + 1, i, st =>
    match st.1[i]? with
    | none => .error .outOfRange
    | some siPos =>
      match assignsLoop getRandInt i siPos.atomicNum siPos.assigns.length 0 st with
      | .error e => .error e
      | .ok st1 => speciesLoop getRandInt k (i + 1) st1

/-- The function `getRandomAtomAssignments`: an exception when `at` is out of range. -/
def getRandomAtomAssignments (getRandInt : Nat → Int → Int → Int)
    (sysPoss : systemPossibilities) : Except SpgInit.CppException atomAssignments :=
  match getRandomSystemPossibility getRandInt sysPoss with
  | .error e => .error e
  | .ok tempPos =>
    match speciesLoop getRandInt tempPos.length 0 (tempPos, [], 1) with
    | .error e => .error e
    | .ok st => .ok st.2.1

end SpgInitCombinatorics

/-- The contract of the random number generator on integers: a draw between bounds in order
lies between them. -/
def RandIntContract (getRandInt : Nat → Int → Int → Int) : Prop :=
  ∀ n lo hi, lo ≤ hi → lo ≤ getRandInt n lo hi ∧ getRandInt n lo hi ≤ hi

/-- A generator of integers that returns the lower bound. -/
def randIntLow : Nat → Int → Int → Int := fun _ lo _ => lo

/-- A generator of integers that returns the upper bound at its call number 1 and the lower
bound otherwise. -/
def randIntHighFirst : Nat → Int → Int → Int := fun n lo hi => if n = 1 then hi else lo

/-- A table with two general positions of the same multiplicity. -/
def tableTwoGeneral : wyckoffPositions :=
  [⟨'a', 2, "x,0,0"⟩, ⟨'b', 2, "0,y,0"⟩]

/-- A database whose space group 1 has the table `tableTwoGeneral`. -/
def databaseTwoGeneral : WyckoffDatabase :=
  fun spg => if spg = 1 then tableTwoGeneral else []

/-- The letters of the unique positions assigned so far: those that
`removePositionFromSystemPossibility` has erased. -/
def lettersStruck (ret : atomAssignments) : List Char :=
  (ret.filter (fun q => SpgInit.containsUniquePosition q.1)).map
    (fun q => SpgInit.getWyckLet q.1)

/-- A list of positions without those whose letter is among `letters`. -/
def strikeList (letters : List Char) (simPos : similarWyckPositions) : similarWyckPositions :=
  simPos.filter (fun p => decide (SpgInit.getWyckLet p ∉ letters))

/-- A pick without the positions whose letter is among `letters`. -/
def strikePick (letters : List Char) (a : similarWyckPosAndNumToChoose) :
    similarWyckPosAndNumToChoose :=
  { a with choosablePositions := strikeList letters a.choosablePositions }

/-- A single-atom possibility without the positions whose letter is among `letters`. -/
def strikeSap (letters : List Char) (p : singleAtomPossibility) : singleAtomPossibility :=
  { p with assigns := p.assigns.map (strikePick letters) }

/-- A system possibility without the positions whose letter is among `letters`. -/
def strike (letters : List Char) (pos : systemPossibility) : systemPossibility :=
  pos.map (strikeSap letters)

/-- The draws for one pick, as a function of the pick of the system possibility chosen and of
the assignments so far: the positions to choose from are those of the pick whose letter has
not been struck. -/
def drawFrom (getRandInt : Nat → Int → Int → Int) (atomicNum : Nat)
    (simPos : similarWyckPositions) :
    Nat → atomAssignments × Nat → Except SpgInit.CppException (atomAssignments × Nat)
  | 0, st => .ok st
  | atomsLeft + 1, (ret, n) =>
    match vectorAt (strikeList (lettersStruck ret) simPos)
        (getRandInt n 0 (((strikeList (lettersStruck ret) simPos).length : Int) - 1)) with
    | .error e => .error e
    | .ok wyckPos =>
      drawFrom getRandInt atomicNum simPos atomsLeft (ret ++ [(wyckPos, atomicNum)], n + 1)

/-- The draws for a list of picks of one species, in order. -/
def realizePicks (getRandInt : Nat → Int → Int → Int) (atomicNum : Nat) :
    List similarWyckPosAndNumToChoose → atomAssignments × Nat →
      Except SpgInit.CppException (atomAssignments × Nat)
  | [], st => .ok st
  | a :: rest, st =>
    match drawFrom getRandInt atomicNum a.choosablePositions a.numToChoose st with
    | .error e => .error e
    | .ok st1 => realizePicks getRandInt atomicNum rest st1

/-- The draws for a list of single-atom possibilities, in order. -/
def realizeSaps (getRandInt : Nat → Int → Int → Int) :
    List singleAtomPossibility → atomAssignments × Nat →
      Except SpgInit.CppException (atomAssignments × Nat)
  | [], st => .ok st
  | p :: rest, st =>
    match realizePicks getRandInt p.atomicNum p.assigns st with
    | .error e => .error e
    | .ok st1 => realizeSaps getRandInt rest st1

/-- The state of the loops of `getRandomAtomAssignments` that belongs to assignments so far:
`tempPos` is the system possibility chosen without the letters struck. -/
def restoreState (pos : systemPossibility) :
    Except SpgInit.CppException (atomAssignments × Nat) →
      Except SpgInit.CppException (systemPossibility × atomAssignments × Nat)
  | .error e => .error e
  | .ok st => .ok (strike (lettersStruck st.1) pos, st.1, st.2)

/-- No unique Wyckoff letter occurs twice in an assignment list: of two assignments, if one
is to a unique position, the letters differ. -/
def NoUniqueLetterTwice (ret : atomAssignments) : Prop :=
  ret.Pairwise (fun a b =>
    (SpgInit.containsUniquePosition a.1 = true ∨ SpgInit.containsUniquePosition b.1 = true) →
      SpgInit.getWyckLet a.1 ≠ SpgInit.getWyckLet b.1)

/-- The assignments `block` realize the pick `a` for atomic number `z`: exactly `numToChoose`
pairs, each of a position of the choosable list of the pick with `z`. -/
def RealizesPick (z : Nat) (a : similarWyckPosAndNumToChoose) (block : atomAssignments) :
    Prop :=
  block.length = a.numToChoose ∧ ∀ q ∈ block, q.1 ∈ a.choosablePositions ∧ q.2 = z

/-- The blocks realize the picks of a single-atom possibility, one block per pick, in
order. -/
def RealizesSap (p : singleAtomPossibility) (blocks : List atomAssignments) : Prop :=
  List.Forall₂ (RealizesPick p.atomicNum) p.assigns blocks

/-- The blocks realize a system possibility: one list of blocks per single-atom possibility,
in order. -/
def RealizesSystem (S : systemPossibility) (blocks : List (List atomAssignments)) : Prop :=
  List.Forall₂ RealizesSap S blocks

/-- The assignment list made of the blocks, in order. -/
def flattenBlocks (blocks : List (List atomAssignments)) : atomAssignments :=
  (blocks.map List.flatten).flatten

/-- The shape of the similar-WP groups that the realizer relies on: a group is not empty, its
letters are pairwise different, its positions share the uniqueness and the multiplicity of
the group, and a letter occurs in one group only. -/
def GroupsWellFormed (groups : List similarWyckPositions) : Prop :=
  (∀ g ∈ groups, g ≠ [] ∧ (g.map (fun p => p.letter)).Nodup ∧
    ∀ p ∈ g, SpgInit.containsUniquePosition p = groupIsUnique g ∧
      SpgInit.getMultiplicity p = groupMultiplicity g) ∧
  (∀ g ∈ groups, ∀ h ∈ groups, ∀ p ∈ g, ∀ q ∈ h, p.letter = q.letter → g = h)

/-- A table whose first two positions are unique and form one similar-WP group. -/
def tableTwoUnique : wyckoffPositions :=
  [⟨'a', 1, "0,0,0"⟩, ⟨'b', 1, "0,0,0.5"⟩, ⟨'c', 2, "x,y,z"⟩]

/-- A database whose space group 1 has the table `tableTwoUnique`. -/
def databaseTwoUnique : WyckoffDatabase :=
  fun spg => if spg = 1 then tableTwoUnique else []

/-- The system possibilities of `tableTwoUnique` for one atom of each of two species: both
take a letter of the unique group. -/
def possibilitiesTwoUnique : systemPossibilities :=
  [[⟨1, [⟨1, [⟨'a', 1, "0,0,0"⟩, ⟨'b', 1, "0,0,0.5"⟩]⟩]⟩,
    ⟨2, [⟨1, [⟨'a', 1, "0,0,0"⟩, ⟨'b', 1, "0,0,0.5"⟩]⟩]⟩]]

/-- The conservation of the realizer on one single-atom possibility and its blocks: the
multiplicities of the positions assigned sum to the sum of `multiplicity * numToChoose` of
the picks. -/
def ConservesAtoms (p : singleAtomPossibility) (bs : List atomAssignments) : Prop :=
  (bs.flatten.map (fun q => SpgInit.getMultiplicity q.1)).sum = atomsPlaced p

/-- The total of `numToChoose` over a system possibility. -/
def totalToChoose (S : systemPossibility) : Nat :=
  (S.map (fun p => (p.assigns.map (fun a => a.numToChoose)).sum)).sum

/-- The system possibilities of `tableTwoGeneral` for four atoms of one species: two letters of
the one group. -/
def possibilitiesTwoGeneral : systemPossibilities :=
  [[⟨1, [⟨2, [⟨'a', 2, "x,0,0"⟩, ⟨'b', 2, "0,y,0"⟩]⟩]⟩]]

/-- Every pick of the possibility stems from an entry of the tracker that is not flagged
unique. -/
def PicksNonUnique (tracker : usageTracker) (p : singleAtomPossibility) : Prop :=
  ∀ a ∈ p.assigns, ∃ t ∈ tracker, t.unique = false ∧ a.choosablePositions = t.positions

/-- The possibility `p` lies below the tracker `T` in the search: it uses every entry at least
as often as `T` does, and exactly as often where `T` has given the entry up. -/
def CountsExtend (T : usageTracker) (p : singleAtomPossibility) : Prop :=
  ∀ (j : Nat) (t : WyckPosTrackingInfo), T[j]? = some t →
    t.numTimesUsed ≤ usesOfGroup p t.positions ∧
    (t.keepUsing = false → usesOfGroup p t.positions = t.numTimesUsed)

/-- A table in which a general position stands between two similar unique positions. -/
def tableInterleaved : wyckoffPositions :=
  [⟨'a', 1, "0,0,0"⟩, ⟨'b', 2, "x,y,z"⟩, ⟨'c', 1, "0,0,0.5"⟩]

/-! ## The facade `spgInitCrystal` of `spgInit.cpp` -/

/-- Modelled from the spec: the two constructors of the class `Crystal` (absent header
`crystal.h`) that `spgInitCrystal` calls: `Crystal()`, the zero-volume crystal returned on
failure, and `Crystal(st)`, the empty crystal on the lattice `st`. -/
structure CrystalCtors (Crystal : Type) where
  empty : Crystal
  ofLattice : latticeStruct → Crystal

/-- The lines that `spgInitCrystal` itself writes to `cout`. -/
inductive Diagnostic where
  | invalidLattice
  | impossibleComposition
  | noAssignments
  | attemptsExhausted
  deriving DecidableEq

/-- The range of `size_t`, the type of the counters of the loops of `spgInitCrystal`. -/
def SIZE_MOD : Nat := 2 ^ 64

namespace SpgInit

/-- The loop of `spgInitCrystal` over the assignments of one attempt, from index `j`: every
atom is tried, also after a failure. Call `j` of `addWyckoffAtomRandomly` draws from the
generator `getRandDouble j` and has the default `maxAttempts = 1000` of `spgInit.h`. The
result is the crystal and the flag `assignmentsSuccessful`. -/
def placeAssignments {Crystal : Type} (fuel : Nat) (ops : CrystalOps Crystal)
    (getRandDouble : Nat → Nat → ℚ → ℚ → ℚ) (spg : Nat) :
    atomAssignments → Nat → Crystal → Bool → Option (Except CppException (Crystal × Bool))
  | [], _, crystal, assignmentsSuccessful => some (.ok (crystal, assignmentsSuccessful))
  | assignment :: rest, j, crystal, assignmentsSuccessful =>
    match addWyckoffAtomRandomly fuel ops (getRandDouble j) crystal assignment.1 assignment.2
        spg 1000 with
    | none => none
    | some (.error e) => some (.error e)
    | some (.ok r) =>
      placeAssignments fuel ops getRandDouble spg rest (j + 1) r.2.1
        (if !r.1 then false else assignmentsSuccessful)

/-- The loop of `spgInitCrystal` over the attempts, with `remaining` attempts to go from
attempt `i`. Attempt `i` draws its assignments from the generator `getRandInt i` and places
them with the generators `getRandDouble i`. The lines written to the log file are left
out. -/
def attemptsLoop {Crystal : Type} (fuel : Nat) (ctors : CrystalCtors Crystal)
    (ops : CrystalOps Crystal) (getRandInt : Nat → Nat → Int → Int → Int)
    (getRandDouble : Nat → Nat → Nat → ℚ → ℚ → ℚ) (spg : Nat) (st : latticeStruct)
    (possibilities : systemPossibilities) :
    Nat → Nat → List Diagnostic → Option (Except CppException (Crystal × List Diagnostic))
  | 0, _, out => some (.ok (ctors.empty, out ++ [Diagnostic.attemptsExhausted]))
  | remaining + 1, i, out =>
    match SpgInitCombinatorics.getRandomAtomAssignments (getRandInt i) possibilities with
    | .error e => some (.error e)
    | .ok assignments =>
      if assignments.length = 0 then
        attemptsLoop fuel ctors ops getRandInt getRandDouble spg st possibilities remaining
          (i + 1) (out ++ [Diagnostic.noAssignments])
      else
        match placeAssignments fuel ops (getRandDouble i) spg assignments 0
            (ctors.ofLattice st) true with
        | none => none
        | some (.error e) => some (.error e)
        | some (.ok r) =>
          if r.2 then some (.ok (r.1, out))
          else
            attemptsLoop fuel ctors ops getRandInt getRandDouble spg st possibilities
              remaining (i + 1) out

/-- The function `spgInitCrystal` of `spgInit.cpp`. The result is the crystal returned with the
lines written to `cout`; an exception of a callee leaves the function, and `none` is a callee
out of fuel. The generators of the absent header `rng.h` are oracles, one per call of a
callee. The oracles `ops` stand for the class `Crystal` after
`ElemInfo::applyScalingFactor(minIADScalingFactor)`. The call
`getSystemPossibilities(spg, atoms)` relies on the default arguments of the absent header
`spgInitCombinatorics.h`, here the parameters `findOnlyOne` and `findOnlyNonUnique`. The `int`
`numAttempts` is compared with a `size_t` counter, hence converted. -/
def spgInitCrystal {Crystal : Type} (fuel : Nat) (db : WyckoffDatabase)
    (ctors : CrystalCtors Crystal) (ops : ℚ → CrystalOps Crystal)
    (latticeRand : Nat → ℚ → ℚ → ℚ) (getRandInt : Nat → Nat → Int → Int → Int)
    (getRandDouble : Nat → Nat → Nat → ℚ → ℚ → ℚ) (findOnlyOne findOnlyNonUnique : Bool)
    (spg : Nat) (atoms : List Nat) (latticeMins latticeMaxes : latticeStruct)
    (minIADScalingFactor : ℚ) (numAttempts : Int) :
    Option (Except CppException (Crystal × List Diagnostic)) :=
  let st := generateLatticeForSpg latticeRand spg latticeMins latticeMaxes
  if st.a = 0 ∨ st.b = 0 ∨ st.c = 0 ∨ st.alpha = 0 ∨ st.beta = 0 ∨ st.gamma = 0 then
    some (.ok (ctors.empty, [Diagnostic.invalidLattice]))
  else
    match SpgInitCombinatorics.getSystemPossibilities fuel db spg atoms findOnlyOne
        findOnlyNonUnique with
    | none => none
    | some possibilities =>
      if possibilities.length = 0 then
        some (.ok (ctors.empty, [Diagnostic.impossibleComposition]))
      else
        attemptsLoop fuel ctors (ops minIADScalingFactor) getRandInt getRandDouble spg st
          possibilities (numAttempts % (SIZE_MOD : Int)).toNat 0 []

end SpgInit

/-- A crystal that is its lattice and the list of its atoms. -/
def cellCrystalCtors : CrystalCtors (latticeStruct × List atomStruct) where
  empty := (latticeStruct.zero, [])
  ofLattice := fun st => (st, [])

/-- Oracles on the crystal of `cellCrystalCtors` that accept every atom. -/
def cellCrystalOps : CrystalOps (latticeStruct × List atomStruct) where
  addAtom := fun c a => (c.1, c.2 ++ [a])
  removeAtom := fun c a => (c.1, c.2.erase a)
  areIADsOkay := fun _ _ => true
  fillCellWithAtom := fun c _ _ => (true, c)

/-- The recursive calls of `findAllCombinations`: `RecursiveCall atomicNum sets T T1` says
that a call on the tracker `T` (with `numAtoms` not zero) calls the function on `T1`. The
first call is made on the tracker that uses the first available entry once more, when the
entry is usable and atoms are left afterwards; the second on the tracker that gives the entry
up, when the first half of the body has returned without throwing. -/
inductive RecursiveCall (atomicNum : Nat) (sets : combinationSettings) :
    usageTracker → usageTracker → Prop where
  | use (T : usageTracker) (i : Nat) (info : WyckPosTrackingInfo) :
      sets.numAtoms ≠ 0 → getFirstAvailableIndex T = some i → T[i]? = some info →
      positionIsUsable info (getNumAtomsLeft T sets.numAtoms) sets.findOnlyNonUnique = true →
      getNumAtomsLeft (useEntry T i info) sets.numAtoms ≠ 0 →
      RecursiveCall atomicNum sets T (useEntry T i info)
  | skip (T : usageTracker) (i : Nat) (info : WyckPosTrackingInfo) (fuel : Nat)
      (acc acc1 : singleAtomPossibilities) :
      sets.numAtoms ≠ 0 → getFirstAvailableIndex T = some i → T[i]? = some info →
      useBranch fuel acc T i info atomicNum sets = some (.ok acc1) →
      RecursiveCall atomicNum sets T (skipEntry T i info)

/-! ## The draws of the realizer -/

namespace SpgInitCombinatorics

/-- The calls `getRandInt(0, simPos.size() - 1)` that the loop `while (atomsLeft > 0)` of
`getRandomAtomAssignments` makes, in order, each as the size of the list drawn from and the
value drawn; the loop is followed as `drawAtoms` follows it, up to the first exception. -/
def drawAtomsDraws (getRandInt : Nat → Int → Int → Int) (i j atomicNum : Nat) :
    Nat → systemPossibility × atomAssignments × Nat → List (Nat × Int)
  | 0, _ => []
  | atomsLeft + 1, (tempPos, ret, n) =>
    match tempPos[i]? with
    | none => []
    | some siPos =>
      match siPos.assigns[j]? with
      | none => []
      | some simAndNum =>
        let simPos := simAndNum.choosablePositions
        let rand := getRandInt n 0 ((simPos.length : Int) - 1)
        (simPos.length, rand) ::
          match vectorAt simPos rand with
          | .error _ => []
          | .ok wyckPos =>
            drawAtomsDraws getRandInt i j atomicNum atomsLeft
              (if SpgInit.containsUniquePosition wyckPos then
                  removePositionFromSystemPossibility tempPos (SpgInit.getWyckLet wyckPos)
                else tempPos,
                ret ++ [(wyckPos, atomicNum)], n + 1)

/-- The draws of the loop over `j` of `getRandomAtomAssignments`, followed as `assignsLoop`
follows it. -/
def assignsLoopDraws (getRandInt : Nat → Int → Int → Int) (i atomicNum : Nat) :
    Nat → Nat → systemPossibility × atomAssignments × Nat → List (Nat × Int)
  | 0, _, _ => []
  | k + 1, j, st =>
    match st.1[i]? with
    | none => []
    | some siPos =>
      match siPos.assigns[j]? with
      | none => []
      | some simAndNum =>
        drawAtomsDraws getRandInt i j atomicNum simAndNum.numToChoose st ++
          match drawAtoms getRandInt i j atomicNum simAndNum.numToChoose st with
          | .error _ => []
          | .ok st1 => assignsLoopDraws getRandInt i atomicNum k (j + 1) st1

/-- The draws of the loop over `i` of `getRandomAtomAssignments`, followed as `speciesLoop`
follows it. -/
def speciesLoopDraws (getRandInt : Nat → Int → Int → Int) :
    Nat → Nat → systemPossibility × atomAssignments × Nat → List (Nat × Int)
  | 0, _, _ => []
  | k + 1, i, st =>
    match st.1[i]? with
    | none => []
    | some siPos =>
      assignsLoopDraws getRandInt i siPos.atomicNum siPos.assigns.length 0 st ++
        match assignsLoop getRandInt i siPos.atomicNum siPos.assigns.length 0 st with
        | .error _ => []
        | .ok st1 => speciesLoopDraws getRandInt k (i + 1) st1

/-- All calls of `getRandInt` of a run of `getRandomAtomAssignments`, the one of
`getRandomSystemPossibility` first: the size of the list drawn from and the value drawn. -/
def getRandomAtomAssignmentsDraws (getRandInt : Nat → Int → Int → Int)
    (sysPoss : systemPossibilities) : List (Nat × Int) :=
  (sysPoss.length, getRandInt 0 0 ((sysPoss.length : Int) - 1)) ::
    match getRandomSystemPossibility getRandInt sysPoss with
    | .error _ => []
    | .ok tempPos => speciesLoopDraws getRandInt tempPos.length 0 (tempPos, [], 1)

end SpgInitCombinatorics

/-- A draw from a list that is not empty, with a value that indexes the list. -/
def DrawInRange (d : Nat × Int) : Prop :=
  1 ≤ d.1 ∧ 0 ≤ d.2 ∧ d.2 < (d.1 : Int)

/-! ## The evaluator without the values of the variables -/

/-- The coefficients of an affine function of `x`, `y` and `z`. -/
structure AffineForm where
  c0 : ℚ
  cx : ℚ
  cy : ℚ
  cz : ℚ
  deriving DecidableEq

/-- The value of an affine form. -/
def AffineForm.eval (f : AffineForm) (x y z : ℚ) : ℚ :=
  f.c0 + f.cx * x + f.cy * y + f.cz * z

/-- The parse of `interpretLoop` with the values of the variables left out: the loop of the
specification's reading of the evaluator, which follows the characters alone and keeps the
result as an affine form. -/
def affineLoop : Nat → List Char → AffineForm → Option (Except SpgInit.CppException AffineForm)
  | 0, _, _ => none
  | fuel + 1, rest, result =>
    match rest with
    | [] => some (.ok result)
    | c :: cs =>
      let rest1 := if c = '+' then cs else rest
      match SpgInit.getNumberInFirstTerm rest1 with
      | .error e => some (.error e)
      | .ok none => some (.ok ⟨0, 0, 0, 0⟩)
      | .ok (some (numInFront, len)) =>
        match rest1.drop len with
        | [] => some (.ok { result with c0 := result.c0 + numInFront })
        | v :: r =>
          if v = 'x' then affineLoop fuel r { result with cx := result.cx + numInFront }
          else if v = 'y' then affineLoop fuel r { result with cy := result.cy + numInFront }
          else if v = 'z' then affineLoop fuel r { result with cz := result.cz + numInFront }
          else affineLoop fuel (v :: r) { result with c0 := result.c0 + numInFront }

/-- The affine form of a component, read off its characters alone: the specification's
"constants `c0`, `cx`, `cy`, `cz`", or the exception that the parse raises. -/
def affineComponent (component : String) : Option (Except SpgInit.CppException AffineForm) :=
  if component.length = 0 then some (.ok ⟨-1, 0, 0, 0⟩)
  else affineLoop (component.length + 1) component.data ⟨0, 0, 0, 0⟩

/-! ## The solver without the atomic numbers -/

/-- The single-atom possibility with its atomic number forgotten (set to zero). -/
def relabel (p : singleAtomPossibility) : singleAtomPossibility :=
  { p with atomicNum := 0 }

/-- A result of `findAllCombinations` with the atomic numbers forgotten. -/
def relabelResult (r : Except singleAtomPossibility singleAtomPossibilities) :
    Except singleAtomPossibility singleAtomPossibilities :=
  match r with
  | .error p => .error (relabel p)
  | .ok l => .ok (l.map relabel)

/-- A species list with the atomic numbers forgotten: the counts alone. -/
def countsOnly (l : List numAndType) : List numAndType :=
  l.map (fun nt => (nt.1, 0))

/-! ## The solver: unfolding and generic invariants -/

theorem findAllCombinations_zero (acc : singleAtomPossibilities) (T : usageTracker) (z : Nat)
    (sets : combinationSettings) : findAllCombinations 0 acc T z sets = none := rfl

theorem findAllCombinations_succ (fuel : Nat) (acc : singleAtomPossibilities)
    (T : usageTracker) (z : Nat) (sets : combinationSettings) :
    findAllCombinations (fuel + 1) acc T z sets =
      if sets.numAtoms = 0 then some (.ok acc)
      else
        match getFirstAvailableIndex T with
        | none => some (.ok acc)
        | some i =>
          match T[i]? with
          | none => none
          | some info =>
            match (if positionIsUsable info (getNumAtomsLeft T sets.numAtoms)
                  sets.findOnlyNonUnique then
                if getNumAtomsLeft (useEntry T i info) sets.numAtoms = 0 then
                  if sets.findOnlyOne then
                    some (.error (convertToPossibility (useEntry T i info) z))
                  else some (.ok (acc ++ [convertToPossibility (useEntry T i info) z]))
                else findAllCombinations fuel acc (useEntry T i info) z sets
              else some (.ok acc)) with
            | none => none
            | some (.error p) => some (.error p)
            | some (.ok acc1) =>
              findAllCombinations fuel acc1 (skipEntry T i info) z sets := by
  rfl

/-- Every possibility that `findAllCombinations` appends or throws is the conversion of a
tracker that is reachable by the two moves and has no atoms left; the possibilities already
in `appendVec` stay in front. -/
theorem findAllCombinations_invariant (P : usageTracker → Prop) (z : Nat)
    (sets : combinationSettings)
    (hUse : ∀ T i info, P T → getFirstAvailableIndex T = some i → T[i]? = some info →
      positionIsUsable info (getNumAtomsLeft T sets.numAtoms) sets.findOnlyNonUnique = true →
      P (useEntry T i info))
    (hSkip : ∀ T i info, P T → getFirstAvailableIndex T = some i → T[i]? = some info →
      P (skipEntry T i info)) :
    ∀ (fuel : Nat) (acc : singleAtomPossibilities) (T : usageTracker), P T →
      (∀ out, findAllCombinations fuel acc T z sets = some (.ok out) →
        ∃ new, out = acc ++ new ∧ ∀ p ∈ new, Emitted P z sets p) ∧
      (∀ p, findAllCombinations fuel acc T z sets = some (.error p) → Emitted P z sets p) := by
  intro fuel
  induction fuel with
  | zero =>
    intro acc T _
    constructor <;> intro _ h <;> simp [findAllCombinations_zero] at h
  | succ fuel ih =>
    intro acc T hP
    rw [findAllCombinations_succ]
    by_cases h0 : sets.numAtoms = 0
    · simp only [h0, if_true]
      constructor
      · intro out h
        simp at h
        exact ⟨[], by simp [h], by simp⟩
      · intro p h
        simp at h
    · simp only [h0, if_false]
      cases hidx : getFirstAvailableIndex T with
      | none =>
        simp only []
        constructor
        · intro out h
          simp at h
          exact ⟨[], by simp [h], by simp⟩
        · intro p h
          simp at h
      | some i =>
        simp only []
        cases hinfo : T[i]? with
        | none =>
          simp only []
          constructor <;> intro _ h <;> simp at h
        | some info =>
          simp only []
          have hS := ih acc (skipEntry T i info) (hSkip T i info hP hidx hinfo)
          by_cases hus : positionIsUsable info (getNumAtomsLeft T sets.numAtoms)
              sets.findOnlyNonUnique = true
          · have hPU := hUse T i info hP hidx hinfo hus
            simp only [hus, if_true]
            by_cases hl : getNumAtomsLeft (useEntry T i info) sets.numAtoms = 0
            · simp only [hl, if_true]
              have hem : Emitted P z sets (convertToPossibility (useEntry T i info) z) :=
                ⟨_, hPU, hl, rfl⟩
              by_cases hone : sets.findOnlyOne = true
              · simp only [hone, if_true]
                constructor
                · intro out h
                  simp at h
                · intro p h
                  simp at h
                  exact h ▸ hem
              · simp only [hone]
                have hS2 := ih (acc ++ [convertToPossibility (useEntry T i info) z])
                  (skipEntry T i info) (hSkip T i info hP hidx hinfo)
                constructor
                · intro out h
                  obtain ⟨new, hnew, hall⟩ := hS2.1 out h
                  refine ⟨convertToPossibility (useEntry T i info) z :: new, by simp [hnew], ?_⟩
                  intro p hp
                  rcases List.mem_cons.1 hp with h1 | h1
                  · exact h1 ▸ hem
                  · exact hall p h1
                · intro p h
                  exact hS2.2 p h
            · simp only [hl, if_false]
              have hU := ih acc (useEntry T i info) hPU
              cases hr : findAllCombinations fuel acc (useEntry T i info) z sets with
              | none =>
                simp only []
                constructor <;> intro _ h <;> simp at h
              | some r =>
                cases r with
                | error q =>
                  simp only []
                  constructor
                  · intro out h
                    simp at h
                  · intro p h
                    simp at h
                    exact h ▸ hU.2 q hr
                | ok acc1 =>
                  simp only []
                  obtain ⟨new1, hnew1, hall1⟩ := hU.1 acc1 hr
                  have hS2 := ih acc1 (skipEntry T i info) (hSkip T i info hP hidx hinfo)
                  constructor
                  · intro out h
                    obtain ⟨new, hnew, hall⟩ := hS2.1 out h
                    refine ⟨new1 ++ new, by simp [hnew, hnew1], ?_⟩
                    intro p hp
                    rcases List.mem_append.1 hp with h1 | h1
                    · exact hall1 p h1
                    · exact hall p h1
                  · intro p h
                    exact hS2.2 p h
          · simp only [hus]
            exact hS

/-! ## Arithmetic of the tracker -/

theorem usedSum_set (T : usageTracker) (i : Nat) (info info1 : WyckPosTrackingInfo)
    (h : T[i]? = some info) :
    usedSum (T.set i info1) + info.multiplicity * info.numTimesUsed =
      usedSum T + info1.multiplicity * info1.numTimesUsed := by
  induction T generalizing i with
  | nil => simp at h
  | cons t T ih =>
    cases i with
    | zero =>
      simp at h
      subst h
      simp [usedSum]
      omega
    | succ i =>
      simp at h
      have := ih i h
      simp [usedSum] at this ⊢
      omega

theorem getNumAtomsUsed_eq (T : usageTracker) : getNumAtomsUsed T = usedSum T % UINT_MOD := rfl

theorem getNumAtomsLeft_of_le (T : usageTracker) (N : Nat) (h : usedSum T ≤ N)
    (hN : N < UINT_MOD) : getNumAtomsLeft T N = N - usedSum T := by
  unfold getNumAtomsLeft
  rw [getNumAtomsUsed_eq]
  unfold UINT_MOD at *
  omega

theorem mul_succ_mod_le (m n : Nat) : m * ((n + 1) % UINT_MOD) ≤ m * n + m := by
  have : (n + 1) % UINT_MOD ≤ n + 1 := Nat.mod_le _ _
  calc m * ((n + 1) % UINT_MOD) ≤ m * (n + 1) := Nat.mul_le_mul_left m this
    _ = m * n + m := by ring

theorem usedSum_useEntry_le (T : usageTracker) (i : Nat) (info : WyckPosTrackingInfo)
    (h : T[i]? = some info) :
    usedSum (useEntry T i info) ≤ usedSum T + info.multiplicity := by
  have h1 := usedSum_set T i info
    { info with numTimesUsed := (info.numTimesUsed + 1) % UINT_MOD } h
  have h2 := mul_succ_mod_le info.multiplicity info.numTimesUsed
  unfold useEntry
  simp only [] at h1
  omega

theorem usedSum_skipEntry (T : usageTracker) (i : Nat) (info : WyckPosTrackingInfo)
    (h : T[i]? = some info) : usedSum (skipEntry T i info) = usedSum T := by
  have h1 := usedSum_set T i info { info with keepUsing := false } h
  unfold skipEntry
  simp only [] at h1
  omega

theorem getFirstAvailableIndex_some (T : usageTracker) (i : Nat)
    (h : getFirstAvailableIndex T = some i) :
    ∃ info, T[i]? = some info ∧ info.keepUsing = true := by
  induction T generalizing i with
  | nil => simp [getFirstAvailableIndex] at h
  | cons t T ih =>
    unfold getFirstAvailableIndex at h
    by_cases hk : t.keepUsing = true
    · simp [hk] at h
      subst h
      exact ⟨t, by simp, hk⟩
    · simp [hk] at h
      obtain ⟨j, hj, rfl⟩ := h
      obtain ⟨info, h1, h2⟩ := ih j hj
      exact ⟨info, by simpa using h1, h2⟩

theorem getFirstAvailableIndex_none (T : usageTracker)
    (h : getFirstAvailableIndex T = none) : ∀ t ∈ T, t.keepUsing = false := by
  induction T with
  | nil => simp
  | cons t T ih =>
    unfold getFirstAvailableIndex at h
    by_cases hk : t.keepUsing = true
    · simp [hk] at h
    · simp [hk] at h
      intro u hu
      rcases List.mem_cons.1 hu with h1 | h1
      · subst h1
        simpa using hk
      · exact ih h u h1

theorem map_set_of_eq {β : Type} (f : WyckPosTrackingInfo → β) (T : usageTracker) (i : Nat)
    (info info1 : WyckPosTrackingInfo) (h : T[i]? = some info) (hf : f info1 = f info) :
    (T.set i info1).map f = T.map f := by
  induction T generalizing i with
  | nil => simp
  | cons t T ih =>
    cases i with
    | zero =>
      simp at h
      subst h
      simp [hf]
    | succ i =>
      simp at h
      simp [ih i h]

theorem mem_of_getElem?_eq_some (T : usageTracker) (i : Nat) (info : WyckPosTrackingInfo)
    (h : T[i]? = some info) : info ∈ T := by
  rw [List.getElem?_eq_some] at h
  obtain ⟨hi, rfl⟩ := h
  exact List.getElem_mem hi

theorem positionIsUsable_true (info : WyckPosTrackingInfo) (left : Nat) (nu : Bool)
    (h : positionIsUsable info left nu = true) :
    info.multiplicity ≤ left ∧ info.keepUsing = true ∧ (nu = true → info.unique = false) ∧
      (info.unique = true → info.numTimesUsed < info.positions.length) := by
  unfold positionIsUsable WyckPosTrackingInfo.getNumPositions at h
  cases hnu : nu <;> cases hu : info.unique <;> simp [hnu, hu] at h ⊢
  · exact ⟨h.1, h.2⟩
  · exact ⟨h.1.1, h.1.2, h.2⟩
  · exact ⟨h.1, h.2⟩

theorem trackerInv_useEntry (groups : List similarWyckPositions) (N : Nat) (nu : Bool)
    (hN : N < UINT_MOD) (T : usageTracker) (i : Nat) (info : WyckPosTrackingInfo)
    (hT : TrackerInv groups N T) (hinfo : T[i]? = some info)
    (hus : positionIsUsable info (getNumAtomsLeft T N) nu = true) :
    TrackerInv groups N (useEntry T i info) := by
  obtain ⟨hg, hall, hsum⟩ := hT
  obtain ⟨hm, -, -, hu⟩ := positionIsUsable_true _ _ _ hus
  rw [getNumAtomsLeft_of_le T N hsum hN] at hm
  have hmem := mem_of_getElem?_eq_some T i info hinfo
  refine ⟨?_, ?_, ?_⟩
  · rw [← hg]
    exact map_set_of_eq _ T i info _ hinfo rfl
  · intro t ht
    rcases List.mem_or_eq_of_mem_set ht with h1 | h1
    · exact hall t h1
    · subst h1
      obtain ⟨a, b, c, d⟩ := hall info hmem
      refine ⟨a, b, Nat.mod_lt _ (by unfold UINT_MOD; omega), ?_⟩
      intro hq
      have h3 := hu hq
      have : (info.numTimesUsed + 1) % UINT_MOD ≤ info.numTimesUsed + 1 := Nat.mod_le _ _
      simp only []
      omega
  · have := usedSum_useEntry_le T i info hinfo
    omega

theorem trackerInv_skipEntry (groups : List similarWyckPositions) (N : Nat)
    (T : usageTracker) (i : Nat) (info : WyckPosTrackingInfo)
    (hT : TrackerInv groups N T) (hinfo : T[i]? = some info) :
    TrackerInv groups N (skipEntry T i info) := by
  obtain ⟨hg, hall, hsum⟩ := hT
  have hmem := mem_of_getElem?_eq_some T i info hinfo
  refine ⟨?_, ?_, ?_⟩
  · rw [← hg]
    exact map_set_of_eq _ T i info _ hinfo rfl
  · intro t ht
    rcases List.mem_or_eq_of_mem_set ht with h1 | h1
    · exact hall t h1
    · subst h1
      exact hall info hmem
  · rw [usedSum_skipEntry T i info hinfo]
    exact hsum

/-! ## What the solver emits -/

theorem atomsPlaced_convert (T : usageTracker) (z : Nat)
    (h : ∀ t ∈ T, t.multiplicity = groupMultiplicity t.positions) :
    atomsPlaced (convertToPossibility T z) = usedSum T := by
  induction T with
  | nil => rfl
  | cons t T ih =>
    have ih1 := ih (fun u hu => h u (List.mem_cons_of_mem _ hu))
    have ht := h t (List.mem_cons_self _ _)
    unfold atomsPlaced convertToPossibility usedSum at *
    simp only [List.filterMap_cons, List.map_cons, List.sum_cons]
    by_cases h0 : t.numTimesUsed = 0
    · simp only [h0, if_true, Nat.mul_zero, Nat.zero_add]
      exact ih1
    · simp only [h0, if_false, List.map_cons, List.sum_cons,
        WyckPosTrackingInfo.getPositions] at ih1 ⊢
      rw [ih1, ht]

theorem niceSap_convert (groups : List similarWyckPositions) (N : Nat) (T : usageTracker)
    (z : Nat) (hT : TrackerInv groups N T) : NiceSap groups (convertToPossibility T z) := by
  obtain ⟨hg, hall, -⟩ := hT
  subst hg
  constructor
  · clear hall
    induction T with
    | nil => simp [convertToPossibility]
    | cons t T ih =>
      unfold convertToPossibility at *
      simp only [List.filterMap_cons, List.map_cons]
      by_cases h0 : t.numTimesUsed = 0
      · simp only [h0, if_true]
        exact List.Sublist.cons _ ih
      · simp only [h0, if_false, List.map_cons, WyckPosTrackingInfo.getPositions]
        exact List.Sublist.cons₂ _ ih
  · intro a ha
    unfold convertToPossibility at ha
    simp only [List.mem_filterMap] at ha
    obtain ⟨t, ht, hta⟩ := ha
    by_cases h0 : t.numTimesUsed = 0
    · simp [h0] at hta
    · simp only [h0, if_false, Option.some.injEq] at hta
      subst hta
      obtain ⟨-, hu, hlt, hle⟩ := hall t ht
      refine ⟨hlt, ?_⟩
      intro hq
      simp only [WyckPosTrackingInfo.getPositions] at hq ⊢
      exact hle (hu.trans hq)

theorem usedSum_eq_of_left_zero (T : usageTracker) (N : Nat) (h : usedSum T ≤ N)
    (hN : N < UINT_MOD) (h0 : getNumAtomsLeft T N = 0) : usedSum T = N := by
  rw [getNumAtomsLeft_of_le T N h hN] at h0
  omega

theorem solverSap_of_emitted (groups : List similarWyckPositions) (z : Nat)
    (sets : combinationSettings) (hN : sets.numAtoms < UINT_MOD) (p : singleAtomPossibility)
    (h : Emitted (TrackerInv groups sets.numAtoms) z sets p) :
    SolverSap groups z sets.numAtoms p := by
  obtain ⟨T, hT, h0, rfl⟩ := h
  refine ⟨rfl, ?_, niceSap_convert groups _ T z hT⟩
  rw [atomsPlaced_convert T z (fun t ht => (hT.2.1 t ht).1)]
  exact usedSum_eq_of_left_zero T _ hT.2.2 hN h0

theorem trackerInv_createUsageTracker (wyckVec : wyckoffPositions) (N : Nat) :
    TrackerInv (groupSimilarWyckPositions wyckVec) N (createUsageTracker wyckVec) := by
  unfold createUsageTracker
  generalize groupSimilarWyckPositions wyckVec = groups
  refine ⟨?_, ?_, ?_⟩
  · induction groups with
    | nil => rfl
    | cons g gs ih =>
      simp only [List.map_cons, List.map_map] at ih ⊢
      rw [ih]
      cases g <;> rfl
  · intro t ht
    simp only [List.mem_map] at ht
    obtain ⟨g, -, rfl⟩ := ht
    cases g <;>
      simp [WyckPosTrackingInfo.init, groupMultiplicity, groupIsUnique, UINT_MOD]
  · have : usedSum (List.map WyckPosTrackingInfo.init groups) = 0 := by
      induction groups with
      | nil => rfl
      | cons g gs ih =>
        unfold usedSum at *
        simp only [List.map_cons, List.sum_cons, ih]
        cases g <;> simp [WyckPosTrackingInfo.init]
    omega

/-- Every possibility `findAllCombinations` appends or throws, started on the fresh tracker of
a table, places exactly `numAtoms` atoms and respects the letters of the unique groups. -/
theorem findAllCombinations_fresh (fuel : Nat) (wyckVec : wyckoffPositions) (z : Nat)
    (sets : combinationSettings) (hN : sets.numAtoms < UINT_MOD) :
    (∀ out, findAllCombinations fuel [] (createUsageTracker wyckVec) z sets = some (.ok out) →
      ∀ p ∈ out, SolverSap (groupSimilarWyckPositions wyckVec) z sets.numAtoms p) ∧
    (∀ p, findAllCombinations fuel [] (createUsageTracker wyckVec) z sets = some (.error p) →
      SolverSap (groupSimilarWyckPositions wyckVec) z sets.numAtoms p) := by
  have key := findAllCombinations_invariant
    (TrackerInv (groupSimilarWyckPositions wyckVec) sets.numAtoms) z sets
    (fun T i info hT _ hinfo hus =>
      trackerInv_useEntry _ _ sets.findOnlyNonUnique hN T i info hT hinfo hus)
    (fun T i info hT _ hinfo => trackerInv_skipEntry _ _ T i info hT hinfo)
    fuel [] (createUsageTracker wyckVec) (trackerInv_createUsageTracker wyckVec _)
  constructor
  · intro out h p hp
    obtain ⟨new, hnew, hall⟩ := key.1 out h
    simp only [List.nil_append] at hnew
    subst hnew
    exact solverSap_of_emitted _ z sets hN p (hall p hp)
  · intro p h
    exact solverSap_of_emitted _ z sets hN p (key.2 p h)

theorem findOnlyOneCombinationIfPossible_fresh (fuel : Nat) (wyckVec : wyckoffPositions)
    (z : Nat) (sets : combinationSettings) (finalAtom : Bool)
    (hN : sets.numAtoms < UINT_MOD) (out : singleAtomPossibilities)
    (h : findOnlyOneCombinationIfPossible fuel [] (createUsageTracker wyckVec) z sets
      finalAtom = some out) :
    ∀ p ∈ out, SolverSap (groupSimilarWyckPositions wyckVec) z sets.numAtoms p := by
  unfold findOnlyOneCombinationIfPossible at h
  simp only [] at h
  generalize hts : (if sets.findOnlyNonUnique = true then
      ({ sets with findOnlyOne := true, findOnlyNonUnique := true } : combinationSettings)
    else if finalAtom = true then
      { numAtoms := sets.numAtoms, findOnlyOne := true, findOnlyNonUnique := false }
    else { sets with findOnlyOne := true, findOnlyNonUnique := true }) = ts at h
  have hts1 : ts.numAtoms = sets.numAtoms := by
    subst hts
    split
    · rfl
    · split <;> rfl
  have k1 := findAllCombinations_fresh fuel wyckVec z ts (hts1 ▸ hN)
  rw [← hts1]
  cases hr : findAllCombinations fuel [] (createUsageTracker wyckVec) z ts with
  | none => simp [hr] at h
  | some r =>
    cases r with
    | error q =>
      simp [hr] at h
      subst h
      intro p hp
      simp at hp
      rw [hp]
      exact k1.2 q hr
    | ok acc1 =>
      simp only [hr] at h
      by_cases hl : acc1.length = 0
      · simp only [hl, if_true] at h
        have hnil : acc1 = [] := List.length_eq_zero.1 hl
        subst hnil
        have k2 := findAllCombinations_fresh fuel wyckVec z
          { ts with findOnlyOne := false, findOnlyNonUnique := sets.findOnlyNonUnique }
          (hts1 ▸ hN)
        cases hr2 : findAllCombinations fuel [] (createUsageTracker wyckVec) z
            { ts with findOnlyOne := false, findOnlyNonUnique := sets.findOnlyNonUnique } with
        | none => simp [hr2] at h
        | some r2 =>
          cases r2 with
          | error q =>
            simp [hr2] at h
            subst h
            intro p hp
            simp at hp
            rw [hp]
            exact k2.2 q hr2
          | ok acc2 =>
            simp [hr2] at h
            subst h
            exact k2.1 acc2 hr2
      · simp only [hl, if_false, Option.some.injEq] at h
        subst h
        exact k1.1 acc1 hr

/-! ## The uniqueness filter -/

theorem foldl_uses_le (g : similarWyckPositions) (l : assignments) (acc : Nat) :
    l.foldl (fun n a => if a.choosablePositions = g then (n + a.numToChoose) % UINT_MOD
      else n) acc ≤
      acc + ((l.filter (fun a => decide (a.choosablePositions = g))).map
        (fun a => a.numToChoose)).sum := by
  induction l generalizing acc with
  | nil => simp
  | cons a l ih =>
    simp only [List.foldl_cons, List.filter_cons]
    by_cases h : a.choosablePositions = g
    · simp only [h, if_true, decide_True, List.map_cons, List.sum_cons]
      have h1 := ih ((acc + a.numToChoose) % UINT_MOD)
      have h2 : (acc + a.numToChoose) % UINT_MOD ≤ acc + a.numToChoose := Nat.mod_le _ _
      omega
    · simp only [h, if_false, decide_False]
      exact ih acc

theorem foldl_uses_eq (g : similarWyckPositions) (l : assignments) (acc : Nat)
    (h : acc + ((l.filter (fun a => decide (a.choosablePositions = g))).map
        (fun a => a.numToChoose)).sum < UINT_MOD) :
    l.foldl (fun n a => if a.choosablePositions = g then (n + a.numToChoose) % UINT_MOD
      else n) acc =
      acc + ((l.filter (fun a => decide (a.choosablePositions = g))).map
        (fun a => a.numToChoose)).sum := by
  induction l generalizing acc with
  | nil => simp
  | cons a l ih =>
    simp only [List.foldl_cons, List.filter_cons] at h ⊢
    by_cases hg : a.choosablePositions = g
    · simp only [hg, if_true, decide_True, List.map_cons, List.sum_cons] at h ⊢
      have h2 : (acc + a.numToChoose) % UINT_MOD = acc + a.numToChoose :=
        Nat.mod_eq_of_lt (by omega)
      rw [h2, ih (acc + a.numToChoose) (by omega)]
      omega
    · simp only [hg, if_false, decide_False] at h ⊢
      exact ih acc h

theorem numTimesAPositionIsUsed_le (p : singleAtomPossibility) (g : similarWyckPositions) :
    numTimesAPositionIsUsed p g ≤ usesOfGroup p g := by
  have := foldl_uses_le g p.assigns 0
  unfold numTimesAPositionIsUsed usesOfGroup
  omega

theorem numTimesAPositionIsUsed_eq (p : singleAtomPossibility) (g : similarWyckPositions)
    (h : usesOfGroup p g < UINT_MOD) : numTimesAPositionIsUsed p g = usesOfGroup p g := by
  have := foldl_uses_eq g p.assigns 0 (by unfold usesOfGroup at h; omega)
  unfold numTimesAPositionIsUsed usesOfGroup
  omega

theorem foldl_later_le (g : similarWyckPositions) (later : List singleAtomPossibility)
    (acc : Nat) :
    later.foldl (fun n p => (n + numTimesAPositionIsUsed p g) % UINT_MOD) acc ≤
      acc + totalUsesOfGroup later g := by
  induction later generalizing acc with
  | nil => simp [totalUsesOfGroup]
  | cons p later ih =>
    simp only [List.foldl_cons, totalUsesOfGroup, List.map_cons, List.sum_cons] at ih ⊢
    have h1 := ih ((acc + numTimesAPositionIsUsed p g) % UINT_MOD)
    have h2 : (acc + numTimesAPositionIsUsed p g) % UINT_MOD ≤
        acc + numTimesAPositionIsUsed p g := Nat.mod_le _ _
    have h3 := numTimesAPositionIsUsed_le p g
    omega

theorem foldl_later_eq (g : similarWyckPositions) (later : List singleAtomPossibility)
    (acc : Nat) (h : acc + totalUsesOfGroup later g < UINT_MOD) :
    later.foldl (fun n p => (n + numTimesAPositionIsUsed p g) % UINT_MOD) acc =
      acc + totalUsesOfGroup later g := by
  induction later generalizing acc with
  | nil => simp [totalUsesOfGroup]
  | cons p later ih =>
    simp only [List.foldl_cons, totalUsesOfGroup, List.map_cons, List.sum_cons] at ih h ⊢
    have h3 := numTimesAPositionIsUsed_eq p g (by omega)
    have h2 : (acc + numTimesAPositionIsUsed p g) % UINT_MOD =
        acc + numTimesAPositionIsUsed p g := Nat.mod_eq_of_lt (by omega)
    rw [h2, ih (acc + numTimesAPositionIsUsed p g) (by omega), h3]
    omega

theorem numTimesUsedWithLater_le (a : similarWyckPosAndNumToChoose)
    (later : List singleAtomPossibility) :
    numTimesUsedWithLater a later ≤
      a.numToChoose + totalUsesOfGroup later a.choosablePositions :=
  foldl_later_le a.choosablePositions later a.numToChoose

theorem numTimesUsedWithLater_eq (a : similarWyckPosAndNumToChoose)
    (later : List singleAtomPossibility)
    (h : a.numToChoose + totalUsesOfGroup later a.choosablePositions < UINT_MOD) :
    numTimesUsedWithLater a later =
      a.numToChoose + totalUsesOfGroup later a.choosablePositions :=
  foldl_later_eq a.choosablePositions later a.numToChoose h

theorem isUnique_eq_groupIsUnique (a : similarWyckPosAndNumToChoose) :
    similarWyckPosAndNumToChooseIsUnique a = groupIsUnique a.choosablePositions := by
  unfold similarWyckPosAndNumToChooseIsUnique groupIsUnique
  cases a.choosablePositions <;> rfl

theorem filter_eq_singleton_of_nodup (l : assignments) (a : similarWyckPosAndNumToChoose)
    (hn : (l.map (fun a => a.choosablePositions)).Nodup) (ha : a ∈ l) :
    l.filter (fun b => decide (b.choosablePositions = a.choosablePositions)) = [a] := by
  induction l with
  | nil => simp at ha
  | cons b l ih =>
    simp only [List.map_cons, List.nodup_cons, List.mem_map, not_exists, not_and] at hn
    rcases List.mem_cons.1 ha with h1 | h1
    · subst h1
      have : l.filter (fun b => decide (b.choosablePositions = a.choosablePositions)) = [] := by
        rw [List.filter_eq_nil_iff]
        intro c hc
        simpa using hn.1 c hc
      simp [List.filter_cons, this]
    · have hne : ¬ b.choosablePositions = a.choosablePositions := fun h => hn.1 a h1 h.symm
      simp only [List.filter_cons, hne, decide_False]
      exact ih hn.2 h1

theorem usesOfGroup_of_mem (p : singleAtomPossibility) (a : similarWyckPosAndNumToChoose)
    (hp : DistinctPicks p) (ha : a ∈ p.assigns) :
    usesOfGroup p a.choosablePositions = a.numToChoose := by
  unfold usesOfGroup
  rw [filter_eq_singleton_of_nodup p.assigns a hp ha]
  simp

theorem exists_pick_of_usesOfGroup_ne_zero (p : singleAtomPossibility)
    (g : similarWyckPositions) (h : usesOfGroup p g ≠ 0) :
    ∃ a ∈ p.assigns, a.choosablePositions = g := by
  by_contra hcon
  push_neg at hcon
  apply h
  unfold usesOfGroup
  have : p.assigns.filter (fun a => decide (a.choosablePositions = g)) = [] := by
    rw [List.filter_eq_nil_iff]
    intro c hc
    simpa using hcon c hc
  rw [this]
  rfl

theorem tooMany_cons_false (p : singleAtomPossibility) (later : List singleAtomPossibility)
    (h : tooManyOfAUniquePositionUsed (p :: later) = false) :
    moreUniquePositionsUsedThanAvailable p = false ∧
    (∀ a ∈ p.assigns, groupIsUnique a.choosablePositions = true →
      numTimesUsedWithLater a later ≤ a.choosablePositions.length) ∧
    tooManyOfAUniquePositionUsed later = false := by
  unfold tooManyOfAUniquePositionUsed at h
  simp only [Bool.or_eq_false_iff] at h
  obtain ⟨⟨h1, h2⟩, h3⟩ := h
  refine ⟨h1, ?_, h3⟩
  intro a ha hu
  rw [List.any_eq_false] at h2
  have := h2 a ha
  rw [isUnique_eq_groupIsUnique, hu] at this
  simpa using this

/-- From the filter to the budget: a system possibility that passes
`tooManyOfAUniquePositionUsed` uses a unique group at most once per letter, as long as the
total is small enough not to wrap around. -/
theorem total_le_of_not_tooMany (S : systemPossibility) (g : similarWyckPositions)
    (hd : ∀ p ∈ S, DistinctPicks p) (hu : groupIsUnique g = true)
    (h : tooManyOfAUniquePositionUsed S = false) (hlt : totalUsesOfGroup S g < UINT_MOD) :
    totalUsesOfGroup S g ≤ g.length := by
  induction S with
  | nil => simp [totalUsesOfGroup]
  | cons p later ih =>
    obtain ⟨-, h2, h3⟩ := tooMany_cons_false p later h
    have hsplit : totalUsesOfGroup (p :: later) g =
        usesOfGroup p g + totalUsesOfGroup later g := by
      simp [totalUsesOfGroup]
    rw [hsplit] at hlt ⊢
    have ih1 := ih (fun q hq => hd q (List.mem_cons_of_mem _ hq)) h3 (by omega)
    by_cases h0 : usesOfGroup p g = 0
    · omega
    · obtain ⟨a, ha, hag⟩ := exists_pick_of_usesOfGroup_ne_zero p g h0
      have hpa := usesOfGroup_of_mem p a (hd p (List.mem_cons_self _ _)) ha
      rw [hag] at hpa
      have hch := h2 a ha (hag ▸ hu)
      rw [numTimesUsedWithLater_eq a later (by rw [hag]; omega), hag] at hch
      omega

/-- From the budget to the filter: a system possibility whose picks of unique groups stay,
in total, within the letters of the group passes `tooManyOfAUniquePositionUsed`. -/
theorem not_tooMany_of_total_le (S : systemPossibility)
    (hd : ∀ p ∈ S, DistinctPicks p)
    (hb : ∀ p ∈ S, ∀ a ∈ p.assigns, groupIsUnique a.choosablePositions = true →
      a.choosablePositions.length < UINT_MOD ∧
      totalUsesOfGroup S a.choosablePositions ≤ a.choosablePositions.length) :
    tooManyOfAUniquePositionUsed S = false := by
  induction S with
  | nil => rfl
  | cons p later ih =>
    have hsplit : ∀ g, totalUsesOfGroup (p :: later) g =
        usesOfGroup p g + totalUsesOfGroup later g := by
      intro g
      simp [totalUsesOfGroup]
    unfold tooManyOfAUniquePositionUsed
    simp only [Bool.or_eq_false_iff]
    refine ⟨⟨?_, ?_⟩, ?_⟩
    · unfold moreUniquePositionsUsedThanAvailable
      rw [List.any_eq_false]
      intro a ha
      rw [isUnique_eq_groupIsUnique]
      by_cases hu : groupIsUnique a.choosablePositions = true
      · obtain ⟨h1, h2⟩ := hb p (List.mem_cons_self _ _) a ha hu
        rw [hsplit, usesOfGroup_of_mem p a (hd p (List.mem_cons_self _ _)) ha] at h2
        rw [Nat.mod_eq_of_lt h1]
        simp
        intro _
        omega
      · simp [hu]
    · rw [List.any_eq_false]
      intro a ha
      rw [isUnique_eq_groupIsUnique]
      by_cases hu : groupIsUnique a.choosablePositions = true
      · obtain ⟨h1, h2⟩ := hb p (List.mem_cons_self _ _) a ha hu
        rw [hsplit, usesOfGroup_of_mem p a (hd p (List.mem_cons_self _ _)) ha] at h2
        have := numTimesUsedWithLater_le a later
        simp
        intro _
        omega
      · simp [hu]
    · apply ih (fun q hq => hd q (List.mem_cons_of_mem _ hq))
      intro q hq a ha hu
      obtain ⟨h1, h2⟩ := hb q (List.mem_cons_of_mem _ hq) a ha hu
      rw [hsplit] at h2
      exact ⟨h1, by omega⟩

/-! ## The grouping of similar positions -/

theorem vecContains_iff {T : Type} [DecidableEq T] (vec : List T) (e : T) :
    vecContains vec e = true ↔ e ∈ vec := by
  unfold vecContains
  simp [List.any_eq_true]

theorem addSimilarPositions_spec (pos_i : wyckPos) (rest : List wyckPos) (used : List Char)
    (temp : similarWyckPositions)
    (hn : (temp.map (fun p => p.letter)).Nodup) (hsub : ∀ p ∈ temp, p.letter ∈ used) :
    ((addSimilarPositions pos_i rest used temp).1.map (fun p => p.letter)).Nodup ∧
    (∀ p ∈ (addSimilarPositions pos_i rest used temp).1,
      p.letter ∈ (addSimilarPositions pos_i rest used temp).2) ∧
    (∀ c ∈ used, c ∈ (addSimilarPositions pos_i rest used temp).2) ∧
    (∀ p ∈ (addSimilarPositions pos_i rest used temp).1, p ∈ temp ∨ p.letter ∉ used) ∧
    (∀ p ∈ temp, p ∈ (addSimilarPositions pos_i rest used temp).1) := by
  induction rest generalizing used temp with
  | nil =>
    simp only [addSimilarPositions]
    exact ⟨hn, hsub, fun c hc => hc, fun p hp => Or.inl hp, fun p hp => hp⟩
  | cons pos_j rest ih =>
    unfold addSimilarPositions
    by_cases hc : (wyckPositionsAreSimilar pos_i pos_j &&
        !vecContains used (SpgInit.getWyckLet pos_j)) = true
    · simp only [hc, if_true]
      have hnot : pos_j.letter ∉ used := by
        simp only [Bool.and_eq_true, Bool.not_eq_true', SpgInit.getWyckLet] at hc
        intro hmem
        have := (vecContains_iff used pos_j.letter).2 hmem
        rw [hc.2] at this
        exact Bool.noConfusion this
      have hn1 : ((temp ++ [pos_j]).map (fun p => p.letter)).Nodup := by
        rw [List.map_append, List.nodup_append]
        refine ⟨hn, by simp, ?_⟩
        intro c hc1 hc2
        simp only [List.map_cons, List.map_nil, List.mem_singleton] at hc2
        subst hc2
        simp only [List.mem_map] at hc1
        obtain ⟨p, hp, hpl⟩ := hc1
        exact hnot (hpl ▸ hsub p hp)
      have hsub1 : ∀ p ∈ temp ++ [pos_j], p.letter ∈ used ++ [SpgInit.getWyckLet pos_j] := by
        intro p hp
        rcases List.mem_append.1 hp with h1 | h1
        · exact List.mem_append_left _ (hsub p h1)
        · simp only [List.mem_singleton] at h1
          subst h1
          simp [SpgInit.getWyckLet]
      obtain ⟨a, b, c, d, e⟩ := ih (used ++ [SpgInit.getWyckLet pos_j]) (temp ++ [pos_j])
        hn1 hsub1
      refine ⟨a, b, fun x hx => c x (List.mem_append_left _ hx), ?_,
        fun p hp => e p (List.mem_append_left _ hp)⟩
      intro p hp
      rcases d p hp with h1 | h1
      · rcases List.mem_append.1 h1 with h2 | h2
        · exact Or.inl h2
        · simp only [List.mem_singleton] at h2
          subst h2
          exact Or.inr hnot
      · exact Or.inr (fun hx => h1 (List.mem_append_left _ hx))
    · simp only [hc]
      exact ih used temp hn hsub

/-- The groups of `groupSimilarWyckPositions` are non-empty, have pairwise different letters
inside, and share no letter with one another nor with the letters used before. -/
theorem groupSimilarLoop_spec (rest : List wyckPos) (used : List Char) :
    (∀ g ∈ groupSimilarLoop rest used,
      g ≠ [] ∧ (g.map (fun p => p.letter)).Nodup ∧ ∀ p ∈ g, p.letter ∉ used) ∧
    (groupSimilarLoop rest used).Pairwise
      (fun g h => ∀ p ∈ g, ∀ q ∈ h, p.letter ≠ q.letter) := by
  induction rest generalizing used with
  | nil => simp [groupSimilarLoop]
  | cons pos_i rest ih =>
    unfold groupSimilarLoop
    by_cases hc : (!vecContains used (SpgInit.getWyckLet pos_i)) = true
    · simp only [hc, if_true]
      have hnot : pos_i.letter ∉ used := by
        simp only [Bool.not_eq_true', SpgInit.getWyckLet] at hc
        intro hmem
        have := (vecContains_iff used pos_i.letter).2 hmem
        rw [hc] at this
        exact Bool.noConfusion this
      obtain ⟨a, b, c, d, e⟩ := addSimilarPositions_spec pos_i rest
        (used ++ [SpgInit.getWyckLet pos_i]) [pos_i] (by simp)
        (by intro p hp; simp only [List.mem_singleton] at hp; subst hp
            simp [SpgInit.getWyckLet])
      obtain ⟨ih1, ih2⟩ := ih (addSimilarPositions pos_i rest
        (used ++ [SpgInit.getWyckLet pos_i]) [pos_i]).2
      constructor
      · intro g hg
        rcases List.mem_cons.1 hg with h1 | h1
        · subst h1
          refine ⟨?_, a, ?_⟩
          · intro hnil
            have := e pos_i (by simp)
            rw [hnil] at this
            simp at this
          · intro p hp
            rcases d p hp with h2 | h2
            · simp only [List.mem_singleton] at h2
              subst h2
              exact hnot
            · exact fun hx => h2 (List.mem_append_left _ hx)
        · obtain ⟨x, y, w⟩ := ih1 g h1
          exact ⟨x, y, fun p hp hx => w p hp (c _ (List.mem_append_left _ hx))⟩
      · rw [List.pairwise_cons]
        refine ⟨?_, ih2⟩
        intro h hh p hp q hq heq
        exact (ih1 h hh).2.2 q hq (heq ▸ b p hp)
    · simp only [hc]
      exact ih used

theorem groups_ne_nil (wyckVec : wyckoffPositions) :
    ∀ g ∈ groupSimilarWyckPositions wyckVec, g ≠ [] :=
  fun g hg => ((groupSimilarLoop_spec wyckVec []).1 g hg).1

theorem groups_letters_nodup (wyckVec : wyckoffPositions) :
    ∀ g ∈ groupSimilarWyckPositions wyckVec, (g.map (fun p => p.letter)).Nodup :=
  fun g hg => ((groupSimilarLoop_spec wyckVec []).1 g hg).2.1

theorem groups_nodup (wyckVec : wyckoffPositions) :
    (groupSimilarWyckPositions wyckVec).Nodup := by
  have h := groupSimilarLoop_spec wyckVec []
  unfold groupSimilarWyckPositions
  refine List.Pairwise.imp_of_mem ?_ h.2
  intro g k hg _ hgk heq
  subst heq
  have hne := (h.1 g hg).1
  cases g with
  | nil => exact hne rfl
  | cons p g => exact hgk p (by simp) p (by simp) rfl

theorem char_toNat_injective : Function.Injective Char.toNat := by
  intro a b h
  apply Char.ext
  apply UInt32.ext
  exact h

theorem char_toNat_lt (c : Char) : c.toNat < 1114112 := by
  have := c.valid
  unfold UInt32.isValidChar Nat.isValidChar at this
  unfold Char.toNat
  omega

theorem length_le_of_nodup_chars (l : List Char) (h : l.Nodup) : l.length ≤ 1114112 := by
  have h1 : (l.map Char.toNat).Nodup := h.map char_toNat_injective
  have h2 : ∀ n ∈ l.map Char.toNat, n ∈ List.range 1114112 := by
    intro n hn
    simp only [List.mem_map] at hn
    obtain ⟨c, -, rfl⟩ := hn
    exact List.mem_range.2 (char_toNat_lt c)
  have h3 := (List.subperm_of_subset h1 h2).length_le
  simpa using h3

theorem groups_length_lt (wyckVec : wyckoffPositions) :
    ∀ g ∈ groupSimilarWyckPositions wyckVec, g.length ≤ 1114112 := by
  intro g hg
  have := length_le_of_nodup_chars _ (groups_letters_nodup wyckVec g hg)
  simpa using this

/-! ## Joining and the loop over the species -/

theorem mem_joinSingleWithSystem (sa : singleAtomPossibilities) (sys : systemPossibilities)
    (S : systemPossibility) (h : S ∈ joinSingleWithSystem sa sys) :
    (sys = [] ∧ ∃ p ∈ sa, S = [p]) ∨
    (∃ S0 ∈ sys, ∃ p ∈ sa, S = S0 ++ [p] ∧ tooManyOfAUniquePositionUsed (S0 ++ [p]) = false) := by
  unfold joinSingleWithSystem at h
  by_cases h0 : sys.length = 0
  · simp only [h0, if_true, List.mem_map] at h
    obtain ⟨p, hp, rfl⟩ := h
    exact Or.inl ⟨List.length_eq_zero.1 h0, p, hp, rfl⟩
  · simp only [h0, if_false, List.mem_flatMap, List.mem_filterMap] at h
    obtain ⟨S0, hS0, p, hp, hS⟩ := h
    right
    by_cases ht : tooManyOfAUniquePositionUsed (S0 ++ [p]) = true
    · simp [ht] at hS
    · simp only [Bool.not_eq_true] at ht
      simp only [ht, Bool.not_false, if_true, Option.some.injEq] at hS
      exact ⟨S0, hS0, p, hp, hS.symm, ht⟩

theorem joinSingleWithSystem_nil (sa : singleAtomPossibilities) (p : singleAtomPossibility)
    (hp : p ∈ sa) : [p] ∈ joinSingleWithSystem sa [] := by
  unfold joinSingleWithSystem
  simp only [List.length_nil, if_true, List.mem_map]
  exact ⟨p, hp, rfl⟩

theorem joinSingleWithSystem_mem (sa : singleAtomPossibilities) (sys : systemPossibilities)
    (S0 : systemPossibility) (p : singleAtomPossibility) (hS0 : S0 ∈ sys) (hp : p ∈ sa)
    (ht : tooManyOfAUniquePositionUsed (S0 ++ [p]) = false) :
    S0 ++ [p] ∈ joinSingleWithSystem sa sys := by
  unfold joinSingleWithSystem
  have h0 : ¬ sys.length = 0 := by
    intro h
    rw [List.length_eq_zero.1 h] at hS0
    simp at hS0
  simp only [h0, if_false, List.mem_flatMap, List.mem_filterMap]
  exact ⟨S0, hS0, p, hp, by simp [ht]⟩

/-- The possibilities found for one species in `getSystemPossibilities`, in both modes, are
possibilities of the solver for that species. -/
theorem found_solverSap (fuel : Nat) (wyckVec : wyckoffPositions) (f1 f2 : Bool)
    (nt : numAndType) (last : Bool) (hN : nt.1 < UINT_MOD) (sa : singleAtomPossibilities)
    (h : (if f1 = true then
        findOnlyOneCombinationIfPossible fuel [] (createUsageTracker wyckVec) nt.2
          ⟨nt.1, f1, f2⟩ last
      else
        match findAllCombinations fuel [] (createUsageTracker wyckVec) nt.2 ⟨nt.1, f1, f2⟩ with
        | some (.ok v) => some v
        | _ => none) = some sa) :
    ∀ p ∈ sa, SolverSap (groupSimilarWyckPositions wyckVec) nt.2 nt.1 p := by
  cases f1 with
  | true =>
    simp only [if_true] at h
    exact findOnlyOneCombinationIfPossible_fresh fuel wyckVec nt.2 ⟨nt.1, true, f2⟩ last hN sa h
  | false =>
    simp only [Bool.false_eq_true, if_false] at h
    have k := findAllCombinations_fresh fuel wyckVec nt.2 ⟨nt.1, false, f2⟩ hN
    cases hr : findAllCombinations fuel [] (createUsageTracker wyckVec) nt.2
        ⟨nt.1, false, f2⟩ with
    | none => simp [hr] at h
    | some r =>
      cases r with
      | error q => simp [hr] at h
      | ok v =>
        simp [hr] at h
        subst h
        exact k.1 v hr

theorem systemPossibilitiesLoop_invariant (fuel : Nat) (wyckVec : wyckoffPositions)
    (f1 f2 : Bool) (Inv : systemPossibilities → Prop) (hnil : Inv []) :
    ∀ (rest : List numAndType) (sys : systemPossibilities),
      (∀ nt ∈ rest, nt.1 < UINT_MOD) →
      (∀ nt ∈ rest, ∀ sa sys1,
        (∀ p ∈ sa, SolverSap (groupSimilarWyckPositions wyckVec) nt.2 nt.1 p) →
        Inv sys1 → Inv (joinSingleWithSystem sa sys1)) →
      Inv sys →
      ∀ out, SpgInitCombinatorics.systemPossibilitiesLoop fuel wyckVec f1 f2 rest sys =
        some out → Inv out := by
  intro rest
  induction rest with
  | nil =>
    intro sys _ _ hI out h
    simp [SpgInitCombinatorics.systemPossibilitiesLoop] at h
    exact h ▸ hI
  | cons nt rest ih =>
    intro sys hlt hstep hI out h
    unfold SpgInitCombinatorics.systemPossibilitiesLoop at h
    simp only [] at h
    split at h
    · exact absurd h (by simp)
    · rename_i sa hsa
      have hsap := found_solverSap fuel wyckVec f1 f2 nt rest.isEmpty
        (hlt nt (List.mem_cons_self _ _)) sa hsa
      by_cases hl : sa.length = 0
      · simp only [hl, if_true, Option.some.injEq] at h
        exact h ▸ hnil
      · simp only [hl, if_false] at h
        exact ih (joinSingleWithSystem sa sys)
          (fun n hn => hlt n (List.mem_cons_of_mem _ hn))
          (fun n hn => hstep n (List.mem_cons_of_mem _ hn))
          (hstep nt (List.mem_cons_self _ _) sa sys hsap hI) out h

/-! ## Counting the species -/

theorem mem_countEachType (atoms : List Nat) (rest already : List Nat)
    (acc : List numAndType) (nt : numAndType)
    (h : nt ∈ SpgInit.countEachType atoms rest already acc) :
    nt ∈ acc ∨ (nt.2 ∈ rest ∧ nt.1 = atoms.count nt.2 % UINT_MOD) := by
  induction rest generalizing already acc with
  | nil =>
    simp only [SpgInit.countEachType] at h
    exact Or.inl h
  | cons a rest ih =>
    unfold SpgInit.countEachType at h
    by_cases ha : a ∈ already
    · simp only [ha, if_true] at h
      rcases ih already acc h with h1 | h1
      · exact Or.inl h1
      · exact Or.inr ⟨List.mem_cons_of_mem _ h1.1, h1.2⟩
    · simp only [ha, if_false] at h
      rcases ih _ _ h with h1 | h1
      · rcases List.mem_append.1 h1 with h2 | h2
        · exact Or.inl h2
        · simp only [List.mem_singleton] at h2
          subst h2
          exact Or.inr ⟨List.mem_cons_self _ _, rfl⟩
      · exact Or.inr ⟨List.mem_cons_of_mem _ h1.1, h1.2⟩

theorem mem_getNumOfEachType (atoms : List Nat) (nt : numAndType)
    (h : nt ∈ SpgInit.getNumOfEachType atoms) :
    nt.2 ∈ atoms ∧ nt.1 = atoms.count nt.2 % UINT_MOD := by
  unfold SpgInit.getNumOfEachType SpgInit.sortGreaterThan at h
  rw [(List.perm_insertionSort _ _).mem_iff] at h
  rcases mem_countEachType atoms atoms [] [] nt h with h1 | h1
  · simp at h1
  · exact h1

theorem getNumOfEachType_lt (atoms : List Nat) :
    ∀ nt ∈ SpgInit.getNumOfEachType atoms, nt.1 < UINT_MOD := by
  intro nt h
  rw [(mem_getNumOfEachType atoms nt h).2]
  exact Nat.mod_lt _ (by unfold UINT_MOD; omega)

/-! ## Conservation and the uniqueness budget -/

theorem distinctPicks_of_niceSap (wyckVec : wyckoffPositions) (p : singleAtomPossibility)
    (h : NiceSap (groupSimilarWyckPositions wyckVec) p) : DistinctPicks p :=
  (groups_nodup wyckVec).sublist h.1

theorem totalUsesOfGroup_append (S : systemPossibility) (p : singleAtomPossibility)
    (g : similarWyckPositions) :
    totalUsesOfGroup (S ++ [p]) g = totalUsesOfGroup S g + usesOfGroup p g := by
  simp [totalUsesOfGroup]

theorem usesOfGroup_le_of_niceSap (wyckVec : wyckoffPositions) (p : singleAtomPossibility)
    (g : similarWyckPositions) (h : NiceSap (groupSimilarWyckPositions wyckVec) p)
    (hu : groupIsUnique g = true) :
    usesOfGroup p g ≤ g.length ∧ (usesOfGroup p g ≠ 0 → g.length ≤ 1114112) := by
  by_cases h0 : usesOfGroup p g = 0
  · exact ⟨by omega, fun hne => absurd h0 hne⟩
  · obtain ⟨a, ha, hag⟩ := exists_pick_of_usesOfGroup_ne_zero p g h0
    have hpa := usesOfGroup_of_mem p a (distinctPicks_of_niceSap wyckVec p h) ha
    rw [hag] at hpa
    have hle := (h.2 a ha).2 (hag ▸ hu)
    rw [hag] at hle
    have hmem : g ∈ groupSimilarWyckPositions wyckVec := by
      apply h.1.subset
      simp only [List.mem_map]
      exact ⟨a, ha, hag⟩
    exact ⟨by omega, fun _ => groups_length_lt wyckVec g hmem⟩

theorem budget_step (wyckVec : wyckoffPositions) (sa : singleAtomPossibilities)
    (sys : systemPossibilities)
    (hsa : ∀ p ∈ sa, NiceSap (groupSimilarWyckPositions wyckVec) p)
    (hI : ∀ S ∈ sys, (∀ p ∈ S, NiceSap (groupSimilarWyckPositions wyckVec) p) ∧
      ∀ g, groupIsUnique g = true → totalUsesOfGroup S g ≤ g.length) :
    ∀ S ∈ joinSingleWithSystem sa sys,
      (∀ p ∈ S, NiceSap (groupSimilarWyckPositions wyckVec) p) ∧
      ∀ g, groupIsUnique g = true → totalUsesOfGroup S g ≤ g.length := by
  intro S hS
  rcases mem_joinSingleWithSystem sa sys S hS with ⟨-, p, hp, rfl⟩ | ⟨S0, hS0, p, hp, rfl, ht⟩
  · constructor
    · intro q hq
      simp only [List.mem_singleton] at hq
      exact hq ▸ hsa p hp
    · intro g hu
      have := (usesOfGroup_le_of_niceSap wyckVec p g (hsa p hp) hu).1
      simpa [totalUsesOfGroup] using this
  · obtain ⟨hn0, hb0⟩ := hI S0 hS0
    have hnice : ∀ q ∈ S0 ++ [p], NiceSap (groupSimilarWyckPositions wyckVec) q := by
      intro q hq
      rcases List.mem_append.1 hq with h1 | h1
      · exact hn0 q h1
      · simp only [List.mem_singleton] at h1
        exact h1 ▸ hsa p hp
    refine ⟨hnice, ?_⟩
    intro g hu
    obtain ⟨h1, h2⟩ := usesOfGroup_le_of_niceSap wyckVec p g (hsa p hp) hu
    have h3 := hb0 g hu
    by_cases h0 : usesOfGroup p g = 0
    · rw [totalUsesOfGroup_append]
      omega
    · apply total_le_of_not_tooMany (S0 ++ [p]) g
        (fun q hq => distinctPicks_of_niceSap wyckVec q (hnice q hq)) hu ht
      rw [totalUsesOfGroup_append]
      have := h2 h0
      unfold UINT_MOD
      omega

/-! ## Termination of the solver -/

theorem findAllCombinations_succ_useBranch (fuel : Nat) (acc : singleAtomPossibilities)
    (T : usageTracker) (z : Nat) (sets : combinationSettings) :
    findAllCombinations (fuel + 1) acc T z sets =
      if sets.numAtoms = 0 then some (.ok acc)
      else
        match getFirstAvailableIndex T with
        | none => some (.ok acc)
        | some i =>
          match T[i]? with
          | none => none
          | some info =>
            match useBranch fuel acc T i info z sets with
            | none => none
            | some (.error p) => some (.error p)
            | some (.ok acc1) =>
              findAllCombinations fuel acc1 (skipEntry T i info) z sets := by
  rfl

theorem sum_map_set (f : WyckPosTrackingInfo → Nat) (T : usageTracker) (i : Nat)
    (info info1 : WyckPosTrackingInfo) (h : T[i]? = some info) :
    ((T.set i info1).map f).sum + f info = (T.map f).sum + f info1 := by
  induction T generalizing i with
  | nil => simp at h
  | cons t T ih =>
    cases i with
    | zero =>
      simp at h
      subst h
      simp
      omega
    | succ i =>
      simp at h
      have := ih i h
      simp at this ⊢
      omega

theorem keepCount_useEntry (T : usageTracker) (i : Nat) (info : WyckPosTrackingInfo)
    (h : T[i]? = some info) : keepCount (useEntry T i info) = keepCount T := by
  have := sum_map_set (fun t => if t.keepUsing then 1 else 0) T i info
    { info with numTimesUsed := (info.numTimesUsed + 1) % UINT_MOD } h
  unfold keepCount useEntry
  simp only [] at this
  omega

theorem keepCount_skipEntry (T : usageTracker) (i : Nat) (info : WyckPosTrackingInfo)
    (h : T[i]? = some info) (hk : info.keepUsing = true) :
    keepCount (skipEntry T i info) + 1 = keepCount T := by
  have := sum_map_set (fun t => if t.keepUsing then 1 else 0) T i info
    { info with keepUsing := false } h
  unfold keepCount skipEntry
  simp only [hk, if_true] at this
  simp only [Bool.false_eq_true, if_false] at this
  omega

theorem mul_succ_mod (m n : Nat) :
    (m * ((n + 1) % UINT_MOD)) % UINT_MOD = (m * n + m) % UINT_MOD := by
  rw [Nat.mul_mod, Nat.mod_mod, ← Nat.mul_mod]
  congr 1

/-- Using an entry that is usable takes exactly its multiplicity from the atoms left, also
in the wrapping arithmetic of the source. -/
theorem getNumAtomsLeft_useEntry (T : usageTracker) (N : Nat) (i : Nat)
    (info : WyckPosTrackingInfo) (h : T[i]? = some info)
    (hm : info.multiplicity ≤ getNumAtomsLeft T N) :
    getNumAtomsLeft (useEntry T i info) N = getNumAtomsLeft T N - info.multiplicity := by
  have h1 := usedSum_set T i info
    { info with numTimesUsed := (info.numTimesUsed + 1) % UINT_MOD } h
  have h2 := mul_succ_mod info.multiplicity info.numTimesUsed
  simp only [] at h1
  unfold getNumAtomsLeft at hm ⊢
  simp only [getNumAtomsUsed_eq] at hm ⊢
  unfold useEntry
  generalize usedSum (T.set i { info with numTimesUsed := (info.numTimesUsed + 1) % UINT_MOD })
    = U1 at h1 ⊢
  generalize usedSum T = U at h1 hm ⊢
  generalize info.multiplicity * ((info.numTimesUsed + 1) % UINT_MOD) = b at h1 h2
  generalize info.multiplicity * info.numTimesUsed = a at h1 h2
  unfold UINT_MOD at *
  omega

theorem getNumAtomsLeft_skipEntry (T : usageTracker) (N : Nat) (i : Nat)
    (info : WyckPosTrackingInfo) (h : T[i]? = some info) :
    getNumAtomsLeft (skipEntry T i info) N = getNumAtomsLeft T N := by
  unfold getNumAtomsLeft
  rw [getNumAtomsUsed_eq, getNumAtomsUsed_eq, usedSum_skipEntry T i info h]

theorem multiplicity_useEntry (T : usageTracker) (i : Nat) (info : WyckPosTrackingInfo)
    (h : T[i]? = some info) (hT : ∀ t ∈ T, 1 ≤ t.multiplicity) :
    ∀ t ∈ useEntry T i info, 1 ≤ t.multiplicity := by
  intro t ht
  rcases List.mem_or_eq_of_mem_set ht with h1 | h1
  · exact hT t h1
  · subst h1
    exact hT info (mem_of_getElem?_eq_some T i info h)

theorem multiplicity_skipEntry (T : usageTracker) (i : Nat) (info : WyckPosTrackingInfo)
    (h : T[i]? = some info) (hT : ∀ t ∈ T, 1 ≤ t.multiplicity) :
    ∀ t ∈ skipEntry T i info, 1 ≤ t.multiplicity := by
  intro t ht
  rcases List.mem_or_eq_of_mem_set ht with h1 | h1
  · exact hT t h1
  · subst h1
    exact hT info (mem_of_getElem?_eq_some T i info h)

/-- With every multiplicity at least 1 the recursion of `findAllCombinations` ends: fuel
beyond the number of entries in use plus the atoms left is never exhausted. In the mode
`findOnlyOne = false` it returns normally. -/
theorem findAllCombinations_terminates (z : Nat) (sets : combinationSettings)
    (hone : sets.findOnlyOne = false) :
    ∀ (fuel : Nat) (acc : singleAtomPossibilities) (T : usageTracker),
      (∀ t ∈ T, 1 ≤ t.multiplicity) →
      keepCount T + getNumAtomsLeft T sets.numAtoms + 1 ≤ fuel →
      ∃ out, findAllCombinations fuel acc T z sets = some (.ok out) := by
  intro fuel
  induction fuel with
  | zero =>
    intro acc T _ hf
    omega
  | succ fuel ih =>
    intro acc T hT hf
    rw [findAllCombinations_succ_useBranch]
    by_cases h0 : sets.numAtoms = 0
    · simp only [h0, if_true]
      exact ⟨acc, rfl⟩
    · simp only [h0, if_false]
      cases hidx : getFirstAvailableIndex T with
      | none => exact ⟨acc, rfl⟩
      | some i =>
        obtain ⟨info, hinfo, hk⟩ := getFirstAvailableIndex_some T i hidx
        simp only [hinfo]
        have hkc := keepCount_skipEntry T i info hinfo hk
        have hls := getNumAtomsLeft_skipEntry T sets.numAtoms i info hinfo
        have hskip : ∀ acc1, ∃ out,
            findAllCombinations fuel acc1 (skipEntry T i info) z sets = some (.ok out) :=
          fun acc1 => ih acc1 (skipEntry T i info) (multiplicity_skipEntry T i info hinfo hT)
            (by omega)
        have huse : ∃ acc1, useBranch fuel acc T i info z sets = some (.ok acc1) := by
          unfold useBranch
          by_cases hus : positionIsUsable info (getNumAtomsLeft T sets.numAtoms)
              sets.findOnlyNonUnique = true
          · simp only [hus, if_true]
            by_cases hl : getNumAtomsLeft (useEntry T i info) sets.numAtoms = 0
            · simp only [hl, if_true, hone, Bool.false_eq_true, if_false]
              exact ⟨_, rfl⟩
            · simp only [hl, if_false]
              have hm := (positionIsUsable_true _ _ _ hus).1
              have hlu := getNumAtomsLeft_useEntry T sets.numAtoms i info hinfo hm
              have hm1 := hT info (mem_of_getElem?_eq_some T i info hinfo)
              have hku := keepCount_useEntry T i info hinfo
              exact ih acc (useEntry T i info) (multiplicity_useEntry T i info hinfo hT)
                (by omega)
          · simp only [hus]
            exact ⟨acc, rfl⟩
        obtain ⟨acc1, hacc1⟩ := huse
        simp only [hacc1]
        exact hskip acc1

/-- The possibilities already in `appendVec` stay in front of the result. -/
theorem findAllCombinations_extends (fuel : Nat) (acc out : singleAtomPossibilities)
    (T : usageTracker) (z : Nat) (sets : combinationSettings)
    (h : findAllCombinations fuel acc T z sets = some (.ok out)) :
    ∃ new, out = acc ++ new := by
  obtain ⟨new, hnew, -⟩ := (findAllCombinations_invariant (fun _ => True) z sets
    (fun _ _ _ _ _ _ _ => trivial) (fun _ _ _ _ _ _ => trivial) fuel acc T trivial).1 out h
  exact ⟨new, hnew⟩

/-! ## Completeness of the solver -/

theorem useBranch_terminates (fuel : Nat) (acc : singleAtomPossibilities) (T : usageTracker)
    (i : Nat) (info : WyckPosTrackingInfo) (z : Nat) (sets : combinationSettings)
    (hone : sets.findOnlyOne = false) (hinfo : T[i]? = some info)
    (hT : ∀ t ∈ T, 1 ≤ t.multiplicity)
    (hf : keepCount T + getNumAtomsLeft T sets.numAtoms ≤ fuel) :
    ∃ acc1, useBranch fuel acc T i info z sets = some (.ok acc1) := by
  unfold useBranch
  by_cases hus : positionIsUsable info (getNumAtomsLeft T sets.numAtoms)
      sets.findOnlyNonUnique = true
  · simp only [hus, if_true]
    by_cases hl : getNumAtomsLeft (useEntry T i info) sets.numAtoms = 0
    · simp only [hl, if_true, hone, Bool.false_eq_true, if_false]
      exact ⟨_, rfl⟩
    · simp only [hl, if_false]
      have hm := (positionIsUsable_true _ _ _ hus).1
      have hlu := getNumAtomsLeft_useEntry T sets.numAtoms i info hinfo hm
      have hm1 := hT info (mem_of_getElem?_eq_some T i info hinfo)
      have hku := keepCount_useEntry T i info hinfo
      exact findAllCombinations_terminates z sets hone fuel acc (useEntry T i info)
        (multiplicity_useEntry T i info hinfo hT) (by omega)
  · simp only [hus]
    exact ⟨acc, rfl⟩

theorem usedSum_le_targetSum (T : usageTracker) (f : similarWyckPositions → Nat)
    (h : ∀ t ∈ T, t.numTimesUsed ≤ f t.positions) : usedSum T ≤ targetSum T f := by
  induction T with
  | nil => simp [usedSum, targetSum]
  | cons t T ih =>
    have h1 := ih (fun u hu => h u (List.mem_cons_of_mem _ hu))
    have h2 := Nat.mul_le_mul_left t.multiplicity (h t (List.mem_cons_self _ _))
    unfold usedSum targetSum at *
    simp only [List.map_cons, List.sum_cons]
    omega

theorem eq_of_usedSum_eq_targetSum (T : usageTracker) (f : similarWyckPositions → Nat)
    (h : ∀ t ∈ T, 1 ≤ t.multiplicity ∧ t.numTimesUsed ≤ f t.positions)
    (hs : usedSum T = targetSum T f) : ∀ t ∈ T, t.numTimesUsed = f t.positions := by
  induction T with
  | nil => simp
  | cons t T ih =>
    have hT := fun u hu => h u (List.mem_cons_of_mem _ hu)
    have h1 := usedSum_le_targetSum T f (fun u hu => (hT u hu).2)
    obtain ⟨hm, hn⟩ := h t (List.mem_cons_self _ _)
    have h2 := Nat.mul_le_mul_left t.multiplicity hn
    have hsplit : usedSum (t :: T) = t.multiplicity * t.numTimesUsed + usedSum T := by
      simp [usedSum]
    have hsplit2 : targetSum (t :: T) f = t.multiplicity * f t.positions + targetSum T f := by
      simp [targetSum]
    rw [hsplit, hsplit2] at hs
    intro u hu
    rcases List.mem_cons.1 hu with h3 | h3
    · subst h3
      have : u.multiplicity * u.numTimesUsed = u.multiplicity * f u.positions := by omega
      exact Nat.eq_of_mul_eq_mul_left (by omega) this
    · exact ih hT (by omega) u h3

theorem exists_lt_of_usedSum_lt (T : usageTracker) (f : similarWyckPositions → Nat)
    (hs : usedSum T < targetSum T f) : ∃ t ∈ T, t.numTimesUsed < f t.positions := by
  by_contra hcon
  push_neg at hcon
  have : targetSum T f ≤ usedSum T := by
    clear hs
    induction T with
    | nil => simp [usedSum, targetSum]
    | cons t T ih =>
      have h1 := ih (fun u hu => hcon u (List.mem_cons_of_mem _ hu))
      have h2 := Nat.mul_le_mul_left t.multiplicity (hcon t (List.mem_cons_self _ _))
      unfold usedSum targetSum at *
      simp only [List.map_cons, List.sum_cons]
      omega
  omega

theorem mul_le_targetSum (T : usageTracker) (f : similarWyckPositions → Nat)
    (t : WyckPosTrackingInfo) (ht : t ∈ T) :
    t.multiplicity * f t.positions ≤ targetSum T f := by
  induction T with
  | nil => simp at ht
  | cons u T ih =>
    have hsplit : targetSum (u :: T) f = u.multiplicity * f u.positions + targetSum T f := by
      simp [targetSum]
    rw [hsplit]
    rcases List.mem_cons.1 ht with h | h
    · subst h
      omega
    · have := ih h
      omega

theorem convertToPossibility_eq_encodeSingle (T : usageTracker) (z : Nat)
    (n : Nat → similarWyckPositions → Nat)
    (h : ∀ t ∈ T, t.numTimesUsed = n z t.positions) :
    convertToPossibility T z = encodeSingle (T.map (fun t => t.positions)) z n := by
  unfold convertToPossibility encodeSingle
  congr 1
  induction T with
  | nil => rfl
  | cons t T ih =>
    have ht := h t (List.mem_cons_self _ _)
    have ih1 := ih (fun u hu => h u (List.mem_cons_of_mem _ hu))
    simp only [WyckPosTrackingInfo.getPositions] at ih1 ⊢
    simp only [List.filterMap_cons, List.map_cons, ht, ih1]

theorem targetSum_set (T : usageTracker) (f : similarWyckPositions → Nat) (i : Nat)
    (info info1 : WyckPosTrackingInfo) (h : T[i]? = some info)
    (hm : info1.multiplicity = info.multiplicity) (hp : info1.positions = info.positions) :
    targetSum (T.set i info1) f = targetSum T f := by
  unfold targetSum
  rw [map_set_of_eq _ T i info info1 h (by simp only [hm, hp])]

theorem compInv_skipEntry (groups : List similarWyckPositions) (N : Nat)
    (f : similarWyckPositions → Nat) (T : usageTracker) (i : Nat) (info : WyckPosTrackingInfo)
    (hC : CompInv groups N f T) (hinfo : T[i]? = some info)
    (heq : info.numTimesUsed = f info.positions) :
    CompInv groups N f (skipEntry T i info) := by
  obtain ⟨hg, hall, hts, hN⟩ := hC
  have hmem := mem_of_getElem?_eq_some T i info hinfo
  refine ⟨?_, ?_, ?_, hN⟩
  · rw [← hg]
    exact map_set_of_eq _ T i info _ hinfo rfl
  · intro t ht
    rcases List.mem_or_eq_of_mem_set ht with h1 | h1
    · exact hall t h1
    · subst h1
      obtain ⟨a, b, -, d⟩ := hall info hmem
      exact ⟨a, b, fun _ => heq, d⟩
  · rw [← hts]
    exact targetSum_set T f i info _ hinfo rfl rfl

theorem compInv_useEntry (groups : List similarWyckPositions) (N : Nat)
    (f : similarWyckPositions → Nat) (T : usageTracker) (i : Nat) (info : WyckPosTrackingInfo)
    (hC : CompInv groups N f T) (hinfo : T[i]? = some info) (hk : info.keepUsing = true)
    (hlt : info.numTimesUsed < f info.positions) :
    CompInv groups N f (useEntry T i info) ∧
      usedSum (useEntry T i info) = usedSum T + info.multiplicity := by
  obtain ⟨hg, hall, hts, hN⟩ := hC
  have hmem := mem_of_getElem?_eq_some T i info hinfo
  obtain ⟨hm1, -, -, huq⟩ := hall info hmem
  have hfM : f info.positions < UINT_MOD := by
    have h1 := mul_le_targetSum T f info hmem
    have h2 : f info.positions ≤ info.multiplicity * f info.positions :=
      Nat.le_mul_of_pos_left _ (by omega)
    omega
  have hmod : (info.numTimesUsed + 1) % UINT_MOD = info.numTimesUsed + 1 :=
    Nat.mod_eq_of_lt (by omega)
  constructor
  · refine ⟨?_, ?_, ?_, hN⟩
    · rw [← hg]
      exact map_set_of_eq _ T i info _ hinfo rfl
    · intro t ht
      rcases List.mem_or_eq_of_mem_set ht with h1 | h1
      · exact hall t h1
      · subst h1
        simp only [hmod]
        refine ⟨hm1, by omega, ?_, huq⟩
        intro hcon
        rw [hk] at hcon
        exact Bool.noConfusion hcon
    · rw [← hts]
      exact targetSum_set T f i info _ hinfo rfl rfl
  · have h1 := usedSum_set T i info
      { info with numTimesUsed := (info.numTimesUsed + 1) % UINT_MOD } hinfo
    simp only [hmod, Nat.mul_succ] at h1
    unfold useEntry
    simp only [hmod]
    omega

/-- Completeness of the full search: from a tracker that can still reach the use counts
`n z`, which place exactly `N` atoms, `findAllCombinations` (with both flags off and enough
fuel) returns a list that contains the encoding of `n z`. -/
theorem findAllCombinations_complete (z N : Nat) (n : Nat → similarWyckPositions → Nat)
    (groups : List similarWyckPositions) :
    ∀ (fuel : Nat) (acc : singleAtomPossibilities) (T : usageTracker),
      CompInv groups N (n z) T → usedSum T < N →
      keepCount T + getNumAtomsLeft T N + 1 ≤ fuel →
      ∃ out, findAllCombinations fuel acc T z ⟨N, false, false⟩ = some (.ok out) ∧
        encodeSingle groups z n ∈ out := by
  intro fuel
  induction fuel with
  | zero =>
    intro acc T _ _ hf
    omega
  | succ fuel ih =>
    intro acc T hC hlt hf
    have hC0 := hC
    obtain ⟨hg, hall, hts, hN⟩ := hC
    have hU : usedSum T ≤ N := by omega
    have hleft := getNumAtomsLeft_of_le T N hU hN
    have hmult : ∀ t ∈ T, 1 ≤ t.multiplicity := fun t ht => (hall t ht).1
    rw [findAllCombinations_succ_useBranch]
    have h0 : ¬ N = 0 := by omega
    simp only [h0, if_false]
    cases hidx : getFirstAvailableIndex T with
    | none =>
      exfalso
      obtain ⟨t, ht, hlt1⟩ := exists_lt_of_usedSum_lt T (n z) (by omega)
      have := (hall t ht).2.2.1 (getFirstAvailableIndex_none T hidx t ht)
      omega
    | some i =>
      obtain ⟨info, hinfo, hk⟩ := getFirstAvailableIndex_some T i hidx
      simp only [hinfo]
      have hmem := mem_of_getElem?_eq_some T i info hinfo
      obtain ⟨hm1, hnf, -, huq⟩ := hall info hmem
      have hkc := keepCount_skipEntry T i info hinfo hk
      have hls := getNumAtomsLeft_skipEntry T N i info hinfo
      have hskipT : ∀ acc1, ∃ out,
          findAllCombinations fuel acc1 (skipEntry T i info) z ⟨N, false, false⟩ =
            some (.ok out) :=
        fun acc1 => findAllCombinations_terminates z ⟨N, false, false⟩ rfl fuel acc1
          (skipEntry T i info) (multiplicity_skipEntry T i info hinfo hmult) (by
            simp only []
            omega)
      by_cases hcase : info.numTimesUsed < n z info.positions
      · obtain ⟨hCt, hUt⟩ := compInv_useEntry groups N (n z) T i info hC0 hinfo hk hcase
        have hUt_le : usedSum (useEntry T i info) ≤ N := by
          have := usedSum_le_targetSum (useEntry T i info) (n z)
            (fun t ht => (hCt.2.1 t ht).2.1)
          rw [hCt.2.2.1] at this
          exact this
        have hus : positionIsUsable info (getNumAtomsLeft T N) false = true := by
          unfold positionIsUsable WyckPosTrackingInfo.getNumPositions
          rw [hleft]
          have h1 : info.multiplicity ≤ N - usedSum T := by omega
          cases hu : info.unique
          · simp [h1, hk]
          · have := huq hu
            simp [h1, hk]
            omega
        have hub : useBranch fuel acc T i info z ⟨N, false, false⟩ =
            if getNumAtomsLeft (useEntry T i info) N = 0 then
              some (.ok (acc ++ [convertToPossibility (useEntry T i info) z]))
            else findAllCombinations fuel acc (useEntry T i info) z ⟨N, false, false⟩ := by
          unfold useBranch
          simp only [hus, if_true, Bool.false_eq_true, if_false]
        rw [hub]
        by_cases hl : getNumAtomsLeft (useEntry T i info) N = 0
        · simp only [hl, if_true]
          have hsum := usedSum_eq_of_left_zero _ N hUt_le hN hl
          have hall2 := eq_of_usedSum_eq_targetSum (useEntry T i info) (n z)
            (fun t ht => ⟨(hCt.2.1 t ht).1, (hCt.2.1 t ht).2.1⟩) (by rw [hsum, hCt.2.2.1])
          have henc := convertToPossibility_eq_encodeSingle (useEntry T i info) z n hall2
          rw [hCt.1] at henc
          obtain ⟨out, hout⟩ := hskipT (acc ++ [convertToPossibility (useEntry T i info) z])
          obtain ⟨new, hnew⟩ := findAllCombinations_extends _ _ _ _ _ _ hout
          refine ⟨out, hout, ?_⟩
          rw [hnew, henc]
          simp
        · simp only [hl, if_false]
          have hleft2 := getNumAtomsLeft_of_le _ N hUt_le hN
          have hku := keepCount_useEntry T i info hinfo
          obtain ⟨out1, hout1, hmem1⟩ := ih acc (useEntry T i info) hCt (by omega) (by omega)
          simp only [hout1]
          obtain ⟨out, hout⟩ := hskipT out1
          obtain ⟨new, hnew⟩ := findAllCombinations_extends _ _ _ _ _ _ hout
          refine ⟨out, hout, ?_⟩
          rw [hnew]
          exact List.mem_append_left _ hmem1
      · have heq : info.numTimesUsed = n z info.positions := by omega
        obtain ⟨acc1, hacc1⟩ := useBranch_terminates fuel acc T i info z ⟨N, false, false⟩ rfl
          hinfo hmult (by simp only []; omega)
        simp only [hacc1]
        have hCs := compInv_skipEntry groups N (n z) T i info hC0 hinfo heq
        have hUs := usedSum_skipEntry T i info hinfo
        exact ih acc1 (skipEntry T i info) hCs (by omega) (by omega)

/-! ## Completeness of the enumeration -/

theorem addSimilarPositions_mem (pos_i : wyckPos) (rest : List wyckPos) (used : List Char)
    (temp : similarWyckPositions) :
    ∀ p ∈ (addSimilarPositions pos_i rest used temp).1, p ∈ temp ∨ p ∈ rest := by
  induction rest generalizing used temp with
  | nil =>
    intro p hp
    exact Or.inl hp
  | cons pos_j rest ih =>
    intro p hp
    unfold addSimilarPositions at hp
    split at hp
    · rcases ih _ _ p hp with h | h
      · rcases List.mem_append.1 h with h1 | h1
        · exact Or.inl h1
        · simp only [List.mem_singleton] at h1
          exact Or.inr (h1 ▸ List.mem_cons_self _ _)
      · exact Or.inr (List.mem_cons_of_mem _ h)
    · rcases ih _ _ p hp with h | h
      · exact Or.inl h
      · exact Or.inr (List.mem_cons_of_mem _ h)

theorem groupSimilarLoop_mem (rest : List wyckPos) (used : List Char) :
    ∀ g ∈ groupSimilarLoop rest used, ∀ p ∈ g, p ∈ rest := by
  induction rest generalizing used with
  | nil => simp [groupSimilarLoop]
  | cons pos_i rest ih =>
    intro g hg p hp
    unfold groupSimilarLoop at hg
    split at hg
    · rcases List.mem_cons.1 hg with h | h
      · subst h
        rcases addSimilarPositions_mem _ _ _ _ p hp with h1 | h1
        · simp only [List.mem_singleton] at h1
          exact h1 ▸ List.mem_cons_self _ _
        · exact List.mem_cons_of_mem _ h1
      · exact List.mem_cons_of_mem _ (ih _ g h p hp)
    · exact List.mem_cons_of_mem _ (ih _ g hg p hp)

theorem groupMultiplicity_pos (wyckVec : wyckoffPositions)
    (hmult : ∀ p ∈ wyckVec, 1 ≤ p.multiplicity) :
    ∀ g ∈ groupSimilarWyckPositions wyckVec, 1 ≤ groupMultiplicity g := by
  intro g hg
  have hne := groups_ne_nil wyckVec g hg
  cases g with
  | nil => exact absurd rfl hne
  | cons p g =>
    exact hmult p (groupSimilarLoop_mem wyckVec [] _ hg p (List.mem_cons_self _ _))

theorem init_fields (g : similarWyckPositions) :
    (WyckPosTrackingInfo.init g).positions = g ∧
    (WyckPosTrackingInfo.init g).numTimesUsed = 0 ∧
    (WyckPosTrackingInfo.init g).keepUsing = true ∧
    (WyckPosTrackingInfo.init g).unique = groupIsUnique g ∧
    (WyckPosTrackingInfo.init g).multiplicity = groupMultiplicity g := by
  cases g <;> simp [WyckPosTrackingInfo.init, groupIsUnique, groupMultiplicity]

theorem targetSum_createUsageTracker (wyckVec : wyckoffPositions)
    (f : similarWyckPositions → Nat) :
    targetSum (createUsageTracker wyckVec) f =
      ((groupSimilarWyckPositions wyckVec).map (fun g => groupMultiplicity g * f g)).sum := by
  unfold createUsageTracker targetSum
  rw [List.map_map]
  congr 1
  apply List.map_congr_left
  intro g _
  obtain ⟨h1, -, -, -, h5⟩ := init_fields g
  simp only [Function.comp, h1, h5]

theorem usedSum_createUsageTracker (wyckVec : wyckoffPositions) :
    usedSum (createUsageTracker wyckVec) = 0 := by
  unfold createUsageTracker usedSum
  rw [List.map_map]
  apply List.sum_eq_zero
  intro x hx
  simp only [List.mem_map, Function.comp] at hx
  obtain ⟨g, -, rfl⟩ := hx
  rw [(init_fields g).2.1]
  rfl

theorem keepCount_le_length (T : usageTracker) : keepCount T ≤ T.length := by
  induction T with
  | nil => simp [keepCount]
  | cons t T ih =>
    unfold keepCount at *
    simp only [List.map_cons, List.sum_cons, List.length_cons]
    split <;> omega

theorem compInv_createUsageTracker (wyckVec : wyckoffPositions) (N : Nat)
    (f : similarWyckPositions → Nat) (hmult : ∀ p ∈ wyckVec, 1 ≤ p.multiplicity)
    (hN : N < UINT_MOD)
    (hsum : ((groupSimilarWyckPositions wyckVec).map
      (fun g => groupMultiplicity g * f g)).sum = N)
    (huq : ∀ g ∈ groupSimilarWyckPositions wyckVec, groupIsUnique g = true → f g ≤ g.length) :
    CompInv (groupSimilarWyckPositions wyckVec) N f (createUsageTracker wyckVec) := by
  refine ⟨(trackerInv_createUsageTracker wyckVec N).1, ?_, ?_, hN⟩
  · intro t ht
    unfold createUsageTracker at ht
    simp only [List.mem_map] at ht
    obtain ⟨g, hg, rfl⟩ := ht
    obtain ⟨h1, h2, h3, h4, h5⟩ := init_fields g
    rw [h1, h2, h3, h4, h5]
    refine ⟨groupMultiplicity_pos wyckVec hmult g hg, Nat.zero_le _, ?_, huq g hg⟩
    intro hcon
    exact Bool.noConfusion hcon
  · rw [targetSum_createUsageTracker]
    exact hsum

theorem usesOfGroup_encodeSingle_of_not_mem (groups : List similarWyckPositions) (z : Nat)
    (n : Nat → similarWyckPositions → Nat) (g : similarWyckPositions) (hg : g ∉ groups) :
    usesOfGroup (encodeSingle groups z n) g = 0 := by
  by_contra h0
  obtain ⟨a, ha, hag⟩ := exists_pick_of_usesOfGroup_ne_zero _ g h0
  unfold encodeSingle at ha
  simp only [List.mem_filterMap] at ha
  obtain ⟨k, hk, hka⟩ := ha
  by_cases hz : n z k = 0
  · simp [hz] at hka
  · simp only [hz, if_false, Option.some.injEq] at hka
    subst hka
    simp only [] at hag
    exact hg (hag ▸ hk)

theorem usesOfGroup_encodeSingle (groups : List similarWyckPositions) (z : Nat)
    (n : Nat → similarWyckPositions → Nat) (g : similarWyckPositions)
    (hn : groups.Nodup) (hg : g ∈ groups) :
    usesOfGroup (encodeSingle groups z n) g = n z g := by
  induction groups with
  | nil => simp at hg
  | cons k groups ih =>
    rw [List.nodup_cons] at hn
    have hsplit : usesOfGroup (encodeSingle (k :: groups) z n) g =
        (if k = g then n z k else 0) + usesOfGroup (encodeSingle groups z n) g := by
      unfold usesOfGroup encodeSingle
      simp only [List.filterMap_cons]
      by_cases hz : n z k = 0
      · simp [hz]
      · by_cases hkg : k = g
        · subst hkg
          simp [hz, List.filter_cons]
        · simp [hz, hkg, List.filter_cons]
    rw [hsplit]
    rcases List.mem_cons.1 hg with h | h
    · subst h
      rw [usesOfGroup_encodeSingle_of_not_mem groups z n g hn.1]
      simp
    · have hne : ¬ k = g := fun hkg => hn.1 (hkg ▸ h)
      simp only [hne, if_false, Nat.zero_add]
      exact ih hn.2 h

theorem encodeSingle_picks (groups : List similarWyckPositions) (z : Nat)
    (n : Nat → similarWyckPositions → Nat) :
    List.Sublist ((encodeSingle groups z n).assigns.map (fun a => a.choosablePositions))
      groups := by
  induction groups with
  | nil => simp [encodeSingle]
  | cons g groups ih =>
    unfold encodeSingle at *
    simp only [List.filterMap_cons]
    by_cases hz : n z g = 0
    · simp only [hz, if_true]
      exact List.Sublist.cons _ ih
    · simp only [hz, if_false, List.map_cons]
      exact List.Sublist.cons₂ _ ih

theorem totalUsesOfGroup_encodeSpecies (groups : List similarWyckPositions)
    (n : Nat → similarWyckPositions → Nat) (L : List numAndType) (g : similarWyckPositions)
    (hn : groups.Nodup) (hg : g ∈ groups) :
    totalUsesOfGroup (encodeSpecies groups n L) g = (L.map (fun nt => n nt.2 g)).sum := by
  unfold totalUsesOfGroup encodeSpecies
  rw [List.map_map]
  congr 1
  apply List.map_congr_left
  intro nt _
  exact usesOfGroup_encodeSingle groups nt.2 n g hn hg

theorem totalUsesOfGroup_append_list (S S1 : systemPossibility) (g : similarWyckPositions) :
    totalUsesOfGroup (S ++ S1) g = totalUsesOfGroup S g + totalUsesOfGroup S1 g := by
  simp [totalUsesOfGroup]

theorem encodeSpecies_append (groups : List similarWyckPositions)
    (n : Nat → similarWyckPositions → Nat) (L L1 : List numAndType) :
    encodeSpecies groups n (L ++ L1) = encodeSpecies groups n L ++ encodeSpecies groups n L1 := by
  simp [encodeSpecies]

/-- The filter lets the encoding of a prefix of the species pass when the whole encoding
keeps the budget of every unique group. -/
theorem not_tooMany_encodeSpecies (wyckVec : wyckoffPositions)
    (n : Nat → similarWyckPositions → Nat) (L L1 : List numAndType)
    (hb : ∀ g ∈ groupSimilarWyckPositions wyckVec, groupIsUnique g = true →
      totalUsesOfGroup (encodeSpecies (groupSimilarWyckPositions wyckVec) n (L ++ L1)) g
        ≤ g.length) :
    tooManyOfAUniquePositionUsed (encodeSpecies (groupSimilarWyckPositions wyckVec) n L)
      = false := by
  apply not_tooMany_of_total_le
  · intro p hp
    unfold encodeSpecies at hp
    simp only [List.mem_map] at hp
    obtain ⟨nt, -, rfl⟩ := hp
    exact (groups_nodup wyckVec).sublist (encodeSingle_picks _ _ _)
  · intro p hp a ha hu
    unfold encodeSpecies at hp
    simp only [List.mem_map] at hp
    obtain ⟨nt, -, rfl⟩ := hp
    have hmem : a.choosablePositions ∈ groupSimilarWyckPositions wyckVec := by
      apply (encodeSingle_picks (groupSimilarWyckPositions wyckVec) nt.2 n).subset
      simp only [List.mem_map]
      exact ⟨a, ha, rfl⟩
    have h1 := groups_length_lt wyckVec _ hmem
    have h2 := hb _ hmem hu
    rw [encodeSpecies_append, totalUsesOfGroup_append_list] at h2
    refine ⟨by unfold UINT_MOD; omega, by omega⟩

theorem systemPossibilitiesLoop_complete (fuel : Nat) (wyckVec : wyckoffPositions)
    (n : Nat → similarWyckPositions → Nat) (hmult : ∀ p ∈ wyckVec, 1 ≤ p.multiplicity) :
    ∀ (rest done : List numAndType) (sys : systemPossibilities),
      (∀ nt ∈ rest, 0 < nt.1 ∧ nt.1 < UINT_MOD ∧
        ((groupSimilarWyckPositions wyckVec).map
          (fun g => groupMultiplicity g * n nt.2 g)).sum = nt.1 ∧
        (createUsageTracker wyckVec).length + nt.1 + 1 ≤ fuel) →
      (∀ g ∈ groupSimilarWyckPositions wyckVec, groupIsUnique g = true →
        totalUsesOfGroup
          (encodeSpecies (groupSimilarWyckPositions wyckVec) n (done ++ rest)) g ≤ g.length) →
      (encodeSpecies (groupSimilarWyckPositions wyckVec) n done ∈ sys ∨
        (done = [] ∧ sys = [] ∧ rest ≠ [])) →
      ∃ out, SpgInitCombinatorics.systemPossibilitiesLoop fuel wyckVec false false rest sys =
          some out ∧
        encodeSpecies (groupSimilarWyckPositions wyckVec) n (done ++ rest) ∈ out := by
  intro rest
  induction rest with
  | nil =>
    intro done sys _ _ hsys
    refine ⟨sys, rfl, ?_⟩
    rcases hsys with h | ⟨-, -, h⟩
    · simpa using h
    · exact absurd rfl h
  | cons nt rest ih =>
    intro done sys hrest hb hsys
    obtain ⟨hpos, hlt, hsum, hfuel⟩ := hrest nt (List.mem_cons_self _ _)
    have huq : ∀ g ∈ groupSimilarWyckPositions wyckVec, groupIsUnique g = true →
        n nt.2 g ≤ g.length := by
      intro g hg hu
      have h1 := hb g hg hu
      rw [totalUsesOfGroup_encodeSpecies _ _ _ _ (groups_nodup wyckVec) hg] at h1
      have h2 : n nt.2 g ≤ ((done ++ nt :: rest).map (fun nt => n nt.2 g)).sum := by
        apply List.single_le_sum (by intro x _; exact Nat.zero_le x)
        simp only [List.mem_map]
        exact ⟨nt, by simp, rfl⟩
      omega
    have hC := compInv_createUsageTracker wyckVec nt.1 (n nt.2) hmult hlt hsum huq
    have hU := usedSum_createUsageTracker wyckVec
    have hleft := getNumAtomsLeft_of_le (createUsageTracker wyckVec) nt.1 (by omega) hlt
    have hkc := keepCount_le_length (createUsageTracker wyckVec)
    obtain ⟨sa, hsa, hmem⟩ := findAllCombinations_complete nt.2 nt.1 n
      (groupSimilarWyckPositions wyckVec) fuel [] (createUsageTracker wyckVec) hC (by omega)
      (by omega)
    have hne : ¬ sa.length = 0 := by
      intro h0
      rw [List.length_eq_zero.1 h0] at hmem
      simp at hmem
    have hstep : SpgInitCombinatorics.systemPossibilitiesLoop fuel wyckVec false false
        (nt :: rest) sys =
        SpgInitCombinatorics.systemPossibilitiesLoop fuel wyckVec false false rest
          (joinSingleWithSystem sa sys) := by
      conv_lhs => unfold SpgInitCombinatorics.systemPossibilitiesLoop
      simp only [Bool.false_eq_true, if_false, hsa, hne]
    rw [hstep]
    have henc : encodeSpecies (groupSimilarWyckPositions wyckVec) n (done ++ [nt]) =
        encodeSpecies (groupSimilarWyckPositions wyckVec) n done ++
          [encodeSingle (groupSimilarWyckPositions wyckVec) nt.2 n] := by
      simp [encodeSpecies]
    have hjoin : encodeSpecies (groupSimilarWyckPositions wyckVec) n (done ++ [nt]) ∈
        joinSingleWithSystem sa sys := by
      rcases hsys with h | ⟨h1, h2, -⟩
      · rw [henc]
        apply joinSingleWithSystem_mem sa sys _ _ h hmem
        rw [← henc]
        apply not_tooMany_encodeSpecies wyckVec n (done ++ [nt]) rest
        simpa using hb
      · subst h1
        subst h2
        rw [henc]
        exact joinSingleWithSystem_nil sa _ hmem
    have := ih (done ++ [nt]) (joinSingleWithSystem sa sys)
      (fun x hx => hrest x (List.mem_cons_of_mem _ hx)) (by simpa using hb) (Or.inl hjoin)
    simpa using this

theorem countEachType_nodup (atoms : List Nat) (rest already : List Nat)
    (acc : List numAndType) (hn : (acc.map Prod.snd).Nodup)
    (hsub : ∀ nt ∈ acc, nt.2 ∈ already) :
    ((SpgInit.countEachType atoms rest already acc).map Prod.snd).Nodup := by
  induction rest generalizing already acc with
  | nil => exact hn
  | cons a rest ih =>
    unfold SpgInit.countEachType
    by_cases ha : a ∈ already
    · simp only [ha, if_true]
      exact ih already acc hn hsub
    · simp only [ha, if_false]
      apply ih
      · rw [List.map_append, List.nodup_append]
        refine ⟨hn, by simp, ?_⟩
        intro x hx1 hx2
        simp only [List.map_cons, List.map_nil, List.mem_singleton] at hx2
        subst hx2
        simp only [List.mem_map] at hx1
        obtain ⟨nt, hnt, rfl⟩ := hx1
        exact ha (hsub nt hnt)
      · intro nt hnt
        rcases List.mem_append.1 hnt with h | h
        · exact List.mem_append_left _ (hsub nt h)
        · simp only [List.mem_singleton] at h
          subst h
          simp

theorem countEachType_covers (atoms : List Nat) (rest already : List Nat)
    (acc : List numAndType) (hsync : ∀ a ∈ already, ∃ nt ∈ acc, nt.2 = a) :
    ∀ a, (a ∈ rest ∨ a ∈ already) →
      ∃ nt ∈ SpgInit.countEachType atoms rest already acc, nt.2 = a := by
  induction rest generalizing already acc with
  | nil =>
    intro a ha
    rcases ha with h | h
    · simp at h
    · exact hsync a h
  | cons b rest ih =>
    intro a ha
    unfold SpgInit.countEachType
    by_cases hb : b ∈ already
    · simp only [hb, if_true]
      apply ih already acc hsync
      rcases ha with h | h
      · rcases List.mem_cons.1 h with h1 | h1
        · exact Or.inr (h1 ▸ hb)
        · exact Or.inl h1
      · exact Or.inr h
    · simp only [hb, if_false]
      apply ih
      · intro c hc
        rcases List.mem_append.1 hc with h | h
        · obtain ⟨nt, hnt, hnta⟩ := hsync c h
          exact ⟨nt, List.mem_append_left _ hnt, hnta⟩
        · simp only [List.mem_singleton] at h
          subst h
          exact ⟨_, List.mem_append_right _ (List.mem_singleton_self _), rfl⟩
      · rcases ha with h | h
        · rcases List.mem_cons.1 h with h1 | h1
          · subst h1
            exact Or.inr (List.mem_append_right _ (List.mem_singleton_self _))
          · exact Or.inl h1
        · exact Or.inr (List.mem_append_left _ h)

/-- The species of `getNumOfEachType` are the distinct atomic numbers of the atom list. -/
theorem getNumOfEachType_species_perm (atoms : List Nat) :
    List.Perm ((SpgInit.getNumOfEachType atoms).map Prod.snd) atoms.dedup := by
  have hperm : List.Perm ((SpgInit.getNumOfEachType atoms).map Prod.snd)
      ((SpgInit.countEachType atoms atoms [] []).map Prod.snd) := by
    unfold SpgInit.getNumOfEachType SpgInit.sortGreaterThan
    exact (List.perm_insertionSort _ _).map _
  refine hperm.trans ?_
  rw [List.perm_ext_iff_of_nodup (countEachType_nodup atoms atoms [] [] (by simp) (by simp))
    (List.nodup_dedup atoms)]
  intro a
  rw [List.mem_dedup]
  constructor
  · intro ha
    simp only [List.mem_map] at ha
    obtain ⟨nt, hnt, rfl⟩ := ha
    rcases mem_countEachType atoms atoms [] [] nt hnt with h | h
    · simp at h
    · exact h.1
  · intro ha
    obtain ⟨nt, hnt, hnta⟩ := countEachType_covers atoms atoms [] [] (by simp) a (Or.inl ha)
    simp only [List.mem_map]
    exact ⟨nt, hnt, hnta⟩

theorem getNumOfEachType_ne_nil (atoms : List Nat) (h : atoms ≠ []) :
    SpgInit.getNumOfEachType atoms ≠ [] := by
  intro hnil
  have hp := getNumOfEachType_species_perm atoms
  rw [hnil] at hp
  have := hp.length_eq
  simp only [List.map_nil, List.length_nil] at this
  have h2 : atoms.dedup = [] := List.length_eq_zero.1 this.symm
  cases atoms with
  | nil => exact h rfl
  | cons a atoms =>
    have : a ∈ (a :: atoms).dedup := List.mem_dedup.2 (List.mem_cons_self _ _)
    rw [h2] at this
    simp at this

/-- C6, amended (completeness of the full enumeration): for a table with multiplicities at
least 1 and a non-empty atom list (shorter than `2 ^ 32`), every valid distribution appears,
encoded with one pick per used group, among the system possibilities that
`getSystemPossibilities` returns with both flags off, for every sufficient fuel. -/
theorem getSystemPossibilities_complete (fuel : Nat) (db : WyckoffDatabase) (spg : Nat)
    (atoms : List Nat) (n : Nat → similarWyckPositions → Nat)
    (hne : atoms ≠ []) (hlen : atoms.length < UINT_MOD)
    (hmult : ∀ p ∈ SpgInit.getWyckoffPositions db spg, 1 ≤ p.multiplicity)
    (hvalid : ValidDistribution (SpgInit.getWyckoffPositions db spg) atoms n)
    (hfuel : (createUsageTracker (SpgInit.getWyckoffPositions db spg)).length
      + atoms.length + 1 ≤ fuel) :
    ∃ sys, SpgInitCombinatorics.getSystemPossibilities fuel db spg atoms false false
        = some sys ∧
      encodeDistribution (SpgInit.getWyckoffPositions db spg) atoms n ∈ sys := by
  obtain ⟨hcons, hbud⟩ := hvalid
  have key := systemPossibilitiesLoop_complete fuel (SpgInit.getWyckoffPositions db spg) n
    hmult (SpgInit.getNumOfEachType atoms) [] []
    (by
      intro nt hnt
      obtain ⟨hm, hc⟩ := mem_getNumOfEachType atoms nt hnt
      have hle := List.count_le_length nt.2 atoms
      have hcount : nt.1 = atoms.count nt.2 := by
        rw [hc]
        exact Nat.mod_eq_of_lt (by omega)
      have hpos : 0 < atoms.count nt.2 := List.count_pos_iff.2 hm
      refine ⟨by omega, by omega, ?_, by omega⟩
      rw [hcons nt.2 hm, hcount])
    (by
      intro g hg hu
      rw [List.nil_append, totalUsesOfGroup_encodeSpecies _ _ _ _ (groups_nodup _) hg]
      have h1 := hbud g hg hu
      have h2 : ((SpgInit.getNumOfEachType atoms).map (fun nt => n nt.2 g)).sum =
          (atoms.dedup.map (fun z => n z g)).sum := by
        have := ((getNumOfEachType_species_perm atoms).map (fun z => n z g)).sum_eq
        rw [List.map_map] at this
        exact this
      omega)
    (Or.inr ⟨rfl, rfl, getNumOfEachType_ne_nil atoms hne⟩)
  simpa using key

/-- C6 as stated fails for the empty atom list: the empty distribution is valid, its
encoding is the empty system possibility, and `getSystemPossibilities` returns no system
possibility at all. -/
theorem empty_atom_list_not_enumerated :
    ValidDistribution (SpgInit.getWyckoffPositions databaseUniqueGeneral 1) []
      (fun _ _ => 0) ∧
    ∀ fuel, ∃ sys, SpgInitCombinatorics.getSystemPossibilities fuel databaseUniqueGeneral 1 []
        false false = some sys ∧
      encodeDistribution (SpgInit.getWyckoffPositions databaseUniqueGeneral 1) []
        (fun _ _ => 0) ∉ sys := by
  constructor
  · constructor
    · intro z hz
      simp at hz
    · intro g _ _
      simp
  · intro fuel
    exact ⟨[], rfl, by simp⟩

theorem getSystemPossibilities_complete_witness :
    ([1, 1, 1, 1, 2, 2, 2] ≠ [] ∧
      ValidDistribution (SpgInit.getWyckoffPositions databaseThreeGroups 1)
        [1, 1, 1, 1, 2, 2, 2] distributionThreeGroups) ∧
    ∃ sys, SpgInitCombinatorics.getSystemPossibilities 20 databaseThreeGroups 1
        [1, 1, 1, 1, 2, 2, 2] false false = some sys ∧
      encodeDistribution (SpgInit.getWyckoffPositions databaseThreeGroups 1)
        [1, 1, 1, 1, 2, 2, 2] distributionThreeGroups ∈ sys :=
  ⟨⟨by decide, by unfold ValidDistribution; decide⟩,
    getSystemPossibilities_complete 20 databaseThreeGroups 1 [1, 1, 1, 1, 2, 2, 2]
      distributionThreeGroups (by decide) (by decide) (by decide)
      (by unfold ValidDistribution; decide) (by decide)⟩

/-! ## `isSpgPossible` -/

theorem exists_mem_getNumOfEachType (atoms : List Nat) (z : Nat) (hz : z ∈ atoms) :
    ∃ nt ∈ SpgInit.getNumOfEachType atoms, nt.2 = z := by
  have h1 : z ∈ (SpgInit.getNumOfEachType atoms).map Prod.snd :=
    (getNumOfEachType_species_perm atoms).mem_iff.2 (List.mem_dedup.2 hz)
  simp only [List.mem_map] at h1
  exact h1

theorem findAllCombinations_nil_tracker (fuel : Nat) (acc : singleAtomPossibilities) (z : Nat)
    (sets : combinationSettings) :
    findAllCombinations (fuel + 1) acc [] z sets = some (.ok acc) := by
  rw [findAllCombinations_succ]
  by_cases h : sets.numAtoms = 0
  · simp only [h, if_true]
  · simp only [h, if_false, getFirstAvailableIndex]

theorem systemPossibilitiesLoop_nil_table (fuel : Nat) (f2 : Bool) (nt : numAndType)
    (rest : List numAndType) (sys : systemPossibilities) :
    SpgInitCombinatorics.systemPossibilitiesLoop (fuel + 1) [] true f2 (nt :: rest) sys
      = some [] := by
  have hT : createUsageTracker [] = [] := rfl
  unfold SpgInitCombinatorics.systemPossibilitiesLoop
  simp only [if_true, hT, findOnlyOneCombinationIfPossible]
  simp only [findAllCombinations_nil_tracker, List.length_nil, if_true]

/-- C7 (fast reject, P3): if every Wyckoff position of the table of `spg` has an even
multiplicity and some atomic number occurs an odd number of times, `isSpgPossible` returns
false (with any fuel at all for the case of an empty table). -/
theorem isSpgPossible_fast_reject (fuel : Nat) (db : WyckoffDatabase) (spg : Nat)
    (atoms : List Nat) (hfuel : 0 < fuel)
    (heven : ∀ p ∈ SpgInit.getWyckoffPositions db spg, p.multiplicity % 2 = 0)
    (hodd : ∃ z ∈ atoms, atoms.count z % 2 = 1) :
    SpgInit.isSpgPossible fuel db spg atoms = some false := by
  unfold SpgInit.isSpgPossible
  by_cases hr : (decide (spg < 1) || decide (spg > 230)) = true
  · simp only [hr, if_true]
  · simp only [hr]
    obtain ⟨z, hz, hzodd⟩ := hodd
    obtain ⟨nt, hnt, hntz⟩ := exists_mem_getNumOfEachType atoms z hz
    have hany : (SpgInit.getNumOfEachType atoms).any (fun p => numIsOdd p.1) = true := by
      rw [List.any_eq_true]
      refine ⟨nt, hnt, ?_⟩
      have hc := (mem_getNumOfEachType atoms nt hnt).2
      rw [hntz] at hc
      unfold numIsOdd
      rw [hc]
      unfold UINT_MOD
      simp only [beq_iff_eq]
      omega
    simp only [hany, Bool.true_and]
    by_cases hempty : SpgInit.getWyckoffPositions db spg = []
    · have hme : SpgInit.spgMultsAreAllEven db spg = false := by
        unfold SpgInit.spgMultsAreAllEven
        simp [hempty]
      simp only [hme, Bool.false_eq_true, if_false]
      unfold SpgInitCombinatorics.getSystemPossibilities
      rw [hempty]
      obtain ⟨k, rfl⟩ : ∃ k, fuel = k + 1 := ⟨fuel - 1, by omega⟩
      cases hL : SpgInit.getNumOfEachType atoms with
      | nil =>
        rw [hL] at hnt
        simp at hnt
      | cons a L =>
        rw [systemPossibilitiesLoop_nil_table]
        simp
    · have hme : SpgInit.spgMultsAreAllEven db spg = true := by
        unfold SpgInit.spgMultsAreAllEven
        have hlen : ¬ (SpgInit.getWyckoffPositions db spg).length = 0 := by
          intro h
          exact hempty (List.length_eq_zero.1 h)
        simp only [hlen, if_false, List.all_eq_true]
        intro p hp
        have := heven p hp
        unfold numIsOdd SpgInit.getMultiplicity
        simp [this]
      simp [hme]

theorem isSpgPossible_fast_reject_witness :
    (0 < 1 ∧ (∀ p ∈ SpgInit.getWyckoffPositions databaseEvenGeneral 2, p.multiplicity % 2 = 0) ∧
      ∃ z ∈ [6], [6].count z % 2 = 1) ∧
    SpgInit.isSpgPossible 1 databaseEvenGeneral 2 [6] = some false :=
  ⟨⟨by decide, by decide, by decide⟩,
    isSpgPossible_fast_reject 1 databaseEvenGeneral 2 [6] (by decide) (by decide) (by decide)⟩

/-! ## Runs in which the code departs from its contract -/

/-- C1 at a failing input: on a table with one unique position `a` of multiplicity 1 and a
general position of multiplicity 2, three species with 5, 3 and 1 atoms all need `a`; no valid
distribution exists, and yet `isSpgPossible` returns true. -/
theorem isSpgPossible_true_without_distribution :
    SpgInit.isSpgPossible 20 databaseUniqueGeneral 1 [1, 1, 1, 1, 1, 2, 2, 2, 3] = some true ∧
    ¬ ∃ n, ValidDistribution (SpgInit.getWyckoffPositions databaseUniqueGeneral 1)
      [1, 1, 1, 1, 1, 2, 2, 2, 3] n := by
  refine ⟨by decide, ?_⟩
  rintro ⟨n, hc, hb⟩
  have hg : groupSimilarWyckPositions (SpgInit.getWyckoffPositions databaseUniqueGeneral 1) =
      [[⟨'a', 1, "0,0,0"⟩], [⟨'b', 2, "x,y,z"⟩]] := by decide
  rw [hg] at hc hb
  have h1 := hc 1 (by decide)
  have h2 := hc 2 (by decide)
  have h3 := hc 3 (by decide)
  have h4 := hb [⟨'a', 1, "0,0,0"⟩] (by simp) (by decide)
  have hd : ([1, 1, 1, 1, 1, 2, 2, 2, 3] : List Nat).dedup = [1, 2, 3] := by decide
  have c1 : ([1, 1, 1, 1, 1, 2, 2, 2, 3] : List Nat).count 1 = 5 := by decide
  have c2 : ([1, 1, 1, 1, 1, 2, 2, 2, 3] : List Nat).count 2 = 3 := by decide
  have c3 : ([1, 1, 1, 1, 1, 2, 2, 2, 3] : List Nat).count 3 = 1 := by decide
  rw [hd] at h4
  rw [c1] at h1
  rw [c2] at h2
  rw [c3] at h3
  simp only [List.map_cons, List.map_nil, List.sum_cons, List.sum_nil, groupMultiplicity,
    SpgInit.getMultiplicity, List.length_cons, List.length_nil] at h1 h2 h3 h4
  omega

/-- C2 at a failing input: on a table with unique positions of multiplicity 1 and 2 and a
general position of multiplicity 3, four atoms of one species and three of another have a
valid distribution, and yet `isSpgPossible` returns false. -/
theorem isSpgPossible_false_with_distribution :
    SpgInit.isSpgPossible 20 databaseThreeGroups 1 [1, 1, 1, 1, 2, 2, 2] = some false ∧
    ValidDistribution (SpgInit.getWyckoffPositions databaseThreeGroups 1)
      [1, 1, 1, 1, 2, 2, 2] distributionThreeGroups := by
  refine ⟨by decide, ?_⟩
  unfold ValidDistribution
  decide

/-- C3 at a failing input: with three species in the atom list, the system possibility
returned holds a single-atom possibility for the last species only, in every mode that
returns one. -/
theorem getSystemPossibilities_drops_species :
    (SpgInit.getNumOfEachType [1, 1, 1, 1, 1, 2, 2, 2, 3]).length = 3 ∧
    SpgInitCombinatorics.getSystemPossibilities 20 databaseUniqueGeneral 1
      [1, 1, 1, 1, 1, 2, 2, 2, 3] false false = some [[⟨3, [⟨1, [⟨'a', 1, "0,0,0"⟩]⟩]⟩]] ∧
    SpgInitCombinatorics.getSystemPossibilities 20 databaseUniqueGeneral 1
      [1, 1, 1, 1, 1, 2, 2, 2, 3] true false = some [[⟨3, [⟨1, [⟨'a', 1, "0,0,0"⟩]⟩]⟩]] := by
  decide

/-! ## The conversion to `float` -/

theorem roundHalfEven_intCast (n : Int) : SpgInit.roundHalfEven (n : ℚ) = n := by
  unfold SpgInit.roundHalfEven
  simp

theorem roundAt_multiple (n e : Int) :
    SpgInit.roundAt ((n : ℚ) * 2 ^ (e - 23)) e = (n : ℚ) * 2 ^ (e - 23) := by
  unfold SpgInit.roundAt
  have h : (2 : ℚ) ^ (e - 23) ≠ 0 := zpow_ne_zero _ (by norm_num)
  rw [mul_div_assoc, div_self h, mul_one, roundHalfEven_intCast]

/-- A value with at most 24 significant bits, a multiple of `2 ^ -149` below `2 ^ 128`, is a
`float` and is converted to itself. -/
theorem floatRound_exact (m : Nat) (k : Int) (hm : m < 2 ^ 24) (hk : -149 ≤ k)
    (hlt : (m : ℚ) * 2 ^ k < 2 ^ 128) :
    SpgInit.floatRound ((m : ℚ) * 2 ^ k) = some ((m : ℚ) * 2 ^ k) := by
  by_cases h0 : (m : ℚ) * 2 ^ k = 0
  · rw [h0]
    simp [SpgInit.floatRound]
  have hk0 : (2 : ℚ) ^ k ≠ 0 := zpow_ne_zero _ (by norm_num)
  have hmpos : 0 < m := by
    rcases Nat.eq_zero_or_pos m with h | h
    · subst h
      simp at h0
    · exact h
  have hq : 0 < (m : ℚ) * 2 ^ k := mul_pos (by exact_mod_cast hmpos) (zpow_pos (by norm_num) k)
  -- the binary exponent is at most k + 23
  have hlog : Int.log 2 ((m : ℚ) * 2 ^ k) ≤ k + 23 := by
    have hlt2 : (m : ℚ) * 2 ^ k < 2 ^ (k + 24) := by
      rw [zpow_add₀ (by norm_num : (2 : ℚ) ≠ 0), mul_comm ((2 : ℚ) ^ k)]
      apply mul_lt_mul_of_pos_right _ (zpow_pos (by norm_num) k)
      have : (m : ℚ) < ((2 ^ 24 : Nat) : ℚ) := by exact_mod_cast hm
      have h24 : (((2 ^ 24 : Nat) : ℚ)) = 2 ^ (24 : Int) := by norm_num
      rwa [h24] at this
    have := (Int.lt_zpow_iff_log_lt (b := 2) (by norm_num) hq).1 hlt2
    omega
  have hmult : ∀ e : Int, e ≤ k + 23 →
      SpgInit.roundAt ((m : ℚ) * 2 ^ k) e = (m : ℚ) * 2 ^ k := by
    intro e he
    obtain ⟨d, hd⟩ : ∃ d : Nat, k = (e - 23) + d := ⟨(k - (e - 23)).toNat, by omega⟩
    have heq : (m : ℚ) * 2 ^ k = (((m * 2 ^ d : Nat) : Int) : ℚ) * 2 ^ (e - 23) := by
      rw [hd, zpow_add₀ (by norm_num : (2 : ℚ) ≠ 0)]
      push_cast
      rw [zpow_natCast]
      ring
    rw [heq, roundAt_multiple]
  unfold SpgInit.floatRound
  rw [hmult _ hlog, hmult _ (max_le hlog (by omega))]
  simp only [h0, if_false, not_le.2 hlt, ne_eq, not_true_eq_false, and_false]

theorem floatRound_natCast (n : Nat) (h : n < 2 ^ 24) :
    SpgInit.floatRound (n : ℚ) = some (n : ℚ) := by
  have := floatRound_exact n 0 h (by norm_num) (by
    rw [zpow_zero, mul_one]
    have h1 : (n : ℚ) < ((2 ^ 24 : Nat) : ℚ) := by exact_mod_cast h
    have h2 : (((2 ^ 24 : Nat) : ℚ)) < 2 ^ 128 := by norm_num
    exact lt_trans h1 h2)
  rwa [zpow_zero, mul_one] at this

theorem takeWhile_append_stop (p : Char → Bool) (l rest : List Char)
    (hl : ∀ c ∈ l, p c = true) (hr : ∀ c ∈ rest.head?, p c = false) :
    (l ++ rest).takeWhile p = l := by
  induction l with
  | nil =>
    cases rest with
    | nil => rfl
    | cons c r =>
      have := hr c (by simp)
      simp [List.takeWhile, this]
  | cons a l ih =>
    have ha := hl a (List.mem_cons_self _ _)
    simp only [List.cons_append, List.takeWhile_cons, ha, if_true]
    rw [ih (fun c hc => hl c (List.mem_cons_of_mem _ hc))]

theorem dropWhile_append_stop (p : Char → Bool) (l rest : List Char)
    (hl : ∀ c ∈ l, p c = true) (hr : ∀ c ∈ rest.head?, p c = false) :
    (l ++ rest).dropWhile p = rest := by
  induction l with
  | nil =>
    cases rest with
    | nil => rfl
    | cons c r =>
      have := hr c (by simp)
      simp [List.dropWhile, this]
  | cons a l ih =>
    have ha := hl a (List.mem_cons_self _ _)
    simp only [List.cons_append, List.dropWhile_cons, ha, if_true]
    exact ih (fun c hc => hl c (List.mem_cons_of_mem _ hc))

theorem wellFormed_parts (t : ComponentTerm) (hwf : t.WellFormed) :
    (∀ c ∈ t.intDigits, isDigit c = true) ∧
    (∀ f, t.fracDigits = some f → ∀ c ∈ f, isDigit c = true) ∧
    (t.numberChars = [] → t.var ≠ none) ∧
    (t.numberChars ≠ [] → t.intDigits ≠ [] ∨ ∃ f, t.fracDigits = some f ∧ f ≠ []) ∧
    (∀ v, t.var = some v → v = 'x' ∨ v = 'y' ∨ v = 'z') := by
  obtain ⟨h1, h2, h3, h4, h5⟩ := hwf
  refine ⟨h1, ?_, h3, ?_, ?_⟩
  · intro f hf c hc
    rw [hf] at h2
    exact h2 c hc
  · intro hnum
    rcases h4 hnum with h | h
    · exact Or.inl h
    · cases hf : t.fracDigits with
      | none =>
        rw [hf] at h
        exact absurd rfl h
      | some f =>
        rw [hf] at h
        exact Or.inr ⟨f, rfl, h⟩
  · intro v hv
    rw [hv] at h5
    rcases h5 with h | h | h | h
    · exact Option.noConfusion h
    · exact Or.inl (Option.some.inj h)
    · exact Or.inr (Or.inl (Option.some.inj h))
    · exact Or.inr (Or.inr (Option.some.inj h))

/-- The library function reads the whole numeral of a well-formed term, also when one more
character, neither digit nor dot, follows it, and converts its value to `float`. -/
theorem stof_numeral (t : ComponentTerm) (hwf : t.WellFormed) (hnum : t.numberChars ≠ [])
    (e : List Char) (he : ∀ c ∈ e.head?, isDigit c = false ∧ c ≠ '.') :
    SpgInit.stof (t.numberChars ++ e) = SpgInit.floatRound t.magnitude := by
  obtain ⟨hint, hfrac, -, hdig, -⟩ := wellFormed_parts t hwf
  have hd := hdig hnum
  unfold ComponentTerm.magnitude
  simp only [hnum, if_false]
  unfold SpgInit.stof ComponentTerm.numberChars
  cases hf : t.fracDigits with
  | none =>
    have hi : t.intDigits ≠ [] := by
      rcases hd with h | ⟨f, h, -⟩
      · exact h
      · rw [hf] at h
        exact Option.noConfusion h
    simp only [List.append_nil, Option.getD_none]
    rw [takeWhile_append_stop isDigit t.intDigits e hint (fun c hc => (he c hc).1),
      dropWhile_append_stop isDigit t.intDigits e hint (fun c hc => (he c hc).1)]
    have hfd : (match e with
        | '.' :: r => List.takeWhile isDigit r
        | _ => []) = [] := by
      cases e with
      | nil => rfl
      | cons c r =>
        have hc := (he c (by simp)).2
        split
        · rename_i heq
          simp only [List.cons.injEq] at heq
          exact absurd heq.1 hc
        · rfl
    have hgoal : ∀ fd : List Char, fd = [] →
        (if (t.intDigits.isEmpty && fd.isEmpty) = true then none
          else SpgInit.floatRound ((SpgInit.digitsValue t.intDigits : ℚ) +
            (SpgInit.digitsValue fd : ℚ) / 10 ^ fd.length)) =
        SpgInit.floatRound ((SpgInit.digitsValue t.intDigits : ℚ) +
          (SpgInit.digitsValue ([] : List Char) : ℚ) / 10 ^ ([] : List Char).length) := by
      intro fd hfd0
      subst hfd0
      cases hti : t.intDigits with
      | nil => exact absurd hti hi
      | cons a l => simp
    exact hgoal _ hfd
  | some f =>
    have hfd := hfrac f hf
    simp only [Option.getD_some, List.append_assoc, List.cons_append]
    rw [takeWhile_append_stop isDigit t.intDigits ('.' :: (f ++ e)) hint
        (by intro c hc; simp at hc; subst hc; decide),
      dropWhile_append_stop isDigit t.intDigits ('.' :: (f ++ e)) hint
        (by intro c hc; simp at hc; subst hc; decide)]
    simp only []
    rw [takeWhile_append_stop isDigit f e hfd (fun c hc => (he c hc).1)]
    have hnot : (t.intDigits.isEmpty && f.isEmpty) = false := by
      rcases hd with h | ⟨g, h, hg⟩
      · cases hti : t.intDigits with
        | nil => exact absurd hti h
        | cons a l => rfl
      · rw [hf] at h
        simp only [Option.some.injEq] at h
        subst h
        cases f with
        | nil => exact absurd rfl hg
        | cons a l => simp
    simp only [hnot, Bool.false_eq_true, if_false]

/-- What the library function reads from the numeral of a well-formed term does not depend on
one more character, neither digit nor dot, that follows it. -/
theorem stof_numeral_append (t : ComponentTerm) (hwf : t.WellFormed)
    (hnum : t.numberChars ≠ []) (e : List Char)
    (he : ∀ c ∈ e.head?, isDigit c = false ∧ c ≠ '.') :
    SpgInit.stof (t.numberChars ++ e) = SpgInit.stof t.numberChars := by
  have h1 := stof_numeral t hwf hnum e he
  have h2 := stof_numeral t hwf hnum [] (by simp)
  rw [List.append_nil] at h2
  rw [h1, h2]

/-- The magnitude the evaluator reads from a term with a numeral is the `float` nearest to
the value of the numeral, if there is one. -/
theorem readMagnitude_eq_floatRound (t : ComponentTerm) (hwf : t.WellFormed)
    (hnum : t.numberChars ≠ []) : t.readMagnitude = SpgInit.floatRound t.magnitude := by
  have h2 := stof_numeral t hwf hnum [] (by simp)
  rw [List.append_nil] at h2
  simp only [ComponentTerm.readMagnitude, hnum, if_false, h2]

theorem isDigit_ne_of_true (c : Char) (h : isDigit c = true) :
    c ≠ 'x' ∧ c ≠ 'y' ∧ c ≠ 'z' ∧ c ≠ '-' ∧ c ≠ '+' ∧ c ≠ '.' := by
  refine ⟨?_, ?_, ?_, ?_, ?_, ?_⟩ <;>
  · intro hc
    subst hc
    exact absurd h (by decide)

theorem numberChars_all (t : ComponentTerm) (hwf : t.WellFormed) :
    ∀ c ∈ t.numberChars, (isDigit c || decide (c = '.')) = true := by
  obtain ⟨hint, hfrac, -, -, -⟩ := wellFormed_parts t hwf
  intro c hc
  unfold ComponentTerm.numberChars at hc
  rcases List.mem_append.1 hc with h | h
  · simp [hint c h]
  · cases hf : t.fracDigits with
    | none =>
      rw [hf] at h
      simp at h
    | some f =>
      rw [hf] at h
      rcases List.mem_cons.1 h with h1 | h1
      · simp [h1]
      · simp [hfrac f hf c h1]

theorem stop_of_plus_minus (k : List Char) (hk : ∀ c ∈ k.head?, c = '+' ∨ c = '-') :
    ∀ c ∈ k.head?, isDigit c = false ∧ c ≠ '.' := by
  intro c hc
  rcases hk c hc with h | h <;> subst h <;> decide

theorem stop_of_tail (t : ComponentTerm) (hwf : t.WellFormed) (k : List Char)
    (hk : ∀ c ∈ k.head?, isDigit c = false ∧ c ≠ '.') :
    ∀ c ∈ (t.varChars ++ k).head?, isDigit c = false ∧ c ≠ '.' := by
  intro c hc
  unfold ComponentTerm.varChars at hc
  cases hv : t.var with
  | none =>
    rw [hv] at hc
    exact hk c (by simpa using hc)
  | some v =>
    rw [hv] at hc
    simp at hc
    subst hc
    rcases (wellFormed_parts t hwf).2.2.2.2 v hv with h | h | h <;> subst h <;> decide

theorem getNumberInFirstTerm_renderTerm (t : ComponentTerm) (hwf : t.WellFormed)
    (k : List Char) (hk : ∀ c ∈ k.head?, isDigit c = false ∧ c ≠ '.') :
    SpgInit.getNumberInFirstTerm (renderTerm t ++ k) =
      .ok (t.readCoefficient.map
        (fun c => (c, (if t.negative then 1 else 0) + t.numberChars.length))) ∧
    (renderTerm t ++ k).drop ((if t.negative then 1 else 0) + t.numberChars.length) =
      t.varChars ++ k := by
  have hall := numberChars_all t hwf
  have hstop := stop_of_tail t hwf k hk
  have hstop2 : ∀ c ∈ (t.varChars ++ k).head?, (isDigit c || decide (c = '.')) = false := by
    intro c hc
    obtain ⟨h1, h2⟩ := hstop c hc
    simp [h1, h2]
  have hvar := (wellFormed_parts t hwf).2.2.2.2
  have hbare := (wellFormed_parts t hwf).2.2.1
  unfold renderTerm ComponentTerm.readCoefficient ComponentTerm.readMagnitude
  cases hneg : t.negative with
  | false =>
    simp only [Bool.false_eq_true, if_false, List.nil_append, Nat.zero_add, List.append_assoc]
    refine ⟨?_, List.drop_left' rfl⟩
    by_cases hnum : t.numberChars = []
    · obtain ⟨v, hv⟩ := Option.ne_none_iff_exists'.1 (hbare hnum)
      have hvx := hvar v hv
      simp only [hnum, ComponentTerm.varChars, hv, List.nil_append, List.length_nil, if_true,
        Option.map_some']
      unfold SpgInit.getNumberInFirstTerm
      rcases hvx with h | h | h <;> subst h <;> simp
    · obtain ⟨a, l, hal⟩ := List.exists_cons_of_ne_nil hnum
      have ha := hall a (by rw [hal]; exact List.mem_cons_self _ _)
      have hax : (a ≠ 'x' ∧ a ≠ 'y' ∧ a ≠ 'z') ∧ a ≠ '-' := by
        simp only [Bool.or_eq_true, decide_eq_true_eq] at ha
        rcases ha with h | h
        · obtain ⟨h1, h2, h3, h4, -, -⟩ := isDigit_ne_of_true a h
          exact ⟨⟨h1, h2, h3⟩, h4⟩
        · subst h
          decide
      have htw := takeWhile_append_stop (fun d => isDigit d || decide (d = '.'))
        t.numberChars (t.varChars ++ k) hall hstop2
      unfold SpgInit.getNumberInFirstTerm
      have hhead : (t.numberChars ++ (t.varChars ++ k)).head? = some a := by
        rw [hal]
        rfl
      have hget : (t.numberChars ++ (t.varChars ++ k))[0]? = some a := by
        rw [hal]
        simp
      have hlen : ¬ (t.numberChars ++ (t.varChars ++ k)).length = 0 := by
        rw [hal]
        simp
      have hlen2 : ¬ t.numberChars.length = 0 := by
        rw [hal]
        simp
      simp only [hlen, if_false, hhead, Option.some.injEq, hax.2, decide_False,
        Bool.false_eq_true, hget, List.drop_zero, htw, Nat.zero_add, hlen2,
        List.take_left' rfl, hnum]
      cases SpgInit.stof t.numberChars <;> simp [hax.1.1, hax.1.2.1, hax.1.2.2]
  | true =>
    simp only [if_true, List.cons_append, List.nil_append, List.append_assoc]
    refine ⟨?_, by
      rw [Nat.add_comm]
      exact List.drop_left' rfl⟩
    by_cases hnum : t.numberChars = []
    · obtain ⟨v, hv⟩ := Option.ne_none_iff_exists'.1 (hbare hnum)
      have hvx := hvar v hv
      simp only [hnum, ComponentTerm.varChars, hv, List.nil_append, List.length_nil, if_true,
        Option.map_some']
      unfold SpgInit.getNumberInFirstTerm
      rcases hvx with h | h | h <;> subst h <;> simp
    · obtain ⟨a, l, hal⟩ := List.exists_cons_of_ne_nil hnum
      have ha := hall a (by rw [hal]; exact List.mem_cons_self _ _)
      have hax : a ≠ 'x' ∧ a ≠ 'y' ∧ a ≠ 'z' := by
        simp only [Bool.or_eq_true, decide_eq_true_eq] at ha
        rcases ha with h | h
        · obtain ⟨h1, h2, h3, -, -, -⟩ := isDigit_ne_of_true a h
          exact ⟨h1, h2, h3⟩
        · subst h
          decide
      have htw := takeWhile_append_stop (fun d => isDigit d || decide (d = '.'))
        t.numberChars (t.varChars ++ k) hall hstop2
      have hst := stof_numeral_append t hwf hnum ((t.varChars ++ k).take 1) (by
        intro c hc
        apply hstop c
        cases hvk : t.varChars ++ k with
        | nil =>
          rw [hvk] at hc
          simp at hc
        | cons b r =>
          rw [hvk] at hc
          simpa using hc)
      have htake : (t.numberChars ++ (t.varChars ++ k)).take (1 + t.numberChars.length) =
          t.numberChars ++ (t.varChars ++ k).take 1 := by
        rw [List.take_append_eq_append_take]
        have h1 : List.take (1 + t.numberChars.length) t.numberChars = t.numberChars :=
          List.take_of_length_le (by omega)
        have h2 : 1 + t.numberChars.length - t.numberChars.length = 1 := by omega
        rw [h1, h2]
      unfold SpgInit.getNumberInFirstTerm
      have hget : ('-' :: (t.numberChars ++ (t.varChars ++ k)))[1]? = some a := by
        rw [hal]
        simp
      simp only [List.length_cons, Nat.add_one_ne_zero, if_false, List.head?_cons,
        decide_True, if_true, hget, List.drop_succ_cons, List.drop_zero, htw,
        htake, hst, hnum]
      cases SpgInit.stof t.numberChars <;> simp [hax.1, hax.2.1, hax.2.2]

theorem renderTerm_head (t : ComponentTerm) (hwf : t.WellFormed) (k : List Char) :
    ∃ c cs, renderTerm t ++ k = c :: cs ∧ c ≠ '+' ∧ (t.negative = true → c = '-') := by
  have hall := numberChars_all t hwf
  unfold renderTerm
  cases hneg : t.negative with
  | true =>
    simp only [if_true, List.cons_append, List.nil_append, List.append_assoc]
    exact ⟨'-', _, rfl, by decide, fun _ => rfl⟩
  | false =>
    simp only [Bool.false_eq_true, if_false, List.nil_append, List.append_assoc]
    by_cases hnum : t.numberChars = []
    · obtain ⟨v, hv⟩ := Option.ne_none_iff_exists'.1 ((wellFormed_parts t hwf).2.2.1 hnum)
      simp only [hnum, ComponentTerm.varChars, hv, List.nil_append, List.cons_append]
      refine ⟨v, k, rfl, ?_, by intro h; cases h⟩
      rcases (wellFormed_parts t hwf).2.2.2.2 v hv with h | h | h <;> subst h <;> decide
    · obtain ⟨a, l, hal⟩ := List.exists_cons_of_ne_nil hnum
      have ha := hall a (by rw [hal]; exact List.mem_cons_self _ _)
      rw [hal]
      refine ⟨a, l ++ (t.varChars ++ k), rfl, ?_, by intro h; cases h⟩
      simp only [Bool.or_eq_true, decide_eq_true_eq] at ha
      rcases ha with h | h
      · exact (isDigit_ne_of_true a h).2.2.2.2.1
      · subst h
        decide

theorem renderFrom_cons (plus : Bool) (t : ComponentTerm) (ts : List ComponentTerm) :
    renderFrom plus (t :: ts) =
      (if t.negative then [] else if plus then ['+'] else []) ++ renderTerm t ++
        renderFrom true ts := rfl

theorem renderFrom_true_head (ts : List ComponentTerm) (hwf : ∀ t ∈ ts, t.WellFormed) :
    ∀ c ∈ (renderFrom true ts).head?, c = '+' ∨ c = '-' := by
  intro c hc
  cases ts with
  | nil => simp [renderFrom] at hc
  | cons t ts =>
    rw [renderFrom_cons] at hc
    cases hneg : t.negative with
    | true =>
      obtain ⟨d, cs, hd, -, hm⟩ := renderTerm_head t (hwf t (List.mem_cons_self _ _))
        (renderFrom true ts)
      simp only [hneg, if_true, List.nil_append, hd, List.head?_cons, Option.mem_def,
        Option.some.injEq] at hc
      exact Or.inr (hc ▸ hm hneg)
    | false =>
      simp only [hneg, Bool.false_eq_true, if_false, if_true, List.cons_append,
        List.nil_append, List.head?_cons, Option.mem_def, Option.some.injEq] at hc
      exact Or.inl hc.symm

theorem variableValue_of_var (t : ComponentTerm) (x y z : ℚ) :
    (t.var = some 'x' → t.variableValue x y z = x) ∧
    (t.var = some 'y' → t.variableValue x y z = y) ∧
    (t.var = some 'z' → t.variableValue x y z = z) ∧
    (t.var = none → t.variableValue x y z = 1) := by
  unfold ComponentTerm.variableValue
  refine ⟨?_, ?_, ?_, ?_⟩ <;> intro h <;> simp [h]

theorem interpretLoop_cons (fuel : Nat) (c : Char) (cs : List Char) (result x y z : ℚ) :
    SpgInit.interpretLoop (fuel + 1) (c :: cs) result x y z =
      match SpgInit.getNumberInFirstTerm (if c = '+' then cs else c :: cs) with
      | .error e => some (.error e)
      | .ok none => some (.ok 0)
      | .ok (some (numInFront, len)) =>
        match (if c = '+' then cs else c :: cs).drop len with
        | [] => some (.ok (result + numInFront))
        | v :: r =>
          if v = 'x' then SpgInit.interpretLoop fuel r (result + numInFront * x) x y z
          else if v = 'y' then SpgInit.interpretLoop fuel r (result + numInFront * y) x y z
          else if v = 'z' then SpgInit.interpretLoop fuel r (result + numInFront * z) x y z
          else SpgInit.interpretLoop fuel (v :: r) (result + numInFront) x y z := by
  rfl

theorem interpretLoop_term (f : Nat) (pre rest : List Char) (result x y z : ℚ)
    (hpre : pre = [] ∨ pre = ['+']) (c0 : Char) (cs0 : List Char) (hR : rest = c0 :: cs0)
    (hc0 : c0 ≠ '+') :
    SpgInit.interpretLoop (f + 1) (pre ++ rest) result x y z =
      match SpgInit.getNumberInFirstTerm rest with
      | .error e => some (.error e)
      | .ok none => some (.ok 0)
      | .ok (some (numInFront, len)) =>
        match rest.drop len with
        | [] => some (.ok (result + numInFront))
        | v :: r =>
          if v = 'x' then SpgInit.interpretLoop f r (result + numInFront * x) x y z
          else if v = 'y' then SpgInit.interpretLoop f r (result + numInFront * y) x y z
          else if v = 'z' then SpgInit.interpretLoop f r (result + numInFront * z) x y z
          else SpgInit.interpretLoop f (v :: r) (result + numInFront) x y z := by
  rcases hpre with h | h
  · subst h
    rw [List.nil_append, hR, interpretLoop_cons]
    simp only [hc0, if_false]
  · subst h
    simp only [List.cons_append, List.nil_append]
    rw [interpretLoop_cons]
    simp only [if_true]

/-- One pass of the loop per term: on the characters of well-formed terms the loop adds, term
by term, the signed coefficient it reads times the value of the variable, and returns 0 at
the first term whose numeral cannot be read. -/
theorem interpretLoop_renderFrom (x y z : ℚ) :
    ∀ (ts : List ComponentTerm) (plus : Bool) (result : ℚ) (fuel : Nat),
      (∀ t ∈ ts, t.WellFormed) → ts.length + 1 ≤ fuel →
      SpgInit.interpretLoop fuel (renderFrom plus ts) result x y z =
        some (.ok ((termsValueRead x y z ts result).getD 0)) := by
  intro ts
  induction ts with
  | nil =>
    intro plus result fuel _ hf
    obtain ⟨f, rfl⟩ : ∃ f, fuel = f + 1 := ⟨fuel - 1, by omega⟩
    rfl
  | cons t ts ih =>
    intro plus result fuel hwf hf
    obtain ⟨f, rfl⟩ : ∃ f, fuel = f + 1 := ⟨fuel - 1, by omega⟩
    simp only [List.length_cons] at hf
    have hwt := hwf t (List.mem_cons_self _ _)
    have hwts : ∀ u ∈ ts, u.WellFormed := fun u hu => hwf u (List.mem_cons_of_mem _ hu)
    have hk := renderFrom_true_head ts hwts
    obtain ⟨c0, cs0, hR, hc0, -⟩ := renderTerm_head t hwt (renderFrom true ts)
    obtain ⟨hg, hdrop⟩ := getNumberInFirstTerm_renderTerm t hwt (renderFrom true ts)
      (stop_of_plus_minus _ hk)
    have hvv := variableValue_of_var t x y z
    have ihk := fun r => ih true r f hwts (by omega)
    have hpre : (if t.negative then [] else if plus then ['+'] else []) = [] ∨
        (if t.negative then [] else if plus then ['+'] else []) = ['+'] := by
      cases t.negative <;> cases plus <;> simp
    rw [renderFrom_cons, List.append_assoc,
      interpretLoop_term f _ _ result x y z hpre c0 cs0 hR hc0, hg]
    cases hrc : t.readCoefficient with
    | none =>
      simp only [Option.map_none', termsValueRead, hrc, Option.getD_none]
    | some c =>
      have hval : termsValueRead x y z (t :: ts) result =
          termsValueRead x y z ts (result + c * t.variableValue x y z) := by
        simp only [termsValueRead, hrc]
      simp only [Option.map_some', hdrop, hval]
      cases hv : t.var with
      | none =>
        have h1 := hvv.2.2.2 hv
        rw [h1, mul_one]
        simp only [ComponentTerm.varChars, hv, List.nil_append]
        cases hkk : renderFrom true ts with
        | nil =>
          have := ihk (result + c)
          rw [hkk] at this
          rw [← this]
          obtain ⟨g, rfl⟩ : ∃ g, f = g + 1 := ⟨f - 1, by omega⟩
          rfl
        | cons v r =>
          have hvpm := hk v (by rw [hkk]; simp)
          have hne : v ≠ 'x' ∧ v ≠ 'y' ∧ v ≠ 'z' := by
            rcases hvpm with h | h <;> subst h <;> decide
          simp only [hne.1, hne.2.1, hne.2.2, if_false]
          rw [← hkk]
          exact ihk _
      | some v =>
        simp only [ComponentTerm.varChars, hv, List.cons_append, List.nil_append]
        rcases (wellFormed_parts t hwt).2.2.2.2 v hv with h | h | h
        · subst h
          rw [hvv.1 hv]
          simp only [if_true]
          exact ihk _
        · subst h
          rw [hvv.2.1 hv]
          simp only [show ¬ ('y' = 'x') by decide, if_false, if_true]
          exact ihk _
        · subst h
          rw [hvv.2.2.1 hv]
          simp only [show ¬ ('z' = 'x') by decide, show ¬ ('z' = 'y') by decide, if_false,
            if_true]
          exact ihk _

theorem length_renderFrom (ts : List ComponentTerm) (hwf : ∀ t ∈ ts, t.WellFormed)
    (plus : Bool) : ts.length ≤ (renderFrom plus ts).length := by
  induction ts generalizing plus with
  | nil => simp
  | cons t ts ih =>
    have h1 := ih (fun u hu => hwf u (List.mem_cons_of_mem _ hu)) true
    obtain ⟨c, cs, hc, -, -⟩ := renderTerm_head t (hwf t (List.mem_cons_self _ _)) []
    have h2 : 1 ≤ (renderTerm t).length := by
      rw [List.append_nil] at hc
      rw [hc]
      simp
    rw [renderFrom_cons]
    simp only [List.length_append, List.length_cons]
    omega

/-- The evaluator on a component of the grammar: the sum of the terms with the coefficients
as they are read, and 0 when the numeral of some term cannot be read. -/
theorem interpretComponent_renderFrom (plus : Bool) (ts : List ComponentTerm) (x y z : ℚ)
    (hne : ts ≠ []) (hwf : ∀ t ∈ ts, t.WellFormed) :
    SpgInit.interpretComponent (String.mk (renderFrom plus ts)) x y z =
      some (.ok ((termsValueRead x y z ts 0).getD 0)) := by
  have hlen := length_renderFrom ts hwf plus
  have hpos : 0 < ts.length := List.length_pos.2 hne
  unfold SpgInit.interpretComponent
  have h0 : ¬ (String.mk (renderFrom plus ts)).length = 0 := by
    simp only [String.length]
    omega
  simp only [h0, if_false]
  exact interpretLoop_renderFrom x y z ts plus 0 _ hwf (by
    simp only [String.length]
    omega)

theorem floatRound_one : SpgInit.floatRound 1 = some 1 := by
  have := floatRound_natCast 1 (by norm_num)
  simpa using this

theorem floatRound_half : SpgInit.floatRound (1 / 2) = some (1 / 2) := by
  have := floatRound_exact 1 (-1) (by norm_num) (by norm_num) (by norm_num)
  have h : ((1 : Nat) : ℚ) * 2 ^ (-1 : Int) = 1 / 2 := by norm_num
  rwa [h] at this

theorem stof_one : SpgInit.stof ['1'] = some 1 := by
  have h := stof_numeral ⟨false, ['1'], none, none⟩ (by decide) (by decide) [] (by simp)
  have hm : (⟨false, ['1'], none, none⟩ : ComponentTerm).magnitude = 1 := by
    simp [ComponentTerm.magnitude, ComponentTerm.numberChars, SpgInit.digitsValue]
  rw [hm, floatRound_one] at h
  exact h

theorem getNumberInFirstTerm_slash (q : List Char) :
    SpgInit.getNumberInFirstTerm ('/' :: q) = .ok none := by
  have h1 : isDigit '/' = false := by decide
  simp [SpgInit.getNumberInFirstTerm, h1]

theorem interpretComponent_one_slash_two (x y z : ℚ) :
    SpgInit.interpretComponent "1/2" x y z = some (.ok 0) := by
  have hd1 : isDigit '1' = true := by decide
  have hds : isDigit '/' = false := by decide
  have hl1 : ¬ ("1/2" : String).length = 0 := by decide
  simp [SpgInit.interpretComponent, SpgInit.interpretLoop, SpgInit.getNumberInFirstTerm,
    stof_one, hl1, hd1, hds]

theorem interpretComponent_half (x y z : ℚ) :
    SpgInit.interpretComponent "0.5" x y z = some (.ok (1 / 2)) := by
  have hm : (⟨false, ['0'], some ['5'], none⟩ : ComponentTerm).magnitude = 1 / 2 := by
    simp [ComponentTerm.magnitude, ComponentTerm.numberChars, SpgInit.digitsValue]
    norm_num
  have hr : (⟨false, ['0'], some ['5'], none⟩ : ComponentTerm).readMagnitude =
      some (1 / 2) := by
    rw [readMagnitude_eq_floatRound _ (by decide) (by decide), hm, floatRound_half]
  have hs : String.mk (renderFrom false [⟨false, ['0'], some ['5'], none⟩]) = "0.5" := by
    decide
  have h := interpretComponent_renderFrom false [⟨false, ['0'], some ['5'], none⟩] x y z
    (by simp) (by decide)
  rw [hs] at h
  rw [h]
  simp [termsValueRead, ComponentTerm.readCoefficient, hr, ComponentTerm.variableValue]

/-- C9 as stated fails: the component `1/2` does not evaluate to one half. -/
theorem interpretComponent_fraction_counterexample :
    SpgInit.interpretComponent "1/2" 0 0 0 = some (.ok 0) ∧
    SpgInit.interpretComponent "1/2" 0 0 0 ≠ some (.ok (1 / 2)) := by
  have h : SpgInit.interpretComponent "1/2" 0 0 0 = some (.ok 0) :=
    interpretComponent_one_slash_two 0 0 0
  refine ⟨h, ?_⟩
  rw [h]
  intro hcon
  simp only [Option.some.injEq, Except.ok.injEq] at hcon
  norm_num at hcon

/-- C9, amended: a `/` is not part of the syntax of a number. For every decimal numeral `p`
(a well-formed term without sign and variable) and every string `q`, `getNumberInFirstTerm`
passes exactly `p` to `std::stof` and stops in front of the `/`: from `p/q` it reads what
`std::stof` makes of `p`, with the length of `p`, and fails when `std::stof` throws on `p`;
and it fails on `/q`: no division is carried out. A rational coefficient is written as a
decimal: `0.5` evaluates to one half. -/
theorem getNumberInFirstTerm_fraction (p : ComponentTerm) (q : List Char) (x y z : ℚ)
    (hwf : p.WellFormed) (hsign : p.negative = false) (hvar : p.var = none) :
    SpgInit.getNumberInFirstTerm (p.numberChars ++ '/' :: q) =
        .ok ((SpgInit.stof p.numberChars).map (fun v => (v, p.numberChars.length))) ∧
    (p.numberChars ++ '/' :: q).drop p.numberChars.length = '/' :: q ∧
    SpgInit.getNumberInFirstTerm ('/' :: q) = .ok none ∧
    SpgInit.interpretComponent "0.5" x y z = some (.ok (1 / 2)) := by
  obtain ⟨h1, h2⟩ := getNumberInFirstTerm_renderTerm p hwf ('/' :: q) (by
    intro c hc
    simp at hc
    subst hc
    decide)
  have hr : renderTerm p = p.numberChars := by
    simp [renderTerm, hsign, ComponentTerm.varChars, hvar]
  have hv : p.varChars = [] := by simp [ComponentTerm.varChars, hvar]
  have hnum : p.numberChars ≠ [] := by
    intro hn
    exact (wellFormed_parts p hwf).2.2.1 hn hvar
  have hc : p.readCoefficient = SpgInit.stof p.numberChars := by
    simp [ComponentTerm.readCoefficient, ComponentTerm.readMagnitude, hsign, hnum]
  rw [hr, hc] at h1
  rw [hr, hv] at h2
  simp only [hsign, Bool.false_eq_true, if_false, Nat.zero_add, List.nil_append] at h1 h2
  exact ⟨h1, h2, getNumberInFirstTerm_slash q, interpretComponent_half x y z⟩

theorem getNumberInFirstTerm_fraction_witness :
    ((⟨false, ['1'], none, none⟩ : ComponentTerm).WellFormed ∧
      (⟨false, ['1'], none, none⟩ : ComponentTerm).negative = false ∧
      (⟨false, ['1'], none, none⟩ : ComponentTerm).var = none ∧
      SpgInit.stof (⟨false, ['1'], none, none⟩ : ComponentTerm).numberChars = some 1) ∧
    (SpgInit.getNumberInFirstTerm
        ((⟨false, ['1'], none, none⟩ : ComponentTerm).numberChars ++ '/' :: ['2']) =
        .ok ((SpgInit.stof (⟨false, ['1'], none, none⟩ : ComponentTerm).numberChars).map
          (fun v => (v, (⟨false, ['1'], none, none⟩ : ComponentTerm).numberChars.length))) ∧
      ((⟨false, ['1'], none, none⟩ : ComponentTerm).numberChars ++ '/' :: ['2']).drop
        (⟨false, ['1'], none, none⟩ : ComponentTerm).numberChars.length = '/' :: ['2'] ∧
      SpgInit.getNumberInFirstTerm ('/' :: ['2']) = .ok none ∧
      SpgInit.interpretComponent "0.5" 3 4 5 = some (.ok (1 / 2))) :=
  ⟨⟨by decide, rfl, rfl, stof_one⟩,
    getNumberInFirstTerm_fraction ⟨false, ['1'], none, none⟩ ['2'] 3 4 5 (by decide) rfl rfl⟩

/-- C10 at failing inputs: the empty component gives the sentinel `-1`, but a component with
a term whose number cannot be read (`1/2`, `a`) makes `interpretComponent` return `0`, which is
not the sentinel that `addWyckoffAtomRandomly` compares with. -/
theorem interpretComponent_failure_value :
    (∀ x y z : ℚ, SpgInit.interpretComponent "" x y z = some (.ok (-1))) ∧
    (∀ x y z : ℚ, SpgInit.getNumberInFirstTerm "/2".data = .ok none ∧
      SpgInit.interpretComponent "1/2" x y z = some (.ok 0)) ∧
    (∀ x y z : ℚ, SpgInit.getNumberInFirstTerm "a".data = .ok none ∧
      SpgInit.interpretComponent "a" x y z = some (.ok 0)) ∧
    (0 : ℚ) ≠ -1 := by
  have hda : isDigit 'a' = false := by decide
  have hl2 : ¬ ("a" : String).length = 0 := by decide
  refine ⟨?_, ?_, ?_, by norm_num⟩
  · intro x y z
    rfl
  · intro x y z
    exact ⟨getNumberInFirstTerm_slash _, interpretComponent_one_slash_two x y z⟩
  · intro x y z
    constructor
    · simp [SpgInit.getNumberInFirstTerm, hda]
    · simp [SpgInit.interpretComponent, SpgInit.interpretLoop, SpgInit.getNumberInFirstTerm,
        hl2, hda]

/-! ## Termination in every mode -/

theorem findAllCombinations_terminates_any (z : Nat) (sets : combinationSettings) :
    ∀ (fuel : Nat) (acc : singleAtomPossibilities) (T : usageTracker),
      (∀ t ∈ T, 1 ≤ t.multiplicity) →
      keepCount T + getNumAtomsLeft T sets.numAtoms + 1 ≤ fuel →
      ∃ r, findAllCombinations fuel acc T z sets = some r := by
  intro fuel
  induction fuel with
  | zero =>
    intro acc T _ hf
    omega
  | succ fuel ih =>
    intro acc T hT hf
    rw [findAllCombinations_succ_useBranch]
    by_cases h0 : sets.numAtoms = 0
    · simp only [h0, if_true]
      exact ⟨_, rfl⟩
    · simp only [h0, if_false]
      cases hidx : getFirstAvailableIndex T with
      | none => exact ⟨_, rfl⟩
      | some i =>
        obtain ⟨info, hinfo, hk⟩ := getFirstAvailableIndex_some T i hidx
        simp only [hinfo]
        have hkc := keepCount_skipEntry T i info hinfo hk
        have hls := getNumAtomsLeft_skipEntry T sets.numAtoms i info hinfo
        have huse : ∃ r1, useBranch fuel acc T i info z sets = some r1 := by
          unfold useBranch
          by_cases hus : positionIsUsable info (getNumAtomsLeft T sets.numAtoms)
              sets.findOnlyNonUnique = true
          · simp only [hus, if_true]
            by_cases hl : getNumAtomsLeft (useEntry T i info) sets.numAtoms = 0
            · simp only [hl, if_true]
              split <;> exact ⟨_, rfl⟩
            · simp only [hl, if_false]
              have hm := (positionIsUsable_true _ _ _ hus).1
              have hlu := getNumAtomsLeft_useEntry T sets.numAtoms i info hinfo hm
              have hm1 := hT info (mem_of_getElem?_eq_some T i info hinfo)
              have hku := keepCount_useEntry T i info hinfo
              exact ih acc (useEntry T i info) (multiplicity_useEntry T i info hinfo hT)
                (by omega)
          · simp only [hus]
            exact ⟨_, rfl⟩
        obtain ⟨r1, hr1⟩ := huse
        rw [hr1]
        cases r1 with
        | error p => exact ⟨_, rfl⟩
        | ok acc1 =>
          exact ih acc1 (skipEntry T i info) (multiplicity_skipEntry T i info hinfo hT)
            (by omega)

theorem findOnlyOneCombinationIfPossible_terminates (fuel : Nat)
    (acc : singleAtomPossibilities) (T : usageTracker) (z : Nat) (sets : combinationSettings)
    (finalAtom : Bool) (hT : ∀ t ∈ T, 1 ≤ t.multiplicity)
    (hf : keepCount T + getNumAtomsLeft T sets.numAtoms + 1 ≤ fuel) :
    ∃ out, findOnlyOneCombinationIfPossible fuel acc T z sets finalAtom = some out := by
  unfold findOnlyOneCombinationIfPossible
  simp only []
  generalize hts : (if sets.findOnlyNonUnique = true then
      ({ sets with findOnlyOne := true, findOnlyNonUnique := true } : combinationSettings)
    else if finalAtom = true then
      { numAtoms := sets.numAtoms, findOnlyOne := true, findOnlyNonUnique := false }
    else { sets with findOnlyOne := true, findOnlyNonUnique := true }) = ts
  have hts1 : ts.numAtoms = sets.numAtoms := by
    subst hts
    split
    · rfl
    · split <;> rfl
  obtain ⟨r, hr⟩ := findAllCombinations_terminates_any z ts fuel acc T hT (by rw [hts1]; exact hf)
  rw [hr]
  cases r with
  | error p => exact ⟨_, rfl⟩
  | ok acc1 =>
    simp only []
    by_cases hl : acc1.length = 0
    · simp only [hl, if_true]
      obtain ⟨out, hout⟩ := findAllCombinations_terminates z
        { ts with findOnlyOne := false, findOnlyNonUnique := sets.findOnlyNonUnique } rfl
        fuel acc1 T hT (by simp only [hts1]; exact hf)
      rw [hout]
      exact ⟨_, rfl⟩
    · simp only [hl, if_false]
      exact ⟨_, rfl⟩

theorem keepCount_left_createUsageTracker (wyckVec : wyckoffPositions) (N : Nat)
    (hN : N < UINT_MOD) :
    keepCount (createUsageTracker wyckVec) + getNumAtomsLeft (createUsageTracker wyckVec) N
      ≤ (createUsageTracker wyckVec).length + N := by
  have h1 := keepCount_le_length (createUsageTracker wyckVec)
  have h2 := usedSum_createUsageTracker wyckVec
  have h3 := getNumAtomsLeft_of_le (createUsageTracker wyckVec) N (by omega) hN
  omega

theorem createUsageTracker_multiplicity (wyckVec : wyckoffPositions)
    (hmult : ∀ p ∈ wyckVec, 1 ≤ p.multiplicity) :
    ∀ t ∈ createUsageTracker wyckVec, 1 ≤ t.multiplicity := by
  intro t ht
  unfold createUsageTracker at ht
  simp only [List.mem_map] at ht
  obtain ⟨g, hg, rfl⟩ := ht
  rw [(init_fields g).2.2.2.2]
  exact groupMultiplicity_pos wyckVec hmult g hg

/-- With every multiplicity of the table at least 1, the loop of `getSystemPossibilities`
returns in every mode once the fuel exceeds the number of groups plus the largest count. -/
theorem systemPossibilitiesLoop_terminates (fuel : Nat) (wyckVec : wyckoffPositions)
    (f1 f2 : Bool) (hmult : ∀ p ∈ wyckVec, 1 ≤ p.multiplicity) :
    ∀ (rest : List numAndType) (sys : systemPossibilities),
      (∀ nt ∈ rest, nt.1 < UINT_MOD ∧ (createUsageTracker wyckVec).length + nt.1 + 1 ≤ fuel) →
      ∃ out, SpgInitCombinatorics.systemPossibilitiesLoop fuel wyckVec f1 f2 rest sys
        = some out := by
  intro rest
  induction rest with
  | nil =>
    intro sys _
    exact ⟨sys, rfl⟩
  | cons nt rest ih =>
    intro sys hrest
    obtain ⟨hN, hfuel⟩ := hrest nt (List.mem_cons_self _ _)
    have hT := createUsageTracker_multiplicity wyckVec hmult
    have hb := keepCount_left_createUsageTracker wyckVec nt.1 hN
    have hfound : ∃ sa, (if f1 = true then
        findOnlyOneCombinationIfPossible fuel [] (createUsageTracker wyckVec) nt.2
          ⟨nt.1, f1, f2⟩ rest.isEmpty
      else
        match findAllCombinations fuel [] (createUsageTracker wyckVec) nt.2 ⟨nt.1, f1, f2⟩ with
        | some (.ok v) => some v
        | _ => none) = some sa := by
      cases f1 with
      | true =>
        simp only [if_true]
        exact findOnlyOneCombinationIfPossible_terminates fuel [] _ nt.2 ⟨nt.1, true, f2⟩ _ hT
          (by simp only []; omega)
      | false =>
        simp only [Bool.false_eq_true, if_false]
        obtain ⟨out, hout⟩ := findAllCombinations_terminates nt.2 ⟨nt.1, false, f2⟩ rfl fuel []
          (createUsageTracker wyckVec) hT (by simp only []; omega)
        rw [hout]
        exact ⟨_, rfl⟩
    obtain ⟨sa, hsa⟩ := hfound
    unfold SpgInitCombinatorics.systemPossibilitiesLoop
    simp only [hsa]
    by_cases hl : sa.length = 0
    · simp only [hl, if_true]
      exact ⟨_, rfl⟩
    · simp only [hl, if_false]
      exact ih _ (fun x hx => hrest x (List.mem_cons_of_mem _ hx))

theorem getSystemPossibilities_terminates (fuel : Nat) (db : WyckoffDatabase) (spg : Nat)
    (atoms : List Nat) (f1 f2 : Bool)
    (hmult : ∀ p ∈ SpgInit.getWyckoffPositions db spg, 1 ≤ p.multiplicity)
    (hfuel : (createUsageTracker (SpgInit.getWyckoffPositions db spg)).length
      + atoms.length + 1 ≤ fuel) :
    ∃ sys, SpgInitCombinatorics.getSystemPossibilities fuel db spg atoms f1 f2 = some sys := by
  unfold SpgInitCombinatorics.getSystemPossibilities
  apply systemPossibilitiesLoop_terminates fuel _ f1 f2 hmult
  intro nt hnt
  have h1 := getNumOfEachType_lt atoms nt hnt
  have h2 := (mem_getNumOfEachType atoms nt hnt).2
  have h3 : atoms.count nt.2 % UINT_MOD ≤ atoms.count nt.2 := Nat.mod_le _ _
  have h4 := List.count_le_length nt.2 atoms
  exact ⟨h1, by omega⟩

/-! ## Conservation and the uniqueness budget of the result -/

/-- C4 (atom-count conservation, P6): each single-atom possibility of each system possibility
that `getSystemPossibilities` returns, whatever the flags, places exactly as many atoms (the
sum over its picks of multiplicity times `numToChoose`) as its atomic number occurs in
`atoms`; and with multiplicities at least 1 and enough fuel the function does return. The
atom list is shorter than `2 ^ 32`, so that the counts fit the `uint` of the source. -/
theorem getSystemPossibilities_conservation (fuel : Nat) (db : WyckoffDatabase) (spg : Nat)
    (atoms : List Nat) (findOnlyOne findOnlyNonUnique : Bool)
    (hlen : atoms.length < UINT_MOD) :
    (∀ sys, SpgInitCombinatorics.getSystemPossibilities fuel db spg atoms findOnlyOne
        findOnlyNonUnique = some sys →
      ∀ S ∈ sys, ∀ p ∈ S, atomsPlaced p = atoms.count p.atomicNum) ∧
    ((∀ p ∈ SpgInit.getWyckoffPositions db spg, 1 ≤ p.multiplicity) →
      (createUsageTracker (SpgInit.getWyckoffPositions db spg)).length + atoms.length + 1
        ≤ fuel →
      ∃ sys, SpgInitCombinatorics.getSystemPossibilities fuel db spg atoms findOnlyOne
        findOnlyNonUnique = some sys) := by
  refine ⟨?_, fun hmult hfuel =>
    getSystemPossibilities_terminates fuel db spg atoms _ _ hmult hfuel⟩
  intro sys h
  have key := systemPossibilitiesLoop_invariant fuel (SpgInit.getWyckoffPositions db spg)
    findOnlyOne findOnlyNonUnique
    (fun sys => ∀ S ∈ sys, ∀ p ∈ S, atomsPlaced p = atoms.count p.atomicNum)
    (by simp) (SpgInit.getNumOfEachType atoms) [] (getNumOfEachType_lt atoms)
    (by
      intro nt hnt sa sys1 hsa hI S hS
      have hcount : nt.1 = atoms.count nt.2 := by
        rw [(mem_getNumOfEachType atoms nt hnt).2]
        exact Nat.mod_eq_of_lt (lt_of_le_of_lt (List.count_le_length _ _) hlen)
      have hnew : ∀ p ∈ sa, atomsPlaced p = atoms.count p.atomicNum := by
        intro p hp
        obtain ⟨h1, h2, -⟩ := hsa p hp
        rw [h1, h2, hcount]
      rcases mem_joinSingleWithSystem sa sys1 S hS with ⟨-, p, hp, rfl⟩ | ⟨S0, hS0, p, hp, rfl, -⟩
      · intro q hq
        simp only [List.mem_singleton] at hq
        exact hq ▸ hnew p hp
      · intro q hq
        rcases List.mem_append.1 hq with h1 | h1
        · exact hI S0 hS0 q h1
        · simp only [List.mem_singleton] at h1
          exact h1 ▸ hnew p hp)
    (by simp) sys h
  exact key

/-- C5 (uniqueness budget, P5): in each system possibility that `getSystemPossibilities`
returns, whatever the table and the flags, the picks of a unique similar-WP group sum, over
all single-atom possibilities, to at most the number of letters of the group, and so does
each single pick of it; and with multiplicities at least 1 and enough fuel the function does
return. -/
theorem getSystemPossibilities_uniqueness_budget (fuel : Nat) (db : WyckoffDatabase)
    (spg : Nat) (atoms : List Nat) (findOnlyOne findOnlyNonUnique : Bool) :
    (∀ sys, SpgInitCombinatorics.getSystemPossibilities fuel db spg atoms findOnlyOne
        findOnlyNonUnique = some sys →
      ∀ S ∈ sys, ∀ g ∈ groupSimilarWyckPositions (SpgInit.getWyckoffPositions db spg),
        groupIsUnique g = true →
        totalUsesOfGroup S g ≤ g.length ∧
        ∀ p ∈ S, ∀ a ∈ p.assigns, a.choosablePositions = g → a.numToChoose ≤ g.length) ∧
    ((∀ p ∈ SpgInit.getWyckoffPositions db spg, 1 ≤ p.multiplicity) →
      (createUsageTracker (SpgInit.getWyckoffPositions db spg)).length + atoms.length + 1
        ≤ fuel →
      ∃ sys, SpgInitCombinatorics.getSystemPossibilities fuel db spg atoms findOnlyOne
        findOnlyNonUnique = some sys) := by
  refine ⟨?_, fun hmult hfuel =>
    getSystemPossibilities_terminates fuel db spg atoms _ _ hmult hfuel⟩
  intro sys h
  have key := systemPossibilitiesLoop_invariant fuel (SpgInit.getWyckoffPositions db spg)
    findOnlyOne findOnlyNonUnique
    (fun sys => ∀ S ∈ sys,
      (∀ p ∈ S, NiceSap (groupSimilarWyckPositions (SpgInit.getWyckoffPositions db spg)) p) ∧
      ∀ g, groupIsUnique g = true → totalUsesOfGroup S g ≤ g.length)
    (by simp) (SpgInit.getNumOfEachType atoms) [] (getNumOfEachType_lt atoms)
    (fun nt _ sa sys1 hsa hI =>
      budget_step (SpgInit.getWyckoffPositions db spg) sa sys1 (fun p hp => (hsa p hp).2.2) hI)
    (by simp) sys h
  intro S hS g _ hu
  obtain ⟨hn, hb⟩ := key S hS
  refine ⟨hb g hu, ?_⟩
  intro p hp a ha hag
  have := (hn p hp).2 a ha
  rw [hag] at this
  exact this.2 hu

theorem getSystemPossibilities_conservation_witness :
    [1, 1, 1, 1, 2, 2, 2].length < UINT_MOD ∧
    (SpgInitCombinatorics.getSystemPossibilities 20 databaseThreeGroups 1
        [1, 1, 1, 1, 2, 2, 2] false false =
      some [[⟨1, [⟨1, [⟨'a', 1, "0,0,0"⟩]⟩, ⟨1, [⟨'c', 3, "x,y,z"⟩]⟩]⟩,
        ⟨2, [⟨1, [⟨'c', 3, "x,y,z"⟩]⟩]⟩]] ∧
      ∀ S ∈ [[(⟨1, [⟨1, [⟨'a', 1, "0,0,0"⟩]⟩, ⟨1, [⟨'c', 3, "x,y,z"⟩]⟩]⟩ : singleAtomPossibility),
          ⟨2, [⟨1, [⟨'c', 3, "x,y,z"⟩]⟩]⟩]],
        ∀ p ∈ S, atomsPlaced p = [1, 1, 1, 1, 2, 2, 2].count p.atomicNum) ∧
    ∃ sys, SpgInitCombinatorics.getSystemPossibilities 20 databaseThreeGroups 1
        [1, 1, 1, 1, 2, 2, 2] false false = some sys :=
  ⟨by decide,
    ⟨by decide,
      (getSystemPossibilities_conservation 20 databaseThreeGroups 1 [1, 1, 1, 1, 2, 2, 2]
        false false (by decide)).1 _ (by decide)⟩,
    (getSystemPossibilities_conservation 20 databaseThreeGroups 1 [1, 1, 1, 1, 2, 2, 2]
      false false (by decide)).2 (by decide) (by decide)⟩

theorem getSystemPossibilities_uniqueness_budget_witness :
    (SpgInitCombinatorics.getSystemPossibilities 20 databaseThreeGroups 1
        [1, 1, 1, 1, 2, 2, 2] false false =
      some [[⟨1, [⟨1, [⟨'a', 1, "0,0,0"⟩]⟩, ⟨1, [⟨'c', 3, "x,y,z"⟩]⟩]⟩,
        ⟨2, [⟨1, [⟨'c', 3, "x,y,z"⟩]⟩]⟩]] ∧
      ∀ S ∈ [[(⟨1, [⟨1, [⟨'a', 1, "0,0,0"⟩]⟩, ⟨1, [⟨'c', 3, "x,y,z"⟩]⟩]⟩ : singleAtomPossibility),
          ⟨2, [⟨1, [⟨'c', 3, "x,y,z"⟩]⟩]⟩]],
        ∀ g ∈ groupSimilarWyckPositions (SpgInit.getWyckoffPositions databaseThreeGroups 1),
          groupIsUnique g = true →
          totalUsesOfGroup S g ≤ g.length ∧
          ∀ p ∈ S, ∀ a ∈ p.assigns, a.choosablePositions = g → a.numToChoose ≤ g.length) ∧
    ∃ sys, SpgInitCombinatorics.getSystemPossibilities 20 databaseThreeGroups 1
        [1, 1, 1, 1, 2, 2, 2] false false = some sys :=
  ⟨⟨by decide,
      (getSystemPossibilities_uniqueness_budget 20 databaseThreeGroups 1
        [1, 1, 1, 1, 2, 2, 2] false false).1 _ (by decide)⟩,
    (getSystemPossibilities_uniqueness_budget 20 databaseThreeGroups 1 [1, 1, 1, 1, 2, 2, 2]
      false false).2 (by decide) (by decide)⟩

/-! ## The lattice sampler -/

theorem generateLattice_outside (g : Nat → ℚ → ℚ → ℚ) (spg : Nat) (mins maxes : latticeStruct)
    (h : spg < 1 ∨ spg > 230) :
    SpgInit.generateLatticeForSpg g spg mins maxes = latticeStruct.zero := by
  unfold SpgInit.generateLatticeForSpg
  rw [if_pos h]

theorem generateLattice_triclinic (g : Nat → ℚ → ℚ → ℚ) (spg : Nat) (mins maxes : latticeStruct)
    (h : spg = 1 ∨ spg = 2) :
    SpgInit.generateLatticeForSpg g spg mins maxes =
      { a := g 0 mins.a maxes.a
        b := g 1 mins.b maxes.b
        c := g 2 mins.c maxes.c
        alpha := g 3 mins.alpha maxes.alpha
        beta := g 4 mins.beta maxes.beta
        gamma := g 5 mins.gamma maxes.gamma } := by
  unfold SpgInit.generateLatticeForSpg
  have n0 : ¬ (spg < 1 ∨ spg > 230) := by omega
  rw [if_neg n0, if_pos h]

theorem generateLattice_monoclinic (g : Nat → ℚ → ℚ → ℚ) (spg : Nat)
    (mins maxes : latticeStruct) (h : 3 ≤ spg ∧ spg ≤ 15) :
    SpgInit.generateLatticeForSpg g spg mins maxes =
      if mins.alpha > 90 ∨ maxes.alpha < 90 ∨ mins.gamma > 90 ∨ maxes.gamma < 90 then
        latticeStruct.zero
      else
        { a := g 0 mins.a maxes.a
          b := g 1 mins.b maxes.b
          c := g 2 mins.c maxes.c
          alpha := 90
          gamma := 90
          beta := g 3 mins.beta maxes.beta } := by
  unfold SpgInit.generateLatticeForSpg
  have n0 : ¬ (spg < 1 ∨ spg > 230) := by omega
  have n1 : ¬ (spg = 1 ∨ spg = 2) := by omega
  rw [if_neg n0, if_neg n1, if_pos h]

theorem generateLattice_orthorhombic (g : Nat → ℚ → ℚ → ℚ) (spg : Nat)
    (mins maxes : latticeStruct) (h : 16 ≤ spg ∧ spg ≤ 74) :
    SpgInit.generateLatticeForSpg g spg mins maxes =
      if mins.alpha > 90 ∨ maxes.alpha < 90 ∨ mins.beta > 90 ∨ maxes.beta < 90 ∨
          mins.gamma > 90 ∨ maxes.gamma < 90 then latticeStruct.zero
      else
        { a := g 0 mins.a maxes.a
          b := g 1 mins.b maxes.b
          c := g 2 mins.c maxes.c
          alpha := 90
          beta := 90
          gamma := 90 } := by
  unfold SpgInit.generateLatticeForSpg
  have n0 : ¬ (spg < 1 ∨ spg > 230) := by omega
  have n1 : ¬ (spg = 1 ∨ spg = 2) := by omega
  have n2 : ¬ (3 ≤ spg ∧ spg ≤ 15) := by omega
  rw [if_neg n0, if_neg n1, if_neg n2, if_pos h]

theorem generateLattice_tetragonal (g : Nat → ℚ → ℚ → ℚ) (spg : Nat)
    (mins maxes : latticeStruct) (h : 75 ≤ spg ∧ spg ≤ 142) :
    SpgInit.generateLatticeForSpg g spg mins maxes =
      if mins.alpha > 90 ∨ maxes.alpha < 90 ∨ mins.beta > 90 ∨ maxes.beta < 90 ∨
          mins.gamma > 90 ∨ maxes.gamma < 90 then latticeStruct.zero
      else if (if mins.a > mins.b then mins.a else mins.b) >
          (if maxes.a < maxes.b then maxes.a else maxes.b) then latticeStruct.zero
      else
        { a := g 0 (if mins.a > mins.b then mins.a else mins.b)
            (if maxes.a < maxes.b then maxes.a else maxes.b)
          b := g 0 (if mins.a > mins.b then mins.a else mins.b)
            (if maxes.a < maxes.b then maxes.a else maxes.b)
          c := g 1 mins.c maxes.c
          alpha := 90
          beta := 90
          gamma := 90 } := by
  unfold SpgInit.generateLatticeForSpg
  have n0 : ¬ (spg < 1 ∨ spg > 230) := by omega
  have n1 : ¬ (spg = 1 ∨ spg = 2) := by omega
  have n2 : ¬ (3 ≤ spg ∧ spg ≤ 15) := by omega
  have n3 : ¬ (16 ≤ spg ∧ spg ≤ 74) := by omega
  rw [if_neg n0, if_neg n1, if_neg n2, if_neg n3, if_pos h]

theorem generateLattice_hexagonal (g : Nat → ℚ → ℚ → ℚ) (spg : Nat)
    (mins maxes : latticeStruct) (h : 143 ≤ spg ∧ spg ≤ 194) :
    SpgInit.generateLatticeForSpg g spg mins maxes =
      if mins.alpha > 90 ∨ maxes.alpha < 90 ∨ mins.beta > 90 ∨ maxes.beta < 90 then
        latticeStruct.zero
      else if mins.gamma > 120 ∨ maxes.gamma < 120 then latticeStruct.zero
      else if (if mins.a > mins.b then mins.a else mins.b) >
          (if maxes.a < maxes.b then maxes.a else maxes.b) then latticeStruct.zero
      else
        { a := g 0 (if mins.a > mins.b then mins.a else mins.b)
            (if maxes.a < maxes.b then maxes.a else maxes.b)
          b := g 0 (if mins.a > mins.b then mins.a else mins.b)
            (if maxes.a < maxes.b then maxes.a else maxes.b)
          c := g 1 mins.c maxes.c
          alpha := 90
          beta := 90
          gamma := 120 } := by
  unfold SpgInit.generateLatticeForSpg
  by_cases h1 : spg ≤ 167
  · have n0 : ¬ (spg < 1 ∨ spg > 230) := by omega
    have n1 : ¬ (spg = 1 ∨ spg = 2) := by omega
    have n2 : ¬ (3 ≤ spg ∧ spg ≤ 15) := by omega
    have n3 : ¬ (16 ≤ spg ∧ spg ≤ 74) := by omega
    have n4 : ¬ (75 ≤ spg ∧ spg ≤ 142) := by omega
    rw [if_neg n0, if_neg n1, if_neg n2, if_neg n3, if_neg n4, if_pos ⟨h.1, h1⟩]
  · have n0 : ¬ (spg < 1 ∨ spg > 230) := by omega
    have n1 : ¬ (spg = 1 ∨ spg = 2) := by omega
    have n2 : ¬ (3 ≤ spg ∧ spg ≤ 15) := by omega
    have n3 : ¬ (16 ≤ spg ∧ spg ≤ 74) := by omega
    have n4 : ¬ (75 ≤ spg ∧ spg ≤ 142) := by omega
    have n5 : ¬ (143 ≤ spg ∧ spg ≤ 167) := by omega
    rw [if_neg n0, if_neg n1, if_neg n2, if_neg n3, if_neg n4, if_neg n5,
      if_pos (by omega)]

theorem generateLattice_cubic (g : Nat → ℚ → ℚ → ℚ) (spg : Nat)
    (mins maxes : latticeStruct) (h : 195 ≤ spg ∧ spg ≤ 230) :
    SpgInit.generateLatticeForSpg g spg mins maxes =
      if mins.alpha > 90 ∨ maxes.alpha < 90 ∨ mins.beta > 90 ∨ maxes.beta < 90 ∨
          mins.gamma > 90 ∨ maxes.gamma < 90 then latticeStruct.zero
      else if getLargest mins.a mins.b mins.c > getSmallest maxes.a maxes.b maxes.c then
        latticeStruct.zero
      else
        { alpha := 90
          beta := 90
          gamma := 90
          a := g 0 (getLargest mins.a mins.b mins.c) (getSmallest maxes.a maxes.b maxes.c)
          b := g 0 (getLargest mins.a mins.b mins.c) (getSmallest maxes.a maxes.b maxes.c)
          c := g 0 (getLargest mins.a mins.b mins.c) (getSmallest maxes.a maxes.b maxes.c) } := by
  unfold SpgInit.generateLatticeForSpg
  have n0 : ¬ (spg < 1 ∨ spg > 230) := by omega
  have n1 : ¬ (spg = 1 ∨ spg = 2) := by omega
  have n2 : ¬ (3 ≤ spg ∧ spg ≤ 15) := by omega
  have n3 : ¬ (16 ≤ spg ∧ spg ≤ 74) := by omega
  have n4 : ¬ (75 ≤ spg ∧ spg ≤ 142) := by omega
  have n5 : ¬ (143 ≤ spg ∧ spg ≤ 167) := by omega
  have n6 : ¬ (168 ≤ spg ∧ spg ≤ 194) := by omega
  rw [if_neg n0, if_neg n1, if_neg n2, if_neg n3, if_neg n4, if_neg n5, if_neg n6,
    if_pos (by omega)]

theorem getLargest_eq (a b c : ℚ) : getLargest a b c = max (max a b) c := by
  unfold getLargest
  split_ifs with h1 h2
  · rw [max_eq_left h1.1, max_eq_left h1.2]
  · rw [max_eq_right h2.1, max_eq_left h2.2]
  · rcases le_total a b with hab | hab
    · rw [max_eq_right hab]
      have : ¬ b ≥ c := fun hc => h2 ⟨hab, hc⟩
      exact (max_eq_right (le_of_lt (not_le.1 this))).symm
    · rw [max_eq_left hab]
      have : ¬ a ≥ c := fun hc => h1 ⟨hab, hc⟩
      exact (max_eq_right (le_of_lt (not_le.1 this))).symm

theorem getSmallest_eq (a b c : ℚ) : getSmallest a b c = min (min a b) c := by
  unfold getSmallest
  split_ifs with h1 h2
  · rw [min_eq_left h1.1, min_eq_left h1.2]
  · rw [min_eq_right h2.1, min_eq_left h2.2]
  · rcases le_total a b with hab | hab
    · rw [min_eq_left hab]
      have : ¬ a ≤ c := fun hc => h1 ⟨hab, hc⟩
      exact (min_eq_right (le_of_lt (not_le.1 this))).symm
    · rw [min_eq_right hab]
      have : ¬ b ≤ c := fun hc => h2 ⟨hab, hc⟩
      exact (min_eq_right (le_of_lt (not_le.1 this))).symm

theorem largerMin_eq (a b : ℚ) : (if a > b then a else b) = max a b := by
  split_ifs with h
  · exact (max_eq_left (le_of_lt h)).symm
  · exact (max_eq_right (not_lt.1 h)).symm

theorem smallerMax_eq (a b : ℚ) : (if a < b then a else b) = min a b := by
  split_ifs with h
  · exact (min_eq_left (le_of_lt h)).symm
  · exact (min_eq_right (not_lt.1 h)).symm

theorem lattice_ne_zero_of_alpha (a b c al be ga : ℚ) (h : al ≠ 0) :
    (⟨a, b, c, al, be, ga⟩ : latticeStruct) ≠ latticeStruct.zero := by
  intro he
  have := congrArg latticeStruct.alpha he
  exact h this

theorem lattice_ne_zero_of_a (a b c al be ga : ℚ) (h : a ≠ 0) :
    (⟨a, b, c, al, be, ga⟩ : latticeStruct) ≠ latticeStruct.zero := by
  intro he
  have := congrArg latticeStruct.a he
  exact h this

/-- C11 (crystal-system constraints): for every space group from 1 to 230, all bounds and
every outcome of the random number generator, a result of `generateLatticeForSpg` that is not
the all-zero lattice satisfies the constraints of the crystal system of the space group. -/
theorem generateLatticeForSpg_crystal_system (getRandDouble : Nat → ℚ → ℚ → ℚ) (spg : Nat)
    (mins maxes : latticeStruct) (h1 : 1 ≤ spg) (h2 : spg ≤ 230)
    (h : SpgInit.generateLatticeForSpg getRandDouble spg mins maxes ≠ latticeStruct.zero) :
    CrystalSystemConstraints spg
      (SpgInit.generateLatticeForSpg getRandDouble spg mins maxes) := by
  unfold CrystalSystemConstraints
  by_cases c1 : spg = 1 ∨ spg = 2
  · refine ⟨?_, ?_, ?_, ?_, ?_⟩ <;> intro hh <;> omega
  by_cases c2 : 3 ≤ spg ∧ spg ≤ 15
  · rw [generateLattice_monoclinic getRandDouble spg mins maxes c2] at h ⊢
    split_ifs at h ⊢ with hbad
    · exact absurd rfl h
    · refine ⟨fun _ => ⟨rfl, rfl⟩, ?_, ?_, ?_, ?_⟩ <;> intro hh <;> omega
  by_cases c3 : 16 ≤ spg ∧ spg ≤ 74
  · rw [generateLattice_orthorhombic getRandDouble spg mins maxes c3] at h ⊢
    split_ifs at h ⊢ with hbad
    · exact absurd rfl h
    · refine ⟨?_, fun _ => ⟨rfl, rfl, rfl⟩, ?_, ?_, ?_⟩ <;> intro hh <;> omega
  by_cases c4 : 75 ≤ spg ∧ spg ≤ 142
  · rw [generateLattice_tetragonal getRandDouble spg mins maxes c4] at h ⊢
    simp only [largerMin_eq, smallerMax_eq] at h ⊢
    split_ifs at h ⊢ with hbad hlen
    · exact absurd rfl h
    · exact absurd rfl h
    · refine ⟨?_, ?_, fun _ => ⟨rfl, rfl, rfl, rfl⟩, ?_, ?_⟩ <;> intro hh <;> omega
  by_cases c5 : 143 ≤ spg ∧ spg ≤ 194
  · rw [generateLattice_hexagonal getRandDouble spg mins maxes c5] at h ⊢
    simp only [largerMin_eq, smallerMax_eq] at h ⊢
    split_ifs at h ⊢ with hbad hgam hlen
    · exact absurd rfl h
    · exact absurd rfl h
    · exact absurd rfl h
    · refine ⟨?_, ?_, ?_, fun _ => ⟨rfl, rfl, rfl, rfl⟩, ?_⟩ <;> intro hh <;> omega
  have c6 : 195 ≤ spg ∧ spg ≤ 230 := by omega
  rw [generateLattice_cubic getRandDouble spg mins maxes c6] at h ⊢
  simp only [largerMin_eq, smallerMax_eq, getLargest_eq, getSmallest_eq] at h ⊢
  split_ifs at h ⊢ with hbad hlen
  · exact absurd rfl h
  · exact absurd rfl h
  · refine ⟨?_, ?_, ?_, ?_, fun _ => ⟨rfl, rfl, rfl, rfl, rfl⟩⟩ <;> intro hh <;> omega

theorem generateLatticeForSpg_crystal_system_witness :
    (1 ≤ 225 ∧ 225 ≤ 230) ∧
    SpgInit.generateLatticeForSpg randDoubleLow 225 ⟨5, 5, 5, 89, 89, 89⟩ ⟨6, 6, 6, 91, 91, 91⟩ =
      ⟨5, 5, 5, 90, 90, 90⟩ ∧
    CrystalSystemConstraints 225
      (SpgInit.generateLatticeForSpg randDoubleLow 225 ⟨5, 5, 5, 89, 89, 89⟩
        ⟨6, 6, 6, 91, 91, 91⟩) :=
  ⟨by decide,
    by
      rw [generateLattice_cubic _ _ _ _ (by decide)]
      norm_num [getLargest, getSmallest, randDoubleLow],
    generateLatticeForSpg_crystal_system randDoubleLow 225 ⟨5, 5, 5, 89, 89, 89⟩
      ⟨6, 6, 6, 91, 91, 91⟩ (by decide) (by decide)
      (by
        rw [generateLattice_cubic _ _ _ _ (by decide)]
        norm_num [getLargest, getSmallest, randDoubleLow, latticeStruct.zero])⟩

/-- C12 (lattice within bounds): under the contract of the random number generator and with
each of the six windows in order, for every space group from 1 to 230 a result of
`generateLatticeForSpg` that is not the all-zero lattice has each of `a`, `b`, `c`, `alpha`,
`beta`, `gamma` in its own inclusive window, and a length forced equal lies in the
intersection `[max(mins), min(maxes)]` of the windows of the lengths forced equal. -/
theorem generateLatticeForSpg_within_bounds (getRandDouble : Nat → ℚ → ℚ → ℚ) (spg : Nat)
    (mins maxes : latticeStruct) (hg : RandDoubleContract getRandDouble)
    (hb : BoundsOrdered mins maxes) (h1 : 1 ≤ spg) (h2 : spg ≤ 230)
    (h : SpgInit.generateLatticeForSpg getRandDouble spg mins maxes ≠ latticeStruct.zero) :
    WithinBounds mins maxes (SpgInit.generateLatticeForSpg getRandDouble spg mins maxes) ∧
    ForcedLengthInIntersection spg mins maxes
      (SpgInit.generateLatticeForSpg getRandDouble spg mins maxes) := by
  obtain ⟨ba, bb, bc, bal, bbe, bga⟩ := hb
  unfold WithinBounds ForcedLengthInIntersection
  by_cases c1 : spg = 1 ∨ spg = 2
  · rw [generateLattice_triclinic getRandDouble spg mins maxes c1]
    exact ⟨⟨hg 0 _ _ ba, hg 1 _ _ bb, hg 2 _ _ bc, hg 3 _ _ bal, hg 4 _ _ bbe, hg 5 _ _ bga⟩,
      fun hh => by omega, fun hh => by omega⟩
  by_cases c2 : 3 ≤ spg ∧ spg ≤ 15
  · rw [generateLattice_monoclinic getRandDouble spg mins maxes c2] at h ⊢
    split_ifs at h ⊢ with hbad
    · exact absurd rfl h
    · simp only [not_or, not_lt, gt_iff_lt] at hbad
      exact ⟨⟨hg 0 _ _ ba, hg 1 _ _ bb, hg 2 _ _ bc, ⟨hbad.1, hbad.2.1⟩, hg 3 _ _ bbe,
        ⟨hbad.2.2.1, hbad.2.2.2⟩⟩, fun hh => by omega, fun hh => by omega⟩
  by_cases c3 : 16 ≤ spg ∧ spg ≤ 74
  · rw [generateLattice_orthorhombic getRandDouble spg mins maxes c3] at h ⊢
    split_ifs at h ⊢ with hbad
    · exact absurd rfl h
    · simp only [not_or, not_lt, gt_iff_lt] at hbad
      exact ⟨⟨hg 0 _ _ ba, hg 1 _ _ bb, hg 2 _ _ bc, ⟨hbad.1, hbad.2.1⟩,
        ⟨hbad.2.2.1, hbad.2.2.2.1⟩, ⟨hbad.2.2.2.2.1, hbad.2.2.2.2.2⟩⟩,
        fun hh => by omega, fun hh => by omega⟩
  by_cases c4 : 75 ≤ spg ∧ spg ≤ 142
  · rw [generateLattice_tetragonal getRandDouble spg mins maxes c4] at h ⊢
    simp only [largerMin_eq, smallerMax_eq] at h ⊢
    split_ifs at h ⊢ with hbad hlen
    · exact absurd rfl h
    · exact absurd rfl h
    · simp only [not_or, not_lt, gt_iff_lt] at hbad hlen
      obtain ⟨k1, k2⟩ := hg 0 _ _ hlen
      exact ⟨⟨⟨le_trans (le_max_left _ _) k1, le_trans k2 (min_le_left _ _)⟩,
        ⟨le_trans (le_max_right _ _) k1, le_trans k2 (min_le_right _ _)⟩, hg 1 _ _ bc,
        ⟨hbad.1, hbad.2.1⟩, ⟨hbad.2.2.1, hbad.2.2.2.1⟩, ⟨hbad.2.2.2.2.1, hbad.2.2.2.2.2⟩⟩,
        fun _ => ⟨k1, k2⟩, fun hh => by omega⟩
  by_cases c5 : 143 ≤ spg ∧ spg ≤ 194
  · rw [generateLattice_hexagonal getRandDouble spg mins maxes c5] at h ⊢
    simp only [largerMin_eq, smallerMax_eq] at h ⊢
    split_ifs at h ⊢ with hbad hgam hlen
    · exact absurd rfl h
    · exact absurd rfl h
    · exact absurd rfl h
    · simp only [not_or, not_lt, gt_iff_lt] at hbad hgam hlen
      obtain ⟨k1, k2⟩ := hg 0 _ _ hlen
      exact ⟨⟨⟨le_trans (le_max_left _ _) k1, le_trans k2 (min_le_left _ _)⟩,
        ⟨le_trans (le_max_right _ _) k1, le_trans k2 (min_le_right _ _)⟩, hg 1 _ _ bc,
        ⟨hbad.1, hbad.2.1⟩, ⟨hbad.2.2.1, hbad.2.2.2⟩, ⟨hgam.1, hgam.2⟩⟩,
        fun _ => ⟨k1, k2⟩, fun hh => by omega⟩
  have c6 : 195 ≤ spg ∧ spg ≤ 230 := by omega
  rw [generateLattice_cubic getRandDouble spg mins maxes c6] at h ⊢
  simp only [getLargest_eq, getSmallest_eq] at h ⊢
  split_ifs at h ⊢ with hbad hlen
  · exact absurd rfl h
  · exact absurd rfl h
  · simp only [not_or, not_lt, gt_iff_lt] at hbad hlen
    obtain ⟨k1, k2⟩ := hg 0 _ _ hlen
    exact ⟨⟨⟨le_trans (le_trans (le_max_left _ _) (le_max_left _ _)) k1,
        le_trans k2 (le_trans (min_le_left _ _) (min_le_left _ _))⟩,
      ⟨le_trans (le_trans (le_max_right _ _) (le_max_left _ _)) k1,
        le_trans k2 (le_trans (min_le_left _ _) (min_le_right _ _))⟩,
      ⟨le_trans (le_max_right _ _) k1, le_trans k2 (min_le_right _ _)⟩,
      ⟨hbad.1, hbad.2.1⟩, ⟨hbad.2.2.1, hbad.2.2.2.1⟩, ⟨hbad.2.2.2.2.1, hbad.2.2.2.2.2⟩⟩,
      fun hh => by omega, fun _ => ⟨k1, k2⟩⟩

theorem randDoubleLow_contract : RandDoubleContract randDoubleLow :=
  fun _ _ _ h => ⟨le_refl _, h⟩

theorem generateLatticeForSpg_within_bounds_witness :
    (RandDoubleContract randDoubleLow ∧
      BoundsOrdered ⟨3, 4, 3, 60, 60, 60⟩ ⟨6, 6, 5, 120, 120, 120⟩ ∧ 1 ≤ 75 ∧ 75 ≤ 230) ∧
    SpgInit.generateLatticeForSpg randDoubleLow 75 ⟨3, 4, 3, 60, 60, 60⟩
      ⟨6, 6, 5, 120, 120, 120⟩ = ⟨4, 4, 3, 90, 90, 90⟩ ∧
    WithinBounds ⟨3, 4, 3, 60, 60, 60⟩ ⟨6, 6, 5, 120, 120, 120⟩
      (SpgInit.generateLatticeForSpg randDoubleLow 75 ⟨3, 4, 3, 60, 60, 60⟩
        ⟨6, 6, 5, 120, 120, 120⟩) ∧
    ForcedLengthInIntersection 75 ⟨3, 4, 3, 60, 60, 60⟩ ⟨6, 6, 5, 120, 120, 120⟩
      (SpgInit.generateLatticeForSpg randDoubleLow 75 ⟨3, 4, 3, 60, 60, 60⟩
        ⟨6, 6, 5, 120, 120, 120⟩) :=
  ⟨⟨randDoubleLow_contract, by norm_num [BoundsOrdered], by decide, by decide⟩,
    by
      rw [generateLattice_tetragonal _ _ _ _ (by decide)]
      norm_num [randDoubleLow],
    generateLatticeForSpg_within_bounds randDoubleLow 75 ⟨3, 4, 3, 60, 60, 60⟩
      ⟨6, 6, 5, 120, 120, 120⟩ randDoubleLow_contract (by norm_num [BoundsOrdered])
      (by decide) (by decide)
      (by
        rw [generateLattice_tetragonal _ _ _ _ (by decide)]
        norm_num [randDoubleLow, latticeStruct.zero])⟩

/-- C13 (lattice infeasibility): with positive lower bounds, each window in order and the
contract of the random number generator, `generateLatticeForSpg` returns the all-zero lattice
if and only if the space group is outside 1..230, or an angle that its crystal system forces
lies outside the window of that angle, or the intersection of the windows of the lengths
forced equal is empty. -/
theorem generateLatticeForSpg_zero_iff (getRandDouble : Nat → ℚ → ℚ → ℚ) (spg : Nat)
    (mins maxes : latticeStruct) (hg : RandDoubleContract getRandDouble)
    (hp : BoundsPositive mins) (hb : BoundsOrdered mins maxes) :
    SpgInit.generateLatticeForSpg getRandDouble spg mins maxes = latticeStruct.zero ↔
      (spg < 1 ∨ 230 < spg) ∨ ForcedAngleExcluded spg mins maxes ∨
        ForcedLengthsDisjoint spg mins maxes := by
  unfold ForcedAngleExcluded ForcedLengthsDisjoint
  by_cases c0 : spg < 1 ∨ spg > 230
  · rw [generateLattice_outside getRandDouble spg mins maxes c0]
    exact iff_of_true rfl (Or.inl c0)
  have r0 : ¬ (spg < 1 ∨ 230 < spg) := c0
  by_cases c1 : spg = 1 ∨ spg = 2
  · rw [generateLattice_triclinic getRandDouble spg mins maxes c1]
    have ha : getRandDouble 0 mins.a maxes.a ≠ 0 :=
      ne_of_gt (lt_of_lt_of_le hp.1 (hg 0 _ _ hb.1).1)
    have n3 : ¬ 3 ≤ spg := by omega
    have n16 : ¬ 16 ≤ spg := by omega
    have n75 : ¬ 75 ≤ spg := by omega
    have n143 : ¬ 143 ≤ spg := by omega
    have n195 : ¬ 195 ≤ spg := by omega
    refine iff_of_false (lattice_ne_zero_of_a _ _ _ _ _ _ ha) ?_
    simp only [r0, n3, n16, n75, n143, n195, false_and, and_false, or_false, false_or,
      not_false_eq_true]
  by_cases c2 : 3 ≤ spg ∧ spg ≤ 15
  · rw [generateLattice_monoclinic getRandDouble spg mins maxes c2]
    have p3 : 3 ≤ spg := c2.1
    have p230 : spg ≤ 230 := by omega
    have p142 : spg ≤ 142 := by omega
    have n16 : ¬ 16 ≤ spg := by omega
    have n75 : ¬ 75 ≤ spg := by omega
    have n143 : ¬ 143 ≤ spg := by omega
    have n195 : ¬ 195 ≤ spg := by omega
    simp only [r0, p3, p230, p142, n16, n75, n143, n195, true_and, and_true, false_and, and_false,
      or_false, false_or, true_or, or_true]
    split_ifs with hbad
    · simp only [gt_iff_lt] at hbad
      refine iff_of_true rfl ?_
      rcases hbad with h | h | h | h <;> simp only [h, true_or, or_true]
    · simp only [gt_iff_lt] at hbad
      refine iff_of_false (lattice_ne_zero_of_alpha _ _ _ _ _ _ (by norm_num)) ?_
      simp only [not_or, not_lt] at *
      simp only [*, and_self]
  by_cases c3 : 16 ≤ spg ∧ spg ≤ 74
  · rw [generateLattice_orthorhombic getRandDouble spg mins maxes c3]
    have p3 : 3 ≤ spg := by omega
    have p16 : 16 ≤ spg := by omega
    have p230 : spg ≤ 230 := by omega
    have p142 : spg ≤ 142 := by omega
    have n75 : ¬ 75 ≤ spg := by omega
    have n143 : ¬ 143 ≤ spg := by omega
    have n195 : ¬ 195 ≤ spg := by omega
    simp only [r0, p3, p16, p230, p142, n75, n143, n195, true_and, and_true, false_and, and_false,
      or_false, false_or, true_or, or_true]
    split_ifs with hbad
    · simp only [gt_iff_lt] at hbad
      refine iff_of_true rfl ?_
      rcases hbad with h | h | h | h | h | h <;> simp only [h, true_or, or_true]
    · simp only [gt_iff_lt] at hbad
      refine iff_of_false (lattice_ne_zero_of_alpha _ _ _ _ _ _ (by norm_num)) ?_
      simp only [not_or, not_lt] at *
      simp only [*, and_self]
  by_cases c4 : 75 ≤ spg ∧ spg ≤ 142
  · rw [generateLattice_tetragonal getRandDouble spg mins maxes c4]
    simp only [largerMin_eq, smallerMax_eq]
    have p3 : 3 ≤ spg := by omega
    have p16 : 16 ≤ spg := by omega
    have p75 : 75 ≤ spg := by omega
    have p230 : spg ≤ 230 := by omega
    have p194 : spg ≤ 194 := by omega
    have p142 : spg ≤ 142 := by omega
    have n143 : ¬ 143 ≤ spg := by omega
    have n195 : ¬ 195 ≤ spg := by omega
    simp only [r0, p3, p16, p75, p230, p194, p142, n143, n195, true_and, and_true, false_and,
      and_false, or_false, false_or, true_or, or_true]
    split_ifs with hbad hlen
    · simp only [gt_iff_lt] at hbad
      refine iff_of_true rfl ?_
      rcases hbad with h | h | h | h | h | h <;> simp only [h, true_or, or_true]
    · simp only [gt_iff_lt] at hbad hlen
      refine iff_of_true rfl ?_
      exact Or.inr hlen
    · simp only [gt_iff_lt] at hbad hlen
      refine iff_of_false (lattice_ne_zero_of_alpha _ _ _ _ _ _ (by norm_num)) ?_
      simp only [not_or, not_lt] at *
      simp only [*, and_self]
  by_cases c5 : 143 ≤ spg ∧ spg ≤ 194
  · rw [generateLattice_hexagonal getRandDouble spg mins maxes c5]
    simp only [largerMin_eq, smallerMax_eq]
    have p3 : 3 ≤ spg := by omega
    have p16 : 16 ≤ spg := by omega
    have p75 : 75 ≤ spg := by omega
    have p143 : 143 ≤ spg := by omega
    have p230 : spg ≤ 230 := by omega
    have p194 : spg ≤ 194 := by omega
    have n142 : ¬ spg ≤ 142 := by omega
    have n195 : ¬ 195 ≤ spg := by omega
    simp only [r0, p3, p16, p75, p143, p230, p194, n142, n195, true_and, and_true, false_and,
      and_false, or_false, false_or, true_or, or_true]
    split_ifs with hbad hgam hlen
    · simp only [gt_iff_lt] at hbad
      refine iff_of_true rfl ?_
      rcases hbad with h | h | h | h <;> simp only [h, true_or, or_true]
    · simp only [gt_iff_lt] at hbad hgam
      refine iff_of_true rfl ?_
      rcases hgam with h | h <;> simp only [h, true_or, or_true]
    · simp only [gt_iff_lt] at hbad hgam hlen
      refine iff_of_true rfl ?_
      exact Or.inr hlen
    · simp only [gt_iff_lt] at hbad hgam hlen
      refine iff_of_false (lattice_ne_zero_of_alpha _ _ _ _ _ _ (by norm_num)) ?_
      simp only [not_or, not_lt] at *
      simp only [*, and_self]
  have c6 : 195 ≤ spg ∧ spg ≤ 230 := by omega
  rw [generateLattice_cubic getRandDouble spg mins maxes c6]
  simp only [getLargest_eq, getSmallest_eq]
  have p3 : 3 ≤ spg := by omega
  have p16 : 16 ≤ spg := by omega
  have p195 : 195 ≤ spg := by omega
  have p230 : spg ≤ 230 := by omega
  have n194 : ¬ spg ≤ 194 := by omega
  have n142 : ¬ spg ≤ 142 := by omega
  simp only [r0, p3, p16, p195, p230, n194, n142, true_and, and_true, false_and, and_false,
    or_false, false_or, true_or, or_true]
  split_ifs with hbad hlen
  · simp only [gt_iff_lt] at hbad
    refine iff_of_true rfl ?_
    rcases hbad with h | h | h | h | h | h <;> simp only [h, true_or, or_true]
  · simp only [gt_iff_lt] at hbad hlen
    refine iff_of_true rfl ?_
    exact Or.inr hlen
  · simp only [gt_iff_lt] at hbad hlen
    refine iff_of_false (lattice_ne_zero_of_alpha _ _ _ _ _ _ (by norm_num)) ?_
    simp only [not_or, not_lt] at *
    simp only [*, and_self]

theorem generateLatticeForSpg_zero_iff_witness :
    (RandDoubleContract randDoubleLow ∧ BoundsPositive ⟨3, 3, 3, 91, 60, 60⟩ ∧
      BoundsOrdered ⟨3, 3, 3, 91, 60, 60⟩ ⟨6, 6, 6, 120, 120, 120⟩) ∧
    ForcedAngleExcluded 3 ⟨3, 3, 3, 91, 60, 60⟩ ⟨6, 6, 6, 120, 120, 120⟩ ∧
    SpgInit.generateLatticeForSpg randDoubleLow 3 ⟨3, 3, 3, 91, 60, 60⟩
      ⟨6, 6, 6, 120, 120, 120⟩ = latticeStruct.zero :=
  ⟨⟨randDoubleLow_contract, by norm_num [BoundsPositive], by norm_num [BoundsOrdered]⟩,
    by norm_num [ForcedAngleExcluded],
    (generateLatticeForSpg_zero_iff randDoubleLow 3 ⟨3, 3, 3, 91, 60, 60⟩
      ⟨6, 6, 6, 120, 120, 120⟩ randDoubleLow_contract (by norm_num [BoundsPositive])
      (by norm_num [BoundsOrdered])).2 (Or.inr (Or.inl (by norm_num [ForcedAngleExcluded])))⟩

/-! ## Unique positions and the counting of the species -/

theorem isNumber_iff (s : String) : isNumber s = true ↔ ¬ MentionsVariable s := by
  unfold isNumber MentionsVariable
  rw [List.all_eq_true]
  constructor
  · intro h hm
    rcases hm with hm | hm | hm
    · have := h _ hm
      simp at this
    · have := h _ hm
      simp at this
    · have := h _ hm
      simp at this
  · intro h c hc
    have hx : c ≠ 'x' := fun e => h (Or.inl (e ▸ hc))
    have hy : c ≠ 'y' := fun e => h (Or.inr (Or.inl (e ▸ hc)))
    have hz : c ≠ 'z' := fun e => h (Or.inr (Or.inr (e ▸ hc)))
    simp [hx, hy, hz]

/-- C17 (definition of a unique position): for a Wyckoff position whose coordinate string
splits on the comma into exactly three components, `containsUniquePosition` is true if and
only if none of the three components mentions `x`, `y` or `z`. -/
theorem containsUniquePosition_iff (pos : wyckPos) (c1 c2 c3 : String)
    (h : split (SpgInit.getWyckCoords pos) ',' = [c1, c2, c3]) :
    SpgInit.containsUniquePosition pos = true ↔
      ¬ MentionsVariable c1 ∧ ¬ MentionsVariable c2 ∧ ¬ MentionsVariable c3 := by
  unfold SpgInit.containsUniquePosition
  rw [h]
  simp only [List.all_cons, List.all_nil, Bool.and_true, Bool.and_eq_true, isNumber_iff]

theorem containsUniquePosition_iff_witness :
    split (SpgInit.getWyckCoords ⟨'b', 2, "0,0.5,z"⟩) ',' = ["0", "0.5", "z"] ∧
    (SpgInit.containsUniquePosition ⟨'b', 2, "0,0.5,z"⟩ = true ↔
      ¬ MentionsVariable "0" ∧ ¬ MentionsVariable "0.5" ∧ ¬ MentionsVariable "z") ∧
    SpgInit.containsUniquePosition ⟨'b', 2, "0,0.5,z"⟩ = false ∧
    SpgInit.containsUniquePosition ⟨'a', 1, "0,0.5,0"⟩ = true :=
  ⟨by decide, containsUniquePosition_iff ⟨'b', 2, "0,0.5,z"⟩ "0" "0.5" "z" (by decide),
    by decide, by decide⟩

theorem sum_map_count_of_species (atoms : List Nat) (l : List numAndType)
    (h : ∀ nt ∈ l, nt.1 = atoms.count nt.2) :
    (l.map Prod.fst).sum = ((l.map Prod.snd).map (fun z => atoms.count z)).sum := by
  induction l with
  | nil => rfl
  | cons a l ih =>
    simp only [List.map_cons, List.sum_cons]
    rw [ih (fun nt hnt => h nt (List.mem_cons_of_mem _ hnt)), h a (List.mem_cons_self _ _)]

theorem count_expand (l : List numAndType) (z : Nat) (hn : (l.map Prod.snd).Nodup) :
    (l.flatMap (fun nt => List.replicate nt.1 nt.2)).count z =
      ((l.filter (fun nt => nt.2 == z)).map Prod.fst).sum := by
  induction l with
  | nil => rfl
  | cons a l ih =>
    simp only [List.map_cons, List.nodup_cons] at hn
    rw [List.flatMap_cons, List.count_append, ih hn.2, List.count_replicate, List.filter_cons]
    by_cases ha : a.2 = z
    · simp [ha]
    · simp [ha]

/-- C18 (species counting): for an atom list shorter than `2 ^ 32` (so that the counts fit
the `uint` of the pairs), `getNumOfEachType` has exactly one pair for each distinct atomic
number of the list and no other pair, the count of a pair is the number of occurrences of its
atomic number, the counts sum to the length of the list, and expanding the result gives back
the input multiset. -/
theorem getNumOfEachType_counts (atoms : List Nat) (hlen : atoms.length < UINT_MOD) :
    ((SpgInit.getNumOfEachType atoms).map Prod.snd).Nodup ∧
    (∀ z, z ∈ (SpgInit.getNumOfEachType atoms).map Prod.snd ↔ z ∈ atoms) ∧
    (∀ nt ∈ SpgInit.getNumOfEachType atoms, nt.1 = atoms.count nt.2) ∧
    ((SpgInit.getNumOfEachType atoms).map Prod.fst).sum = atoms.length ∧
    List.Perm ((SpgInit.getNumOfEachType atoms).flatMap (fun nt => List.replicate nt.1 nt.2))
      atoms := by
  have hperm := getNumOfEachType_species_perm atoms
  have hnodup : ((SpgInit.getNumOfEachType atoms).map Prod.snd).Nodup :=
    hperm.nodup_iff.2 (List.nodup_dedup atoms)
  have hmem : ∀ z, z ∈ (SpgInit.getNumOfEachType atoms).map Prod.snd ↔ z ∈ atoms := by
    intro z
    rw [hperm.mem_iff, List.mem_dedup]
  have hcount : ∀ nt ∈ SpgInit.getNumOfEachType atoms, nt.1 = atoms.count nt.2 := by
    intro nt hnt
    rw [(mem_getNumOfEachType atoms nt hnt).2]
    exact Nat.mod_eq_of_lt (lt_of_le_of_lt (List.count_le_length _ _) hlen)
  refine ⟨hnodup, hmem, hcount, ?_, ?_⟩
  · rw [sum_map_count_of_species atoms _ hcount, (hperm.map _).sum_eq]
    exact List.sum_map_count_dedup_eq_length atoms
  · rw [List.perm_iff_count]
    intro z
    rw [count_expand _ z hnodup]
    by_cases hz : z ∈ atoms
    · obtain ⟨nt, hnt, hntz⟩ := exists_mem_getNumOfEachType atoms z hz
      have hfil : (SpgInit.getNumOfEachType atoms).filter (fun nt => nt.2 == z) = [nt] := by
        have h1 : ((SpgInit.getNumOfEachType atoms).filter (fun nt => nt.2 == z)).map Prod.snd
            = ((SpgInit.getNumOfEachType atoms).map Prod.snd).filter (fun y => y == z) := by
          rw [List.filter_map]
          rfl
        have h2 : ((SpgInit.getNumOfEachType atoms).map Prod.snd).filter (fun y => y == z)
            = [z] := by
          have hc := List.count_eq_one_of_mem hnodup ((hmem z).2 hz)
          rw [List.filter_beq, hc]
          rfl
        rw [h2] at h1
        have hl : ((SpgInit.getNumOfEachType atoms).filter (fun nt => nt.2 == z)).length = 1 := by
          have := congrArg List.length h1
          simpa using this
        obtain ⟨q, hq⟩ := List.length_eq_one.1 hl
        have hin : nt ∈ (SpgInit.getNumOfEachType atoms).filter (fun nt => nt.2 == z) := by
          rw [List.mem_filter]
          exact ⟨hnt, by simp [hntz]⟩
        rw [hq] at hin ⊢
        simp only [List.mem_singleton] at hin
        rw [hin]
      rw [hfil]
      simp only [List.map_cons, List.map_nil, List.sum_cons, List.sum_nil, Nat.add_zero]
      rw [hcount nt hnt, hntz]
    · have hfil : (SpgInit.getNumOfEachType atoms).filter (fun nt => nt.2 == z) = [] := by
        rw [List.filter_eq_nil_iff]
        intro nt hnt hb
        have : nt.2 = z := by simpa using hb
        exact hz (this ▸ (mem_getNumOfEachType atoms nt hnt).1)
      rw [hfil, List.count_eq_zero_of_not_mem hz]
      rfl

theorem getNumOfEachType_counts_witness :
    [11, 17, 11, 17, 17].length < UINT_MOD ∧
    SpgInit.getNumOfEachType [11, 17, 11, 17, 17] = [(3, 17), (2, 11)] ∧
    ((SpgInit.getNumOfEachType [11, 17, 11, 17, 17]).map Prod.snd).Nodup ∧
    (∀ z, z ∈ (SpgInit.getNumOfEachType [11, 17, 11, 17, 17]).map Prod.snd ↔
      z ∈ [11, 17, 11, 17, 17]) ∧
    (∀ nt ∈ SpgInit.getNumOfEachType [11, 17, 11, 17, 17],
      nt.1 = [11, 17, 11, 17, 17].count nt.2) ∧
    ((SpgInit.getNumOfEachType [11, 17, 11, 17, 17]).map Prod.fst).sum =
      [11, 17, 11, 17, 17].length ∧
    List.Perm ((SpgInit.getNumOfEachType [11, 17, 11, 17, 17]).flatMap
      (fun nt => List.replicate nt.1 nt.2)) [11, 17, 11, 17, 17] :=
  ⟨by decide, by decide, getNumOfEachType_counts [11, 17, 11, 17, 17] (by decide)⟩

theorem countEachType_order (atoms pre rest already : List Nat) (acc : List numAndType)
    (hat : atoms = pre ++ rest) (hpre : ∀ a ∈ pre, a ∈ already)
    (hacc : ∀ nt ∈ acc, nt.2 ∈ pre)
    (hp : acc.Pairwise (fun x y => atoms.indexOf x.2 < atoms.indexOf y.2)) :
    (SpgInit.countEachType atoms rest already acc).Pairwise
      (fun x y => atoms.indexOf x.2 < atoms.indexOf y.2) := by
  induction rest generalizing pre already acc with
  | nil => exact hp
  | cons a rest ih =>
    have hat2 : atoms = (pre ++ [a]) ++ rest := by simp [hat]
    unfold SpgInit.countEachType
    by_cases ha : a ∈ already
    · simp only [ha, if_true]
      apply ih (pre ++ [a]) already acc hat2
      · intro b hb
        rcases List.mem_append.1 hb with h1 | h1
        · exact hpre b h1
        · simp only [List.mem_singleton] at h1
          exact h1 ▸ ha
      · intro nt hnt
        exact List.mem_append_left _ (hacc nt hnt)
      · exact hp
    · simp only [ha, if_false]
      have hnot : a ∉ pre := fun h => ha (hpre a h)
      apply ih (pre ++ [a]) _ _ hat2
      · intro b hb
        rcases List.mem_append.1 hb with h1 | h1
        · exact List.mem_append_left _ (hpre b h1)
        · exact List.mem_append_right _ h1
      · intro nt hnt
        rcases List.mem_append.1 hnt with h1 | h1
        · exact List.mem_append_left _ (hacc nt h1)
        · simp only [List.mem_singleton] at h1
          subst h1
          exact List.mem_append_right _ (List.mem_singleton_self _)
      · rw [List.pairwise_append]
        refine ⟨hp, List.pairwise_singleton _ _, ?_⟩
        intro x hx y hy
        simp only [List.mem_singleton] at hy
        subst hy
        have h1 : atoms.indexOf x.2 < pre.length := by
          rw [hat, List.indexOf_append_of_mem (hacc x hx)]
          exact List.indexOf_lt_length.2 (hacc x hx)
        have h2 : atoms.indexOf a = pre.length := by
          rw [hat, List.indexOf_append_of_not_mem hnot, List.indexOf_cons_self]
          rfl
        simp only [h2]
        exact h1

theorem orderedInsert_speciesBefore (atoms : List Nat) (a : numAndType) (s : List numAndType)
    (hs : s.Pairwise (SpeciesBefore atoms))
    (ha : ∀ y ∈ s, atoms.indexOf a.2 < atoms.indexOf y.2) :
    (s.orderedInsert (fun a b => ¬ greaterThan b a = true) a).Pairwise
      (SpeciesBefore atoms) := by
  induction s with
  | nil => simp
  | cons b s ih =>
    rw [List.orderedInsert]
    rw [List.pairwise_cons] at hs
    by_cases hr : ¬ greaterThan b a = true
    · rw [if_pos hr]
      have hab : b.1 ≤ a.1 := by
        unfold greaterThan at hr
        simpa using hr
      rw [List.pairwise_cons]
      refine ⟨?_, List.pairwise_cons.2 hs⟩
      intro y hy
      have hby : y.1 ≤ b.1 := by
        rcases List.mem_cons.1 hy with h1 | h1
        · rw [h1]
        · rcases hs.1 y h1 with h2 | h2
          · exact le_of_lt h2
          · exact le_of_eq h2.1.symm
      rcases Nat.lt_or_ge y.1 a.1 with h3 | h3
      · exact Or.inl h3
      · exact Or.inr ⟨by omega, ha y hy⟩
    · rw [if_neg hr]
      have hba : b.1 > a.1 := by
        unfold greaterThan at hr
        simpa using hr
      rw [List.pairwise_cons]
      refine ⟨?_, ih hs.2 (fun y hy => ha y (List.mem_cons_of_mem _ hy))⟩
      intro y hy
      rcases (List.mem_orderedInsert _).1 hy with h1 | h1
      · rw [h1]
        exact Or.inl hba
      · exact hs.1 y h1

theorem sortGreaterThan_speciesBefore (atoms : List Nat) (l : List numAndType)
    (hl : l.Pairwise (fun x y => atoms.indexOf x.2 < atoms.indexOf y.2)) :
    (SpgInit.sortGreaterThan l).Pairwise (SpeciesBefore atoms) := by
  unfold SpgInit.sortGreaterThan
  induction l with
  | nil => simp
  | cons a l ih =>
    rw [List.pairwise_cons] at hl
    rw [List.insertionSort]
    apply orderedInsert_speciesBefore atoms a _ (ih hl.2)
    intro y hy
    exact hl.1 y ((List.mem_insertionSort _).1 hy)

/-- With a stable sort for `std::sort`, the pairs of `getNumOfEachType` are in descending
order of count, and pairs with equal counts are in the order in which their species first
occur in the atom list. -/
theorem getNumOfEachType_stable_order (atoms : List Nat) :
    (SpgInit.getNumOfEachType atoms).Pairwise (fun x y => x.1 ≥ y.1) ∧
    (SpgInit.getNumOfEachType atoms).Pairwise (fun x y =>
      x.1 = y.1 → atoms.indexOf x.2 < atoms.indexOf y.2) := by
  have h : (SpgInit.getNumOfEachType atoms).Pairwise (SpeciesBefore atoms) := by
    unfold SpgInit.getNumOfEachType
    apply sortGreaterThan_speciesBefore
    exact countEachType_order atoms [] atoms [] [] rfl (by simp) (by simp) List.Pairwise.nil
  constructor
  · refine h.imp ?_
    intro x y hxy
    rcases hxy with h1 | h1
    · exact le_of_lt h1
    · exact le_of_eq h1.1.symm
  · refine h.imp ?_
    intro x y hxy he
    rcases hxy with h1 | h1
    · omega
    · exact h1.2

/-- The stable sort keeps the contract of `std::sort`. -/
theorem sortGreaterThan_contract :
    SpgInit.SortContract (fun l => some (SpgInit.sortGreaterThan l)) := by
  intro l
  refine ⟨SpgInit.sortGreaterThan l, rfl, List.perm_insertionSort _ _, ?_⟩
  have htotal : IsTotal numAndType (fun a b => ¬ greaterThan b a = true) := by
    constructor
    intro a b
    unfold greaterThan
    simp only [decide_eq_true_eq]
    omega
  have htrans : IsTrans numAndType (fun a b => ¬ greaterThan b a = true) := by
    constructor
    intro a b c
    unfold greaterThan
    simp only [decide_eq_true_eq]
    omega
  exact List.sorted_insertionSort _ l

/-- C19 as stated fails. On seventeen atoms of seventeen species, `std::sort` of libstdc++
leaves the pairs, all of count 1, in the order of the species 9, 17, 16, ..., 10, 1, 8, ...,
2, which is not the order 1, 2, ..., 17 of their first occurrence. -/
theorem getNumOfEachType_order_counterexample :
    SpgInit.countEachType atomsSeventeen atomsSeventeen [] [] =
      [(1, 1), (1, 2), (1, 3), (1, 4), (1, 5), (1, 6), (1, 7), (1, 8), (1, 9), (1, 10),
        (1, 11), (1, 12), (1, 13), (1, 14), (1, 15), (1, 16), (1, 17)] ∧
    SpgInit.getNumOfEachTypeWith (Libstdcxx.sort greaterThan) atomsSeventeen =
      some [(1, 9), (1, 17), (1, 16), (1, 15), (1, 14), (1, 13), (1, 12), (1, 11), (1, 10),
        (1, 1), (1, 8), (1, 7), (1, 6), (1, 5), (1, 4), (1, 3), (1, 2)] ∧
    ¬ ([(1, 9), (1, 17), (1, 16), (1, 15), (1, 14), (1, 13), (1, 12), (1, 11), (1, 10),
        (1, 1), (1, 8), (1, 7), (1, 6), (1, 5), (1, 4), (1, 3), (1, 2)] :
          List numAndType).Pairwise (fun x y =>
        x.1 = y.1 → atomsSeventeen.indexOf x.2 < atomsSeventeen.indexOf y.2) := by
  refine ⟨by decide, by decide, by decide⟩

/-- C19, amended (species order): whatever `std::sort` does within the contract of the
standard, for every atom list `getNumOfEachType` returns the pairs in descending order of
count; they are the pairs of the distinct species of the atom list, each with its count, a
rearrangement of the pairs in the order of first occurrence that the counting loop makes.
The order among species of equal count is the one `std::sort` leaves. -/
theorem getNumOfEachTypeWith_order (sort : List numAndType → Option (List numAndType))
    (hsort : SpgInit.SortContract sort) (atoms : List Nat) :
    ∃ r, SpgInit.getNumOfEachTypeWith sort atoms = some r ∧
      r.Pairwise (fun x y => x.1 ≥ y.1) ∧
      (r.map Prod.snd).Perm atoms.dedup ∧
      (∀ nt ∈ r, nt.1 = atoms.count nt.2 % UINT_MOD) ∧
      r.Perm (SpgInit.countEachType atoms atoms [] []) ∧
      (SpgInit.countEachType atoms atoms [] []).Pairwise
        (fun x y => atoms.indexOf x.2 < atoms.indexOf y.2) := by
  obtain ⟨r, hr, hperm, hsorted⟩ := hsort (SpgInit.countEachType atoms atoms [] [])
  have hstable : r.Perm (SpgInit.getNumOfEachType atoms) := by
    unfold SpgInit.getNumOfEachType SpgInit.sortGreaterThan
    exact hperm.trans (List.perm_insertionSort _ _).symm
  refine ⟨r, hr, ?_, ?_, ?_, hperm, ?_⟩
  · refine hsorted.imp ?_
    intro a b hab
    unfold greaterThan at hab
    simp only [decide_eq_true_eq] at hab
    omega
  · exact (hstable.map _).trans (getNumOfEachType_species_perm atoms)
  · intro nt hnt
    exact (mem_getNumOfEachType atoms nt (hstable.mem_iff.1 hnt)).2
  · exact countEachType_order atoms [] atoms [] [] rfl (by simp) (by simp) List.Pairwise.nil

theorem getNumOfEachTypeWith_order_witness :
    SpgInit.SortContract (fun l => some (SpgInit.sortGreaterThan l)) ∧
    SpgInit.getNumOfEachTypeWith (fun l => some (SpgInit.sortGreaterThan l))
      [8, 1, 1, 6, 8, 6, 6] = some [(3, 6), (2, 8), (2, 1)] ∧
    ∃ r, SpgInit.getNumOfEachTypeWith (fun l => some (SpgInit.sortGreaterThan l))
        [8, 1, 1, 6, 8, 6, 6] = some r ∧
      r.Pairwise (fun x y => x.1 ≥ y.1) ∧
      (r.map Prod.snd).Perm [8, 1, 1, 6, 8, 6, 6].dedup ∧
      (∀ nt ∈ r, nt.1 = [8, 1, 1, 6, 8, 6, 6].count nt.2 % UINT_MOD) ∧
      r.Perm (SpgInit.countEachType [8, 1, 1, 6, 8, 6, 6] [8, 1, 1, 6, 8, 6, 6] [] []) ∧
      (SpgInit.countEachType [8, 1, 1, 6, 8, 6, 6] [8, 1, 1, 6, 8, 6, 6] [] []).Pairwise
        (fun x y => [8, 1, 1, 6, 8, 6, 6].indexOf x.2 < [8, 1, 1, 6, 8, 6, 6].indexOf y.2) :=
  ⟨sortGreaterThan_contract, by decide,
    getNumOfEachTypeWith_order _ sortGreaterThan_contract [8, 1, 1, 6, 8, 6, 6]⟩

theorem getNumOfEachType_sample :
    SpgInit.getNumOfEachType [8, 1, 1, 6, 8, 6, 6] = [(3, 6), (2, 8), (2, 1)] := by
  decide

/-! ## The attempts of `addWyckoffAtomRandomly` -/

theorem addWyckoffAtomLoop_attempt {Crystal : Type} (ops : CrystalOps Crystal)
    (g : Nat → ℚ → ℚ → ℚ) (position : wyckPos) (atomicNum spg : Nat) (maxAttempts : Int)
    (newAtoms : Nat → atomStruct) (crystal : Crystal) (fuel i : Nat)
    (h : SpgInit.newAtomOfAttempt g position atomicNum i = some (.ok (some (newAtoms i)))) :
    SpgInit.addWyckoffAtomLoop ops g position atomicNum spg maxAttempts (fuel + 1)
        (crystalBeforeAttempt ops newAtoms spg crystal i) i false =
      if attemptPasses ops newAtoms spg crystal i = true then
        some (.ok (true, crystalOfPassingAttempt ops newAtoms spg crystal i, i + 1))
      else if ((i + 1 : Nat) : Int) < maxAttempts then
        SpgInit.addWyckoffAtomLoop ops g position atomicNum spg maxAttempts fuel
          (crystalBeforeAttempt ops newAtoms spg crystal (i + 1)) (i + 1) false
      else some (.ok (false, crystalBeforeAttempt ops newAtoms spg crystal (i + 1), i + 1)) := by
  rw [SpgInit.addWyckoffAtomLoop, h]
  unfold attemptPasses crystalOfPassingAttempt
  rw [crystalBeforeAttempt]
  by_cases h1 : ops.areIADsOkay
      (ops.addAtom (crystalBeforeAttempt ops newAtoms spg crystal i) (newAtoms i)) (newAtoms i)
      = true
  · by_cases h2 : (ops.fillCellWithAtom
        (ops.addAtom (crystalBeforeAttempt ops newAtoms spg crystal i) (newAtoms i)) spg
        (newAtoms i)).1 = true
    · simp [h1, h2]
    · simp [h1, h2]
  · simp [h1]

theorem addWyckoffAtomLoop_spec {Crystal : Type} (ops : CrystalOps Crystal)
    (g : Nat → ℚ → ℚ → ℚ) (position : wyckPos) (atomicNum spg : Nat) (maxAttempts : Int)
    (newAtoms : Nat → atomStruct) (crystal : Crystal)
    (hatoms : ∀ k, SpgInit.newAtomOfAttempt g position atomicNum k =
      some (.ok (some (newAtoms k))))
    (fuel i : Nat) (h1 : 1 ≤ fuel) (h2 : maxAttempts ≤ ((fuel + i : Nat) : Int)) :
    ∃ n, i < n ∧
      SpgInit.addWyckoffAtomLoop ops g position atomicNum spg maxAttempts fuel
          (crystalBeforeAttempt ops newAtoms spg crystal i) i false =
        some (.ok (attemptPasses ops newAtoms spg crystal (n - 1),
          (if attemptPasses ops newAtoms spg crystal (n - 1) = true then
            crystalOfPassingAttempt ops newAtoms spg crystal (n - 1)
          else crystalBeforeAttempt ops newAtoms spg crystal n), n)) ∧
      (∀ k, i ≤ k → k < n - 1 → attemptPasses ops newAtoms spg crystal k = false) ∧
      (n = i + 1 ∨ (n : Int) ≤ maxAttempts) ∧
      (attemptPasses ops newAtoms spg crystal (n - 1) = false → maxAttempts ≤ (n : Int)) := by
  induction fuel generalizing i with
  | zero => omega
  | succ fuel ih =>
    rw [addWyckoffAtomLoop_attempt ops g position atomicNum spg maxAttempts newAtoms crystal
      fuel i (hatoms i)]
    by_cases hp : attemptPasses ops newAtoms spg crystal i = true
    · refine ⟨i + 1, by omega, ?_, ?_, Or.inl rfl, ?_⟩
      · simp [hp]
      · intro k hk1 hk2
        omega
      · intro hf
        simp [hp] at hf
    · have hpf : attemptPasses ops newAtoms spg crystal i = false := by
        simpa using hp
      by_cases hlt : ((i + 1 : Nat) : Int) < maxAttempts
      · have hf1 : 1 ≤ fuel := by omega
        obtain ⟨n, hn, hrun, hfail, hbound, hlast⟩ := ih (i + 1) hf1 (by omega)
        refine ⟨n, by omega, ?_, ?_, Or.inr ?_, hlast⟩
        · rw [if_neg hp, if_pos hlt]
          exact hrun
        · intro k hk1 hk2
          rcases Nat.eq_or_lt_of_le hk1 with h3 | h3
          · rw [← h3]
            exact hpf
          · exact hfail k h3 hk2
        · rcases hbound with h3 | h3
          · rw [h3]
            omega
          · exact h3
      · refine ⟨i + 1, by omega, ?_, ?_, Or.inl rfl, ?_⟩
        · rw [if_neg hp, if_neg hlt]
          simp [hpf]
        · intro k hk1 hk2
          omega
        · intro _
          omega

/-- C20 (attempt budget of `addWyckoffAtomRandomly`): with the members of `Crystal` and the
random number generator as oracles and every attempt yielding an atom (no exception, no
coordinate equal to the sentinel `-1`), the function returns after `n ≥ 1` attempts; `n = 1` if
the position is unique, whatever `maxAttempts` is; otherwise, for `maxAttempts ≥ 1`, `n` is at
most `maxAttempts` and equals it when every attempt fails; all attempts before the last fail,
so the attempts stop at the first success; the value returned is true if and only if some
attempt passed both `areIADsOkay` and `fillCellWithAtom`; and after every failed attempt the
atom added is removed again: the crystal left is that of the passing attempt, or the crystal
after `n` failed attempts, each ending with `removeAtom`. -/
theorem addWyckoffAtomRandomly_attempts {Crystal : Type} (ops : CrystalOps Crystal)
    (getRandDouble : Nat → ℚ → ℚ → ℚ) (crystal : Crystal) (position : wyckPos)
    (atomicNum spg : Nat) (maxAttempts : Int) (newAtoms : Nat → atomStruct) (fuel : Nat)
    (hatoms : ∀ k, SpgInit.newAtomOfAttempt getRandDouble position atomicNum k =
      some (.ok (some (newAtoms k))))
    (h1 : 1 ≤ fuel) (h2 : maxAttempts ≤ (fuel : Int)) :
    ∃ n, 1 ≤ n ∧
      SpgInit.addWyckoffAtomRandomly fuel ops getRandDouble crystal position atomicNum spg
          maxAttempts =
        some (.ok (attemptPasses ops newAtoms spg crystal (n - 1),
          (if attemptPasses ops newAtoms spg crystal (n - 1) = true then
            crystalOfPassingAttempt ops newAtoms spg crystal (n - 1)
          else crystalBeforeAttempt ops newAtoms spg crystal n), n)) ∧
      (SpgInit.containsUniquePosition position = true → n = 1) ∧
      (SpgInit.containsUniquePosition position = false → 1 ≤ maxAttempts →
        (n : Int) ≤ maxAttempts ∧
        (attemptPasses ops newAtoms spg crystal (n - 1) = false → (n : Int) = maxAttempts)) ∧
      (∀ k, k < n - 1 → attemptPasses ops newAtoms spg crystal k = false) ∧
      (attemptPasses ops newAtoms spg crystal (n - 1) = true ↔
        ∃ k, k < n ∧ attemptPasses ops newAtoms spg crystal k = true) := by
  unfold SpgInit.addWyckoffAtomRandomly
  by_cases hu : SpgInit.containsUniquePosition position = true
  · obtain ⟨n, hn, hrun, hfail, hbound, hlast⟩ :=
      addWyckoffAtomLoop_spec ops getRandDouble position atomicNum spg 1 newAtoms crystal
        hatoms fuel 0 h1 (by omega)
    have hn1 : n = 1 := by omega
    refine ⟨n, by omega, ?_, fun _ => hn1, ?_, ?_, ?_⟩
    · simp only [hu, if_true]
      exact hrun
    · intro hf
      rw [hu] at hf
      cases hf
    · intro k hk
      exact hfail k (Nat.zero_le _) hk
    · constructor
      · intro hp
        exact ⟨n - 1, by omega, hp⟩
      · rintro ⟨k, hk, hp⟩
        have : k = n - 1 := by omega
        rw [← this]
        exact hp
  · obtain ⟨n, hn, hrun, hfail, hbound, hlast⟩ :=
      addWyckoffAtomLoop_spec ops getRandDouble position atomicNum spg maxAttempts newAtoms
        crystal hatoms fuel 0 h1 (by omega)
    refine ⟨n, by omega, ?_, fun h => absurd h hu, ?_, ?_, ?_⟩
    · simp only [hu]
      exact hrun
    · intro _ hm
      have hle : (n : Int) ≤ maxAttempts := by
        rcases hbound with h3 | h3
        · rw [h3]
          omega
        · exact h3
      exact ⟨hle, fun hf => le_antisymm hle (hlast hf)⟩
    · intro k hk
      exact hfail k (Nat.zero_le _) hk
    · constructor
      · intro hp
        exact ⟨n - 1, by omega, hp⟩
      · rintro ⟨k, hk, hp⟩
        by_cases hkn : k = n - 1
        · rw [← hkn]
          exact hp
        · have := hfail k (Nat.zero_le _) (by omega)
          rw [this] at hp
          cases hp

theorem interpretComponent_x (x y z : ℚ) :
    SpgInit.interpretComponent "x" x y z = some (.ok x) := by
  have hl : ("x" : String).length = 1 := by decide
  have hd : ("x" : String).data = ['x'] := rfl
  simp [SpgInit.interpretComponent, SpgInit.interpretLoop, SpgInit.getNumberInFirstTerm,
    SpgInit.stof, SpgInit.digitsValue, hl, hd, isDigit]

theorem interpretComponent_y (x y z : ℚ) :
    SpgInit.interpretComponent "y" x y z = some (.ok y) := by
  have hl : ("y" : String).length = 1 := by decide
  have hd : ("y" : String).data = ['y'] := rfl
  simp [SpgInit.interpretComponent, SpgInit.interpretLoop, SpgInit.getNumberInFirstTerm,
    SpgInit.stof, SpgInit.digitsValue, hl, hd, isDigit]

theorem interpretComponent_z (x y z : ℚ) :
    SpgInit.interpretComponent "z" x y z = some (.ok z) := by
  have hl : ("z" : String).length = 1 := by decide
  have hd : ("z" : String).data = ['z'] := rfl
  simp [SpgInit.interpretComponent, SpgInit.interpretLoop, SpgInit.getNumberInFirstTerm,
    SpgInit.stof, SpgInit.digitsValue, hl, hd, isDigit]

theorem newAtomOfAttempt_ramp (k : Nat) :
    SpgInit.newAtomOfAttempt randDoubleRamp generalPosition 7 k =
      some (.ok (some (rampAtoms k))) := by
  have hs : split (SpgInit.getWyckCoords generalPosition) ',' = ["x", "y", "z"] := by decide
  have h0 : 3 * k / 3 = k := by omega
  have h1 : (3 * k + 1) / 3 = k := by omega
  have h2 : (3 * k + 2) / 3 = k := by omega
  have hpos : (0 : ℚ) ≤ min 1 ((k : ℚ) / 4) := le_min (by norm_num) (by positivity)
  have hne : ¬ (min 1 ((k : ℚ) / 4) = -1) := by
    intro h
    rw [h] at hpos
    norm_num at hpos
  unfold SpgInit.newAtomOfAttempt
  simp only [hs, randDoubleRamp, h0, h1, h2, List.getElem?_cons_zero, List.getElem?_cons_succ,
    interpretComponent_x, interpretComponent_y, interpretComponent_z, hne, or_self, if_false,
    rampAtoms]

theorem addWyckoffAtomRandomly_sample :
    SpgInit.addWyckoffAtomRandomly 5 listCrystalOps randDoubleRamp [] generalPosition 7 1 5 =
      some (.ok (true, [⟨7, 1 / 2, 1 / 2, 1 / 2⟩], 3)) := by
  have hu : SpgInit.containsUniquePosition generalPosition = false := by decide
  simp only [SpgInit.addWyckoffAtomRandomly, hu, SpgInit.addWyckoffAtomLoop,
    newAtomOfAttempt_ramp, rampAtoms, listCrystalOps]
  norm_num

theorem addWyckoffAtomRandomly_attempts_witness :
    (∀ k, SpgInit.newAtomOfAttempt randDoubleRamp generalPosition 7 k =
      some (.ok (some (rampAtoms k)))) ∧ 1 ≤ 5 ∧ (5 : Int) ≤ ((5 : Nat) : Int) ∧
    ∃ n, 1 ≤ n ∧
      SpgInit.addWyckoffAtomRandomly 5 listCrystalOps randDoubleRamp [] generalPosition 7 1 5 =
        some (.ok (attemptPasses listCrystalOps rampAtoms 1 [] (n - 1),
          (if attemptPasses listCrystalOps rampAtoms 1 [] (n - 1) = true then
            crystalOfPassingAttempt listCrystalOps rampAtoms 1 [] (n - 1)
          else crystalBeforeAttempt listCrystalOps rampAtoms 1 [] n), n)) ∧
      (SpgInit.containsUniquePosition generalPosition = true → n = 1) ∧
      (SpgInit.containsUniquePosition generalPosition = false → 1 ≤ (5 : Int) →
        (n : Int) ≤ 5 ∧
        (attemptPasses listCrystalOps rampAtoms 1 [] (n - 1) = false → (n : Int) = 5)) ∧
      (∀ k, k < n - 1 → attemptPasses listCrystalOps rampAtoms 1 [] k = false) ∧
      (attemptPasses listCrystalOps rampAtoms 1 [] (n - 1) = true ↔
        ∃ k, k < n ∧ attemptPasses listCrystalOps rampAtoms 1 [] k = true) :=
  ⟨newAtomOfAttempt_ramp, by decide, by decide,
    addWyckoffAtomRandomly_attempts listCrystalOps randDoubleRamp [] generalPosition 7 1 5
      rampAtoms 5 newAtomOfAttempt_ramp (by decide) (by decide)⟩

/-! ## The realizer as a function of the assignments so far -/

theorem strikeList_nil (l : similarWyckPositions) : strikeList [] l = l := by
  unfold strikeList
  simp

theorem strike_nil (S : systemPossibility) : strike [] S = S := by
  unfold strike
  induction S with
  | nil => rfl
  | cons p S ih =>
    rw [List.map_cons, ih]
    congr 1
    unfold strikeSap
    have : p.assigns.map (strikePick []) = p.assigns := by
      induction p.assigns with
      | nil => rfl
      | cons a l ih2 =>
        rw [List.map_cons, ih2]
        congr 1
        unfold strikePick
        rw [strikeList_nil]
    rw [this]

theorem remove_strike (R : List Char) (S : systemPossibility) (c : Char) :
    SpgInitCombinatorics.removePositionFromSystemPossibility (strike R S) c =
      strike (R ++ [c]) S := by
  unfold SpgInitCombinatorics.removePositionFromSystemPossibility strike
  rw [List.map_map]
  apply List.map_congr_left
  intro p _
  simp only [Function.comp, strikeSap, List.map_map]
  congr 1
  apply List.map_congr_left
  intro a _
  simp only [Function.comp, strikePick, strikeList, List.filter_filter]
  congr 1
  apply List.filter_congr
  intro w _
  by_cases h1 : SpgInit.getWyckLet w = c
  · simp [h1]
  · simp [h1]

theorem lettersStruck_append (ret : atomAssignments) (w : wyckPos) (z : Nat) :
    lettersStruck (ret ++ [(w, z)]) =
      if SpgInit.containsUniquePosition w = true then lettersStruck ret ++ [SpgInit.getWyckLet w]
      else lettersStruck ret := by
  unfold lettersStruck
  by_cases h : SpgInit.containsUniquePosition w = true
  · simp [List.filter_append, h]
  · simp [List.filter_append, h]

theorem strike_getElem? (R : List Char) (S : systemPossibility) (i : Nat)
    (p : singleAtomPossibility) (h : S[i]? = some p) :
    (strike R S)[i]? = some (strikeSap R p) := by
  unfold strike
  rw [List.getElem?_map, h]
  rfl

theorem strikeSap_getElem? (R : List Char) (p : singleAtomPossibility) (j : Nat)
    (a : similarWyckPosAndNumToChoose) (h : p.assigns[j]? = some a) :
    (strikeSap R p).assigns[j]? = some (strikePick R a) := by
  unfold strikeSap
  simp only
  rw [List.getElem?_map, h]
  rfl

theorem drawAtoms_eq (g : Nat → Int → Int → Int) (S : systemPossibility) (i j z : Nat)
    (p : singleAtomPossibility) (a : similarWyckPosAndNumToChoose)
    (hp : S[i]? = some p) (ha : p.assigns[j]? = some a) (k : Nat) (ret : atomAssignments)
    (n : Nat) :
    SpgInitCombinatorics.drawAtoms g i j z k (strike (lettersStruck ret) S, ret, n) =
      restoreState S (drawFrom g z a.choosablePositions k (ret, n)) := by
  induction k generalizing ret n with
  | zero => rfl
  | succ k ih =>
    rw [SpgInitCombinatorics.drawAtoms, drawFrom]
    simp only [strike_getElem? _ S i p hp, strikeSap_getElem? _ p j a ha, strikePick]
    cases hv : vectorAt (strikeList (lettersStruck ret) a.choosablePositions)
        (g n 0 (((strikeList (lettersStruck ret) a.choosablePositions).length : Int) - 1)) with
    | error e => rfl
    | ok w =>
      simp only
      rw [← ih (ret ++ [(w, z)]) (n + 1), lettersStruck_append]
      by_cases hu : SpgInit.containsUniquePosition w = true
      · simp only [hu, if_true, remove_strike]
      · simp only [hu]
        rfl

theorem assignsLoop_eq (g : Nat → Int → Int → Int) (S : systemPossibility) (i z : Nat)
    (p : singleAtomPossibility) (hp : S[i]? = some p) (k j : Nat)
    (hk : j + k = p.assigns.length) (ret : atomAssignments) (n : Nat) :
    SpgInitCombinatorics.assignsLoop g i z k j (strike (lettersStruck ret) S, ret, n) =
      restoreState S (realizePicks g z (p.assigns.drop j) (ret, n)) := by
  induction k generalizing j ret n with
  | zero =>
    have hj : p.assigns.drop j = [] := List.drop_eq_nil_of_le (by omega)
    rw [hj]
    rfl
  | succ k ih =>
    have hlt : j < p.assigns.length := by omega
    have ha : p.assigns[j]? = some p.assigns[j] := List.getElem?_eq_getElem hlt
    have hd : p.assigns.drop j = p.assigns[j] :: p.assigns.drop (j + 1) :=
      List.drop_eq_getElem_cons hlt
    rw [hd, SpgInitCombinatorics.assignsLoop, realizePicks]
    simp only [strike_getElem? _ S i p hp, strikeSap_getElem? _ p j _ ha, strikePick]
    rw [drawAtoms_eq g S i j z p _ hp ha]
    cases hdraw : drawFrom g z p.assigns[j].choosablePositions p.assigns[j].numToChoose
        (ret, n) with
    | error e => rfl
    | ok st =>
      obtain ⟨ret1, n1⟩ := st
      simp only [restoreState]
      exact ih (j + 1) (by omega) ret1 n1

theorem speciesLoop_eq (g : Nat → Int → Int → Int) (S : systemPossibility) (k i : Nat)
    (hk : i + k = S.length) (ret : atomAssignments) (n : Nat) :
    SpgInitCombinatorics.speciesLoop g k i (strike (lettersStruck ret) S, ret, n) =
      restoreState S (realizeSaps g (S.drop i) (ret, n)) := by
  induction k generalizing i ret n with
  | zero =>
    have hi : S.drop i = [] := List.drop_eq_nil_of_le (by omega)
    rw [hi]
    rfl
  | succ k ih =>
    have hlt : i < S.length := by omega
    have hp : S[i]? = some S[i] := List.getElem?_eq_getElem hlt
    have hd : S.drop i = S[i] :: S.drop (i + 1) := List.drop_eq_getElem_cons hlt
    rw [hd, SpgInitCombinatorics.speciesLoop, realizeSaps]
    simp only [strike_getElem? _ S i _ hp]
    have hlen : (strikeSap (lettersStruck ret) S[i]).assigns.length = S[i].assigns.length := by
      simp [strikeSap]
    have hz : (strikeSap (lettersStruck ret) S[i]).atomicNum = S[i].atomicNum := rfl
    rw [hlen, hz, assignsLoop_eq g S i _ S[i] hp _ 0 (by omega)]
    rw [List.drop_zero]
    cases hr : realizePicks g S[i].atomicNum S[i].assigns (ret, n) with
    | error e => rfl
    | ok st =>
      obtain ⟨ret1, n1⟩ := st
      simp only [restoreState]
      exact ih (i + 1) (by omega) ret1 n1

theorem getRandomAtomAssignments_eq (g : Nat → Int → Int → Int) (sysPoss : systemPossibilities) :
    SpgInitCombinatorics.getRandomAtomAssignments g sysPoss =
      match vectorAt sysPoss (g 0 0 ((sysPoss.length : Int) - 1)) with
      | .error e => .error e
      | .ok S =>
        match realizeSaps g S ([], 1) with
        | .error e => .error e
        | .ok st => .ok st.1 := by
  unfold SpgInitCombinatorics.getRandomAtomAssignments
    SpgInitCombinatorics.getRandomSystemPossibility
  cases hv : vectorAt sysPoss (g 0 0 ((sysPoss.length : Int) - 1)) with
  | error e => rfl
  | ok S =>
    simp only
    have h := speciesLoop_eq g S S.length 0 (by omega) [] 1
    have h0 : lettersStruck [] = [] := rfl
    rw [h0, strike_nil, List.drop_zero] at h
    rw [h]
    cases hr : realizeSaps g S ([], 1) with
    | error e => rfl
    | ok st => rfl

/-! ## What the realizer returns -/

theorem vectorAt_mem {T : Type} (vec : List T) (index : Int) (v : T)
    (h : vectorAt vec index = .ok v) : v ∈ vec := by
  unfold vectorAt at h
  split_ifs at h
  split at h
  · rename_i w hw
    cases h
    exact List.getElem?_mem hw
  · cases h

theorem mem_strikeList (R : List Char) (l : similarWyckPositions) (w : wyckPos)
    (h : w ∈ strikeList R l) : w ∈ l ∧ SpgInit.getWyckLet w ∉ R := by
  unfold strikeList at h
  rw [List.mem_filter] at h
  exact ⟨h.1, by simpa using h.2⟩

theorem mem_lettersStruck (ret : atomAssignments) (q : atomAssignment) (hq : q ∈ ret)
    (hu : SpgInit.containsUniquePosition q.1 = true) :
    SpgInit.getWyckLet q.1 ∈ lettersStruck ret := by
  unfold lettersStruck
  rw [List.mem_map]
  exact ⟨q, List.mem_filter.2 ⟨hq, hu⟩, rfl⟩

theorem drawFrom_blocks (g : Nat → Int → Int → Int) (z : Nat) (simPos : similarWyckPositions)
    (k : Nat) (ret : atomAssignments) (n : Nat) (ret1 : atomAssignments) (n1 : Nat)
    (h : drawFrom g z simPos k (ret, n) = .ok (ret1, n1)) :
    ∃ block, ret1 = ret ++ block ∧ block.length = k ∧
      (∀ q ∈ block, q.1 ∈ simPos ∧ q.2 = z) ∧
      (block.Pairwise (fun a b => SpgInit.containsUniquePosition a.1 = true →
        SpgInit.getWyckLet a.1 ≠ SpgInit.getWyckLet b.1)) ∧
      (∀ a ∈ ret, ∀ b ∈ block, SpgInit.containsUniquePosition a.1 = true →
        SpgInit.getWyckLet a.1 ≠ SpgInit.getWyckLet b.1) := by
  induction k generalizing ret n with
  | zero =>
    rw [drawFrom] at h
    cases h
    exact ⟨[], by simp, rfl, by simp, List.Pairwise.nil, by simp⟩
  | succ k ih =>
    rw [drawFrom] at h
    cases hv : vectorAt (strikeList (lettersStruck ret) simPos)
        (g n 0 (((strikeList (lettersStruck ret) simPos).length : Int) - 1)) with
    | error e =>
      rw [hv] at h
      cases h
    | ok w =>
      rw [hv] at h
      simp only at h
      obtain ⟨block, hb1, hb2, hb3, hb4, hb5⟩ := ih _ _ h
      have hw := mem_strikeList _ _ _ (vectorAt_mem _ _ _ hv)
      refine ⟨(w, z) :: block, by simp [hb1], by simp [hb2], ?_, ?_, ?_⟩
      · intro q hq
        rcases List.mem_cons.1 hq with h1 | h1
        · rw [h1]
          exact ⟨hw.1, rfl⟩
        · exact hb3 q h1
      · rw [List.pairwise_cons]
        refine ⟨?_, hb4⟩
        intro b hb hu
        exact hb5 (w, z) (by simp) b hb hu
      · intro a ha b hb hu
        rcases List.mem_cons.1 hb with h1 | h1
        · rw [h1]
          intro heq
          apply hw.2
          simp only at heq
          rw [← heq]
          exact mem_lettersStruck ret a ha hu
        · exact hb5 a (List.mem_append_left _ ha) b h1 hu

theorem realizePicks_blocks (g : Nat → Int → Int → Int) (z : Nat)
    (l : List similarWyckPosAndNumToChoose) (ret : atomAssignments) (n : Nat)
    (ret1 : atomAssignments) (n1 : Nat)
    (h : realizePicks g z l (ret, n) = .ok (ret1, n1)) :
    ∃ blocks, List.Forall₂ (RealizesPick z) l blocks ∧ ret1 = ret ++ blocks.flatten ∧
      (blocks.flatten.Pairwise (fun a b => SpgInit.containsUniquePosition a.1 = true →
        SpgInit.getWyckLet a.1 ≠ SpgInit.getWyckLet b.1)) ∧
      (∀ a ∈ ret, ∀ b ∈ blocks.flatten, SpgInit.containsUniquePosition a.1 = true →
        SpgInit.getWyckLet a.1 ≠ SpgInit.getWyckLet b.1) := by
  induction l generalizing ret n with
  | nil =>
    rw [realizePicks] at h
    cases h
    exact ⟨[], List.Forall₂.nil, by simp, by simp, by simp⟩
  | cons a l ih =>
    rw [realizePicks] at h
    cases hd : drawFrom g z a.choosablePositions a.numToChoose (ret, n) with
    | error e =>
      rw [hd] at h
      cases h
    | ok st =>
      obtain ⟨ret2, n2⟩ := st
      rw [hd] at h
      simp only at h
      obtain ⟨block, hb1, hb2, hb3, hb4, hb5⟩ := drawFrom_blocks g z _ _ ret n ret2 n2 hd
      obtain ⟨blocks, hc1, hc2, hc3, hc4⟩ := ih ret2 n2 h
      refine ⟨block :: blocks, List.Forall₂.cons ⟨hb2, hb3⟩ hc1, ?_, ?_, ?_⟩
      · rw [hc2, hb1, List.flatten_cons, List.append_assoc]
      · rw [List.flatten_cons, List.pairwise_append]
        refine ⟨hb4, hc3, ?_⟩
        intro x hx y hy hu
        exact hc4 x (by rw [hb1]; exact List.mem_append_right _ hx) y hy hu
      · intro x hx y hy hu
        rw [List.flatten_cons] at hy
        rcases List.mem_append.1 hy with h1 | h1
        · exact hb5 x hx y h1 hu
        · exact hc4 x (by rw [hb1]; exact List.mem_append_left _ hx) y h1 hu

theorem realizeSaps_blocks (g : Nat → Int → Int → Int) (S : List singleAtomPossibility)
    (ret : atomAssignments) (n : Nat) (ret1 : atomAssignments) (n1 : Nat)
    (h : realizeSaps g S (ret, n) = .ok (ret1, n1)) :
    ∃ blocks, RealizesSystem S blocks ∧ ret1 = ret ++ flattenBlocks blocks ∧
      ((flattenBlocks blocks).Pairwise (fun a b => SpgInit.containsUniquePosition a.1 = true →
        SpgInit.getWyckLet a.1 ≠ SpgInit.getWyckLet b.1)) ∧
      (∀ a ∈ ret, ∀ b ∈ flattenBlocks blocks, SpgInit.containsUniquePosition a.1 = true →
        SpgInit.getWyckLet a.1 ≠ SpgInit.getWyckLet b.1) := by
  induction S generalizing ret n with
  | nil =>
    rw [realizeSaps] at h
    cases h
    exact ⟨[], List.Forall₂.nil, by simp [flattenBlocks], by simp [flattenBlocks],
      by simp [flattenBlocks]⟩
  | cons p S ih =>
    rw [realizeSaps] at h
    cases hd : realizePicks g p.atomicNum p.assigns (ret, n) with
    | error e =>
      rw [hd] at h
      cases h
    | ok st =>
      obtain ⟨ret2, n2⟩ := st
      rw [hd] at h
      simp only at h
      obtain ⟨bs, hb1, hb2, hb4, hb5⟩ := realizePicks_blocks g _ _ ret n ret2 n2 hd
      obtain ⟨blocks, hc1, hc2, hc3, hc4⟩ := ih ret2 n2 h
      have hfl : flattenBlocks (bs :: blocks) = bs.flatten ++ flattenBlocks blocks := by
        simp [flattenBlocks]
      refine ⟨bs :: blocks, List.Forall₂.cons hb1 hc1, ?_, ?_, ?_⟩
      · rw [hc2, hb2, hfl, List.append_assoc]
      · rw [hfl, List.pairwise_append]
        refine ⟨hb4, hc3, ?_⟩
        intro x hx y hy hu
        exact hc4 x (by rw [hb2]; exact List.mem_append_right _ hx) y hy hu
      · intro x hx y hy hu
        rw [hfl] at hy
        rcases List.mem_append.1 hy with h1 | h1
        · exact hb5 x hx y h1 hu
        · exact hc4 x (by rw [hb2]; exact List.mem_append_left _ hx) y h1 hu

theorem getRandomAtomAssignments_blocks (g : Nat → Int → Int → Int)
    (sysPoss : systemPossibilities) (ret : atomAssignments)
    (h : SpgInitCombinatorics.getRandomAtomAssignments g sysPoss = .ok ret) :
    ∃ S ∈ sysPoss, ∃ blocks, RealizesSystem S blocks ∧ ret = flattenBlocks blocks ∧
      ret.Pairwise (fun a b => SpgInit.containsUniquePosition a.1 = true →
        SpgInit.getWyckLet a.1 ≠ SpgInit.getWyckLet b.1) := by
  rw [getRandomAtomAssignments_eq] at h
  cases hv : vectorAt sysPoss (g 0 0 ((sysPoss.length : Int) - 1)) with
  | error e =>
    rw [hv] at h
    cases h
  | ok S =>
    rw [hv] at h
    simp only at h
    cases hr : realizeSaps g S ([], 1) with
    | error e =>
      rw [hr] at h
      cases h
    | ok st =>
      obtain ⟨ret2, n2⟩ := st
      rw [hr] at h
      simp only [Except.ok.injEq] at h
      obtain ⟨blocks, hc1, hc2, hc3, -⟩ := realizeSaps_blocks g S [] 1 ret2 n2 hr
      rw [List.nil_append] at hc2
      subst h
      exact ⟨S, vectorAt_mem _ _ _ hv, blocks, hc1, hc2, hc2 ▸ hc3⟩

/-! ## The groups are uniform -/

theorem similar_iff (p q : wyckPos) :
    wyckPositionsAreSimilar p q = true ↔
      SpgInit.containsUniquePosition p = SpgInit.containsUniquePosition q ∧
        SpgInit.getMultiplicity p = SpgInit.getMultiplicity q := by
  unfold wyckPositionsAreSimilar
  simp

theorem addSimilarPositions_similar (pos_i : wyckPos) (rest : List wyckPos) (used : List Char)
    (temp : similarWyckPositions) :
    ∃ l, (addSimilarPositions pos_i rest used temp).1 = temp ++ l ∧
      ∀ p ∈ l, wyckPositionsAreSimilar pos_i p = true := by
  induction rest generalizing used temp with
  | nil => exact ⟨[], by simp [addSimilarPositions], by simp⟩
  | cons pos_j rest ih =>
    unfold addSimilarPositions
    by_cases h : (wyckPositionsAreSimilar pos_i pos_j &&
        !vecContains used (SpgInit.getWyckLet pos_j)) = true
    · rw [if_pos h]
      obtain ⟨l, hl1, hl2⟩ := ih (used ++ [SpgInit.getWyckLet pos_j]) (temp ++ [pos_j])
      refine ⟨pos_j :: l, by rw [hl1]; simp, ?_⟩
      intro p hp
      rcases List.mem_cons.1 hp with h1 | h1
      · rw [h1]
        simp only [Bool.and_eq_true] at h
        exact h.1
      · exact hl2 p h1
    · rw [if_neg h]
      exact ih used temp

theorem groupSimilarLoop_uniform (rest : List wyckPos) (used : List Char) :
    ∀ g ∈ groupSimilarLoop rest used, ∀ p ∈ g,
      SpgInit.containsUniquePosition p = groupIsUnique g ∧
        SpgInit.getMultiplicity p = groupMultiplicity g := by
  induction rest generalizing used with
  | nil => simp [groupSimilarLoop]
  | cons pos_i rest ih =>
    unfold groupSimilarLoop
    by_cases h : (!vecContains used (SpgInit.getWyckLet pos_i)) = true
    · rw [if_pos h]
      intro g hg
      simp only [List.mem_cons] at hg
      rcases hg with hg | hg
      · obtain ⟨l, hl1, hl2⟩ := addSimilarPositions_similar pos_i rest
          (used ++ [SpgInit.getWyckLet pos_i]) [pos_i]
        rw [hg, hl1]
        intro p hp
        simp only [List.singleton_append, List.mem_cons] at hp
        simp only [List.singleton_append, groupIsUnique, groupMultiplicity]
        rcases hp with hp | hp
        · rw [hp]
          exact ⟨rfl, rfl⟩
        · have := (similar_iff pos_i p).1 (hl2 p hp)
          exact ⟨this.1.symm, this.2.symm⟩
      · exact ih _ g hg
    · rw [if_neg h]
      exact ih used

theorem groups_wellFormed (wyckVec : wyckoffPositions) :
    GroupsWellFormed (groupSimilarWyckPositions wyckVec) := by
  constructor
  · intro g hg
    exact ⟨groups_ne_nil wyckVec g hg, groups_letters_nodup wyckVec g hg,
      groupSimilarLoop_uniform wyckVec [] g hg⟩
  · have h := (groupSimilarLoop_spec wyckVec []).2
    have h2 : (groupSimilarLoop wyckVec []).Pairwise
        (fun g h => g = h ∨ ∀ p ∈ g, ∀ q ∈ h, p.letter ≠ q.letter) :=
      h.imp (fun hgh => Or.inr hgh)
    have hsymm : Symmetric (fun (g h : similarWyckPositions) =>
        g = h ∨ ∀ p ∈ g, ∀ q ∈ h, p.letter ≠ q.letter) := by
      intro g k hgk
      rcases hgk with e | d
      · exact Or.inl e.symm
      · exact Or.inr (fun p hp q hq e => d q hq p hp e.symm)
    have h3 := List.Pairwise.forall_of_forall hsymm (fun g _ => Or.inl rfl) h2
    intro g hg k hk p hp q hq hpq
    rcases h3 hg hk with h4 | h4
    · exact h4
    · exact absurd hpq (h4 p hp q hq)

/-! ## The realizer returns -/

theorem strikeList_append_singleton (R : List Char) (c : Char) (l : similarWyckPositions) :
    strikeList (R ++ [c]) l =
      (strikeList R l).filter (fun p => !(SpgInit.getWyckLet p == c)) := by
  unfold strikeList
  rw [List.filter_filter]
  apply List.filter_congr
  intro w _
  by_cases h1 : SpgInit.getWyckLet w = c
  · simp [h1]
  · simp [h1]

theorem length_filter_letter (l : similarWyckPositions) (c : Char)
    (h : (l.map (fun p => p.letter)).Nodup) :
    l.length ≤ (l.filter (fun p => !(SpgInit.getWyckLet p == c))).length + 1 := by
  induction l with
  | nil => simp
  | cons a l ih =>
    simp only [List.map_cons, List.nodup_cons] at h
    by_cases ha : SpgInit.getWyckLet a = c
    · have hall : ∀ p ∈ l, (!(SpgInit.getWyckLet p == c)) = true := by
        intro p hp
        have : p.letter ≠ a.letter := by
          intro e
          apply h.1
          rw [List.mem_map]
          exact ⟨p, hp, e⟩
        have hne : SpgInit.getWyckLet p ≠ c := by
          rw [← ha]
          exact this
        simp [hne]
      have hfl : l.filter (fun p => !(SpgInit.getWyckLet p == c)) = l :=
        List.filter_eq_self.2 hall
      have hb : ¬ ((!(SpgInit.getWyckLet a == c)) = true) := by simp [ha]
      rw [List.filter_cons, if_neg hb, hfl, List.length_cons]
    · have hb : (!(SpgInit.getWyckLet a == c)) = true := by simp [ha]
      rw [List.filter_cons, if_pos hb, List.length_cons, List.length_cons]
      have := ih h.2
      omega

theorem strikeList_nodup (R : List Char) (l : similarWyckPositions)
    (h : (l.map (fun p => p.letter)).Nodup) :
    ((strikeList R l).map (fun p => p.letter)).Nodup :=
  h.sublist ((List.filter_sublist l).map _)

theorem strikeList_append_of_absent (R : List Char) (c : Char) (l : similarWyckPositions)
    (h : ∀ p ∈ l, p.letter ≠ c) : strikeList (R ++ [c]) l = strikeList R l := by
  rw [strikeList_append_singleton]
  apply List.filter_eq_self.2
  intro p hp
  have := h p (mem_strikeList R l p hp).1
  have hne : SpgInit.getWyckLet p ≠ c := this
  simp [hne]

theorem strikeList_eq_self (R : List Char) (l : similarWyckPositions)
    (h : ∀ p ∈ l, SpgInit.getWyckLet p ∉ R) : strikeList R l = l := by
  unfold strikeList
  apply List.filter_eq_self.2
  intro p hp
  simp [h p hp]

theorem vectorAt_of_contract {T : Type} (g : Nat → Int → Int → Int) (hg : RandIntContract g)
    (vec : List T) (hne : vec ≠ []) (n : Nat) :
    ∃ v, vectorAt vec (g n 0 ((vec.length : Int) - 1)) = .ok v := by
  have hpos : 0 < vec.length := List.length_pos.2 hne
  obtain ⟨h1, h2⟩ := hg n 0 ((vec.length : Int) - 1) (by omega)
  have hlt : (g n 0 ((vec.length : Int) - 1)).toNat < vec.length := by omega
  refine ⟨vec[(g n 0 ((vec.length : Int) - 1)).toNat], ?_⟩
  unfold vectorAt
  rw [if_neg (by omega), List.getElem?_eq_getElem hlt]

theorem mem_lettersStruck_iff (ret : atomAssignments) (c : Char) :
    c ∈ lettersStruck ret ↔
      ∃ q ∈ ret, SpgInit.containsUniquePosition q.1 = true ∧ SpgInit.getWyckLet q.1 = c := by
  unfold lettersStruck
  simp only [List.mem_map, List.mem_filter]
  constructor
  · rintro ⟨q, ⟨h1, h2⟩, h3⟩
    exact ⟨q, h1, h2, h3⟩
  · rintro ⟨q, h1, h2, h3⟩
    exact ⟨q, ⟨h1, h2⟩, h3⟩

theorem drawFrom_total (groups : List similarWyckPositions) (hG : GroupsWellFormed groups)
    (g : Nat → Int → Int → Int) (hg : RandIntContract g) (z : Nat)
    (g0 : similarWyckPositions) (hg0 : g0 ∈ groups) (D : similarWyckPositions → Nat)
    (k : Nat) (ret : atomAssignments) (n : Nat)
    (hW : ∀ q ∈ ret, ∃ h ∈ groups, q.1 ∈ h)
    (hB : ∀ h ∈ groups, groupIsUnique h = true →
      (if h = g0 then k else 0) + D h ≤ (strikeList (lettersStruck ret) h).length) :
    ∃ ret1 n1, drawFrom g z g0 k (ret, n) = .ok (ret1, n1) ∧
      (∀ q ∈ ret1, ∃ h ∈ groups, q.1 ∈ h) ∧
      ∀ h ∈ groups, groupIsUnique h = true →
        D h ≤ (strikeList (lettersStruck ret1) h).length := by
  induction k generalizing ret n with
  | zero =>
    refine ⟨ret, n, rfl, hW, ?_⟩
    intro h hh hu
    have := hB h hh hu
    simp only [ite_self, Nat.zero_add] at this
    exact this
  | succ k ih =>
    have hne : strikeList (lettersStruck ret) g0 ≠ [] := by
      by_cases hu0 : groupIsUnique g0 = true
      · have := hB g0 hg0 hu0
        simp only [if_true] at this
        intro he
        rw [he] at this
        simp at this
      · rw [strikeList_eq_self]
        · exact (hG.1 g0 hg0).1
        · intro w hw hin
          obtain ⟨q, hq, hqu, hql⟩ := (mem_lettersStruck_iff ret _).1 hin
          obtain ⟨h, hh, hqh⟩ := hW q hq
          have heq : h = g0 := hG.2 h hh g0 hg0 q.1 hqh w hw hql
          rw [heq] at hqh
          have := ((hG.1 g0 hg0).2.2 q.1 hqh).1
          rw [hqu] at this
          exact hu0 this.symm
    obtain ⟨w, hv⟩ := vectorAt_of_contract g hg _ hne n
    have hw := mem_strikeList _ _ _ (vectorAt_mem _ _ _ hv)
    rw [drawFrom, hv]
    simp only
    apply ih
    · intro q hq
      rcases List.mem_append.1 hq with h1 | h1
      · exact hW q h1
      · simp only [List.mem_singleton] at h1
        rw [h1]
        exact ⟨g0, hg0, hw.1⟩
    · intro h hh hu
      have hb := hB h hh hu
      rw [lettersStruck_append]
      by_cases huw : SpgInit.containsUniquePosition w = true
      · rw [if_pos huw]
        by_cases he : h = g0
        · rw [if_pos he] at hb ⊢
          rw [he] at hb ⊢
          rw [strikeList_append_singleton]
          have := length_filter_letter (strikeList (lettersStruck ret) g0)
            (SpgInit.getWyckLet w) (strikeList_nodup _ _ (hG.1 g0 hg0).2.1)
          omega
        · rw [if_neg he] at hb ⊢
          rw [strikeList_append_of_absent]
          · exact hb
          · intro p hp hpl
            exact he (hG.2 h hh g0 hg0 p hp w hw.1 hpl)
      · rw [if_neg huw]
        have he : h ≠ g0 := by
          intro he
          have := ((hG.1 g0 hg0).2.2 w hw.1).1
          rw [← he, hu] at this
          exact huw this
        rw [if_neg he] at hb ⊢
        exact hb

theorem usesOfGroup_cons (z : Nat) (a : similarWyckPosAndNumToChoose)
    (l : List similarWyckPosAndNumToChoose) (h : similarWyckPositions) :
    usesOfGroup ⟨z, a :: l⟩ h =
      (if a.choosablePositions = h then a.numToChoose else 0) + usesOfGroup ⟨z, l⟩ h := by
  unfold usesOfGroup
  by_cases he : a.choosablePositions = h
  · simp [List.filter_cons, he]
  · simp [List.filter_cons, he]

theorem realizePicks_total (groups : List similarWyckPositions) (hG : GroupsWellFormed groups)
    (g : Nat → Int → Int → Int) (hg : RandIntContract g) (z : Nat)
    (l : List similarWyckPosAndNumToChoose) (hl : ∀ a ∈ l, a.choosablePositions ∈ groups)
    (D : similarWyckPositions → Nat) (ret : atomAssignments) (n : Nat)
    (hW : ∀ q ∈ ret, ∃ h ∈ groups, q.1 ∈ h)
    (hB : ∀ h ∈ groups, groupIsUnique h = true →
      usesOfGroup ⟨z, l⟩ h + D h ≤ (strikeList (lettersStruck ret) h).length) :
    ∃ ret1 n1, realizePicks g z l (ret, n) = .ok (ret1, n1) ∧
      (∀ q ∈ ret1, ∃ h ∈ groups, q.1 ∈ h) ∧
      ∀ h ∈ groups, groupIsUnique h = true →
        D h ≤ (strikeList (lettersStruck ret1) h).length := by
  induction l generalizing ret n with
  | nil =>
    refine ⟨ret, n, rfl, hW, ?_⟩
    intro h hh hu
    have := hB h hh hu
    omega
  | cons a l ih =>
    obtain ⟨ret1, n1, hd, hW1, hB1⟩ := drawFrom_total groups hG g hg z a.choosablePositions
      (hl a (List.mem_cons_self _ _)) (fun h => usesOfGroup ⟨z, l⟩ h + D h) a.numToChoose
      ret n hW (by
        intro h hh hu
        beta_reduce
        have := hB h hh hu
        rw [usesOfGroup_cons] at this
        by_cases he : h = a.choosablePositions
        · rw [if_pos he]
          rw [if_pos he.symm] at this
          omega
        · rw [if_neg he]
          rw [if_neg (fun e => he e.symm)] at this
          omega)
    obtain ⟨ret2, n2, hr, hW2, hB2⟩ := ih (fun b hb => hl b (List.mem_cons_of_mem _ hb))
      ret1 n1 hW1 hB1
    refine ⟨ret2, n2, ?_, hW2, hB2⟩
    rw [realizePicks, hd]
    exact hr

theorem totalUsesOfGroup_cons (p : singleAtomPossibility) (S : systemPossibility)
    (h : similarWyckPositions) :
    totalUsesOfGroup (p :: S) h = usesOfGroup p h + totalUsesOfGroup S h := by
  simp [totalUsesOfGroup]

theorem realizeSaps_total (groups : List similarWyckPositions) (hG : GroupsWellFormed groups)
    (g : Nat → Int → Int → Int) (hg : RandIntContract g) (S : List singleAtomPossibility)
    (hS : ∀ p ∈ S, ∀ a ∈ p.assigns, a.choosablePositions ∈ groups)
    (D : similarWyckPositions → Nat) (ret : atomAssignments) (n : Nat)
    (hW : ∀ q ∈ ret, ∃ h ∈ groups, q.1 ∈ h)
    (hB : ∀ h ∈ groups, groupIsUnique h = true →
      totalUsesOfGroup S h + D h ≤ (strikeList (lettersStruck ret) h).length) :
    ∃ ret1 n1, realizeSaps g S (ret, n) = .ok (ret1, n1) ∧
      (∀ q ∈ ret1, ∃ h ∈ groups, q.1 ∈ h) ∧
      ∀ h ∈ groups, groupIsUnique h = true →
        D h ≤ (strikeList (lettersStruck ret1) h).length := by
  induction S generalizing ret n with
  | nil =>
    refine ⟨ret, n, rfl, hW, ?_⟩
    intro h hh hu
    have := hB h hh hu
    omega
  | cons p S ih =>
    obtain ⟨ret1, n1, hd, hW1, hB1⟩ := realizePicks_total groups hG g hg p.atomicNum p.assigns
      (hS p (List.mem_cons_self _ _)) (fun h => totalUsesOfGroup S h + D h) ret n hW (by
        intro h hh hu
        beta_reduce
        have := hB h hh hu
        rw [totalUsesOfGroup_cons] at this
        have he : usesOfGroup ⟨p.atomicNum, p.assigns⟩ h = usesOfGroup p h := rfl
        rw [he]
        omega)
    obtain ⟨ret2, n2, hr, hW2, hB2⟩ := ih (fun q hq => hS q (List.mem_cons_of_mem _ hq))
      ret1 n1 hW1 hB1
    refine ⟨ret2, n2, ?_, hW2, hB2⟩
    rw [realizeSaps, hd]
    exact hr

theorem getRandomAtomAssignments_returns (groups : List similarWyckPositions)
    (hG : GroupsWellFormed groups) (g : Nat → Int → Int → Int) (hg : RandIntContract g)
    (sysPoss : systemPossibilities) (hne : sysPoss ≠ [])
    (hS : ∀ S ∈ sysPoss, (∀ p ∈ S, ∀ a ∈ p.assigns, a.choosablePositions ∈ groups) ∧
      ∀ h, groupIsUnique h = true → totalUsesOfGroup S h ≤ h.length) :
    ∃ ret, SpgInitCombinatorics.getRandomAtomAssignments g sysPoss = .ok ret := by
  rw [getRandomAtomAssignments_eq]
  obtain ⟨S, hv⟩ := vectorAt_of_contract g hg sysPoss hne 0
  obtain ⟨h1, h2⟩ := hS S (vectorAt_mem _ _ _ hv)
  obtain ⟨ret1, n1, hr, -, -⟩ := realizeSaps_total groups hG g hg S h1 (fun _ => 0) [] 1
    (by simp) (by
      intro h _ hu
      beta_reduce
      have h0 : lettersStruck [] = [] := rfl
      rw [h0, strikeList_nil]
      have := h2 h hu
      omega)
  rw [hv]
  simp only
  rw [hr]
  exact ⟨ret1, rfl⟩

theorem getSystemPossibilities_nice (fuel : Nat) (db : WyckoffDatabase) (spg : Nat)
    (atoms : List Nat) (f1 f2 : Bool) (sys : systemPossibilities)
    (h : SpgInitCombinatorics.getSystemPossibilities fuel db spg atoms f1 f2 = some sys) :
    ∀ S ∈ sys,
      (∀ p ∈ S, NiceSap (groupSimilarWyckPositions (SpgInit.getWyckoffPositions db spg)) p) ∧
      ∀ g, groupIsUnique g = true → totalUsesOfGroup S g ≤ g.length :=
  systemPossibilitiesLoop_invariant fuel (SpgInit.getWyckoffPositions db spg) f1 f2
    (fun sys => ∀ S ∈ sys,
      (∀ p ∈ S, NiceSap (groupSimilarWyckPositions (SpgInit.getWyckoffPositions db spg)) p) ∧
      ∀ g, groupIsUnique g = true → totalUsesOfGroup S g ≤ g.length)
    (by simp) (SpgInit.getNumOfEachType atoms) [] (getNumOfEachType_lt atoms)
    (fun nt _ sa sys1 hsa hI =>
      budget_step (SpgInit.getWyckoffPositions db spg) sa sys1 (fun p hp => (hsa p hp).2.2) hI)
    (by simp) sys h

theorem picks_in_groups (groups : List similarWyckPositions) (p : singleAtomPossibility)
    (h : NiceSap groups p) : ∀ a ∈ p.assigns, a.choosablePositions ∈ groups := by
  intro a ha
  apply h.1.subset
  rw [List.mem_map]
  exact ⟨a, ha, rfl⟩

theorem getRandomAtomAssignments_returns_of_solver (fuel : Nat) (db : WyckoffDatabase)
    (spg : Nat) (atoms : List Nat) (f1 f2 : Bool) (sys : systemPossibilities)
    (h : SpgInitCombinatorics.getSystemPossibilities fuel db spg atoms f1 f2 = some sys)
    (g : Nat → Int → Int → Int) (hg : RandIntContract g) (hne : sys ≠ []) :
    ∃ ret, SpgInitCombinatorics.getRandomAtomAssignments g sys = .ok ret := by
  have hn := getSystemPossibilities_nice fuel db spg atoms f1 f2 sys h
  apply getRandomAtomAssignments_returns
    (groupSimilarWyckPositions (SpgInit.getWyckoffPositions db spg))
    (groups_wellFormed _) g hg sys hne
  intro S hS
  exact ⟨fun p hp => picks_in_groups _ p ((hn S hS).1 p hp), (hn S hS).2⟩

/-! ## The assignment list: uniqueness, conservation and order -/

theorem mem_flatten_of_realizesSap (p : singleAtomPossibility) (bs : List atomAssignments)
    (h : RealizesSap p bs) (q : atomAssignment) (hq : q ∈ bs.flatten) :
    ∃ a ∈ p.assigns, q.1 ∈ a.choosablePositions ∧ q.2 = p.atomicNum := by
  unfold RealizesSap at h
  generalize p.assigns = l at h
  induction h with
  | nil => simp at hq
  | @cons a b l bs' hab _ ih =>
    rw [List.flatten_cons] at hq
    rcases List.mem_append.1 hq with h1 | h1
    · exact ⟨a, List.mem_cons_self _ _, hab.2 q h1⟩
    · obtain ⟨a', ha', hr⟩ := ih h1
      exact ⟨a', List.mem_cons_of_mem _ ha', hr⟩

theorem mem_flattenBlocks (S : systemPossibility) (blocks : List (List atomAssignments))
    (h : RealizesSystem S blocks) (q : atomAssignment) (hq : q ∈ flattenBlocks blocks) :
    ∃ p ∈ S, ∃ a ∈ p.assigns, q.1 ∈ a.choosablePositions ∧ q.2 = p.atomicNum := by
  unfold RealizesSystem at h
  induction h with
  | nil => simp [flattenBlocks] at hq
  | @cons p bs S' blocks' hpb _ ih =>
    have hfl : flattenBlocks (bs :: blocks') = bs.flatten ++ flattenBlocks blocks' := by
      simp [flattenBlocks]
    rw [hfl] at hq
    rcases List.mem_append.1 hq with h1 | h1
    · exact ⟨p, List.mem_cons_self _ _, mem_flatten_of_realizesSap p bs hpb q h1⟩
    · obtain ⟨p', hp', hr⟩ := ih h1
      exact ⟨p', List.mem_cons_of_mem _ hp', hr⟩

theorem noUniqueLetterTwice_of_blocks (groups : List similarWyckPositions)
    (hG : GroupsWellFormed groups) (S : systemPossibility)
    (hS : ∀ p ∈ S, ∀ a ∈ p.assigns, a.choosablePositions ∈ groups)
    (blocks : List (List atomAssignments)) (hb : RealizesSystem S blocks)
    (hp : (flattenBlocks blocks).Pairwise (fun a b =>
      SpgInit.containsUniquePosition a.1 = true →
        SpgInit.getWyckLet a.1 ≠ SpgInit.getWyckLet b.1)) :
    NoUniqueLetterTwice (flattenBlocks blocks) := by
  unfold NoUniqueLetterTwice
  refine List.Pairwise.imp_of_mem ?_ hp
  intro a b ha hb2 hab hu
  rcases hu with hu | hu
  · exact hab hu
  · intro heq
    obtain ⟨pa, hpa, aa, haa, hma, -⟩ := mem_flattenBlocks S blocks hb a ha
    obtain ⟨pb, hpb, ab, hab2, hmb, -⟩ := mem_flattenBlocks S blocks hb b hb2
    have hga := hS pa hpa aa haa
    have hgb := hS pb hpb ab hab2
    have hsame : aa.choosablePositions = ab.choosablePositions :=
      hG.2 _ hga _ hgb a.1 hma b.1 hmb heq
    have h1 := ((hG.1 _ hga).2.2 a.1 hma).1
    have h2 := ((hG.1 _ hgb).2.2 b.1 hmb).1
    rw [hsame, ← h2, hu] at h1
    exact hab h1 heq

/-- C14 (cross-species uniqueness in the realizer, I5): for every list of system possibilities
that `getSystemPossibilities` returns, whatever the table, and for every generator, no unique
Wyckoff letter occurs twice in an assignment list that `getRandomAtomAssignments` returns,
neither within one species nor across species: of two assignments, if one is to a unique
position, the letters differ; and if the generator keeps its contract and the list of system
possibilities is not empty, `getRandomAtomAssignments` does return. -/
theorem getRandomAtomAssignments_unique_once (fuel : Nat) (db : WyckoffDatabase) (spg : Nat)
    (atoms : List Nat) (findOnlyOne findOnlyNonUnique : Bool) (sysPoss : systemPossibilities)
    (h : SpgInitCombinatorics.getSystemPossibilities fuel db spg atoms findOnlyOne
      findOnlyNonUnique = some sysPoss)
    (getRandInt : Nat → Int → Int → Int) :
    (∀ ret, SpgInitCombinatorics.getRandomAtomAssignments getRandInt sysPoss = .ok ret →
      NoUniqueLetterTwice ret) ∧
    (RandIntContract getRandInt → sysPoss ≠ [] →
      ∃ ret, SpgInitCombinatorics.getRandomAtomAssignments getRandInt sysPoss = .ok ret) := by
  have hn := getSystemPossibilities_nice fuel db spg atoms findOnlyOne findOnlyNonUnique
    sysPoss h
  refine ⟨?_, fun hg hne => getRandomAtomAssignments_returns_of_solver fuel db spg atoms
    findOnlyOne findOnlyNonUnique sysPoss h getRandInt hg hne⟩
  intro ret hr
  obtain ⟨S, hS, blocks, hb1, hb2, hb3⟩ :=
    getRandomAtomAssignments_blocks getRandInt sysPoss ret hr
  rw [hb2] at hb3 ⊢
  exact noUniqueLetterTwice_of_blocks _ (groups_wellFormed _) S
    (fun p hp => picks_in_groups _ p ((hn S hS).1 p hp)) blocks hb1 hb3

theorem getRandomAtomAssignments_unique_once_witness :
    SpgInitCombinatorics.getSystemPossibilities 20 databaseTwoUnique 1 [1, 2] false false =
      some possibilitiesTwoUnique ∧
    SpgInitCombinatorics.getRandomAtomAssignments randIntLow possibilitiesTwoUnique =
      .ok [(⟨'a', 1, "0,0,0"⟩, 1), (⟨'b', 1, "0,0,0.5"⟩, 2)] ∧
    NoUniqueLetterTwice [(⟨'a', 1, "0,0,0"⟩, 1), (⟨'b', 1, "0,0,0.5"⟩, 2)] :=
  ⟨by decide, by decide,
    (getRandomAtomAssignments_unique_once 20 databaseTwoUnique 1 [1, 2] false false
      possibilitiesTwoUnique (by decide) randIntLow).1 _ (by decide)⟩

theorem length_flatten_of_realizesSap (p : singleAtomPossibility) (bs : List atomAssignments)
    (h : RealizesSap p bs) :
    bs.flatten.length = (p.assigns.map (fun a => a.numToChoose)).sum := by
  unfold RealizesSap at h
  generalize p.assigns = l at h
  induction h with
  | nil => rfl
  | @cons a b l bs' hab _ ih =>
    rw [List.flatten_cons, List.length_append, ih, hab.1, List.map_cons, List.sum_cons]

theorem length_flattenBlocks (S : systemPossibility) (blocks : List (List atomAssignments))
    (h : RealizesSystem S blocks) : (flattenBlocks blocks).length = totalToChoose S := by
  unfold RealizesSystem at h
  induction h with
  | nil => rfl
  | @cons p bs S' blocks' hpb _ ih =>
    have hfl : flattenBlocks (bs :: blocks') = bs.flatten ++ flattenBlocks blocks' := by
      simp [flattenBlocks]
    rw [hfl, List.length_append, ih, length_flatten_of_realizesSap p bs hpb]
    simp [totalToChoose]

theorem sum_multiplicity_block (groups : List similarWyckPositions)
    (hG : GroupsWellFormed groups) (z : Nat) (a : similarWyckPosAndNumToChoose)
    (ha : a.choosablePositions ∈ groups) (block : atomAssignments)
    (h : RealizesPick z a block) :
    (block.map (fun q => SpgInit.getMultiplicity q.1)).sum =
      groupMultiplicity a.choosablePositions * a.numToChoose := by
  obtain ⟨h1, h2⟩ := h
  rw [← h1]
  clear h1
  induction block with
  | nil => simp
  | cons q block ih =>
    rw [List.map_cons, List.sum_cons, ih (fun r hr => h2 r (List.mem_cons_of_mem _ hr)),
      ((hG.1 _ ha).2.2 q.1 (h2 q (List.mem_cons_self _ _)).1).2, List.length_cons,
      Nat.mul_succ, Nat.add_comm]

theorem conservesAtoms_of_realizesSap (groups : List similarWyckPositions)
    (hG : GroupsWellFormed groups) (p : singleAtomPossibility)
    (hp : ∀ a ∈ p.assigns, a.choosablePositions ∈ groups) (bs : List atomAssignments)
    (h : RealizesSap p bs) : ConservesAtoms p bs := by
  unfold ConservesAtoms atomsPlaced
  unfold RealizesSap at h
  generalize p.assigns = l at h hp
  induction h with
  | nil => rfl
  | @cons a b l bs' hab _ ih =>
    rw [List.flatten_cons, List.map_append, List.sum_append,
      ih (fun c hc => hp c (List.mem_cons_of_mem _ hc)),
      sum_multiplicity_block groups hG _ a (hp a (List.mem_cons_self _ _)) b hab,
      List.map_cons, List.sum_cons]

theorem conservesAtoms_of_realizesSystem (groups : List similarWyckPositions)
    (hG : GroupsWellFormed groups) (S : systemPossibility)
    (hS : ∀ p ∈ S, ∀ a ∈ p.assigns, a.choosablePositions ∈ groups)
    (blocks : List (List atomAssignments)) (h : RealizesSystem S blocks) :
    List.Forall₂ ConservesAtoms S blocks := by
  unfold RealizesSystem at h
  induction h with
  | nil => exact List.Forall₂.nil
  | @cons p bs S' blocks' hpb _ ih =>
    exact List.Forall₂.cons
      (conservesAtoms_of_realizesSap groups hG p (hS p (List.mem_cons_self _ _)) bs hpb)
      (ih (fun q hq => hS q (List.mem_cons_of_mem _ hq)))

/-- C15, amended (realizer conservation): for every list of system possibilities returned by
`getSystemPossibilities` that is not empty and every generator that keeps its contract,
`getRandomAtomAssignments` returns; the list returned is made, for one system possibility of
the list, of one block per pick of each of its single-atom possibilities, in order, a block
having exactly `numToChoose` pairs of a position of the choosable list of the pick with the
atomic number of the possibility; hence its length is the sum of all `numToChoose`, and per
single-atom possibility the multiplicities of the positions assigned sum to the sum of
`multiplicity * numToChoose` of its picks. -/
theorem getRandomAtomAssignments_conservation (fuel : Nat) (db : WyckoffDatabase) (spg : Nat)
    (atoms : List Nat) (findOnlyOne findOnlyNonUnique : Bool) (sysPoss : systemPossibilities)
    (h : SpgInitCombinatorics.getSystemPossibilities fuel db spg atoms findOnlyOne
      findOnlyNonUnique = some sysPoss)
    (getRandInt : Nat → Int → Int → Int) (hg : RandIntContract getRandInt)
    (hne : sysPoss ≠ []) :
    ∃ S ∈ sysPoss, ∃ blocks, RealizesSystem S blocks ∧
      SpgInitCombinatorics.getRandomAtomAssignments getRandInt sysPoss =
        .ok (flattenBlocks blocks) ∧
      (flattenBlocks blocks).length = totalToChoose S ∧
      List.Forall₂ ConservesAtoms S blocks := by
  have hn := getSystemPossibilities_nice fuel db spg atoms findOnlyOne findOnlyNonUnique
    sysPoss h
  obtain ⟨ret, hr⟩ := getRandomAtomAssignments_returns_of_solver fuel db spg atoms
    findOnlyOne findOnlyNonUnique sysPoss h getRandInt hg hne
  obtain ⟨S, hS, blocks, hb1, hb2, -⟩ :=
    getRandomAtomAssignments_blocks getRandInt sysPoss ret hr
  refine ⟨S, hS, blocks, hb1, hb2 ▸ hr, length_flattenBlocks S blocks hb1, ?_⟩
  exact conservesAtoms_of_realizesSystem _ (groups_wellFormed _) S
    (fun p hp => picks_in_groups _ p ((hn S hS).1 p hp)) blocks hb1

theorem randIntLow_contract : RandIntContract randIntLow :=
  fun _ _ _ h => ⟨le_refl _, h⟩

theorem getRandomAtomAssignments_conservation_witness :
    (SpgInitCombinatorics.getSystemPossibilities 20 databaseTwoUnique 1 [1, 2] false false =
      some possibilitiesTwoUnique ∧ RandIntContract randIntLow ∧ possibilitiesTwoUnique ≠ []) ∧
    ∃ S ∈ possibilitiesTwoUnique, ∃ blocks, RealizesSystem S blocks ∧
      SpgInitCombinatorics.getRandomAtomAssignments randIntLow possibilitiesTwoUnique =
        .ok (flattenBlocks blocks) ∧
      (flattenBlocks blocks).length = totalToChoose S ∧
      List.Forall₂ ConservesAtoms S blocks :=
  ⟨⟨by decide, randIntLow_contract, by decide⟩,
    getRandomAtomAssignments_conservation 20 databaseTwoUnique 1 [1, 2] false false
      possibilitiesTwoUnique (by decide) randIntLow randIntLow_contract (by decide)⟩

/-- C15, as stated, fails on the empty list of system possibilities, which
`getSystemPossibilities` returns for a composition that cannot be placed (one atom in a table
whose only position has multiplicity 2): `sysPoss.at` throws whatever the generator draws, and
no assignment list is emitted. -/
theorem getRandomAtomAssignments_throws_on_empty :
    SpgInitCombinatorics.getSystemPossibilities 20 databaseEvenGeneral 2 [6] false false =
      some [] ∧
    ∀ getRandInt : Nat → Int → Int → Int,
      SpgInitCombinatorics.getRandomAtomAssignments getRandInt [] = .error .outOfRange := by
  refine ⟨by decide, ?_⟩
  intro g
  unfold SpgInitCombinatorics.getRandomAtomAssignments
    SpgInitCombinatorics.getRandomSystemPossibility vectorAt
  by_cases h : g 0 0 (((([] : systemPossibilities).length : Nat) : Int) - 1) < 0
  · simp [h]
  · simp [h]

theorem systemPossibilitiesLoop_species (fuel : Nat) (wyckVec : wyckoffPositions)
    (f1 f2 : Bool) (rest pre : List numAndType) (sys : systemPossibilities)
    (hlt : ∀ nt ∈ rest, nt.1 < UINT_MOD)
    (hI : ∀ S ∈ sys, List.Sublist (S.map (fun p => p.atomicNum)) (pre.map Prod.snd))
    (out : systemPossibilities)
    (h : SpgInitCombinatorics.systemPossibilitiesLoop fuel wyckVec f1 f2 rest sys = some out) :
    ∀ S ∈ out, List.Sublist (S.map (fun p => p.atomicNum)) ((pre ++ rest).map Prod.snd) := by
  induction rest generalizing pre sys with
  | nil =>
    simp only [SpgInitCombinatorics.systemPossibilitiesLoop, Option.some.injEq] at h
    rw [List.append_nil, ← h]
    exact hI
  | cons nt rest ih =>
    unfold SpgInitCombinatorics.systemPossibilitiesLoop at h
    simp only [] at h
    split at h
    · exact absurd h (by simp)
    · rename_i sa hsa
      have hsap := found_solverSap fuel wyckVec f1 f2 nt rest.isEmpty
        (hlt nt (List.mem_cons_self _ _)) sa hsa
      by_cases hl : sa.length = 0
      · simp only [hl, if_true, Option.some.injEq] at h
        rw [← h]
        simp
      · simp only [hl, if_false] at h
        have hstep : ∀ S ∈ joinSingleWithSystem sa sys,
            List.Sublist (S.map (fun p => p.atomicNum)) ((pre ++ [nt]).map Prod.snd) := by
          intro S hS
          rcases mem_joinSingleWithSystem sa sys S hS with
            ⟨-, p, hp, rfl⟩ | ⟨S0, hS0, p, hp, rfl, -⟩
          · rw [List.map_append]
            simp only [List.map_cons, List.map_nil, (hsap p hp).1]
            exact List.sublist_append_right _ _
          · rw [List.map_append, List.map_append]
            simp only [List.map_cons, List.map_nil, (hsap p hp).1]
            exact (hI S0 hS0).append (List.Sublist.refl _)
        have := ih (pre ++ [nt]) (joinSingleWithSystem sa sys)
          (fun n hn => hlt n (List.mem_cons_of_mem _ hn)) hstep h
        simpa using this

theorem getSystemPossibilities_species (fuel : Nat) (db : WyckoffDatabase) (spg : Nat)
    (atoms : List Nat) (f1 f2 : Bool) (sys : systemPossibilities)
    (h : SpgInitCombinatorics.getSystemPossibilities fuel db spg atoms f1 f2 = some sys) :
    ∀ S ∈ sys, List.Sublist (S.map (fun p => p.atomicNum))
      ((SpgInit.getNumOfEachType atoms).map Prod.snd) := by
  have := systemPossibilitiesLoop_species fuel (SpgInit.getWyckoffPositions db spg) f1 f2
    (SpgInit.getNumOfEachType atoms) [] [] (getNumOfEachType_lt atoms) (by simp) sys h
  simpa using this

theorem species_descending (atoms : List Nat) (hlen : atoms.length < UINT_MOD) :
    ((SpgInit.getNumOfEachType atoms).map Prod.snd).Pairwise
      (fun z1 z2 => atoms.count z2 ≤ atoms.count z1) := by
  rw [List.pairwise_map]
  have h : (SpgInit.getNumOfEachType atoms).Pairwise (SpeciesBefore atoms) := by
    unfold SpgInit.getNumOfEachType
    apply sortGreaterThan_speciesBefore
    exact countEachType_order atoms [] atoms [] [] rfl (by simp) (by simp) List.Pairwise.nil
  refine List.Pairwise.imp_of_mem ?_ h
  intro x y hx hy hxy
  have hcx : x.1 = atoms.count x.2 := by
    rw [(mem_getNumOfEachType atoms x hx).2]
    exact Nat.mod_eq_of_lt (lt_of_le_of_lt (List.count_le_length _ _) hlen)
  have hcy : y.1 = atoms.count y.2 := by
    rw [(mem_getNumOfEachType atoms y hy).2]
    exact Nat.mod_eq_of_lt (lt_of_le_of_lt (List.count_le_length _ _) hlen)
  rw [← hcx, ← hcy]
  rcases hxy with h1 | h1
  · exact le_of_lt h1
  · exact le_of_eq h1.1.symm

/-- C16, amended (ordering of the assignment list): for every assignment list that
`getRandomAtomAssignments` returns on `getSystemPossibilities(spg, atoms)`, whatever the
generator, the pairs are grouped by species, the species being in the order of
`getNumOfEachType(atoms)`, which for an atom list shorter than `2 ^ 32` is descending
abundance; within one species the pairs are grouped by pick, the picks being in the order of
the similar-WP groups of the table; and if the generator keeps its contract and the list of
system possibilities is not empty, `getRandomAtomAssignments` does return. -/
theorem getRandomAtomAssignments_order (fuel : Nat) (db : WyckoffDatabase) (spg : Nat)
    (atoms : List Nat) (findOnlyOne findOnlyNonUnique : Bool) (sysPoss : systemPossibilities)
    (h : SpgInitCombinatorics.getSystemPossibilities fuel db spg atoms findOnlyOne
      findOnlyNonUnique = some sysPoss)
    (getRandInt : Nat → Int → Int → Int) :
    (∀ ret, SpgInitCombinatorics.getRandomAtomAssignments getRandInt sysPoss = .ok ret →
      ∃ S ∈ sysPoss, ∃ blocks, RealizesSystem S blocks ∧ ret = flattenBlocks blocks ∧
        List.Sublist (S.map (fun p => p.atomicNum))
          ((SpgInit.getNumOfEachType atoms).map Prod.snd) ∧
        (S.map (fun p => p.atomicNum)).Nodup ∧
        (atoms.length < UINT_MOD → (S.map (fun p => p.atomicNum)).Pairwise
          (fun z1 z2 => atoms.count z2 ≤ atoms.count z1)) ∧
        ∀ p ∈ S, List.Sublist (p.assigns.map (fun a => a.choosablePositions))
          (groupSimilarWyckPositions (SpgInit.getWyckoffPositions db spg))) ∧
    (RandIntContract getRandInt → sysPoss ≠ [] →
      ∃ ret, SpgInitCombinatorics.getRandomAtomAssignments getRandInt sysPoss = .ok ret) := by
  have hn := getSystemPossibilities_nice fuel db spg atoms findOnlyOne findOnlyNonUnique
    sysPoss h
  have hs := getSystemPossibilities_species fuel db spg atoms findOnlyOne findOnlyNonUnique
    sysPoss h
  refine ⟨?_, fun hg hne => getRandomAtomAssignments_returns_of_solver fuel db spg atoms
    findOnlyOne findOnlyNonUnique sysPoss h getRandInt hg hne⟩
  intro ret hr
  obtain ⟨S, hS, blocks, hb1, hb2, -⟩ :=
    getRandomAtomAssignments_blocks getRandInt sysPoss ret hr
  have hnd : ((SpgInit.getNumOfEachType atoms).map Prod.snd).Nodup :=
    (getNumOfEachType_species_perm atoms).nodup_iff.2 (List.nodup_dedup atoms)
  exact ⟨S, hS, blocks, hb1, hb2, hs S hS, hnd.sublist (hs S hS),
    fun hlen => (species_descending atoms hlen).sublist (hs S hS),
    fun p hp => ((hn S hS).1 p hp).1⟩

theorem getRandomAtomAssignments_order_witness :
    SpgInitCombinatorics.getSystemPossibilities 20 databaseTwoUnique 1 [1, 2] false false =
      some possibilitiesTwoUnique ∧
    SpgInitCombinatorics.getRandomAtomAssignments randIntLow possibilitiesTwoUnique =
      .ok [(⟨'a', 1, "0,0,0"⟩, 1), (⟨'b', 1, "0,0,0.5"⟩, 2)] ∧
    ∃ S ∈ possibilitiesTwoUnique, ∃ blocks, RealizesSystem S blocks ∧
      [((⟨'a', 1, "0,0,0"⟩ : wyckPos), 1), (⟨'b', 1, "0,0,0.5"⟩, 2)] = flattenBlocks blocks ∧
      List.Sublist (S.map (fun p => p.atomicNum))
        ((SpgInit.getNumOfEachType [1, 2]).map Prod.snd) ∧
      (S.map (fun p => p.atomicNum)).Nodup ∧
      ([1, 2].length < UINT_MOD → (S.map (fun p => p.atomicNum)).Pairwise
        (fun z1 z2 => [1, 2].count z2 ≤ [1, 2].count z1)) ∧
      ∀ p ∈ S, List.Sublist (p.assigns.map (fun a => a.choosablePositions))
        (groupSimilarWyckPositions (SpgInit.getWyckoffPositions databaseTwoUnique 1)) :=
  ⟨by decide, by decide,
    (getRandomAtomAssignments_order 20 databaseTwoUnique 1 [1, 2] false false
      possibilitiesTwoUnique (by decide) randIntLow).1 _ (by decide)⟩

theorem randIntHighFirst_contract : RandIntContract randIntHighFirst := by
  intro n lo hi h
  unfold randIntHighFirst
  split_ifs
  · exact ⟨h, le_refl _⟩
  · exact ⟨le_refl _, h⟩

/-- C16, as stated, fails: in a table whose two general positions `a`, `b` share a group, four
atoms of one species take two letters of the group, and a generator that keeps its contract
draws `b` before `a`, against the order of the table. -/
theorem getRandomAtomAssignments_letters_against_table :
    RandIntContract randIntHighFirst ∧
    SpgInitCombinatorics.getSystemPossibilities 20 databaseTwoGeneral 1 [1, 1, 1, 1] false
      false = some possibilitiesTwoGeneral ∧
    SpgInitCombinatorics.getRandomAtomAssignments randIntHighFirst possibilitiesTwoGeneral =
      .ok [(⟨'b', 2, "0,y,0"⟩, 1), (⟨'a', 2, "x,0,0"⟩, 1)] :=
  ⟨randIntHighFirst_contract, by decide, by decide⟩

/-! ## Space groups out of range -/

/-- C23 (range check): for every space group outside 1..230 and every atom list,
`isSpgPossible` returns false, whatever the fuel, and `getWyckoffPositions` returns entry 0 of
the database. -/
theorem isSpgPossible_out_of_range (fuel : Nat) (db : WyckoffDatabase) (spg : Nat)
    (atoms : List Nat) (h : spg < 1 ∨ 230 < spg) :
    SpgInit.isSpgPossible fuel db spg atoms = some false ∧
    SpgInit.getWyckoffPositions db spg = db 0 := by
  have hb : (decide (spg < 1) || decide (spg > 230)) = true := by
    rcases h with h | h
    · simp [h]
    · simp [h]
  constructor
  · unfold SpgInit.isSpgPossible
    rw [if_pos hb]
  · unfold SpgInit.getWyckoffPositions
    rw [if_pos hb]

theorem isSpgPossible_out_of_range_witness :
    (231 < 1 ∨ 230 < 231) ∧
    (SpgInit.isSpgPossible 0 databaseThreeGroups 231 [1, 1, 1] = some false ∧
      SpgInit.getWyckoffPositions databaseThreeGroups 231 = databaseThreeGroups 0) ∧
    databaseThreeGroups 0 = [] :=
  ⟨by decide, isSpgPossible_out_of_range 0 databaseThreeGroups 231 [1, 1, 1] (by decide),
    by decide⟩

/-! ## A component without variables -/

theorem interpretLoop_fixed (fuel : Nat) (rest : List Char) (result x1 y1 z1 x2 y2 z2 : ℚ)
    (h : ∀ c ∈ rest, c ≠ 'x' ∧ c ≠ 'y' ∧ c ≠ 'z') :
    SpgInit.interpretLoop fuel rest result x1 y1 z1 =
      SpgInit.interpretLoop fuel rest result x2 y2 z2 := by
  induction fuel generalizing rest result with
  | zero => rfl
  | succ fuel ih =>
    cases rest with
    | nil => rfl
    | cons c cs =>
      rw [interpretLoop_cons, interpretLoop_cons]
      have hsub : ∀ d ∈ (if c = '+' then cs else c :: cs), d ∈ c :: cs := by
        intro d hd
        split_ifs at hd
        · exact List.mem_cons_of_mem _ hd
        · exact hd
      cases hg : SpgInit.getNumberInFirstTerm (if c = '+' then cs else c :: cs) with
      | error e => rfl
      | ok r =>
        cases r with
        | none => rfl
        | some nl =>
          obtain ⟨numInFront, len⟩ := nl
          simp only
          cases hd : (if c = '+' then cs else c :: cs).drop len with
          | nil => rfl
          | cons v r =>
            have hv : ∀ d ∈ v :: r, d ∈ c :: cs := by
              intro d hd2
              apply hsub
              rw [← hd] at hd2
              exact List.mem_of_mem_drop hd2
            have hvx := h v (hv v (List.mem_cons_self _ _))
            simp only [hvx.1, hvx.2.1, hvx.2.2, if_false]
            exact ih (v :: r) _ (fun d hd2 => h d (hv d hd2))

theorem interpretComponent_fixed (component : String) (h : ¬ MentionsVariable component)
    (x1 y1 z1 x2 y2 z2 : ℚ) :
    SpgInit.interpretComponent component x1 y1 z1 =
      SpgInit.interpretComponent component x2 y2 z2 := by
  unfold SpgInit.interpretComponent
  split_ifs
  · rfl
  · apply interpretLoop_fixed
    intro c hc
    unfold MentionsVariable at h
    refine ⟨fun e => h (Or.inl (e ▸ hc)), fun e => h (Or.inr (Or.inl (e ▸ hc))),
      fun e => h (Or.inr (Or.inr (e ▸ hc)))⟩

theorem component_of_unique (position : wyckPos)
    (hu : SpgInit.containsUniquePosition position = true) (k : Nat) (c : String)
    (hc : (split (SpgInit.getWyckCoords position) ',')[k]? = some c) :
    ¬ MentionsVariable c := by
  unfold SpgInit.containsUniquePosition at hu
  rw [List.all_eq_true] at hu
  exact (isNumber_iff c).1 (hu c (List.getElem?_mem hc))

/-- C29 (a unique position is a fixed point): `interpretComponent` on a component with none of
the characters `x`, `y`, `z` gives the same result for all values of the variables; hence for
a unique Wyckoff position the head of every attempt of `addWyckoffAtomRandomly` computes the
same atom, whatever the generator draws and whichever attempt it is. -/
theorem interpretComponent_fixed_point :
    (∀ (component : String), ¬ MentionsVariable component →
      ∀ x1 y1 z1 x2 y2 z2 : ℚ,
        SpgInit.interpretComponent component x1 y1 z1 =
          SpgInit.interpretComponent component x2 y2 z2) ∧
    (∀ (position : wyckPos), SpgInit.containsUniquePosition position = true →
      ∀ (g1 g2 : Nat → ℚ → ℚ → ℚ) (atomicNum i j : Nat),
        SpgInit.newAtomOfAttempt g1 position atomicNum i =
          SpgInit.newAtomOfAttempt g2 position atomicNum j) := by
  refine ⟨fun component h x1 y1 z1 x2 y2 z2 =>
    interpretComponent_fixed component h x1 y1 z1 x2 y2 z2, ?_⟩
  intro position hu g1 g2 atomicNum i j
  unfold SpgInit.newAtomOfAttempt
  simp only
  cases h0 : (split (SpgInit.getWyckCoords position) ',')[0]? with
  | none => rfl
  | some c0 =>
    cases h1 : (split (SpgInit.getWyckCoords position) ',')[1]? with
    | none => rfl
    | some c1 =>
      cases h2 : (split (SpgInit.getWyckCoords position) ',')[2]? with
      | none => rfl
      | some c2 =>
        simp only
        rw [interpretComponent_fixed c0 (component_of_unique position hu 0 c0 h0)
            (g1 (3 * i) 0 1) (g1 (3 * i + 1) 0 1) (g1 (3 * i + 2) 0 1)
            (g2 (3 * j) 0 1) (g2 (3 * j + 1) 0 1) (g2 (3 * j + 2) 0 1),
          interpretComponent_fixed c1 (component_of_unique position hu 1 c1 h1)
            (g1 (3 * i) 0 1) (g1 (3 * i + 1) 0 1) (g1 (3 * i + 2) 0 1)
            (g2 (3 * j) 0 1) (g2 (3 * j + 1) 0 1) (g2 (3 * j + 2) 0 1),
          interpretComponent_fixed c2 (component_of_unique position hu 2 c2 h2)
            (g1 (3 * i) 0 1) (g1 (3 * i + 1) 0 1) (g1 (3 * i + 2) 0 1)
            (g2 (3 * j) 0 1) (g2 (3 * j + 1) 0 1) (g2 (3 * j + 2) 0 1)]

theorem interpretComponent_fixed_point_witness :
    (¬ MentionsVariable "0.5" ∧
      SpgInit.interpretComponent "0.5" 0 0 0 = SpgInit.interpretComponent "0.5" 1 (1 / 3) 7) ∧
    (SpgInit.containsUniquePosition uniquePosition = true ∧
      SpgInit.newAtomOfAttempt randDoubleLow uniquePosition 7 0 =
        SpgInit.newAtomOfAttempt randDoubleRamp uniquePosition 7 4) :=
  ⟨⟨(isNumber_iff "0.5").1 (by decide),
      interpretComponent_fixed_point.1 "0.5" ((isNumber_iff "0.5").1 (by decide)) 0 0 0 1
        (1 / 3) 7⟩,
    ⟨by decide, interpretComponent_fixed_point.2 uniquePosition (by decide) randDoubleLow
      randDoubleRamp 7 0 4⟩⟩

/-! ## The search over non-unique groups only -/

theorem picksNonUnique_of_emitted (T0 : usageTracker) (z : Nat) (sets : combinationSettings)
    (p : singleAtomPossibility)
    (h : Emitted (fun T => T.map (fun t => (t.positions, t.unique)) =
        T0.map (fun t => (t.positions, t.unique)) ∧
      ∀ t ∈ T, t.unique = true → t.numTimesUsed = 0) z sets p) :
    PicksNonUnique T0 p := by
  obtain ⟨T, ⟨hmap, hzero⟩, -, rfl⟩ := h
  intro a ha
  unfold convertToPossibility at ha
  simp only [List.mem_filterMap] at ha
  obtain ⟨info, hinfo, hsome⟩ := ha
  by_cases h0 : info.numTimesUsed = 0
  · simp [h0] at hsome
  · simp only [h0, if_false, Option.some.injEq] at hsome
    have hu : info.unique = false := by
      cases hb : info.unique with
      | false => rfl
      | true => exact absurd (hzero info hinfo hb) h0
    have hin : (info.positions, info.unique) ∈ T0.map (fun t => (t.positions, t.unique)) := by
      rw [← hmap, List.mem_map]
      exact ⟨info, hinfo, rfl⟩
    rw [List.mem_map] at hin
    obtain ⟨t, ht, hteq⟩ := hin
    simp only [Prod.mk.injEq] at hteq
    refine ⟨t, ht, by rw [hteq.2, hu], ?_⟩
    rw [← hsome, hteq.1]
    rfl

/-- C24 (non-unique-only mode): for every usage tracker whose entries flagged unique have
`numTimesUsed = 0`, every atom count, atomic number and value of `findOnlyOne`, every
single-atom possibility that `findAllCombinations` with `findOnlyNonUnique = true` appends or
throws has only picks of entries of the tracker that are not flagged unique; where the flags
of the tracker are those of its groups, the picks are picks of non-unique groups. -/
theorem findAllCombinations_only_non_unique (fuel : Nat) (acc : singleAtomPossibilities)
    (tracker : usageTracker) (atomicNum numAtoms : Nat) (findOnlyOne : Bool)
    (h0 : ∀ t ∈ tracker, t.unique = true → t.numTimesUsed = 0) :
    ((∀ out, findAllCombinations fuel acc tracker atomicNum ⟨numAtoms, findOnlyOne, true⟩ =
        some (.ok out) → ∃ new, out = acc ++ new ∧ ∀ p ∈ new, PicksNonUnique tracker p) ∧
      (∀ p, findAllCombinations fuel acc tracker atomicNum ⟨numAtoms, findOnlyOne, true⟩ =
        some (.error p) → PicksNonUnique tracker p)) ∧
    ((∀ t ∈ tracker, t.unique = groupIsUnique t.positions) →
      ∀ p, PicksNonUnique tracker p →
        ∀ a ∈ p.assigns, groupIsUnique a.choosablePositions = false) := by
  have key := findAllCombinations_invariant
    (fun T => T.map (fun t => (t.positions, t.unique)) =
        tracker.map (fun t => (t.positions, t.unique)) ∧
      ∀ t ∈ T, t.unique = true → t.numTimesUsed = 0) atomicNum ⟨numAtoms, findOnlyOne, true⟩
    (by
      intro T i info hP _ hinfo hus
      have hnu := (positionIsUsable_true info _ true hus).2.2.1 rfl
      constructor
      · unfold useEntry
        exact (map_set_of_eq (fun t => (t.positions, t.unique)) T i info
          { info with numTimesUsed := (info.numTimesUsed + 1) % UINT_MOD } hinfo rfl).trans
          hP.1
      · intro t ht hu
        unfold useEntry at ht
        rcases List.mem_or_eq_of_mem_set ht with h1 | h1
        · exact hP.2 t h1 hu
        · rw [h1] at hu
          simp only at hu
          rw [hnu] at hu
          cases hu)
    (by
      intro T i info hP _ hinfo
      constructor
      · unfold skipEntry
        exact (map_set_of_eq (fun t => (t.positions, t.unique)) T i info
          { info with keepUsing := false } hinfo rfl).trans hP.1
      · intro t ht hu
        unfold skipEntry at ht
        rcases List.mem_or_eq_of_mem_set ht with h1 | h1
        · exact hP.2 t h1 hu
        · rw [h1] at hu ⊢
          exact hP.2 info (mem_of_getElem?_eq_some T i info hinfo) hu)
    fuel acc tracker ⟨rfl, h0⟩
  refine ⟨⟨?_, ?_⟩, ?_⟩
  · intro out hout
    obtain ⟨new, hnew, hem⟩ := key.1 out hout
    exact ⟨new, hnew, fun p hp => picksNonUnique_of_emitted tracker _ _ p (hem p hp)⟩
  · intro p hp
    exact picksNonUnique_of_emitted tracker _ _ p (key.2 p hp)
  · intro hflag p hp a ha
    obtain ⟨t, ht, hu, hpos⟩ := hp a ha
    rw [hpos, ← hflag t ht, hu]

theorem findAllCombinations_only_non_unique_witness :
    (∀ t ∈ createUsageTracker tableThreeGroups, t.unique = true → t.numTimesUsed = 0) ∧
    findAllCombinations 10 [] (createUsageTracker tableThreeGroups) 1 ⟨3, false, true⟩ =
      some (.ok [⟨1, [⟨1, [⟨'c', 3, "x,y,z"⟩]⟩]⟩]) ∧
    findAllCombinations 10 [] (createUsageTracker tableThreeGroups) 1 ⟨3, false, false⟩ =
      some (.ok [⟨1, [⟨1, [⟨'a', 1, "0,0,0"⟩]⟩, ⟨1, [⟨'b', 2, "0,0,0.5"⟩]⟩]⟩,
        ⟨1, [⟨1, [⟨'c', 3, "x,y,z"⟩]⟩]⟩]) ∧
    ∃ new, [(⟨1, [⟨1, [⟨'c', 3, "x,y,z"⟩]⟩]⟩ : singleAtomPossibility)] = [] ++ new ∧
      ∀ p ∈ new, PicksNonUnique (createUsageTracker tableThreeGroups) p :=
  ⟨by decide, by decide, by decide,
    (findAllCombinations_only_non_unique 10 [] (createUsageTracker tableThreeGroups) 1 3 false
      (by decide)).1.1 _ (by decide)⟩

/-! ## Finding one possibility and finding all -/

theorem findAllCombinations_head (z N : Nat) (f2 : Bool) :
    ∀ (fuel : Nat) (acc acc1 : singleAtomPossibilities) (T : usageTracker)
      (new : singleAtomPossibilities),
      findAllCombinations fuel acc T z ⟨N, false, f2⟩ = some (.ok (acc ++ new)) →
      findAllCombinations fuel acc1 T z ⟨N, true, f2⟩ =
        match new with
        | [] => some (.ok acc1)
        | p :: _ => some (.error p) := by
  intro fuel
  induction fuel with
  | zero =>
    intro acc acc1 T new h
    rw [findAllCombinations_zero] at h
    cases h
  | succ fuel ih =>
    intro acc acc1 T new h
    rw [findAllCombinations_succ_useBranch] at h ⊢
    simp only at h ⊢
    by_cases h0 : N = 0
    · simp only [h0, if_true, Option.some.injEq, Except.ok.injEq] at h ⊢
      have : new = [] := by
        have h2 : acc ++ [] = acc ++ new := by rw [List.append_nil]; exact h
        exact (List.append_cancel_left h2).symm
      rw [this]
    simp only [h0, if_false] at h ⊢
    cases hi : getFirstAvailableIndex T with
    | none =>
      simp only [hi, Option.some.injEq, Except.ok.injEq] at h ⊢
      have : new = [] := by
        have h2 : acc ++ [] = acc ++ new := by rw [List.append_nil]; exact h
        exact (List.append_cancel_left h2).symm
      rw [this]
    | some i =>
      simp only [hi] at h ⊢
      cases hinfo : T[i]? with
      | none =>
        simp only [hinfo] at h
        cases h
      | some info =>
        simp only [hinfo] at h ⊢
        -- the branch that uses the entry once more
        have hub : ∀ a1, useBranch fuel acc T i info z ⟨N, false, f2⟩ = some (.ok a1) →
            ∃ new1, a1 = acc ++ new1 ∧
              useBranch fuel acc1 T i info z ⟨N, true, f2⟩ =
                match new1 with
                | [] => some (.ok acc1)
                | p :: _ => some (.error p) := by
          intro a1 ha1
          unfold useBranch at ha1 ⊢
          simp only at ha1 ⊢
          by_cases hus : positionIsUsable info (getNumAtomsLeft T N) f2 = true
          · simp only [hus, if_true] at ha1 ⊢
            by_cases hl : getNumAtomsLeft (useEntry T i info) N = 0
            · simp only [hl, if_true, Bool.false_eq_true, if_false, Option.some.injEq,
                Except.ok.injEq] at ha1 ⊢
              exact ⟨[convertToPossibility (useEntry T i info) z], ha1.symm, rfl⟩
            · simp only [hl, if_false] at ha1 ⊢
              obtain ⟨new1, hnew1⟩ := findAllCombinations_extends fuel acc a1 _ z _ ha1
              rw [hnew1] at ha1
              exact ⟨new1, hnew1, ih acc acc1 _ new1 ha1⟩
          · simp only [hus, Bool.false_eq_true, if_false, Option.some.injEq,
              Except.ok.injEq] at ha1 ⊢
            exact ⟨[], by rw [List.append_nil]; exact ha1.symm, rfl⟩
        cases hu : useBranch fuel acc T i info z ⟨N, false, f2⟩ with
        | none =>
          simp only [hu] at h
          cases h
        | some r =>
          cases r with
          | error p =>
            simp only [hu] at h
            cases h
          | ok a1 =>
            simp only [hu] at h
            obtain ⟨new1, ha1, htrue⟩ := hub a1 hu
            obtain ⟨new2, hnew2⟩ := findAllCombinations_extends fuel a1 _ _ z _ h
            have hnew : new = new1 ++ new2 := by
              have h3 : acc ++ new = acc ++ (new1 ++ new2) := by
                rw [hnew2, ha1, List.append_assoc]
              exact List.append_cancel_left h3
            rw [hnew2] at h
            rw [htrue, hnew]
            cases new1 with
            | nil =>
              simp only [List.nil_append]
              exact ih a1 acc1 _ new2 h
            | cons p rest => rfl

/-- C25 (find-only-one is the head of the full enumeration): for every usage tracker with
multiplicities at least 1, every atom count and every value of `findOnlyNonUnique`, with
enough fuel `findAllCombinations` with `findOnlyOne = false` returns a list, and with
`findOnlyOne = true` it throws the first element of that list if the list is not empty and
returns without a throw if it is empty. -/
theorem findAllCombinations_one_is_head (fuel : Nat) (tracker : usageTracker)
    (atomicNum numAtoms : Nat) (findOnlyNonUnique : Bool)
    (hT : ∀ t ∈ tracker, 1 ≤ t.multiplicity)
    (hf : keepCount tracker + getNumAtomsLeft tracker numAtoms + 1 ≤ fuel) :
    ∃ all, findAllCombinations fuel [] tracker atomicNum
        ⟨numAtoms, false, findOnlyNonUnique⟩ = some (.ok all) ∧
      ((∃ p, findAllCombinations fuel [] tracker atomicNum
          ⟨numAtoms, true, findOnlyNonUnique⟩ = some (.error p)) ↔ all ≠ []) ∧
      (∀ p, findAllCombinations fuel [] tracker atomicNum
          ⟨numAtoms, true, findOnlyNonUnique⟩ = some (.error p) → all.head? = some p) ∧
      (all = [] → findAllCombinations fuel [] tracker atomicNum
          ⟨numAtoms, true, findOnlyNonUnique⟩ = some (.ok [])) := by
  obtain ⟨all, hall⟩ := findAllCombinations_terminates atomicNum
    ⟨numAtoms, false, findOnlyNonUnique⟩ rfl fuel [] tracker hT hf
  have hone := findAllCombinations_head atomicNum numAtoms findOnlyNonUnique fuel [] []
    tracker all (by rw [List.nil_append]; exact hall)
  refine ⟨all, hall, ?_, ?_, ?_⟩
  · cases all with
    | nil =>
      simp only at hone
      rw [hone]
      simp
    | cons p rest =>
      simp only at hone
      rw [hone]
      simp
  · intro p hp
    cases all with
    | nil =>
      simp only at hone
      rw [hone] at hp
      cases hp
    | cons q rest =>
      simp only at hone
      rw [hone] at hp
      simp only [Option.some.injEq, Except.error.injEq] at hp
      rw [hp]
      rfl
  · intro he
    rw [he] at hone
    exact hone

theorem findAllCombinations_one_is_head_witness :
    ((∀ t ∈ createUsageTracker tableThreeGroups, 1 ≤ t.multiplicity) ∧
      keepCount (createUsageTracker tableThreeGroups) +
        getNumAtomsLeft (createUsageTracker tableThreeGroups) 3 + 1 ≤ 10) ∧
    findAllCombinations 10 [] (createUsageTracker tableThreeGroups) 1 ⟨3, true, false⟩ =
      some (.error ⟨1, [⟨1, [⟨'a', 1, "0,0,0"⟩]⟩, ⟨1, [⟨'b', 2, "0,0,0.5"⟩]⟩]⟩) ∧
    ∃ all, findAllCombinations 10 [] (createUsageTracker tableThreeGroups) 1
        ⟨3, false, false⟩ = some (.ok all) ∧
      ((∃ p, findAllCombinations 10 [] (createUsageTracker tableThreeGroups) 1
          ⟨3, true, false⟩ = some (.error p)) ↔ all ≠ []) ∧
      (∀ p, findAllCombinations 10 [] (createUsageTracker tableThreeGroups) 1
          ⟨3, true, false⟩ = some (.error p) → all.head? = some p) ∧
      (all = [] → findAllCombinations 10 [] (createUsageTracker tableThreeGroups) 1
          ⟨3, true, false⟩ = some (.ok [])) :=
  ⟨⟨by decide, by decide⟩, by decide,
    findAllCombinations_one_is_head 10 (createUsageTracker tableThreeGroups) 1 3 false
      (by decide) (by decide)⟩

theorem positionIsUsable_of_not_unique (info : WyckPosTrackingInfo) (left : Nat) (f2 : Bool)
    (h : info.unique = false) :
    positionIsUsable info left f2 = positionIsUsable info left false := by
  unfold positionIsUsable
  simp [h]

theorem positionIsUsable_unique_only (info : WyckPosTrackingInfo) (left : Nat)
    (h : info.unique = true) : positionIsUsable info left true = false := by
  unfold positionIsUsable
  simp [h]

/-- The possibilities found over the non-unique groups only are among those of the full
search, in the same order. -/
theorem findAllCombinations_nonUnique_sublist (z N : Nat) :
    ∀ (fuel : Nat) (acc acc1 : singleAtomPossibilities) (T : usageTracker)
      (new new1 : singleAtomPossibilities),
      findAllCombinations fuel acc T z ⟨N, false, true⟩ = some (.ok (acc ++ new)) →
      findAllCombinations fuel acc1 T z ⟨N, false, false⟩ = some (.ok (acc1 ++ new1)) →
      List.Sublist new new1 := by
  intro fuel
  induction fuel with
  | zero =>
    intro acc acc1 T new new1 h
    rw [findAllCombinations_zero] at h
    cases h
  | succ fuel ih =>
    intro acc acc1 T new new1 h h1
    rw [findAllCombinations_succ_useBranch] at h h1
    simp only at h h1
    have hnil : ∀ (a l : singleAtomPossibilities), a = a ++ l → l = [] := by
      intro a l e
      have h2 : a ++ [] = a ++ l := by rw [List.append_nil]; exact e
      exact (List.append_cancel_left h2).symm
    by_cases h0 : N = 0
    · simp only [h0, if_true, Option.some.injEq, Except.ok.injEq] at h h1
      rw [hnil acc new h, hnil acc1 new1 h1]
    simp only [h0, if_false] at h h1
    cases hi : getFirstAvailableIndex T with
    | none =>
      simp only [hi, Option.some.injEq, Except.ok.injEq] at h h1
      rw [hnil acc new h, hnil acc1 new1 h1]
    | some i =>
      simp only [hi] at h h1
      cases hinfo : T[i]? with
      | none =>
        simp only [hinfo] at h
        cases h
      | some info =>
        simp only [hinfo] at h h1
        cases hu : useBranch fuel acc T i info z ⟨N, false, true⟩ with
        | none =>
          simp only [hu] at h
          cases h
        | some r =>
          cases r with
          | error p =>
            simp only [hu] at h
            cases h
          | ok a =>
            simp only [hu] at h
            cases hu1 : useBranch fuel acc1 T i info z ⟨N, false, false⟩ with
            | none =>
              simp only [hu1] at h1
              cases h1
            | some r1 =>
              cases r1 with
              | error p =>
                simp only [hu1] at h1
                cases h1
              | ok a1 =>
                simp only [hu1] at h1
                obtain ⟨n2, hn2⟩ := findAllCombinations_extends fuel a _ _ z _ h
                obtain ⟨m2, hm2⟩ := findAllCombinations_extends fuel a1 _ _ z _ h1
                rw [hn2] at h
                rw [hm2] at h1
                have hskip : List.Sublist n2 m2 := ih a a1 _ n2 m2 h h1
                -- the branches that use the entry once more
                have huse : ∃ n1 m1, a = acc ++ n1 ∧ a1 = acc1 ++ m1 ∧ List.Sublist n1 m1 := by
                  unfold useBranch at hu hu1
                  simp only at hu hu1
                  by_cases hq : info.unique = true
                  · rw [positionIsUsable_unique_only info _ hq] at hu
                    simp only [Bool.false_eq_true, if_false, Option.some.injEq,
                      Except.ok.injEq] at hu
                    by_cases hus : positionIsUsable info (getNumAtomsLeft T N) false = true
                    · simp only [hus, if_true] at hu1
                      by_cases hl : getNumAtomsLeft (useEntry T i info) N = 0
                      · simp only [hl, if_true, Bool.false_eq_true, if_false,
                          Option.some.injEq, Except.ok.injEq] at hu1
                        exact ⟨[], _, by rw [List.append_nil]; exact hu.symm, hu1.symm,
                          List.nil_sublist _⟩
                      · simp only [hl, if_false] at hu1
                        obtain ⟨m1, hm1⟩ := findAllCombinations_extends fuel acc1 a1 _ z _ hu1
                        exact ⟨[], m1, by rw [List.append_nil]; exact hu.symm, hm1,
                          List.nil_sublist _⟩
                    · simp only [hus, Bool.false_eq_true, if_false, Option.some.injEq,
                        Except.ok.injEq] at hu1
                      exact ⟨[], [], by rw [List.append_nil]; exact hu.symm,
                        by rw [List.append_nil]; exact hu1.symm, List.Sublist.refl _⟩
                  · have hq2 : info.unique = false := by simpa using hq
                    rw [positionIsUsable_of_not_unique info _ true hq2] at hu
                    by_cases hus : positionIsUsable info (getNumAtomsLeft T N) false = true
                    · simp only [hus, if_true] at hu hu1
                      by_cases hl : getNumAtomsLeft (useEntry T i info) N = 0
                      · simp only [hl, if_true, Bool.false_eq_true, if_false,
                          Option.some.injEq, Except.ok.injEq] at hu hu1
                        exact ⟨_, _, hu.symm, hu1.symm, List.Sublist.refl _⟩
                      · simp only [hl, if_false] at hu hu1
                        obtain ⟨n1, hn1⟩ := findAllCombinations_extends fuel acc a _ z _ hu
                        obtain ⟨m1, hm1⟩ := findAllCombinations_extends fuel acc1 a1 _ z _ hu1
                        rw [hn1] at hu
                        rw [hm1] at hu1
                        exact ⟨n1, m1, hn1, hm1, ih acc acc1 _ n1 m1 hu hu1⟩
                    · simp only [hus, Bool.false_eq_true, if_false, Option.some.injEq,
                        Except.ok.injEq] at hu hu1
                      exact ⟨[], [], by rw [List.append_nil]; exact hu.symm,
                        by rw [List.append_nil]; exact hu1.symm, List.Sublist.refl _⟩
                obtain ⟨n1, m1, hn1, hm1, hsub⟩ := huse
                have e1 : new = n1 ++ n2 := by
                  have h3 : acc ++ new = acc ++ (n1 ++ n2) := by
                    rw [hn2, hn1, List.append_assoc]
                  exact List.append_cancel_left h3
                have e2 : new1 = m1 ++ m2 := by
                  have h3 : acc1 ++ new1 = acc1 ++ (m1 ++ m2) := by
                    rw [hm2, hm1, List.append_assoc]
                  exact List.append_cancel_left h3
                rw [e1, e2]
                exact hsub.append hskip

/-- The result of `findOnlyOneCombinationIfPossible` from an empty list, in terms of the two
full searches: `one` with the flag of the first run, `all` with the flag of the caller. -/
theorem findOnlyOneCombinationIfPossible_eq (fuel : Nat) (T : usageTracker) (z N : Nat)
    (f1 f2 u : Bool) (finalAtom : Bool) (one all : singleAtomPossibilities)
    (hu : u = (if f2 = true then true else if finalAtom = true then false else true))
    (hone : findAllCombinations fuel [] T z ⟨N, false, u⟩ = some (.ok one))
    (hall : findAllCombinations fuel [] T z ⟨N, false, f2⟩ = some (.ok all)) :
    findOnlyOneCombinationIfPossible fuel [] T z ⟨N, f1, f2⟩ finalAtom =
      match one.head? with
      | none => some all
      | some p => some [p] := by
  have hhead := findAllCombinations_head z N u fuel [] [] T one
    (by rw [List.nil_append]; exact hone)
  unfold findOnlyOneCombinationIfPossible
  simp only []
  have hts : (if f2 = true then
      ({ numAtoms := N, findOnlyOne := true, findOnlyNonUnique := true } : combinationSettings)
    else if finalAtom = true then
      { numAtoms := N, findOnlyOne := true, findOnlyNonUnique := false }
    else { numAtoms := N, findOnlyOne := true, findOnlyNonUnique := true }) = ⟨N, true, u⟩ := by
    cases f2 <;> cases finalAtom <;> simp [hu]
  rw [hts, hhead]
  cases one with
  | nil => simp only [List.length_nil, if_true, hall, List.head?_nil]
  | cons p rest => simp only [List.head?_cons]

/-- C26: on a tracker whose entries have multiplicity at least one, with enough fuel and from
an empty list, `findOnlyOneCombinationIfPossible` returns a list that is empty exactly when the
full search with the caller's `findOnlyNonUnique` finds nothing; the returned list is either a
single possibility or the complete list of that full search. -/
theorem findOnlyOneCombinationIfPossible_fallback (fuel : Nat) (tracker : usageTracker)
    (atomicNum : Nat) (sets : combinationSettings) (finalAtom : Bool)
    (hT : ∀ t ∈ tracker, 1 ≤ t.multiplicity)
    (hf : keepCount tracker + getNumAtomsLeft tracker sets.numAtoms + 1 ≤ fuel) :
    ∃ all out,
      findAllCombinations fuel [] tracker atomicNum
        ⟨sets.numAtoms, false, sets.findOnlyNonUnique⟩ = some (.ok all) ∧
      findOnlyOneCombinationIfPossible fuel [] tracker atomicNum sets finalAtom = some out ∧
      (out = [] ↔ all = []) ∧ (out = all ∨ ∃ p, out = [p]) := by
  obtain ⟨N, f1, f2⟩ := sets
  simp only at hf ⊢
  obtain ⟨all, hall⟩ := findAllCombinations_terminates atomicNum ⟨N, false, f2⟩ rfl fuel []
    tracker hT hf
  obtain ⟨one, hone⟩ := findAllCombinations_terminates atomicNum
    ⟨N, false, (if f2 = true then true else if finalAtom = true then false else true)⟩ rfl
    fuel [] tracker hT hf
  have hres := findOnlyOneCombinationIfPossible_eq fuel tracker atomicNum N f1 f2 _ finalAtom
    one all rfl hone hall
  cases hone1 : one with
  | nil =>
    rw [hone1, List.head?_nil] at hres
    exact ⟨all, all, hall, hres, Iff.rfl, Or.inl rfl⟩
  | cons p rest =>
    rw [hone1] at hone
    rw [hone1, List.head?_cons] at hres
    refine ⟨all, [p], hall, hres, ?_, Or.inr ⟨p, rfl⟩⟩
    constructor
    · intro h
      cases h
    · intro h
      exfalso
      rw [h] at hall
      cases f2 with
      | true =>
        simp only [if_true] at hone
        rw [hone] at hall
        cases hall
      | false =>
        cases finalAtom with
        | true =>
          simp only [Bool.false_eq_true, if_false, if_true] at hone
          rw [hone] at hall
          cases hall
        | false =>
          simp only [Bool.false_eq_true, if_false] at hone
          have hsub := findAllCombinations_nonUnique_sublist atomicNum N fuel [] [] tracker
            (p :: rest) [] (by rw [List.nil_append]; exact hone)
            (by rw [List.nil_append]; exact hall)
          simp at hsub

theorem findOnlyOneCombinationIfPossible_fallback_witness :
    (∃ all out,
      findAllCombinations 10 [] (createUsageTracker tableThreeGroups) 1 ⟨3, false, false⟩ =
        some (.ok all) ∧
      findOnlyOneCombinationIfPossible 10 [] (createUsageTracker tableThreeGroups) 1
        ⟨3, false, false⟩ false = some out ∧
      (out = [] ↔ all = []) ∧ (out = all ∨ ∃ p, out = [p])) ∧
    findOnlyOneCombinationIfPossible 10 [] (createUsageTracker tableThreeGroups) 1
      ⟨3, false, false⟩ false = some [⟨1, [⟨1, [⟨'c', 3, "x,y,z"⟩]⟩]⟩] ∧
    findOnlyOneCombinationIfPossible 10 [] (createUsageTracker tableThreeGroups) 1
      ⟨2, false, false⟩ false = some [⟨1, [⟨1, [⟨'b', 2, "0,0,0.5"⟩]⟩]⟩] ∧
    findOnlyOneCombinationIfPossible 10 [] (createUsageTracker tableThreeGroups) 1
      ⟨2, false, true⟩ true = some [] :=
  ⟨findOnlyOneCombinationIfPossible_fallback 10 (createUsageTracker tableThreeGroups) 1
    ⟨3, false, false⟩ false (by decide) (by decide), by decide, by decide, by decide⟩

/-! ## No possibility is found twice -/

theorem usesOfGroup_convert_cons (t0 : WyckPosTrackingInfo) (T : usageTracker) (z : Nat)
    (g : similarWyckPositions) :
    usesOfGroup (convertToPossibility (t0 :: T) z) g =
      (if t0.positions = g then t0.numTimesUsed else 0) +
        usesOfGroup (convertToPossibility T z) g := by
  unfold convertToPossibility
  by_cases h0 : t0.numTimesUsed = 0
  · simp only [List.filterMap_cons, h0, if_true, ite_self, Nat.zero_add]
  · simp only [List.filterMap_cons, h0, if_false]
    rw [usesOfGroup_cons]
    rfl

theorem usesOfGroup_convert_absent (z : Nat) (g : similarWyckPositions) :
    ∀ T : usageTracker, g ∉ T.map (fun t => t.positions) →
      usesOfGroup (convertToPossibility T z) g = 0 := by
  intro T
  induction T with
  | nil =>
    intro _
    rfl
  | cons t0 T ih =>
    intro h
    simp only [List.map_cons, List.mem_cons, not_or] at h
    rw [usesOfGroup_convert_cons, ih h.2, if_neg (fun e => h.1 e.symm)]

theorem usesOfGroup_convert_getElem (z : Nat) :
    ∀ (T : usageTracker) (j : Nat) (t : WyckPosTrackingInfo),
      (T.map (fun t => t.positions)).Nodup → T[j]? = some t →
      usesOfGroup (convertToPossibility T z) t.positions = t.numTimesUsed := by
  intro T
  induction T with
  | nil =>
    intro j t _ h
    simp at h
  | cons t0 T ih =>
    intro j t hnd h
    simp only [List.map_cons, List.nodup_cons] at hnd
    rw [usesOfGroup_convert_cons]
    cases j with
    | zero =>
      simp only [List.getElem?_cons_zero, Option.some.injEq] at h
      subst h
      rw [if_pos rfl, usesOfGroup_convert_absent z _ T hnd.1]
      rfl
    | succ j =>
      simp only [List.getElem?_cons_succ] at h
      have hmem : t.positions ∈ T.map (fun t => t.positions) :=
        List.mem_map_of_mem _ (List.getElem?_mem h)
      have hne : ¬ t0.positions = t.positions := by
        intro e
        rw [e] at hnd
        exact hnd.1 hmem
      rw [if_neg hne, ih j t hnd.2 h, Nat.zero_add]

theorem countsExtend_convert (T : usageTracker) (z : Nat)
    (hnd : (T.map (fun t => t.positions)).Nodup) :
    CountsExtend T (convertToPossibility T z) := by
  intro j t h
  rw [usesOfGroup_convert_getElem z T j t hnd h]
  exact ⟨le_refl _, fun _ => rfl⟩

theorem countsExtend_of_use (T : usageTracker) (i : Nat) (info : WyckPosTrackingInfo)
    (p : singleAtomPossibility) (hinfo : T[i]? = some info) (hk : info.keepUsing = true)
    (hc : info.numTimesUsed + 1 < UINT_MOD) (h : CountsExtend (useEntry T i info) p) :
    CountsExtend T p ∧ info.numTimesUsed + 1 ≤ usesOfGroup p info.positions := by
  have hi : i < T.length := by
    by_contra hcon
    rw [List.getElem?_eq_none (by omega)] at hinfo
    cases hinfo
  have hat : (useEntry T i info)[i]? =
      some { info with numTimesUsed := (info.numTimesUsed + 1) % UINT_MOD } := by
    unfold useEntry
    exact List.getElem?_set_self hi
  have h1 := (h i _ hat).1
  simp only [Nat.mod_eq_of_lt hc] at h1
  refine ⟨?_, h1⟩
  intro j t ht
  by_cases hj : i = j
  · subst hj
    rw [hinfo] at ht
    cases ht
    refine ⟨by omega, ?_⟩
    intro hf
    rw [hk] at hf
    cases hf
  · have : (useEntry T i info)[j]? = some t := by
      unfold useEntry
      rw [List.getElem?_set_ne hj]
      exact ht
    exact h j t this

theorem countsExtend_of_skip (T : usageTracker) (i : Nat) (info : WyckPosTrackingInfo)
    (p : singleAtomPossibility) (hinfo : T[i]? = some info) (hk : info.keepUsing = true)
    (h : CountsExtend (skipEntry T i info) p) :
    CountsExtend T p ∧ usesOfGroup p info.positions = info.numTimesUsed := by
  have hi : i < T.length := by
    by_contra hcon
    rw [List.getElem?_eq_none (by omega)] at hinfo
    cases hinfo
  have hat : (skipEntry T i info)[i]? = some { info with keepUsing := false } := by
    unfold skipEntry
    exact List.getElem?_set_self hi
  have h1 := (h i _ hat).2 rfl
  simp only at h1
  refine ⟨?_, h1⟩
  intro j t ht
  by_cases hj : i = j
  · subst hj
    rw [hinfo] at ht
    cases ht
    refine ⟨by omega, ?_⟩
    intro hf
    rw [hk] at hf
    cases hf
  · have : (skipEntry T i info)[j]? = some t := by
      unfold skipEntry
      rw [List.getElem?_set_ne hj]
      exact ht
    exact h j t this

theorem count_le_usedSum (T : usageTracker) (i : Nat) (info : WyckPosTrackingInfo)
    (hinfo : T[i]? = some info) (hm : 1 ≤ info.multiplicity) :
    info.numTimesUsed ≤ usedSum T := by
  unfold usedSum
  have hmem : info.multiplicity * info.numTimesUsed ∈
      T.map (fun t => t.multiplicity * t.numTimesUsed) :=
    List.mem_map_of_mem (fun t => t.multiplicity * t.numTimesUsed) (List.getElem?_mem hinfo)
  have h1 := List.le_sum_of_mem hmem
  have h2 : info.numTimesUsed ≤ info.multiplicity * info.numTimesUsed :=
    Nat.le_mul_of_pos_left _ hm
  omega

/-- The full search from a tracker with distinct groups appends a list without repetition, each
member lying below the tracker. -/
theorem findAllCombinations_nodup_below (z N : Nat) (f2 : Bool) (hN : N < UINT_MOD) :
    ∀ (fuel : Nat) (acc out : singleAtomPossibilities) (T : usageTracker),
      (T.map (fun t => t.positions)).Nodup → (∀ t ∈ T, 1 ≤ t.multiplicity) → usedSum T ≤ N →
      findAllCombinations fuel acc T z ⟨N, false, f2⟩ = some (.ok out) →
      ∃ new, out = acc ++ new ∧ new.Nodup ∧ ∀ p ∈ new, CountsExtend T p := by
  intro fuel
  induction fuel with
  | zero =>
    intro acc out T _ _ _ h
    rw [findAllCombinations_zero] at h
    cases h
  | succ fuel ih =>
    intro acc out T hnd hmult hsum h
    rw [findAllCombinations_succ_useBranch] at h
    simp only at h
    have hempty : ∀ a : singleAtomPossibilities, ∃ new, a = a ++ new ∧ new.Nodup ∧
        ∀ p ∈ new, CountsExtend T p :=
      fun a => ⟨[], (List.append_nil a).symm, List.nodup_nil, fun p hp => by cases hp⟩
    by_cases h0 : N = 0
    · simp only [h0, if_true, Option.some.injEq, Except.ok.injEq] at h
      rw [← h]
      exact hempty acc
    simp only [h0, if_false] at h
    cases hi : getFirstAvailableIndex T with
    | none =>
      simp only [hi, Option.some.injEq, Except.ok.injEq] at h
      rw [← h]
      exact hempty acc
    | some i =>
      simp only [hi] at h
      obtain ⟨info, hinfo, hk⟩ := getFirstAvailableIndex_some T i hi
      simp only [hinfo] at h
      have hmem : info ∈ T := List.getElem?_mem hinfo
      cases hu : useBranch fuel acc T i info z ⟨N, false, f2⟩ with
      | none =>
        simp only [hu] at h
        cases h
      | some r =>
        cases r with
        | error p =>
          simp only [hu] at h
          cases h
        | ok a =>
          simp only [hu] at h
          -- the branch that gives the entry up
          have hnd2 : ((skipEntry T i info).map (fun t => t.positions)).Nodup := by
            have e : (skipEntry T i info).map (fun t => t.positions)
                = T.map (fun t => t.positions) :=
              map_set_of_eq (fun t => t.positions) T i info { info with keepUsing := false }
                hinfo rfl
            rw [e]
            exact hnd
          have hmult2 : ∀ t ∈ skipEntry T i info, 1 ≤ t.multiplicity := by
            intro t ht
            rcases List.mem_or_eq_of_mem_set ht with h1 | h1
            · exact hmult t h1
            · subst h1
              exact hmult info hmem
          have hsum2 : usedSum (skipEntry T i info) ≤ N := by
            rw [usedSum_skipEntry T i info hinfo]
            exact hsum
          obtain ⟨n2, hn2, hnd_n2, hext2⟩ := ih a out _ hnd2 hmult2 hsum2 h
          -- the branch that uses the entry once more
          have huse : ∃ n1, a = acc ++ n1 ∧ n1.Nodup ∧ ∀ p ∈ n1, CountsExtend T p ∧
              info.numTimesUsed + 1 ≤ usesOfGroup p info.positions := by
            unfold useBranch at hu
            simp only at hu
            by_cases hus : positionIsUsable info (getNumAtomsLeft T N) f2 = true
            · simp only [hus, if_true] at hu
              obtain ⟨hm, -, -, -⟩ := positionIsUsable_true _ _ _ hus
              rw [getNumAtomsLeft_of_le T N hsum hN] at hm
              have hc1 := count_le_usedSum T i info hinfo (hmult info hmem)
              have hm1 := hmult info hmem
              have hc : info.numTimesUsed + 1 < UINT_MOD := by omega
              have hnd1 : ((useEntry T i info).map (fun t => t.positions)).Nodup := by
                have e : (useEntry T i info).map (fun t => t.positions)
                    = T.map (fun t => t.positions) :=
                  map_set_of_eq (fun t => t.positions) T i info
                    { info with numTimesUsed := (info.numTimesUsed + 1) % UINT_MOD } hinfo rfl
                rw [e]
                exact hnd
              have hmult1 : ∀ t ∈ useEntry T i info, 1 ≤ t.multiplicity := by
                intro t ht
                rcases List.mem_or_eq_of_mem_set ht with h1 | h1
                · exact hmult t h1
                · subst h1
                  exact hmult info hmem
              have hsum1 : usedSum (useEntry T i info) ≤ N := by
                have := usedSum_useEntry_le T i info hinfo
                omega
              by_cases hl : getNumAtomsLeft (useEntry T i info) N = 0
              · simp only [hl, if_true, Bool.false_eq_true, if_false, Option.some.injEq,
                  Except.ok.injEq] at hu
                refine ⟨[convertToPossibility (useEntry T i info) z], hu.symm,
                  List.nodup_singleton _, ?_⟩
                intro p hp
                rw [List.mem_singleton] at hp
                subst hp
                exact countsExtend_of_use T i info _ hinfo hk hc
                  (countsExtend_convert _ z hnd1)
              · simp only [hl, if_false] at hu
                obtain ⟨n1, hn1, hnd_n1, hext1⟩ := ih acc a _ hnd1 hmult1 hsum1 hu
                exact ⟨n1, hn1, hnd_n1, fun p hp =>
                  countsExtend_of_use T i info p hinfo hk hc (hext1 p hp)⟩
            · simp only [hus, Bool.false_eq_true, if_false, Option.some.injEq,
                Except.ok.injEq] at hu
              exact ⟨[], by rw [List.append_nil]; exact hu.symm, List.nodup_nil,
                fun p hp => by cases hp⟩
          obtain ⟨n1, hn1, hnd_n1, hext1⟩ := huse
          refine ⟨n1 ++ n2, by rw [hn2, hn1, List.append_assoc], ?_, ?_⟩
          · rw [List.nodup_append]
            refine ⟨hnd_n1, hnd_n2, ?_⟩
            intro p hp1 hp2
            have h1 := (hext1 p hp1).2
            have h2 := (countsExtend_of_skip T i info p hinfo hk (hext2 p hp2)).2
            omega
          · intro p hp
            rcases List.mem_append.1 hp with h1 | h1
            · exact (hext1 p h1).1
            · exact (countsExtend_of_skip T i info p hinfo hk (hext2 p h1)).1

theorem append_singleton_inj (s s1 : systemPossibility) (p p1 : singleAtomPossibility)
    (h : s ++ [p] = s1 ++ [p1]) : s = s1 ∧ p = p1 := by
  have h1 := List.append_inj_left' h rfl
  have h2 := List.append_inj_right' h rfl
  exact ⟨h1, by simpa using h2⟩

theorem join_inner_some (s S : systemPossibility) (p : singleAtomPossibility)
    (h : (if (!tooManyOfAUniquePositionUsed (s ++ [p])) = true then some (s ++ [p])
      else none) = some S) : S = s ++ [p] := by
  split_ifs at h
  exact (Option.some.inj h).symm

theorem joinSingleWithSystem_nodup (sa : singleAtomPossibilities) (sys : systemPossibilities)
    (hsa : sa.Nodup) (hsys : sys.Nodup) : (joinSingleWithSystem sa sys).Nodup := by
  unfold joinSingleWithSystem
  by_cases h0 : sys.length = 0
  · simp only [h0, if_true]
    apply List.Nodup.map _ hsa
    intro p q hpq
    simpa using hpq
  · simp only [h0, if_false]
    rw [List.nodup_flatMap]
    constructor
    · intro s _
      apply List.Nodup.filterMap _ hsa
      intro p q S hp hq
      simp only [Option.mem_def] at hp hq
      have e1 := join_inner_some s S p hp
      have e2 := join_inner_some s S q hq
      exact (append_singleton_inj s s p q (e1.symm.trans e2)).2
    · apply List.Nodup.pairwise_of_forall_ne hsys
      intro s _ s1 _ hne
      intro S hS hS1
      rw [List.mem_filterMap] at hS hS1
      obtain ⟨p, _, hp⟩ := hS
      obtain ⟨q, _, hq⟩ := hS1
      have e1 := join_inner_some s S p hp
      have e2 := join_inner_some s1 S q hq
      exact hne (append_singleton_inj s s1 p q (e1.symm.trans e2)).1

theorem systemPossibilitiesLoop_nodup (fuel : Nat) (wyckVec : wyckoffPositions)
    (hmult : ∀ p ∈ wyckVec, 1 ≤ p.multiplicity) :
    ∀ (rest : List numAndType) (sys out : systemPossibilities),
      (∀ nt ∈ rest, nt.1 < UINT_MOD) → sys.Nodup →
      SpgInitCombinatorics.systemPossibilitiesLoop fuel wyckVec false false rest sys
        = some out → out.Nodup := by
  intro rest
  induction rest with
  | nil =>
    intro sys out _ hsys h
    unfold SpgInitCombinatorics.systemPossibilitiesLoop at h
    cases h
    exact hsys
  | cons nt rest ih =>
    intro sys out hrest hsys h
    unfold SpgInitCombinatorics.systemPossibilitiesLoop at h
    simp only [Bool.false_eq_true, if_false] at h
    cases hfa : findAllCombinations fuel [] (createUsageTracker wyckVec) nt.2
        ⟨nt.1, false, false⟩ with
    | none =>
      simp only [hfa] at h
      cases h
    | some r =>
      cases r with
      | error p =>
        simp only [hfa] at h
        cases h
      | ok v =>
        simp only [hfa] at h
        have hv : v.Nodup := by
          obtain ⟨new, hnew, hnd, -⟩ := findAllCombinations_nodup_below nt.2 nt.1 false
            (hrest nt (List.mem_cons_self _ _)) fuel [] v (createUsageTracker wyckVec)
            (by
              rw [(trackerInv_createUsageTracker wyckVec nt.1).1]
              exact groups_nodup wyckVec)
            (createUsageTracker_multiplicity wyckVec hmult)
            (trackerInv_createUsageTracker wyckVec nt.1).2.2
            hfa
          rw [List.nil_append] at hnew
          rw [hnew]
          exact hnd
        by_cases hl : v.length = 0
        · simp only [hl, if_true, Option.some.injEq] at h
          rw [← h]
          exact List.nodup_nil
        · simp only [hl, if_false] at h
          exact ih _ out (fun x hx => hrest x (List.mem_cons_of_mem _ hx))
            (joinSingleWithSystem_nodup v sys hv hsys) h

/-- C30: on the fresh tracker of a table whose multiplicities are at least one, with enough
fuel and an atom count below `2 ^ 32` (a `uint`), the full search (`findOnlyOne = false`)
returns, and the list it appends to `appendVec` has no two equal possibilities; consequently
`getSystemPossibilities` with both flags false returns a list with no two equal system
possibilities. -/
theorem findAllCombinations_no_duplicates :
    (∀ (fuel : Nat) (wyckVec : wyckoffPositions) (acc : singleAtomPossibilities)
      (atomicNum numAtoms : Nat) (findOnlyNonUnique : Bool),
      (∀ p ∈ wyckVec, 1 ≤ p.multiplicity) → numAtoms < UINT_MOD →
      (createUsageTracker wyckVec).length + numAtoms + 1 ≤ fuel →
      ∃ new, findAllCombinations fuel acc (createUsageTracker wyckVec) atomicNum
          ⟨numAtoms, false, findOnlyNonUnique⟩ = some (.ok (acc ++ new)) ∧ new.Nodup) ∧
    (∀ (fuel : Nat) (db : WyckoffDatabase) (spg : Nat) (atoms : List Nat),
      (∀ p ∈ SpgInit.getWyckoffPositions db spg, 1 ≤ p.multiplicity) →
      (createUsageTracker (SpgInit.getWyckoffPositions db spg)).length + atoms.length + 1
        ≤ fuel →
      ∃ sys, SpgInitCombinatorics.getSystemPossibilities fuel db spg atoms false false
          = some sys ∧ sys.Nodup) := by
  constructor
  · intro fuel wyckVec acc z N f2 hmult hN hf
    have hT := createUsageTracker_multiplicity wyckVec hmult
    have hb := keepCount_left_createUsageTracker wyckVec N hN
    obtain ⟨out, hout⟩ := findAllCombinations_terminates z ⟨N, false, f2⟩ rfl fuel acc
      (createUsageTracker wyckVec) hT (by simp only []; omega)
    obtain ⟨new, hnew, hnd, -⟩ := findAllCombinations_nodup_below z N f2 hN fuel acc out
      (createUsageTracker wyckVec)
      (by
        rw [(trackerInv_createUsageTracker wyckVec N).1]
        exact groups_nodup wyckVec)
      hT (trackerInv_createUsageTracker wyckVec N).2.2 hout
    rw [hnew] at hout
    exact ⟨new, hout, hnd⟩
  · intro fuel db spg atoms hmult hf
    obtain ⟨sys, hsys⟩ := getSystemPossibilities_terminates fuel db spg atoms false false
      hmult hf
    refine ⟨sys, hsys, ?_⟩
    unfold SpgInitCombinatorics.getSystemPossibilities at hsys
    exact systemPossibilitiesLoop_nodup fuel _ hmult _ [] sys
      (fun nt hnt => getNumOfEachType_lt atoms nt hnt) List.nodup_nil hsys

theorem findAllCombinations_no_duplicates_witness :
    (∃ new, findAllCombinations 10 [] (createUsageTracker tableThreeGroups) 1
        ⟨3, false, false⟩ = some (.ok ([] ++ new)) ∧ new.Nodup) ∧
    (∃ sys, SpgInitCombinatorics.getSystemPossibilities 10 databaseThreeGroups 1 [1, 1, 1]
        false false = some sys ∧ sys.Nodup) ∧
    SpgInitCombinatorics.getSystemPossibilities 10 databaseThreeGroups 1 [1, 1, 1]
        false false =
      some [[⟨1, [⟨1, [⟨'a', 1, "0,0,0"⟩]⟩, ⟨1, [⟨'b', 2, "0,0,0.5"⟩]⟩]⟩],
        [⟨1, [⟨1, [⟨'c', 3, "x,y,z"⟩]⟩]⟩]] :=
  ⟨findAllCombinations_no_duplicates.1 10 tableThreeGroups [] 1 3 false (by decide)
      (by decide) (by decide),
    findAllCombinations_no_duplicates.2 10 databaseThreeGroups 1 [1, 1, 1] (by decide)
      (by decide),
    by decide⟩

/-! ## The uniqueness filter and the join -/

theorem totalUsesOfGroup_cons_eq (p : singleAtomPossibility) (later : systemPossibility)
    (g : similarWyckPositions) :
    totalUsesOfGroup (p :: later) g = usesOfGroup p g + totalUsesOfGroup later g := by
  unfold totalUsesOfGroup
  simp only [List.map_cons, List.sum_cons]

/-- A unique group used more often than it has letters is detected, the letters of a group
being few enough for the `uint` sums not to wrap before the excess shows. -/
theorem tooMany_of_total_gt (g : similarWyckPositions) (hu : groupIsUnique g = true)
    (hlen : 2 * g.length < UINT_MOD) :
    ∀ S : systemPossibility, (∀ p ∈ S, DistinctPicks p) →
      g.length < totalUsesOfGroup S g → tooManyOfAUniquePositionUsed S = true := by
  intro S
  induction S with
  | nil =>
    intro _ h
    simp [totalUsesOfGroup] at h
  | cons p later ih =>
    intro hd h
    rw [totalUsesOfGroup_cons_eq] at h
    unfold tooManyOfAUniquePositionUsed
    by_cases hl : g.length < totalUsesOfGroup later g
    · rw [ih (fun q hq => hd q (List.mem_cons_of_mem _ hq)) hl, Bool.or_true]
    · have hne : usesOfGroup p g ≠ 0 := by omega
      obtain ⟨a, ha, hag⟩ := exists_pick_of_usesOfGroup_ne_zero p g hne
      have hnum := usesOfGroup_of_mem p a (hd p (List.mem_cons_self _ _)) ha
      rw [hag] at hnum
      have hau : similarWyckPosAndNumToChooseIsUnique a = true := by
        rw [isUnique_eq_groupIsUnique, hag]
        exact hu
      by_cases hbig : g.length < a.numToChoose
      · have h1 : moreUniquePositionsUsedThanAvailable p = true := by
          unfold moreUniquePositionsUsedThanAvailable
          rw [List.any_eq_true]
          refine ⟨a, ha, ?_⟩
          rw [hau, Bool.true_and, decide_eq_true_eq, hag, Nat.mod_eq_of_lt (by omega)]
          exact hbig
        rw [h1, Bool.true_or, Bool.true_or]
      · have h2 : p.assigns.any (fun simPos =>
            similarWyckPosAndNumToChooseIsUnique simPos &&
              decide (numTimesUsedWithLater simPos later > simPos.choosablePositions.length))
            = true := by
          rw [List.any_eq_true]
          refine ⟨a, ha, ?_⟩
          rw [hau, Bool.true_and, decide_eq_true_eq,
            numTimesUsedWithLater_eq a later (by rw [hag]; omega), hag]
          omega
        rw [h2, Bool.or_true, Bool.true_or]

theorem filterMap_cross (s : systemPossibility) (sa : singleAtomPossibilities) :
    sa.filterMap (fun p =>
      if (!tooManyOfAUniquePositionUsed (s ++ [p])) = true then some (s ++ [p]) else none) =
    (sa.map (fun p => s ++ [p])).filter (fun T => !tooManyOfAUniquePositionUsed T) := by
  induction sa with
  | nil => rfl
  | cons p sa ih =>
    by_cases h : (!tooManyOfAUniquePositionUsed (s ++ [p])) = true
    · rw [List.filterMap_cons_some (by rw [if_pos h]), List.map_cons, List.filter_cons,
        if_pos h, ih]
    · rw [List.filterMap_cons_none (by rw [if_neg h]), List.map_cons, List.filter_cons,
        if_neg h, ih]

theorem joinSingleWithSystem_eq_filter (sa : singleAtomPossibilities)
    (sys : systemPossibilities) (hne : sys ≠ []) :
    joinSingleWithSystem sa sys =
      (sys.flatMap (fun S => sa.map (fun p => S ++ [p]))).filter
        (fun T => !tooManyOfAUniquePositionUsed T) := by
  unfold joinSingleWithSystem
  have h0 : ¬ sys.length = 0 := by
    intro h
    exact hne (List.length_eq_zero.1 h)
  simp only [h0, if_false]
  clear hne h0
  induction sys with
  | nil => rfl
  | cons s sys ih =>
    rw [List.flatMap_cons, List.flatMap_cons, List.filter_append, ih, filterMap_cross]

/-- C28: for a system possibility whose picks are groups of the grouping of one table, no
group picked twice inside a single-atom possibility, `tooManyOfAUniquePositionUsed` is true
exactly when some unique group's total `numToChoose` over the whole system possibility exceeds
its number of letters; and from a non-empty accumulated list `joinSingleWithSystem` returns the
crosses `S ++ [sap]`, in order, for which that test is false. -/
theorem tooManyOfAUniquePositionUsed_iff :
    (∀ (wyckVec : wyckoffPositions) (S : systemPossibility),
      (∀ p ∈ S, DistinctPicks p ∧
        ∀ a ∈ p.assigns, a.choosablePositions ∈ groupSimilarWyckPositions wyckVec) →
      (tooManyOfAUniquePositionUsed S = true ↔
        ∃ g ∈ groupSimilarWyckPositions wyckVec, groupIsUnique g = true ∧
          g.length < totalUsesOfGroup S g)) ∧
    (∀ (sa : singleAtomPossibilities) (sys : systemPossibilities), sys ≠ [] →
      joinSingleWithSystem sa sys =
        (sys.flatMap (fun S => sa.map (fun p => S ++ [p]))).filter
          (fun T => !tooManyOfAUniquePositionUsed T)) := by
  refine ⟨?_, joinSingleWithSystem_eq_filter⟩
  intro wyckVec S hS
  constructor
  · intro ht
    by_contra hcon
    push_neg at hcon
    have hf := not_tooMany_of_total_le S (fun p hp => (hS p hp).1) (by
      intro p hp a ha hu
      have hg := (hS p hp).2 a ha
      have hl := groups_length_lt wyckVec _ hg
      exact ⟨by unfold UINT_MOD; omega, hcon _ hg hu⟩)
    rw [hf] at ht
    cases ht
  · rintro ⟨g, hg, hu, hgt⟩
    have hl := groups_length_lt wyckVec g hg
    exact tooMany_of_total_gt g hu (by unfold UINT_MOD; omega) S (fun p hp => (hS p hp).1) hgt

theorem tooManyOfAUniquePositionUsed_iff_witness :
    ((tooManyOfAUniquePositionUsed
        [⟨1, [⟨1, [⟨'a', 1, "0,0,0"⟩]⟩]⟩, ⟨2, [⟨1, [⟨'a', 1, "0,0,0"⟩]⟩]⟩] = true ↔
      ∃ g ∈ groupSimilarWyckPositions tableThreeGroups, groupIsUnique g = true ∧
        g.length < totalUsesOfGroup
          [⟨1, [⟨1, [⟨'a', 1, "0,0,0"⟩]⟩]⟩, ⟨2, [⟨1, [⟨'a', 1, "0,0,0"⟩]⟩]⟩] g)) ∧
    tooManyOfAUniquePositionUsed
      [⟨1, [⟨1, [⟨'a', 1, "0,0,0"⟩]⟩]⟩, ⟨2, [⟨1, [⟨'a', 1, "0,0,0"⟩]⟩]⟩] = true ∧
    totalUsesOfGroup [⟨1, [⟨1, [⟨'a', 1, "0,0,0"⟩]⟩]⟩, ⟨2, [⟨1, [⟨'a', 1, "0,0,0"⟩]⟩]⟩]
      [⟨'a', 1, "0,0,0"⟩] = 2 ∧
    joinSingleWithSystem
      [⟨2, [⟨1, [⟨'a', 1, "0,0,0"⟩]⟩]⟩, ⟨2, [⟨1, [⟨'b', 2, "0,0,0.5"⟩]⟩]⟩]
      [[⟨1, [⟨1, [⟨'a', 1, "0,0,0"⟩]⟩]⟩]] =
      [[⟨1, [⟨1, [⟨'a', 1, "0,0,0"⟩]⟩]⟩, ⟨2, [⟨1, [⟨'b', 2, "0,0,0.5"⟩]⟩]⟩]] :=
  ⟨tooManyOfAUniquePositionUsed_iff.1 tableThreeGroups
      [⟨1, [⟨1, [⟨'a', 1, "0,0,0"⟩]⟩]⟩, ⟨2, [⟨1, [⟨'a', 1, "0,0,0"⟩]⟩]⟩]
      (by unfold DistinctPicks; decide),
    by decide, by decide, by decide⟩

/-! ## The grouping of a table with distinct letters -/

/-- With distinct letters the inner loop of `groupSimilarWyckPositions` is a filter: the letters
it marks on its way are those of other positions. -/
theorem addSimilarPositions_filter (pos_i : wyckPos) :
    ∀ (rest : List wyckPos) (used : List Char) (temp : similarWyckPositions),
      (rest.map (fun p => p.letter)).Nodup →
      addSimilarPositions pos_i rest used temp =
        (temp ++ rest.filter (fun q => wyckPositionsAreSimilar pos_i q &&
            !vecContains used q.letter),
          used ++ (rest.filter (fun q => wyckPositionsAreSimilar pos_i q &&
            !vecContains used q.letter)).map (fun p => p.letter)) := by
  intro rest
  induction rest with
  | nil =>
    intro used temp _
    simp [addSimilarPositions]
  | cons pos_j rest ih =>
    intro used temp hnd
    simp only [List.map_cons, List.nodup_cons] at hnd
    unfold addSimilarPositions
    by_cases hc : (wyckPositionsAreSimilar pos_i pos_j &&
        !vecContains used (SpgInit.getWyckLet pos_j)) = true
    · rw [if_pos hc, ih _ _ hnd.2]
      have hc1 : (wyckPositionsAreSimilar pos_i pos_j && !vecContains used pos_j.letter)
          = true := hc
      have hcongr : rest.filter (fun q => wyckPositionsAreSimilar pos_i q &&
            !vecContains (used ++ [SpgInit.getWyckLet pos_j]) q.letter) =
          rest.filter (fun q => wyckPositionsAreSimilar pos_i q &&
            !vecContains used q.letter) := by
        apply List.filter_congr
        intro q hq
        have hne : q.letter ≠ pos_j.letter := by
          intro e
          exact hnd.1 (e ▸ List.mem_map_of_mem (fun p => p.letter) hq)
        have hv : vecContains (used ++ [SpgInit.getWyckLet pos_j]) q.letter
            = vecContains used q.letter := by
          rw [Bool.eq_iff_iff, vecContains_iff, vecContains_iff]
          simp only [List.mem_append, List.mem_singleton, SpgInit.getWyckLet]
          constructor
          · rintro (h | h)
            · exact h
            · exact absurd h hne
          · exact Or.inl
        rw [hv]
      rw [hcongr, List.filter_cons, if_pos hc1]
      simp only [List.append_assoc, List.singleton_append, List.map_cons, SpgInit.getWyckLet]
    · rw [if_neg hc, ih _ _ hnd.2]
      have hc1 : ¬ (wyckPositionsAreSimilar pos_i pos_j && !vecContains used pos_j.letter)
          = true := hc
      rw [List.filter_cons, if_neg hc1]

theorem similar_refl (p : wyckPos) : wyckPositionsAreSimilar p p = true :=
  (similar_iff p p).2 ⟨rfl, rfl⟩

theorem similar_symm (p q : wyckPos) (h : wyckPositionsAreSimilar p q = true) :
    wyckPositionsAreSimilar q p = true := by
  rw [similar_iff] at h ⊢
  exact ⟨h.1.symm, h.2.symm⟩

theorem similar_trans (p q r : wyckPos) (h : wyckPositionsAreSimilar p q = true)
    (h1 : wyckPositionsAreSimilar q r = true) : wyckPositionsAreSimilar p r = true := by
  rw [similar_iff] at h h1 ⊢
  exact ⟨h.1.trans h1.1, h.2.trans h1.2⟩

theorem eq_of_letter_eq (rest : List wyckPos) (hnd : (rest.map (fun p => p.letter)).Nodup)
    (x y : wyckPos) (hx : x ∈ rest) (hy : y ∈ rest) (h : x.letter = y.letter) : x = y :=
  List.inj_on_of_nodup_map hnd hx hy h

/-- The outer loop of `groupSimilarWyckPositions` on positions with distinct letters: similar
positions not used yet share a group, every group keeps the order of the positions, and the
groups follow the order of their first members. -/
theorem groupSimilarLoop_classes :
    ∀ (rest : List wyckPos) (used : List Char), (rest.map (fun p => p.letter)).Nodup →
      (∀ p ∈ rest, ∀ q ∈ rest, p.letter ∉ used → q.letter ∉ used →
        wyckPositionsAreSimilar p q = true →
        ∃ g ∈ groupSimilarLoop rest used, p ∈ g ∧ q ∈ g) ∧
      (∀ g ∈ groupSimilarLoop rest used, List.Sublist g rest) ∧
      List.Sublist ((groupSimilarLoop rest used).filterMap List.head?) rest := by
  intro rest
  induction rest with
  | nil =>
    intro used _
    refine ⟨?_, ?_, ?_⟩
    · intro p hp
      cases hp
    · intro g hg
      simp [groupSimilarLoop] at hg
    · simp [groupSimilarLoop]
  | cons pos_i rest ih =>
    intro used hnd
    simp only [List.map_cons, List.nodup_cons] at hnd
    obtain ⟨hfresh, hnd1⟩ := hnd
    have hother : ∀ x ∈ rest, x.letter ≠ pos_i.letter := by
      intro x hx e
      exact hfresh (e ▸ List.mem_map_of_mem (fun p => p.letter) hx)
    unfold groupSimilarLoop
    by_cases hc : (!vecContains used (SpgInit.getWyckLet pos_i)) = true
    · rw [if_pos hc]
      simp only []
      rw [addSimilarPositions_filter pos_i rest _ _ hnd1]
      simp only []
      generalize hF : rest.filter (fun q => wyckPositionsAreSimilar pos_i q &&
        !vecContains (used ++ [SpgInit.getWyckLet pos_i]) q.letter) = F
      have hinF : ∀ x ∈ rest, x.letter ∉ used →
          (x ∈ F ↔ wyckPositionsAreSimilar pos_i x = true) := by
        intro x hx hxu
        rw [← hF, List.mem_filter]
        have hv : vecContains (used ++ [SpgInit.getWyckLet pos_i]) x.letter = false := by
          rw [Bool.eq_false_iff]
          intro hcon
          rw [vecContains_iff, List.mem_append, List.mem_singleton] at hcon
          rcases hcon with h | h
          · exact hxu h
          · exact hother x hx h
        rw [hv]
        simp only [Bool.not_false, Bool.and_true]
        exact ⟨fun h => h.2, fun h => ⟨hx, h⟩⟩
      have hFsub : ∀ y ∈ F, y ∈ rest := by
        intro y hy
        rw [← hF] at hy
        exact (List.mem_filter.1 hy).1
      have hleft : ∀ x ∈ rest, x.letter ∉ used → ¬ wyckPositionsAreSimilar pos_i x = true →
          x.letter ∉ (used ++ [SpgInit.getWyckLet pos_i]) ++ F.map (fun p => p.letter) := by
        intro x hx hxu hns hcon
        rw [List.mem_append, List.mem_append, List.mem_singleton, List.mem_map] at hcon
        rcases hcon with (h | h) | ⟨y, hy, hyx⟩
        · exact hxu h
        · exact hother x hx h
        · have e := eq_of_letter_eq rest hnd1 y x (hFsub y hy) hx hyx
          rw [e] at hy
          exact hns ((hinF x hx hxu).1 hy)
      obtain ⟨ih1, ih2, ih3⟩ :=
        ih ((used ++ [SpgInit.getWyckLet pos_i]) ++ F.map (fun p => p.letter)) hnd1
      have hhead : ∀ x ∈ pos_i :: rest, x.letter ∉ used →
          wyckPositionsAreSimilar pos_i x = true → x ∈ [pos_i] ++ F := by
        intro x hx hxu hs
        rcases List.mem_cons.1 hx with h | h
        · subst h
          simp
        · exact List.mem_append_right _ ((hinF x h hxu).2 hs)
      have hrest : ∀ x ∈ pos_i :: rest, ¬ wyckPositionsAreSimilar pos_i x = true →
          x ∈ rest := by
        intro x hx hns
        rcases List.mem_cons.1 hx with h | h
        · subst h
          exact absurd (similar_refl x) hns
        · exact h
      refine ⟨?_, ?_, ?_⟩
      · intro p hp q hq hpu hqu hs
        by_cases hsp : wyckPositionsAreSimilar pos_i p = true
        · have hsq := similar_trans pos_i p q hsp hs
          exact ⟨_, List.mem_cons_self _ _, hhead p hp hpu hsp, hhead q hq hqu hsq⟩
        · have hsq : ¬ wyckPositionsAreSimilar pos_i q = true := by
            intro h
            exact hsp (similar_trans pos_i q p h (similar_symm p q hs))
          have hp1 := hrest p hp hsp
          have hq1 := hrest q hq hsq
          obtain ⟨g, hg, hpg, hqg⟩ := ih1 p hp1 q hq1 (hleft p hp1 hpu hsp)
            (hleft q hq1 hqu hsq) hs
          exact ⟨g, List.mem_cons_of_mem _ hg, hpg, hqg⟩
      · intro g hg
        rcases List.mem_cons.1 hg with h | h
        · rw [h, ← hF]
          exact List.Sublist.cons₂ _ (List.filter_sublist _)
        · exact List.Sublist.cons _ (ih2 g h)
      · rw [List.filterMap_cons_some (show List.head? ([pos_i] ++ F) = some pos_i from rfl)]
        exact List.Sublist.cons₂ _ ih3
    · rw [if_neg hc]
      obtain ⟨ih1, ih2, ih3⟩ := ih used hnd1
      have hused : pos_i.letter ∈ used := by
        have : vecContains used (SpgInit.getWyckLet pos_i) = true := by
          simpa using hc
        exact (vecContains_iff used _).1 this
      have hrest : ∀ x ∈ pos_i :: rest, x.letter ∉ used → x ∈ rest := by
        intro x hx hxu
        rcases List.mem_cons.1 hx with h | h
        · subst h
          exact absurd hused hxu
        · exact h
      refine ⟨?_, ?_, ?_⟩
      · intro p hp q hq hpu hqu hs
        exact ih1 p (hrest p hp hpu) q (hrest q hq hqu) hpu hqu hs
      · intro g hg
        exact List.Sublist.cons _ (ih2 g hg)
      · exact List.Sublist.cons _ ih3

/-- C27: for a table with pairwise distinct letters the groups that
`groupSimilarWyckPositions` returns are non-empty; they hold the entries of the table, each
entry once (the groups laid end to end are a rearrangement of the table, and an entry lies in
exactly one group); two entries share a group exactly when they have the same multiplicity and
the same uniqueness; inside a group the members keep the order of the table; and the groups
follow the table order of their first members. -/
theorem groupSimilarWyckPositions_partition (wyckVec : wyckoffPositions)
    (hl : (wyckVec.map (fun p => p.letter)).Nodup) :
    (∀ g ∈ groupSimilarWyckPositions wyckVec, g ≠ []) ∧
    List.Perm (groupSimilarWyckPositions wyckVec).flatten wyckVec ∧
    (∀ p ∈ wyckVec, ∃! g, g ∈ groupSimilarWyckPositions wyckVec ∧ p ∈ g) ∧
    (∀ p ∈ wyckVec, ∀ q ∈ wyckVec,
      ((∃ g ∈ groupSimilarWyckPositions wyckVec, p ∈ g ∧ q ∈ g) ↔
        (SpgInit.getMultiplicity p = SpgInit.getMultiplicity q ∧
          SpgInit.containsUniquePosition p = SpgInit.containsUniquePosition q))) ∧
    (∀ g ∈ groupSimilarWyckPositions wyckVec, List.Sublist g wyckVec) ∧
    List.Sublist ((groupSimilarWyckPositions wyckVec).filterMap List.head?) wyckVec := by
  obtain ⟨hsame, hsub, hheads⟩ := groupSimilarLoop_classes wyckVec [] hl
  have hmemTable : ∀ g ∈ groupSimilarWyckPositions wyckVec, ∀ p ∈ g, p ∈ wyckVec :=
    groupSimilarLoop_mem wyckVec []
  have hcover : ∀ p ∈ wyckVec, ∃ g ∈ groupSimilarWyckPositions wyckVec, p ∈ g := by
    intro p hp
    obtain ⟨g, hg, hpg, -⟩ := hsame p hp p hp (by simp) (by simp) (similar_refl p)
    exact ⟨g, hg, hpg⟩
  have hwf := groups_wellFormed wyckVec
  have hone : ∀ g ∈ groupSimilarWyckPositions wyckVec,
      ∀ h ∈ groupSimilarWyckPositions wyckVec, ∀ p, p ∈ g → p ∈ h → g = h :=
    fun g hg h hh p hpg hph => hwf.2 g hg h hh p hpg p hph rfl
  refine ⟨groups_ne_nil wyckVec, ?_, ?_, ?_, hsub, hheads⟩
  · rw [List.perm_ext_iff_of_nodup ?_ (List.Nodup.of_map _ hl)]
    · intro p
      rw [List.mem_flatten]
      constructor
      · rintro ⟨g, hg, hp⟩
        exact hmemTable g hg p hp
      · intro hp
        obtain ⟨g, hg, hpg⟩ := hcover p hp
        exact ⟨g, hg, hpg⟩
    · rw [List.nodup_flatten]
      constructor
      · intro g hg
        exact List.Nodup.of_map _ (groups_letters_nodup wyckVec g hg)
      · have hp := (groupSimilarLoop_spec wyckVec []).2
        refine List.Pairwise.imp ?_ hp
        intro g h hgh p hpg hph
        exact hgh p hpg p hph rfl
  · intro p hp
    obtain ⟨g, hg, hpg⟩ := hcover p hp
    refine ⟨g, ⟨hg, hpg⟩, ?_⟩
    rintro h ⟨hh, hph⟩
    exact hone h hh g hg p hph hpg
  · intro p hp q hq
    constructor
    · rintro ⟨g, hg, hpg, hqg⟩
      have h1 := (hwf.1 g hg).2.2 p hpg
      have h2 := (hwf.1 g hg).2.2 q hqg
      exact ⟨h1.2.trans h2.2.symm, h1.1.trans h2.1.symm⟩
    · rintro ⟨hm, hu⟩
      exact hsame p hp q hq (by simp) (by simp) ((similar_iff p q).2 ⟨hu, hm⟩)

theorem groupSimilarWyckPositions_partition_witness :
    ((∀ g ∈ groupSimilarWyckPositions tableInterleaved, g ≠ []) ∧
    List.Perm (groupSimilarWyckPositions tableInterleaved).flatten tableInterleaved ∧
    (∀ p ∈ tableInterleaved, ∃! g, g ∈ groupSimilarWyckPositions tableInterleaved ∧ p ∈ g) ∧
    (∀ p ∈ tableInterleaved, ∀ q ∈ tableInterleaved,
      ((∃ g ∈ groupSimilarWyckPositions tableInterleaved, p ∈ g ∧ q ∈ g) ↔
        (SpgInit.getMultiplicity p = SpgInit.getMultiplicity q ∧
          SpgInit.containsUniquePosition p = SpgInit.containsUniquePosition q))) ∧
    (∀ g ∈ groupSimilarWyckPositions tableInterleaved, List.Sublist g tableInterleaved) ∧
    List.Sublist ((groupSimilarWyckPositions tableInterleaved).filterMap List.head?)
      tableInterleaved) ∧
    groupSimilarWyckPositions tableInterleaved =
      [[⟨'a', 1, "0,0,0"⟩, ⟨'c', 1, "0,0,0.5"⟩], [⟨'b', 2, "x,y,z"⟩]] :=
  ⟨groupSimilarWyckPositions_partition tableInterleaved (by decide), by decide⟩

/-! ## The facade `spgInitCrystal` -/

/-- C21: whenever the lattice that `generateLatticeForSpg` returns has a parameter equal to
zero, `spgInitCrystal` returns the default crystal `Crystal()` and writes the one line on the
invalid lattice: the result is there whatever the fuel (also none), the database, the oracles
of the crystal, the generators of the later steps and the number of attempts, none of which
the function consults, as it neither enumerates possibilities nor places an atom. Such is the
case of a monoclinic space group (3 to 15) whose window of `alpha` excludes 90 degrees,
whatever the generator. -/
theorem spgInitCrystal_invalid_lattice {Crystal : Type} (fuel : Nat) (db : WyckoffDatabase)
    (ctors : CrystalCtors Crystal) (ops : ℚ → CrystalOps Crystal)
    (latticeRand : Nat → ℚ → ℚ → ℚ) (getRandInt : Nat → Nat → Int → Int → Int)
    (getRandDouble : Nat → Nat → Nat → ℚ → ℚ → ℚ) (findOnlyOne findOnlyNonUnique : Bool)
    (spg : Nat) (atoms : List Nat) (latticeMins latticeMaxes : latticeStruct)
    (minIADScalingFactor : ℚ) (numAttempts : Int) :
    ((SpgInit.generateLatticeForSpg latticeRand spg latticeMins latticeMaxes).a = 0 ∨
      (SpgInit.generateLatticeForSpg latticeRand spg latticeMins latticeMaxes).b = 0 ∨
      (SpgInit.generateLatticeForSpg latticeRand spg latticeMins latticeMaxes).c = 0 ∨
      (SpgInit.generateLatticeForSpg latticeRand spg latticeMins latticeMaxes).alpha = 0 ∨
      (SpgInit.generateLatticeForSpg latticeRand spg latticeMins latticeMaxes).beta = 0 ∨
      (SpgInit.generateLatticeForSpg latticeRand spg latticeMins latticeMaxes).gamma = 0 →
    SpgInit.spgInitCrystal fuel db ctors ops latticeRand getRandInt getRandDouble findOnlyOne
      findOnlyNonUnique spg atoms latticeMins latticeMaxes minIADScalingFactor numAttempts =
      some (.ok (ctors.empty, [Diagnostic.invalidLattice]))) ∧
    (3 ≤ spg ∧ spg ≤ 15 → 90 < latticeMins.alpha ∨ latticeMaxes.alpha < 90 →
    SpgInit.spgInitCrystal fuel db ctors ops latticeRand getRandInt getRandDouble findOnlyOne
      findOnlyNonUnique spg atoms latticeMins latticeMaxes minIADScalingFactor numAttempts =
      some (.ok (ctors.empty, [Diagnostic.invalidLattice]))) := by
  have key : (SpgInit.generateLatticeForSpg latticeRand spg latticeMins latticeMaxes).a = 0 ∨
      (SpgInit.generateLatticeForSpg latticeRand spg latticeMins latticeMaxes).b = 0 ∨
      (SpgInit.generateLatticeForSpg latticeRand spg latticeMins latticeMaxes).c = 0 ∨
      (SpgInit.generateLatticeForSpg latticeRand spg latticeMins latticeMaxes).alpha = 0 ∨
      (SpgInit.generateLatticeForSpg latticeRand spg latticeMins latticeMaxes).beta = 0 ∨
      (SpgInit.generateLatticeForSpg latticeRand spg latticeMins latticeMaxes).gamma = 0 →
    SpgInit.spgInitCrystal fuel db ctors ops latticeRand getRandInt getRandDouble findOnlyOne
      findOnlyNonUnique spg atoms latticeMins latticeMaxes minIADScalingFactor numAttempts =
      some (.ok (ctors.empty, [Diagnostic.invalidLattice])) := by
    intro h
    unfold SpgInit.spgInitCrystal
    simp only []
    rw [if_pos h]
  refine ⟨key, ?_⟩
  intro hspg hwin
  apply key
  rw [generateLattice_monoclinic latticeRand spg latticeMins latticeMaxes hspg]
  have hbad : latticeMins.alpha > 90 ∨ latticeMaxes.alpha < 90 ∨ latticeMins.gamma > 90 ∨
      latticeMaxes.gamma < 90 := by
    rcases hwin with h | h
    · exact Or.inl h
    · exact Or.inr (Or.inl h)
  rw [if_pos hbad]
  exact Or.inl rfl

theorem spgInitCrystal_invalid_lattice_witness :
    SpgInit.generateLatticeForSpg randDoubleLow 3 ⟨3, 3, 3, 91, 60, 60⟩
      ⟨6, 6, 6, 120, 120, 120⟩ = latticeStruct.zero ∧
    SpgInit.spgInitCrystal 0 databaseThreeGroups cellCrystalCtors (fun _ => cellCrystalOps)
      randDoubleLow (fun _ => randIntLow) (fun _ _ => randDoubleLow) false false 3 [1]
      ⟨3, 3, 3, 91, 60, 60⟩ ⟨6, 6, 6, 120, 120, 120⟩ 1 100 =
      some (.ok ((latticeStruct.zero, []), [Diagnostic.invalidLattice])) :=
  ⟨by
      rw [generateLattice_monoclinic _ _ _ _ (by decide)]
      norm_num,
    (spgInitCrystal_invalid_lattice 0 databaseThreeGroups cellCrystalCtors
      (fun _ => cellCrystalOps) randDoubleLow (fun _ => randIntLow)
      (fun _ _ => randDoubleLow) false false 3 [1] ⟨3, 3, 3, 91, 60, 60⟩
      ⟨6, 6, 6, 120, 120, 120⟩ 1 100).1
      (by
        rw [generateLattice_monoclinic _ _ _ _ (by decide)]
        norm_num [latticeStruct.zero])⟩

/-- More fuel does not change a result of `findAllCombinations`. -/
theorem findAllCombinations_fuel_succ (z : Nat) (sets : combinationSettings) :
    ∀ (fuel : Nat) (acc : singleAtomPossibilities) (T : usageTracker)
      (r : Except singleAtomPossibility singleAtomPossibilities),
      findAllCombinations fuel acc T z sets = some r →
      findAllCombinations (fuel + 1) acc T z sets = some r := by
  intro fuel
  induction fuel with
  | zero =>
    intro acc T r h
    rw [findAllCombinations_zero] at h
    cases h
  | succ fuel ih =>
    intro acc T r h
    rw [findAllCombinations_succ_useBranch] at h ⊢
    by_cases h0 : sets.numAtoms = 0
    · simp only [h0, if_true] at h ⊢
      exact h
    simp only [h0, if_false] at h ⊢
    cases hi : getFirstAvailableIndex T with
    | none =>
      simp only [hi] at h ⊢
      exact h
    | some i =>
      simp only [hi] at h ⊢
      cases hinfo : T[i]? with
      | none =>
        simp only [hinfo] at h
        cases h
      | some info =>
        simp only [hinfo] at h ⊢
        cases hu : useBranch fuel acc T i info z sets with
        | none =>
          simp only [hu] at h
          cases h
        | some r1 =>
          have hu1 : useBranch (fuel + 1) acc T i info z sets = some r1 := by
            unfold useBranch at hu ⊢
            by_cases hus : positionIsUsable info (getNumAtomsLeft T sets.numAtoms)
                sets.findOnlyNonUnique = true
            · simp only [hus, if_true] at hu ⊢
              by_cases hl : getNumAtomsLeft (useEntry T i info) sets.numAtoms = 0
              · simp only [hl, if_true] at hu ⊢
                exact hu
              · simp only [hl, if_false] at hu ⊢
                exact ih _ _ _ hu
            · simp only [hus] at hu ⊢
              exact hu
          rw [hu1]
          simp only [hu] at h
          cases r1 with
          | error p => exact h
          | ok acc1 => exact ih _ _ _ h

theorem findAllCombinations_fuel_le (z : Nat) (sets : combinationSettings) (fuel0 : Nat)
    (acc : singleAtomPossibilities) (T : usageTracker)
    (r : Except singleAtomPossibility singleAtomPossibilities)
    (h : findAllCombinations fuel0 acc T z sets = some r) :
    ∀ fuel, fuel0 ≤ fuel → findAllCombinations fuel acc T z sets = some r := by
  intro fuel hle
  induction fuel, hle using Nat.le_induction with
  | base => exact h
  | succ n _ ih => exact findAllCombinations_fuel_succ z sets n acc T r ih

/-- C31: on a tracker all of whose multiplicities are at least one, for every accumulator, atom
count and setting, `findAllCombinations` terminates: there is one result that every run with
fuel above the number of entries still in use plus the atoms left returns. The measure is that
of the claim: a recursive call that uses an entry keeps the entries in use and has fewer atoms
left, the recursive call that gives the first available entry up keeps the atoms left and has
one entry less in use. -/
theorem findAllCombinations_terminates_always (acc : singleAtomPossibilities)
    (tracker : usageTracker) (atomicNum : Nat) (sets : combinationSettings)
    (hT : ∀ t ∈ tracker, 1 ≤ t.multiplicity) :
    (∃ r, ∀ fuel, keepCount tracker + getNumAtomsLeft tracker sets.numAtoms + 1 ≤ fuel →
      findAllCombinations fuel acc tracker atomicNum sets = some r) ∧
    (∀ i info, getFirstAvailableIndex tracker = some i → tracker[i]? = some info →
      (positionIsUsable info (getNumAtomsLeft tracker sets.numAtoms) sets.findOnlyNonUnique
          = true →
        keepCount (useEntry tracker i info) = keepCount tracker ∧
        getNumAtomsLeft (useEntry tracker i info) sets.numAtoms <
          getNumAtomsLeft tracker sets.numAtoms ∧
        ∀ t ∈ useEntry tracker i info, 1 ≤ t.multiplicity) ∧
      (keepCount (skipEntry tracker i info) + 1 = keepCount tracker ∧
        getNumAtomsLeft (skipEntry tracker i info) sets.numAtoms =
          getNumAtomsLeft tracker sets.numAtoms ∧
        ∀ t ∈ skipEntry tracker i info, 1 ≤ t.multiplicity)) := by
  constructor
  · obtain ⟨r, hr⟩ := findAllCombinations_terminates_any atomicNum sets
      (keepCount tracker + getNumAtomsLeft tracker sets.numAtoms + 1) acc tracker hT
      (le_refl _)
    exact ⟨r, findAllCombinations_fuel_le atomicNum sets _ acc tracker r hr⟩
  · intro i info hi hinfo
    obtain ⟨info1, hinfo1, hk⟩ := getFirstAvailableIndex_some tracker i hi
    rw [hinfo] at hinfo1
    cases hinfo1
    constructor
    · intro hus
      have hm := (positionIsUsable_true _ _ _ hus).1
      have hlu := getNumAtomsLeft_useEntry tracker sets.numAtoms i info hinfo hm
      have hm1 := hT info (mem_of_getElem?_eq_some tracker i info hinfo)
      exact ⟨keepCount_useEntry tracker i info hinfo, by omega,
        multiplicity_useEntry tracker i info hinfo hT⟩
    · exact ⟨keepCount_skipEntry tracker i info hinfo hk,
        getNumAtomsLeft_skipEntry tracker sets.numAtoms i info hinfo,
        multiplicity_skipEntry tracker i info hinfo hT⟩

theorem findAllCombinations_terminates_always_witness :
    ((∃ r, ∀ fuel, keepCount (createUsageTracker tableThreeGroups) +
        getNumAtomsLeft (createUsageTracker tableThreeGroups) 3 + 1 ≤ fuel →
      findAllCombinations fuel [] (createUsageTracker tableThreeGroups) 1 ⟨3, false, false⟩
        = some r) ∧
    (∀ i info, getFirstAvailableIndex (createUsageTracker tableThreeGroups) = some i →
      (createUsageTracker tableThreeGroups)[i]? = some info →
      (positionIsUsable info (getNumAtomsLeft (createUsageTracker tableThreeGroups) 3) false
          = true →
        keepCount (useEntry (createUsageTracker tableThreeGroups) i info) =
          keepCount (createUsageTracker tableThreeGroups) ∧
        getNumAtomsLeft (useEntry (createUsageTracker tableThreeGroups) i info) 3 <
          getNumAtomsLeft (createUsageTracker tableThreeGroups) 3 ∧
        ∀ t ∈ useEntry (createUsageTracker tableThreeGroups) i info, 1 ≤ t.multiplicity) ∧
      (keepCount (skipEntry (createUsageTracker tableThreeGroups) i info) + 1 =
          keepCount (createUsageTracker tableThreeGroups) ∧
        getNumAtomsLeft (skipEntry (createUsageTracker tableThreeGroups) i info) 3 =
          getNumAtomsLeft (createUsageTracker tableThreeGroups) 3 ∧
        ∀ t ∈ skipEntry (createUsageTracker tableThreeGroups) i info, 1 ≤ t.multiplicity))) ∧
    keepCount (createUsageTracker tableThreeGroups) +
      getNumAtomsLeft (createUsageTracker tableThreeGroups) 3 + 1 = 7 ∧
    findAllCombinations 7 [] (createUsageTracker tableThreeGroups) 1 ⟨3, false, false⟩ =
      some (.ok [⟨1, [⟨1, [⟨'a', 1, "0,0,0"⟩]⟩, ⟨1, [⟨'b', 2, "0,0,0.5"⟩]⟩]⟩,
        ⟨1, [⟨1, [⟨'c', 3, "x,y,z"⟩]⟩]⟩]) :=
  ⟨findAllCombinations_terminates_always [] (createUsageTracker tableThreeGroups) 1
    ⟨3, false, false⟩ (by decide), by decide, by decide⟩

/-! ## No unsigned underflow in the solver -/

theorem usedSum_of_unused (T : usageTracker) (h : ∀ t ∈ T, t.numTimesUsed = 0) :
    usedSum T = 0 := by
  unfold usedSum
  apply List.sum_eq_zero
  intro x hx
  rw [List.mem_map] at hx
  obtain ⟨t, ht, rfl⟩ := hx
  rw [h t ht, Nat.mul_zero]

theorem usedSum_le_of_recursiveCall (z : Nat) (sets : combinationSettings)
    (hN : sets.numAtoms < UINT_MOD) (T T1 : usageTracker)
    (h : usedSum T ≤ sets.numAtoms) (hc : RecursiveCall z sets T T1) :
    usedSum T1 ≤ sets.numAtoms := by
  cases hc with
  | use i info _ _ hinfo hus _ =>
    have hm := (positionIsUsable_true _ _ _ hus).1
    rw [getNumAtomsLeft_of_le T sets.numAtoms h hN] at hm
    have := usedSum_useEntry_le T i info hinfo
    omega
  | skip i info fuel acc acc1 _ _ hinfo _ =>
    rw [usedSum_skipEntry T i info hinfo]
    exact h

/-- C32: from a tracker with `numTimesUsed = 0` everywhere and an atom count that fits a
`uint`, on the tracker of every recursive call of `findAllCombinations` the atoms used are at
most `numAtoms`, `getNumAtomsUsed` is their true number, and `getNumAtomsLeft` is the true
difference; the same holds of the tracker on which the body evaluates `getNumAtomsLeft` after
using a usable entry once more. -/
theorem findAllCombinations_no_underflow (atomicNum : Nat) (sets : combinationSettings)
    (tracker T : usageTracker) (h0 : ∀ t ∈ tracker, t.numTimesUsed = 0)
    (hN : sets.numAtoms < UINT_MOD)
    (hr : Relation.ReflTransGen (RecursiveCall atomicNum sets) tracker T) :
    (usedSum T ≤ sets.numAtoms ∧ getNumAtomsUsed T = usedSum T ∧
      getNumAtomsLeft T sets.numAtoms = sets.numAtoms - usedSum T) ∧
    (∀ i info, getFirstAvailableIndex T = some i → T[i]? = some info →
      positionIsUsable info (getNumAtomsLeft T sets.numAtoms) sets.findOnlyNonUnique = true →
      usedSum (useEntry T i info) ≤ sets.numAtoms ∧
      getNumAtomsUsed (useEntry T i info) = usedSum (useEntry T i info) ∧
      getNumAtomsLeft (useEntry T i info) sets.numAtoms =
        sets.numAtoms - usedSum (useEntry T i info)) := by
  have hle : usedSum T ≤ sets.numAtoms := by
    induction hr with
    | refl =>
      rw [usedSum_of_unused tracker h0]
      exact Nat.zero_le _
    | tail _ hstep ih => exact usedSum_le_of_recursiveCall atomicNum sets hN _ _ ih hstep
  have hexact : ∀ T1 : usageTracker, usedSum T1 ≤ sets.numAtoms →
      usedSum T1 ≤ sets.numAtoms ∧ getNumAtomsUsed T1 = usedSum T1 ∧
      getNumAtomsLeft T1 sets.numAtoms = sets.numAtoms - usedSum T1 := by
    intro T1 h1
    refine ⟨h1, ?_, getNumAtomsLeft_of_le T1 sets.numAtoms h1 hN⟩
    rw [getNumAtomsUsed_eq]
    exact Nat.mod_eq_of_lt (by omega)
  refine ⟨hexact T hle, ?_⟩
  intro i info _ hinfo hus
  apply hexact
  have hm := (positionIsUsable_true _ _ _ hus).1
  rw [getNumAtomsLeft_of_le T sets.numAtoms hle hN] at hm
  have := usedSum_useEntry_le T i info hinfo
  omega

theorem findAllCombinations_no_underflow_witness :
    ((usedSum (useEntry (createUsageTracker tableThreeGroups) 0
          (WyckPosTrackingInfo.init [⟨'a', 1, "0,0,0"⟩])) ≤ 3 ∧
      getNumAtomsUsed (useEntry (createUsageTracker tableThreeGroups) 0
          (WyckPosTrackingInfo.init [⟨'a', 1, "0,0,0"⟩])) =
        usedSum (useEntry (createUsageTracker tableThreeGroups) 0
          (WyckPosTrackingInfo.init [⟨'a', 1, "0,0,0"⟩])) ∧
      getNumAtomsLeft (useEntry (createUsageTracker tableThreeGroups) 0
          (WyckPosTrackingInfo.init [⟨'a', 1, "0,0,0"⟩])) 3 =
        3 - usedSum (useEntry (createUsageTracker tableThreeGroups) 0
          (WyckPosTrackingInfo.init [⟨'a', 1, "0,0,0"⟩]))) ∧
    (∀ i info,
      getFirstAvailableIndex (useEntry (createUsageTracker tableThreeGroups) 0
          (WyckPosTrackingInfo.init [⟨'a', 1, "0,0,0"⟩])) = some i →
      (useEntry (createUsageTracker tableThreeGroups) 0
          (WyckPosTrackingInfo.init [⟨'a', 1, "0,0,0"⟩]))[i]? = some info →
      positionIsUsable info
        (getNumAtomsLeft (useEntry (createUsageTracker tableThreeGroups) 0
          (WyckPosTrackingInfo.init [⟨'a', 1, "0,0,0"⟩])) 3) false = true →
      usedSum (useEntry (useEntry (createUsageTracker tableThreeGroups) 0
          (WyckPosTrackingInfo.init [⟨'a', 1, "0,0,0"⟩])) i info) ≤ 3 ∧
      getNumAtomsUsed (useEntry (useEntry (createUsageTracker tableThreeGroups) 0
          (WyckPosTrackingInfo.init [⟨'a', 1, "0,0,0"⟩])) i info) =
        usedSum (useEntry (useEntry (createUsageTracker tableThreeGroups) 0
          (WyckPosTrackingInfo.init [⟨'a', 1, "0,0,0"⟩])) i info) ∧
      getNumAtomsLeft (useEntry (useEntry (createUsageTracker tableThreeGroups) 0
          (WyckPosTrackingInfo.init [⟨'a', 1, "0,0,0"⟩])) i info) 3 =
        3 - usedSum (useEntry (useEntry (createUsageTracker tableThreeGroups) 0
          (WyckPosTrackingInfo.init [⟨'a', 1, "0,0,0"⟩])) i info))) ∧
    usedSum (useEntry (createUsageTracker tableThreeGroups) 0
      (WyckPosTrackingInfo.init [⟨'a', 1, "0,0,0"⟩])) = 1 :=
  ⟨findAllCombinations_no_underflow 1 ⟨3, false, false⟩ (createUsageTracker tableThreeGroups)
      (useEntry (createUsageTracker tableThreeGroups) 0
        (WyckPosTrackingInfo.init [⟨'a', 1, "0,0,0"⟩]))
      (by decide) (by decide)
      (Relation.ReflTransGen.single
        (RecursiveCall.use (createUsageTracker tableThreeGroups) 0
          (WyckPosTrackingInfo.init [⟨'a', 1, "0,0,0"⟩]) (by decide) (by decide) (by decide)
          (by decide) (by decide))),
    by decide⟩

/-! ## The realizer never draws from an empty list -/

theorem drawInRange_of_vectorAt {T : Type} (vec : List T) (index : Int) (v : T)
    (h : vectorAt vec index = .ok v) : DrawInRange (vec.length, index) := by
  unfold vectorAt at h
  by_cases hneg : index < 0
  · rw [if_pos hneg] at h
    cases h
  · rw [if_neg hneg] at h
    cases hv : vec[index.toNat]? with
    | none =>
      rw [hv] at h
      cases h
    | some w =>
      have hlt : index.toNat < vec.length := by
        by_contra hcon
        rw [List.getElem?_eq_none (by omega)] at hv
        cases hv
      unfold DrawInRange
      simp only
      omega

theorem drawAtomsDraws_inRange (g : Nat → Int → Int → Int) (i j z : Nat) :
    ∀ (k : Nat) (st st1 : systemPossibility × atomAssignments × Nat),
      SpgInitCombinatorics.drawAtoms g i j z k st = .ok st1 →
      ∀ d ∈ SpgInitCombinatorics.drawAtomsDraws g i j z k st, DrawInRange d := by
  intro k
  induction k with
  | zero =>
    intro st st1 _ d hd
    unfold SpgInitCombinatorics.drawAtomsDraws at hd
    cases hd
  | succ k ih =>
    rintro ⟨tempPos, ret, n⟩ st1 h d hd
    unfold SpgInitCombinatorics.drawAtoms at h
    unfold SpgInitCombinatorics.drawAtomsDraws at hd
    cases h1 : tempPos[i]? with
    | none =>
      simp only [h1] at h
      cases h
    | some siPos =>
      simp only [h1] at h hd
      cases h2 : siPos.assigns[j]? with
      | none =>
        simp only [h2] at h
        cases h
      | some simAndNum =>
        simp only [h2] at h hd
        cases h3 : vectorAt simAndNum.choosablePositions
            (g n 0 ((simAndNum.choosablePositions.length : Int) - 1)) with
        | error e =>
          simp only [h3] at h
          cases h
        | ok wyckPos =>
          simp only [h3] at h hd
          rcases List.mem_cons.1 hd with hd1 | hd1
          · rw [hd1]
            exact drawInRange_of_vectorAt _ _ _ h3
          · exact ih _ st1 h d hd1

theorem assignsLoopDraws_inRange (g : Nat → Int → Int → Int) (i z : Nat) :
    ∀ (k j : Nat) (st st1 : systemPossibility × atomAssignments × Nat),
      SpgInitCombinatorics.assignsLoop g i z k j st = .ok st1 →
      ∀ d ∈ SpgInitCombinatorics.assignsLoopDraws g i z k j st, DrawInRange d := by
  intro k
  induction k with
  | zero =>
    intro j st st1 _ d hd
    unfold SpgInitCombinatorics.assignsLoopDraws at hd
    cases hd
  | succ k ih =>
    intro j st st1 h d hd
    unfold SpgInitCombinatorics.assignsLoop at h
    unfold SpgInitCombinatorics.assignsLoopDraws at hd
    cases h1 : st.1[i]? with
    | none =>
      simp only [h1] at h
      cases h
    | some siPos =>
      simp only [h1] at h hd
      cases h2 : siPos.assigns[j]? with
      | none =>
        simp only [h2] at h
        cases h
      | some simAndNum =>
        simp only [h2] at h hd
        cases h3 : SpgInitCombinatorics.drawAtoms g i j z simAndNum.numToChoose st with
        | error e =>
          simp only [h3] at h
          cases h
        | ok st2 =>
          simp only [h3] at h hd
          rcases List.mem_append.1 hd with hd1 | hd1
          · exact drawAtomsDraws_inRange g i j z _ st st2 h3 d hd1
          · exact ih _ st2 st1 h d hd1

theorem speciesLoopDraws_inRange (g : Nat → Int → Int → Int) :
    ∀ (k i : Nat) (st st1 : systemPossibility × atomAssignments × Nat),
      SpgInitCombinatorics.speciesLoop g k i st = .ok st1 →
      ∀ d ∈ SpgInitCombinatorics.speciesLoopDraws g k i st, DrawInRange d := by
  intro k
  induction k with
  | zero =>
    intro i st st1 _ d hd
    unfold SpgInitCombinatorics.speciesLoopDraws at hd
    cases hd
  | succ k ih =>
    intro i st st1 h d hd
    unfold SpgInitCombinatorics.speciesLoop at h
    unfold SpgInitCombinatorics.speciesLoopDraws at hd
    cases h1 : st.1[i]? with
    | none =>
      simp only [h1] at h
      cases h
    | some siPos =>
      simp only [h1] at h hd
      cases h3 : SpgInitCombinatorics.assignsLoop g i siPos.atomicNum siPos.assigns.length 0
          st with
      | error e =>
        simp only [h3] at h
        cases h
      | ok st2 =>
        simp only [h3] at h hd
        rcases List.mem_append.1 hd with hd1 | hd1
        · exact assignsLoopDraws_inRange g i _ _ 0 st st2 h3 d hd1
        · exact ih _ st2 st1 h d hd1

theorem getRandomAtomAssignmentsDraws_inRange (g : Nat → Int → Int → Int)
    (sysPoss : systemPossibilities) (ret : atomAssignments)
    (h : SpgInitCombinatorics.getRandomAtomAssignments g sysPoss = .ok ret) :
    ∀ d ∈ SpgInitCombinatorics.getRandomAtomAssignmentsDraws g sysPoss, DrawInRange d := by
  intro d hd
  unfold SpgInitCombinatorics.getRandomAtomAssignments at h
  unfold SpgInitCombinatorics.getRandomAtomAssignmentsDraws at hd
  cases h1 : SpgInitCombinatorics.getRandomSystemPossibility g sysPoss with
  | error e =>
    simp only [h1] at h
    cases h
  | ok tempPos =>
    simp only [h1] at h hd
    cases h2 : SpgInitCombinatorics.speciesLoop g tempPos.length 0 (tempPos, [], 1) with
    | error e =>
      simp only [h2] at h
      cases h
    | ok st =>
      rcases List.mem_cons.1 hd with hd1 | hd1
      · rw [hd1]
        exact drawInRange_of_vectorAt _ _ _ h1
      · exact speciesLoopDraws_inRange g _ 0 _ st h2 d hd1

/-- C33: for a non-empty list of system possibilities that `getSystemPossibilities` returns
and every generator whose draws lie between their bounds, `getRandomAtomAssignments` throws at
no `at`, and every call `getRandInt(0, size - 1)` of the run, that of
`getRandomSystemPossibility` included, is made for a list of size at least one and draws an
index of that list, also after unique letters were removed from the picks. -/
theorem getRandomAtomAssignments_draws_in_range (fuel : Nat) (db : WyckoffDatabase)
    (spg : Nat) (atoms : List Nat) (findOnlyOne findOnlyNonUnique : Bool)
    (sys : systemPossibilities)
    (h : SpgInitCombinatorics.getSystemPossibilities fuel db spg atoms findOnlyOne
      findOnlyNonUnique = some sys)
    (hne : sys ≠ []) (getRandInt : Nat → Int → Int → Int) (hg : RandIntContract getRandInt) :
    (∃ ret, SpgInitCombinatorics.getRandomAtomAssignments getRandInt sys = .ok ret) ∧
    ∀ d ∈ SpgInitCombinatorics.getRandomAtomAssignmentsDraws getRandInt sys,
      1 ≤ d.1 ∧ 0 ≤ d.2 ∧ d.2 < (d.1 : Int) := by
  obtain ⟨ret, hret⟩ := getRandomAtomAssignments_returns_of_solver fuel db spg atoms
    findOnlyOne findOnlyNonUnique sys h getRandInt hg hne
  exact ⟨⟨ret, hret⟩, getRandomAtomAssignmentsDraws_inRange getRandInt sys ret hret⟩

theorem getRandomAtomAssignments_draws_in_range_witness :
    ((∃ ret, SpgInitCombinatorics.getRandomAtomAssignments randIntLow
        possibilitiesTwoUnique = .ok ret) ∧
      ∀ d ∈ SpgInitCombinatorics.getRandomAtomAssignmentsDraws randIntLow
        possibilitiesTwoUnique, 1 ≤ d.1 ∧ 0 ≤ d.2 ∧ d.2 < (d.1 : Int)) ∧
    SpgInitCombinatorics.getRandomAtomAssignmentsDraws randIntLow possibilitiesTwoUnique =
      [(1, 0), (2, 0), (1, 0)] ∧
    SpgInitCombinatorics.getRandomAtomAssignments randIntLow possibilitiesTwoUnique =
      .ok [(⟨'a', 1, "0,0,0"⟩, 1), (⟨'b', 1, "0,0,0.5"⟩, 2)] :=
  ⟨getRandomAtomAssignments_draws_in_range 10 databaseTwoUnique 1 [1, 2] false false
      possibilitiesTwoUnique (by decide) (by decide) randIntLow randIntLow_contract,
    by decide, by decide⟩

/-! ## The evaluator is affine where it returns -/

theorem interpretLoop_affine (x y z : ℚ) :
    ∀ (fuel : Nat) (rest : List Char) (f : AffineForm),
      SpgInit.interpretLoop fuel rest (f.eval x y z) x y z =
        (affineLoop fuel rest f).map (Except.map (fun g => g.eval x y z)) := by
  intro fuel
  induction fuel with
  | zero =>
    intro rest f
    rfl
  | succ fuel ih =>
    intro rest f
    cases rest with
    | nil => rfl
    | cons c cs =>
      rw [interpretLoop_cons]
      unfold affineLoop
      simp only []
      cases hg : SpgInit.getNumberInFirstTerm (if c = '+' then cs else c :: cs) with
      | error e => rfl
      | ok r =>
        cases r with
        | none =>
          simp only [Option.map_some', Except.map, AffineForm.eval]
          norm_num
        | some nl =>
          obtain ⟨numInFront, len⟩ := nl
          simp only
          cases hd : (if c = '+' then cs else c :: cs).drop len with
          | nil =>
            simp only [Option.map_some', Except.map, AffineForm.eval]
            congr 2
            ring
          | cons v r =>
            simp only
            have e0 : f.eval x y z + numInFront =
                AffineForm.eval { f with c0 := f.c0 + numInFront } x y z := by
              simp only [AffineForm.eval]
              ring
            have ex : f.eval x y z + numInFront * x =
                AffineForm.eval { f with cx := f.cx + numInFront } x y z := by
              simp only [AffineForm.eval]
              ring
            have ey : f.eval x y z + numInFront * y =
                AffineForm.eval { f with cy := f.cy + numInFront } x y z := by
              simp only [AffineForm.eval]
              ring
            have ez : f.eval x y z + numInFront * z =
                AffineForm.eval { f with cz := f.cz + numInFront } x y z := by
              simp only [AffineForm.eval]
              ring
            by_cases hx : v = 'x'
            · simp only [hx, if_true]
              rw [ex]
              exact ih _ _
            by_cases hy : v = 'y'
            · simp only [hx, hy, if_true, if_false]
              rw [ey]
              exact ih _ _
            by_cases hz : v = 'z'
            · simp only [hx, hy, hz, if_true, if_false]
              rw [ez]
              exact ih _ _
            · simp only [hx, hy, hz, if_false]
              rw [e0]
              exact ih _ _

theorem interpretComponent_affine (component : String) (x y z : ℚ) :
    SpgInit.interpretComponent component x y z =
      (affineComponent component).map (Except.map (fun g => g.eval x y z)) := by
  unfold SpgInit.interpretComponent affineComponent
  by_cases h : component.length = 0
  · simp only [h, if_true, Option.map_some', Except.map, AffineForm.eval]
    norm_num
  · simp only [h, if_false]
    have h0 : (0 : ℚ) = AffineForm.eval ⟨0, 0, 0, 0⟩ x y z := by
      simp only [AffineForm.eval]
      norm_num
    have key := interpretLoop_affine x y z (component.length + 1) component.data ⟨0, 0, 0, 0⟩
    rw [← h0] at key
    exact key

/-- A number that `getNumberInFirstTerm` reads has at least one character, unless the string
starts with a variable. -/
theorem getNumberInFirstTerm_len (s : List Char) (n : ℚ) (len : Nat)
    (h : SpgInit.getNumberInFirstTerm s = .ok (some (n, len))) :
    1 ≤ len ∨ ∃ c tl, s = c :: tl ∧ (c = 'x' ∨ c = 'y' ∨ c = 'z') := by
  cases s with
  | nil =>
    unfold SpgInit.getNumberInFirstTerm at h
    simp at h
  | cons c tl =>
    unfold SpgInit.getNumberInFirstTerm at h
    simp only [List.length_cons, Nat.add_one_ne_zero, if_false, List.head?_cons,
      Option.some.injEq] at h
    by_cases hneg : c = '-'
    · left
      subst hneg
      simp only [decide_True, if_true, List.getElem?_cons_succ] at h
      split at h
      · cases h
      · split at h
        · simp only [Except.ok.injEq, Option.some.injEq, Prod.mk.injEq] at h
          omega
        · split at h
          · cases h
          · split at h
            · cases h
            · simp only [Except.ok.injEq, Option.some.injEq, Prod.mk.injEq] at h
              omega
    · simp only [hneg, decide_False, Bool.false_eq_true, if_false, List.getElem?_cons_zero]
        at h
      by_cases hvar : c = 'x' ∨ c = 'y' ∨ c = 'z'
      · right
        exact ⟨c, tl, rfl, hvar⟩
      · left
        have hv2 : ¬ ((c = 'x' || c = 'y' || c = 'z') = true) := by
          simpa [or_assoc] using hvar
        rw [if_neg hv2] at h
        split at h
        · cases h
        · split at h
          · cases h
          · simp only [Except.ok.injEq, Option.some.injEq, Prod.mk.injEq] at h
            omega

theorem getNumberInFirstTerm_len_pos (s : List Char) (n : ℚ) (len : Nat) (v : Char)
    (r : List Char) (h : SpgInit.getNumberInFirstTerm s = .ok (some (n, len)))
    (hd : s.drop len = v :: r) (hv : v ≠ 'x' ∧ v ≠ 'y' ∧ v ≠ 'z') : 1 ≤ len := by
  rcases getNumberInFirstTerm_len s n len h with h1 | ⟨c, tl, hs, hc⟩
  · exact h1
  · by_contra hcon
    have hz : len = 0 := by omega
    subst hz
    rw [List.drop_zero, hs] at hd
    cases hd
    rcases hc with e | e | e
    · exact hv.1 e
    · exact hv.2.1 e
    · exact hv.2.2 e

/-- Every pass of the loop consumes a character: with more fuel than characters the parse has
a result. -/
theorem affineLoop_total :
    ∀ (fuel : Nat) (rest : List Char) (f : AffineForm), rest.length < fuel →
      ∃ r, affineLoop fuel rest f = some r := by
  intro fuel
  induction fuel with
  | zero =>
    intro rest f h
    omega
  | succ fuel ih =>
    intro rest f h
    cases rest with
    | nil => exact ⟨_, rfl⟩
    | cons c cs =>
      unfold affineLoop
      simp only []
      have hlen : (if c = '+' then cs else c :: cs).length ≤ cs.length + 1 := by
        split_ifs
        · omega
        · simp
      cases hg : SpgInit.getNumberInFirstTerm (if c = '+' then cs else c :: cs) with
      | error e => exact ⟨_, rfl⟩
      | ok r =>
        cases r with
        | none => exact ⟨_, rfl⟩
        | some nl =>
          obtain ⟨numInFront, len⟩ := nl
          simp only
          cases hd : (if c = '+' then cs else c :: cs).drop len with
          | nil => exact ⟨_, rfl⟩
          | cons v r =>
            simp only
            have hdl : (v :: r).length = (if c = '+' then cs else c :: cs).length - len := by
              rw [← hd, List.length_drop]
            simp only [List.length_cons] at hdl h
            by_cases hx : v = 'x'
            · simp only [hx, if_true]
              exact ih _ _ (by omega)
            by_cases hy : v = 'y'
            · simp only [hx, hy, if_true, if_false]
              exact ih _ _ (by omega)
            by_cases hz : v = 'z'
            · simp only [hx, hy, hz, if_true, if_false]
              exact ih _ _ (by omega)
            · simp only [hx, hy, hz, if_false]
              have hpos := getNumberInFirstTerm_len_pos _ numInFront len v r hg hd
                ⟨hx, hy, hz⟩
              exact ih _ _ (by simp only [List.length_cons]; omega)

theorem affineComponent_total (component : String) :
    ∃ r, affineComponent component = some r := by
  unfold affineComponent
  split_ifs
  · exact ⟨_, rfl⟩
  · exact affineLoop_total _ _ _ (by
      show component.data.length < component.length + 1
      exact Nat.lt_succ_self _)

/-- C34 (the code at a failing input, and what holds): on the component `-` the evaluator
throws, `getNumberInFirstTerm` reading `s.at(1)` of a string of length 1, so that no constants
give its value. For every component the parse depends on the characters alone: either the
evaluator throws the same exception for all `x`, `y`, `z`, or there are constants `c0`, `cx`,
`cy`, `cz` with value `c0 + cx * x + cy * y + cz * z` for all `x`, `y`, `z`; the constants
are those of `affineComponent`. -/
theorem interpretComponent_affine_unless_thrown :
    (∀ x y z : ℚ, SpgInit.interpretComponent "-" x y z = some (.error .outOfRange)) ∧
    (∀ component : String,
      (∃ e, affineComponent component = some (.error e) ∧
        ∀ x y z : ℚ, SpgInit.interpretComponent component x y z = some (.error e)) ∨
      (∃ c0 cx cy cz : ℚ, affineComponent component = some (.ok ⟨c0, cx, cy, cz⟩) ∧
        ∀ x y z : ℚ, SpgInit.interpretComponent component x y z =
          some (.ok (c0 + cx * x + cy * y + cz * z)))) := by
  constructor
  · intro x y z
    rw [interpretComponent_affine]
    have h : affineComponent "-" = some (.error .outOfRange) := by decide
    rw [h]
    rfl
  · intro component
    obtain ⟨r, hr⟩ := affineComponent_total component
    cases r with
    | error e =>
      left
      refine ⟨e, hr, ?_⟩
      intro x y z
      rw [interpretComponent_affine, hr]
      rfl
    | ok f =>
      right
      obtain ⟨c0, cx, cy, cz⟩ := f
      refine ⟨c0, cx, cy, cz, hr, ?_⟩
      intro x y z
      rw [interpretComponent_affine, hr]
      rfl

/-! ## The character accesses of the evaluator -/

/-- The one access of `getNumberInFirstTerm` that can be out of range is `s.at(1)` after a
sign that ends the string. -/
theorem getNumberInFirstTerm_error_iff (s : List Char) (e : SpgInit.CppException) :
    SpgInit.getNumberInFirstTerm s = .error e ↔ s = ['-'] := by
  constructor
  · intro h
    cases s with
    | nil =>
      unfold SpgInit.getNumberInFirstTerm at h
      simp at h
    | cons c tl =>
      unfold SpgInit.getNumberInFirstTerm at h
      simp only [List.length_cons, Nat.add_one_ne_zero, if_false, List.head?_cons,
        Option.some.injEq] at h
      by_cases hneg : c = '-'
      · subst hneg
        simp only [decide_True, if_true, List.getElem?_cons_succ] at h
        cases tl with
        | nil => rfl
        | cons d tl2 =>
          simp only [List.getElem?_cons_zero] at h
          split at h
          · cases h
          · split at h
            · cases h
            · split at h
              · cases h
              · cases h
      · simp only [hneg, decide_False, Bool.false_eq_true, if_false,
          List.getElem?_cons_zero] at h
        split at h
        · cases h
        · split at h
          · cases h
          · split at h
            · cases h
            · cases h
  · intro h
    subst h
    cases e
    decide

theorem getLast?_of_suffix (l1 l2 : List Char) (a : Char) (h : l2 <:+ l1)
    (h2 : l2.getLast? = some a) : l1.getLast? = some a := by
  obtain ⟨t, rfl⟩ := h
  rw [List.getLast?_append, h2]
  rfl

/-- The loop of `interpretComponent` throws only on characters that end with a sign. -/
theorem interpretLoop_error_last (x y z : ℚ) (e : SpgInit.CppException) :
    ∀ (fuel : Nat) (rest : List Char) (result : ℚ),
      SpgInit.interpretLoop fuel rest result x y z = some (.error e) →
      rest.getLast? = some '-' := by
  intro fuel
  induction fuel with
  | zero =>
    intro rest result h
    cases h
  | succ fuel ih =>
    intro rest result h
    cases rest with
    | nil => cases h
    | cons c cs =>
      rw [interpretLoop_cons] at h
      have hsuf : (if c = '+' then cs else c :: cs) <:+ c :: cs := by
        split_ifs
        · exact List.suffix_cons c cs
        · exact List.suffix_refl _
      cases hg : SpgInit.getNumberInFirstTerm (if c = '+' then cs else c :: cs) with
      | error e1 =>
        have h1 := (getNumberInFirstTerm_error_iff _ e1).1 hg
        exact getLast?_of_suffix _ _ '-' hsuf (by rw [h1]; rfl)
      | ok r =>
        rw [hg] at h
        cases r with
        | none => cases h
        | some nl =>
          obtain ⟨numInFront, len⟩ := nl
          simp only at h
          cases hd : (if c = '+' then cs else c :: cs).drop len with
          | nil =>
            rw [hd] at h
            cases h
          | cons v r =>
            rw [hd] at h
            simp only at h
            have hsuf2 : v :: r <:+ c :: cs := by
              rw [← hd]
              exact (List.drop_suffix len _).trans hsuf
            have hsuf3 : r <:+ c :: cs := (List.suffix_cons v r).trans hsuf2
            by_cases hx : v = 'x'
            · simp only [hx, if_true] at h
              exact getLast?_of_suffix _ _ '-' hsuf3 (ih _ _ h)
            by_cases hy : v = 'y'
            · simp only [hx, hy, if_true, if_false] at h
              exact getLast?_of_suffix _ _ '-' hsuf3 (ih _ _ h)
            by_cases hz : v = 'z'
            · simp only [hx, hy, hz, if_true, if_false] at h
              exact getLast?_of_suffix _ _ '-' hsuf3 (ih _ _ h)
            · simp only [hx, hy, hz, if_false] at h
              exact getLast?_of_suffix _ _ '-' hsuf2 (ih _ _ h)

/-- C35 (the code at a failing input, and what holds): on a string that is a lone sign
`getNumberInFirstTerm` accesses `s.at(1)`, an index equal to the length, which throws; so
`interpretComponent` throws on `-` and on `x-`. This is the only access out of range:
`getNumberInFirstTerm` throws on no other string, and `interpretComponent` throws only on a
component whose last character is the sign. -/
theorem interpretComponent_reads_past_sign :
    SpgInit.getNumberInFirstTerm "-".data = .error .outOfRange ∧
    (∀ x y z : ℚ, SpgInit.interpretComponent "-" x y z = some (.error .outOfRange)) ∧
    (∀ x y z : ℚ, SpgInit.interpretComponent "x-" x y z = some (.error .outOfRange)) ∧
    (∀ (s : List Char) (e : SpgInit.CppException),
      SpgInit.getNumberInFirstTerm s = .error e ↔ s = ['-']) ∧
    (∀ (component : String) (x y z : ℚ) (e : SpgInit.CppException),
      SpgInit.interpretComponent component x y z = some (.error e) →
      component.data.getLast? = some '-') := by
  refine ⟨by decide, ?_, ?_, getNumberInFirstTerm_error_iff, ?_⟩
  · intro x y z
    rw [interpretComponent_affine]
    have h : affineComponent "-" = some (.error .outOfRange) := by decide
    rw [h]
    rfl
  · intro x y z
    rw [interpretComponent_affine]
    have h : affineComponent "x-" = some (.error .outOfRange) := by decide
    rw [h]
    rfl
  · intro component x y z e h
    unfold SpgInit.interpretComponent at h
    split_ifs at h
    · cases h
    · exact interpretLoop_error_last x y z e _ _ _ h

/-! ## The parity shortcut of `isSpgPossible` -/

theorem groupMultiplicity_even (wyckVec : wyckoffPositions)
    (heven : ∀ p ∈ wyckVec, p.multiplicity % 2 = 0) :
    ∀ g ∈ groupSimilarWyckPositions wyckVec, groupMultiplicity g % 2 = 0 := by
  intro g hg
  have hne := groups_ne_nil wyckVec g hg
  cases g with
  | nil => exact absurd rfl hne
  | cons p g =>
    exact heven p (groupSimilarLoop_mem wyckVec [] _ hg p (List.mem_cons_self _ _))

theorem sum_even_of_all_even (l : List Nat) (h : ∀ n ∈ l, n % 2 = 0) : l.sum % 2 = 0 := by
  induction l with
  | nil => rfl
  | cons a l ih =>
    rw [List.sum_cons]
    have h1 := h a (List.mem_cons_self _ _)
    have h2 := ih (fun n hn => h n (List.mem_cons_of_mem _ hn))
    omega

theorem atomsPlaced_even (groups : List similarWyckPositions)
    (heven : ∀ g ∈ groups, groupMultiplicity g % 2 = 0) (p : singleAtomPossibility)
    (hp : NiceSap groups p) : atomsPlaced p % 2 = 0 := by
  unfold atomsPlaced
  apply sum_even_of_all_even
  intro n hn
  rw [List.mem_map] at hn
  obtain ⟨a, ha, rfl⟩ := hn
  have h1 := heven _ (picks_in_groups groups p hp a ha)
  rw [Nat.mul_mod, h1, Nat.zero_mul]

/-- With even multiplicities the loop of `getSystemPossibilities` returns no possibility once a
species with an odd count is still to come: the search for that species finds nothing. -/
theorem systemPossibilitiesLoop_empty_of_odd (fuel : Nat) (wyckVec : wyckoffPositions)
    (f1 f2 : Bool) (heven : ∀ p ∈ wyckVec, p.multiplicity % 2 = 0) :
    ∀ (rest : List numAndType) (sys out : systemPossibilities),
      (∀ nt ∈ rest, nt.1 < UINT_MOD) → (∃ nt ∈ rest, nt.1 % 2 = 1) →
      SpgInitCombinatorics.systemPossibilitiesLoop fuel wyckVec f1 f2 rest sys = some out →
      out = [] := by
  intro rest
  induction rest with
  | nil =>
    intro sys out _ hodd _
    obtain ⟨nt, hnt, -⟩ := hodd
    cases hnt
  | cons nt rest ih =>
    intro sys out hlt hodd h
    unfold SpgInitCombinatorics.systemPossibilitiesLoop at h
    simp only [] at h
    split at h
    · exact absurd h (by simp)
    · rename_i sa hsa
      have hsap := found_solverSap fuel wyckVec f1 f2 nt rest.isEmpty
        (hlt nt (List.mem_cons_self _ _)) sa hsa
      by_cases hl : sa.length = 0
      · simp only [hl, if_true, Option.some.injEq] at h
        exact h.symm
      · simp only [hl, if_false] at h
        obtain ⟨n, hn, hnodd⟩ := hodd
        rcases List.mem_cons.1 hn with e | hn1
        · exfalso
          subst e
          cases sa with
          | nil => exact hl rfl
          | cons p sa1 =>
            have hp := hsap p (List.mem_cons_self _ _)
            have he := atomsPlaced_even _ (groupMultiplicity_even wyckVec heven) p hp.2.2
            rw [hp.2.1] at he
            omega
        · exact ih _ out (fun m hm => hlt m (List.mem_cons_of_mem _ hm)) ⟨n, hn1, hnodd⟩ h

theorem getSystemPossibilities_empty_of_parity (fuel : Nat) (db : WyckoffDatabase) (spg : Nat)
    (atoms : List Nat) (f1 f2 : Bool)
    (heven : SpgInit.spgMultsAreAllEven db spg = true)
    (hodd : (SpgInit.getNumOfEachType atoms).any (fun p => numIsOdd p.1) = true)
    (sys : systemPossibilities)
    (h : SpgInitCombinatorics.getSystemPossibilities fuel db spg atoms f1 f2 = some sys) :
    sys = [] := by
  unfold SpgInit.spgMultsAreAllEven at heven
  simp only [] at heven
  split_ifs at heven
  rw [List.all_eq_true] at heven
  rw [List.any_eq_true] at hodd
  obtain ⟨nt, hnt, hntodd⟩ := hodd
  unfold SpgInitCombinatorics.getSystemPossibilities at h
  refine systemPossibilitiesLoop_empty_of_odd fuel _ f1 f2 ?_ _ [] sys
    (getNumOfEachType_lt atoms) ⟨nt, hnt, ?_⟩ h
  · intro p hp
    have := heven p hp
    unfold numIsOdd SpgInit.getMultiplicity at this
    simp only [Bool.not_eq_true', beq_eq_false_iff_ne, ne_eq] at this
    omega
  · unfold numIsOdd at hntodd
    simpa using hntodd

/-- C36: for a space group in 1..230, whenever `getSystemPossibilities(spg, atoms, true, false)`
returns, `isSpgPossible(spg, atoms)` is the test that the list returned is not empty: where
the parity shortcut answers (all multiplicities even, the count of a species odd) the solver
returns no system possibility. With multiplicities at least one and enough fuel the solver
does return. -/
theorem isSpgPossible_eq_solver (fuel : Nat) (db : WyckoffDatabase) (spg : Nat)
    (atoms : List Nat) (hspg : 1 ≤ spg ∧ spg ≤ 230) :
    (∀ sys, SpgInitCombinatorics.getSystemPossibilities fuel db spg atoms true false
        = some sys →
      SpgInit.isSpgPossible fuel db spg atoms = some (!sys.isEmpty)) ∧
    (SpgInit.spgMultsAreAllEven db spg = true →
      (SpgInit.getNumOfEachType atoms).any (fun p => numIsOdd p.1) = true →
      ∀ sys, SpgInitCombinatorics.getSystemPossibilities fuel db spg atoms true false
        = some sys → sys = []) ∧
    ((∀ p ∈ SpgInit.getWyckoffPositions db spg, 1 ≤ p.multiplicity) →
      (createUsageTracker (SpgInit.getWyckoffPositions db spg)).length + atoms.length + 1
        ≤ fuel →
      ∃ sys, SpgInitCombinatorics.getSystemPossibilities fuel db spg atoms true false
          = some sys ∧
        SpgInit.isSpgPossible fuel db spg atoms = some (!sys.isEmpty)) := by
  have key : ∀ sys, SpgInitCombinatorics.getSystemPossibilities fuel db spg atoms true false
        = some sys →
      SpgInit.isSpgPossible fuel db spg atoms = some (!sys.isEmpty) := by
    intro sys h
    unfold SpgInit.isSpgPossible
    have hr : ¬ ((decide (spg < 1) || decide (spg > 230)) = true) := by
      simp only [Bool.or_eq_true, decide_eq_true_eq]
      omega
    simp only [hr, if_false]
    by_cases hfast : ((SpgInit.getNumOfEachType atoms).any (fun p => numIsOdd p.1) &&
        SpgInit.spgMultsAreAllEven db spg) = true
    · simp only [hfast, if_true]
      rw [Bool.and_eq_true] at hfast
      have he := getSystemPossibilities_empty_of_parity fuel db spg atoms true false
        hfast.2 hfast.1 sys h
      rw [he]
      rfl
    · simp only [hfast, h]
      cases sys with
      | nil => rfl
      | cons S sys1 => rfl
  refine ⟨key, ?_, ?_⟩
  · intro heven hodd sys h
    exact getSystemPossibilities_empty_of_parity fuel db spg atoms true false heven hodd sys h
  · intro hmult hfuel
    obtain ⟨sys, hsys⟩ := getSystemPossibilities_terminates fuel db spg atoms true false
      hmult hfuel
    exact ⟨sys, hsys, key sys hsys⟩

theorem isSpgPossible_eq_solver_witness :
    ((∀ sys, SpgInitCombinatorics.getSystemPossibilities 10 databaseEvenGeneral 2 [6, 6, 6]
        true false = some sys →
      SpgInit.isSpgPossible 10 databaseEvenGeneral 2 [6, 6, 6] = some (!sys.isEmpty)) ∧
    (SpgInit.spgMultsAreAllEven databaseEvenGeneral 2 = true →
      (SpgInit.getNumOfEachType [6, 6, 6]).any (fun p => numIsOdd p.1) = true →
      ∀ sys, SpgInitCombinatorics.getSystemPossibilities 10 databaseEvenGeneral 2 [6, 6, 6]
        true false = some sys → sys = []) ∧
    ((∀ p ∈ SpgInit.getWyckoffPositions databaseEvenGeneral 2, 1 ≤ p.multiplicity) →
      (createUsageTracker (SpgInit.getWyckoffPositions databaseEvenGeneral 2)).length +
        [6, 6, 6].length + 1 ≤ 10 →
      ∃ sys, SpgInitCombinatorics.getSystemPossibilities 10 databaseEvenGeneral 2 [6, 6, 6]
          true false = some sys ∧
        SpgInit.isSpgPossible 10 databaseEvenGeneral 2 [6, 6, 6] = some (!sys.isEmpty))) ∧
    SpgInit.spgMultsAreAllEven databaseEvenGeneral 2 = true ∧
    (SpgInit.getNumOfEachType [6, 6, 6]).any (fun p => numIsOdd p.1) = true ∧
    SpgInitCombinatorics.getSystemPossibilities 10 databaseEvenGeneral 2 [6, 6, 6] true false
      = some [] ∧
    SpgInit.isSpgPossible 10 databaseEvenGeneral 2 [6, 6, 6] = some false ∧
    SpgInit.isSpgPossible 10 databaseEvenGeneral 2 [6, 6] = some true :=
  ⟨isSpgPossible_eq_solver 10 databaseEvenGeneral 2 [6, 6, 6] (by decide), by decide,
    by decide, by decide, by decide, by decide⟩

/-! ## The answer of `isSpgPossible` depends on the counts alone -/

theorem findAllCombinations_relabel (z : Nat) (sets : combinationSettings) :
    ∀ (fuel : Nat) (acc : singleAtomPossibilities) (T : usageTracker),
      findAllCombinations fuel (acc.map relabel) T 0 sets =
        (findAllCombinations fuel acc T z sets).map relabelResult := by
  intro fuel
  induction fuel with
  | zero =>
    intro acc T
    rfl
  | succ fuel ih =>
    intro acc T
    rw [findAllCombinations_succ_useBranch, findAllCombinations_succ_useBranch]
    by_cases h0 : sets.numAtoms = 0
    · simp only [h0, if_true]
      rfl
    simp only [h0, if_false]
    cases hi : getFirstAvailableIndex T with
    | none => rfl
    | some i =>
      simp only []
      cases hinfo : T[i]? with
      | none => rfl
      | some info =>
        simp only []
        have hu : useBranch fuel (acc.map relabel) T i info 0 sets =
            (useBranch fuel acc T i info z sets).map relabelResult := by
          unfold useBranch
          by_cases hus : positionIsUsable info (getNumAtomsLeft T sets.numAtoms)
              sets.findOnlyNonUnique = true
          · simp only [hus, if_true]
            by_cases hl : getNumAtomsLeft (useEntry T i info) sets.numAtoms = 0
            · simp only [hl, if_true]
              by_cases h1 : sets.findOnlyOne = true
              · simp only [h1, if_true]
                rfl
              · simp only [h1, Bool.false_eq_true, if_false]
                simp only [Option.map_some', relabelResult, List.map_append, List.map_cons,
                  List.map_nil]
                rfl
            · simp only [hl, if_false]
              exact ih _ _
          · simp only [hus, Bool.false_eq_true, if_false]
            rfl
        rw [hu]
        cases hr : useBranch fuel acc T i info z sets with
        | none => rfl
        | some r =>
          cases r with
          | error p => rfl
          | ok acc1 =>
            simp only [Option.map_some', relabelResult]
            exact ih _ _

theorem findOnlyOneCombinationIfPossible_relabel (fuel : Nat) (acc : singleAtomPossibilities)
    (T : usageTracker) (z : Nat) (sets : combinationSettings) (finalAtom : Bool) :
    findOnlyOneCombinationIfPossible fuel (acc.map relabel) T 0 sets finalAtom =
      (findOnlyOneCombinationIfPossible fuel acc T z sets finalAtom).map (List.map relabel) := by
  unfold findOnlyOneCombinationIfPossible
  simp only []
  generalize (if sets.findOnlyNonUnique = true then
      ({ sets with findOnlyOne := true, findOnlyNonUnique := true } : combinationSettings)
    else if finalAtom = true then
      { numAtoms := sets.numAtoms, findOnlyOne := true, findOnlyNonUnique := false }
    else { sets with findOnlyOne := true, findOnlyNonUnique := true }) = ts
  rw [findAllCombinations_relabel z]
  cases h1 : findAllCombinations fuel acc T z ts with
  | none => rfl
  | some r =>
    cases r with
    | error p => rfl
    | ok acc1 =>
      simp only [Option.map_some', relabelResult, List.length_map]
      by_cases hl : acc1.length = 0
      · simp only [hl, if_true]
        rw [findAllCombinations_relabel z]
        cases h2 : findAllCombinations fuel acc1 T z
            ⟨ts.numAtoms, false, sets.findOnlyNonUnique⟩ with
        | none => rfl
        | some r2 =>
          cases r2 with
          | error p => rfl
          | ok acc2 => rfl
      · simp only [hl, if_false, Option.map_some']

theorem numTimesUsedWithLater_relabel (a : similarWyckPosAndNumToChoose)
    (later : List singleAtomPossibility) :
    numTimesUsedWithLater a (later.map relabel) = numTimesUsedWithLater a later := by
  unfold numTimesUsedWithLater
  rw [List.foldl_map]
  rfl

theorem tooMany_relabel (S : systemPossibility) :
    tooManyOfAUniquePositionUsed (S.map relabel) = tooManyOfAUniquePositionUsed S := by
  induction S with
  | nil => rfl
  | cons p later ih =>
    rw [List.map_cons]
    unfold tooManyOfAUniquePositionUsed
    rw [ih]
    simp only [numTimesUsedWithLater_relabel]
    rfl

theorem crosses_relabel (S : systemPossibility) (sa : singleAtomPossibilities) :
    (sa.map relabel).filterMap (fun p =>
      if (!tooManyOfAUniquePositionUsed (S.map relabel ++ [p])) = true then
        some (S.map relabel ++ [p]) else none) =
    (sa.filterMap (fun p =>
      if (!tooManyOfAUniquePositionUsed (S ++ [p])) = true then some (S ++ [p])
      else none)).map (List.map relabel) := by
  induction sa with
  | nil => rfl
  | cons p sa1 ih2 =>
    have e : S.map relabel ++ [relabel p] = (S ++ [p]).map relabel := by
      rw [List.map_append]
      rfl
    rw [List.map_cons, List.filterMap_cons, List.filterMap_cons, e, tooMany_relabel]
    by_cases hc : (!tooManyOfAUniquePositionUsed (S ++ [p])) = true
    · simp only [hc, if_true, List.map_cons]
      rw [ih2]
    · have hc1 : tooManyOfAUniquePositionUsed (S ++ [p]) = true := by
        simpa using hc
      simp only [hc1, Bool.not_true, Bool.false_eq_true, if_false]
      rw [ih2]

theorem allCrosses_relabel (sa : singleAtomPossibilities) (sys : systemPossibilities) :
    (sys.map (List.map relabel)).flatMap (fun s =>
      (sa.map relabel).filterMap (fun p =>
        if (!tooManyOfAUniquePositionUsed (s ++ [p])) = true then some (s ++ [p])
        else none)) =
    (sys.flatMap (fun s =>
      sa.filterMap (fun p =>
        if (!tooManyOfAUniquePositionUsed (s ++ [p])) = true then some (s ++ [p])
        else none))).map (List.map relabel) := by
  induction sys with
  | nil => rfl
  | cons S sys1 ih =>
    simp only [List.map_cons, List.flatMap_cons, List.map_append]
    rw [crosses_relabel S sa, ih]

theorem joinSingleWithSystem_relabel (sa : singleAtomPossibilities)
    (sys : systemPossibilities) :
    joinSingleWithSystem (sa.map relabel) (sys.map (List.map relabel)) =
      (joinSingleWithSystem sa sys).map (List.map relabel) := by
  unfold joinSingleWithSystem
  simp only [List.length_map]
  by_cases h0 : sys.length = 0
  · simp only [h0, if_true, List.map_map]
    rfl
  · simp only [h0, if_false]
    exact allCrosses_relabel sa sys

theorem systemPossibilitiesLoop_cons (fuel : Nat) (wyckVec : wyckoffPositions)
    (f1 f2 : Bool) (nt : numAndType) (rest : List numAndType) (sys : systemPossibilities) :
    SpgInitCombinatorics.systemPossibilitiesLoop fuel wyckVec f1 f2 (nt :: rest) sys =
      match (if f1 = true then
          findOnlyOneCombinationIfPossible fuel [] (createUsageTracker wyckVec) nt.2
            ⟨nt.1, f1, f2⟩ rest.isEmpty
        else
          match findAllCombinations fuel [] (createUsageTracker wyckVec) nt.2
              ⟨nt.1, f1, f2⟩ with
          | some (.ok v) => some v
          | _ => none) with
      | none => none
      | some saPossibilities =>
        if saPossibilities.length = 0 then some []
        else
          SpgInitCombinatorics.systemPossibilitiesLoop fuel wyckVec f1 f2 rest
            (joinSingleWithSystem saPossibilities sys) := by
  rfl

/-- The loop of `getSystemPossibilities` reads the atomic numbers only to label its
possibilities: on the counts alone it returns the same list with the labels forgotten. -/
theorem systemPossibilitiesLoop_relabel (fuel : Nat) (wyckVec : wyckoffPositions)
    (f1 f2 : Bool) :
    ∀ (rest : List numAndType) (sys : systemPossibilities),
      SpgInitCombinatorics.systemPossibilitiesLoop fuel wyckVec f1 f2 (countsOnly rest)
          (sys.map (List.map relabel)) =
        (SpgInitCombinatorics.systemPossibilitiesLoop fuel wyckVec f1 f2 rest sys).map
          (List.map (List.map relabel)) := by
  intro rest
  induction rest with
  | nil =>
    intro sys
    rfl
  | cons nt rest ih =>
    intro sys
    have hc : countsOnly (nt :: rest) = (nt.1, 0) :: countsOnly rest := rfl
    have hlast : (countsOnly rest).isEmpty = rest.isEmpty := by
      cases rest <;> rfl
    rw [hc, systemPossibilitiesLoop_cons, systemPossibilitiesLoop_cons, hlast]
    simp only []
    have hfound : (if f1 = true then
          findOnlyOneCombinationIfPossible fuel [] (createUsageTracker wyckVec) 0
            ⟨nt.1, f1, f2⟩ rest.isEmpty
        else
          match findAllCombinations fuel [] (createUsageTracker wyckVec) 0
              ⟨nt.1, f1, f2⟩ with
          | some (.ok v) => some v
          | _ => none) =
        (if f1 = true then
          findOnlyOneCombinationIfPossible fuel [] (createUsageTracker wyckVec) nt.2
            ⟨nt.1, f1, f2⟩ rest.isEmpty
        else
          match findAllCombinations fuel [] (createUsageTracker wyckVec) nt.2
              ⟨nt.1, f1, f2⟩ with
          | some (.ok v) => some v
          | _ => none).map (List.map relabel) := by
      cases f1 with
      | true =>
        simp only [if_true]
        exact findOnlyOneCombinationIfPossible_relabel fuel [] _ nt.2 _ _
      | false =>
        simp only [Bool.false_eq_true, if_false]
        have := findAllCombinations_relabel nt.2 ⟨nt.1, false, f2⟩ fuel []
          (createUsageTracker wyckVec)
        rw [List.map_nil] at this
        rw [this]
        cases findAllCombinations fuel [] (createUsageTracker wyckVec) nt.2
            ⟨nt.1, false, f2⟩ with
        | none => rfl
        | some r =>
          cases r with
          | error p => rfl
          | ok v => rfl
    rw [hfound]
    cases (if f1 = true then
          findOnlyOneCombinationIfPossible fuel [] (createUsageTracker wyckVec) nt.2
            ⟨nt.1, f1, f2⟩ rest.isEmpty
        else
          match findAllCombinations fuel [] (createUsageTracker wyckVec) nt.2
              ⟨nt.1, f1, f2⟩ with
          | some (.ok v) => some v
          | _ => none) with
    | none => rfl
    | some sa =>
      simp only [Option.map_some', List.length_map]
      by_cases hl : sa.length = 0
      · simp only [hl, if_true]
        rfl
      · simp only [hl, if_false]
        rw [joinSingleWithSystem_relabel]
        exact ih _

theorem getNumOfEachType_sorted (atoms : List Nat) :
    ((SpgInit.getNumOfEachType atoms).map Prod.fst).Sorted (fun a b => a ≥ b) := by
  unfold SpgInit.getNumOfEachType SpgInit.sortGreaterThan
  have htotal : IsTotal numAndType (fun a b => ¬ greaterThan b a = true) := by
    constructor
    intro a b
    unfold greaterThan
    simp only [decide_eq_true_eq]
    omega
  have htrans : IsTrans numAndType (fun a b => ¬ greaterThan b a = true) := by
    constructor
    intro a b c hab hbc
    unfold greaterThan at hab hbc ⊢
    simp only [decide_eq_true_eq] at hab hbc ⊢
    omega
  have hs := List.sorted_insertionSort (fun a b : numAndType => ¬ greaterThan b a = true)
    (SpgInit.countEachType atoms atoms [] [])
  unfold List.Sorted at hs ⊢
  rw [List.pairwise_map]
  refine List.Pairwise.imp ?_ hs
  intro a b hab
  unfold greaterThan at hab
  simp only [decide_eq_true_eq] at hab
  omega

theorem mem_getNumOfEachType_iff (atoms : List Nat) (nt : numAndType) :
    nt ∈ SpgInit.getNumOfEachType atoms ↔
      nt.2 ∈ atoms ∧ nt.1 = atoms.count nt.2 % UINT_MOD := by
  constructor
  · exact mem_getNumOfEachType atoms nt
  · rintro ⟨h2, h1⟩
    obtain ⟨nt1, hnt1, he⟩ := exists_mem_getNumOfEachType atoms nt.2 h2
    have hc := (mem_getNumOfEachType atoms nt1 hnt1).2
    have : nt1 = nt := by
      apply Prod.ext
      · rw [hc, he, h1]
      · exact he
    rw [← this]
    exact hnt1

/-- The counts of `getNumOfEachType`, in order, are the same for a rearranged atom list. -/
theorem getNumOfEachType_counts_perm (atoms atoms1 : List Nat) (h : List.Perm atoms atoms1) :
    (SpgInit.getNumOfEachType atoms).map Prod.fst =
      (SpgInit.getNumOfEachType atoms1).map Prod.fst := by
  have hnd : ∀ l : List Nat, (SpgInit.getNumOfEachType l).Nodup := by
    intro l
    apply List.Nodup.of_map Prod.snd
    exact (getNumOfEachType_species_perm l).nodup_iff.2 (List.nodup_dedup l)
  have hperm : List.Perm (SpgInit.getNumOfEachType atoms) (SpgInit.getNumOfEachType atoms1) := by
    rw [List.perm_ext_iff_of_nodup (hnd atoms) (hnd atoms1)]
    intro nt
    rw [mem_getNumOfEachType_iff, mem_getNumOfEachType_iff, h.mem_iff, h.count_eq]
  exact List.eq_of_perm_of_sorted (hperm.map Prod.fst) (getNumOfEachType_sorted atoms)
    (getNumOfEachType_sorted atoms1)

theorem countsOnly_eq_of_counts (l l1 : List numAndType)
    (h : l.map Prod.fst = l1.map Prod.fst) : countsOnly l = countsOnly l1 := by
  have e : ∀ m : List numAndType, countsOnly m = (m.map Prod.fst).map (fun c => (c, 0)) := by
    intro m
    unfold countsOnly
    rw [List.map_map]
    rfl
  rw [e l, e l1, h]

theorem any_odd_of_counts (l l1 : List numAndType)
    (h : l.map Prod.fst = l1.map Prod.fst) :
    l.any (fun p => numIsOdd p.1) = l1.any (fun p => numIsOdd p.1) := by
  have e : ∀ m : List numAndType,
      m.any (fun p => numIsOdd p.1) = (m.map Prod.fst).any numIsOdd := by
    intro m
    induction m with
    | nil => rfl
    | cons a m ih =>
      rw [List.any_cons, List.map_cons, List.any_cons, ih]
  rw [e l, e l1, h]

theorem getSystemPossibilities_relabel (fuel : Nat) (db : WyckoffDatabase) (spg : Nat)
    (atoms : List Nat) (f1 f2 : Bool) :
    SpgInitCombinatorics.systemPossibilitiesLoop fuel (SpgInit.getWyckoffPositions db spg)
        f1 f2 (countsOnly (SpgInit.getNumOfEachType atoms)) [] =
      (SpgInitCombinatorics.getSystemPossibilities fuel db spg atoms f1 f2).map
        (List.map (List.map relabel)) := by
  unfold SpgInitCombinatorics.getSystemPossibilities
  exact systemPossibilitiesLoop_relabel fuel _ f1 f2 _ []

theorem isSpgPossible_returns (fuel : Nat) (db : WyckoffDatabase) (spg : Nat)
    (atoms : List Nat)
    (hmult : ∀ p ∈ SpgInit.getWyckoffPositions db spg, 1 ≤ p.multiplicity)
    (hfuel : (createUsageTracker (SpgInit.getWyckoffPositions db spg)).length
      + atoms.length + 1 ≤ fuel) :
    ∃ b, SpgInit.isSpgPossible fuel db spg atoms = some b := by
  obtain ⟨sys, hsys⟩ := getSystemPossibilities_terminates fuel db spg atoms true false
    hmult hfuel
  unfold SpgInit.isSpgPossible
  simp only [hsys]
  split_ifs <;> exact ⟨_, rfl⟩

/-- C37: for every space group, `isSpgPossible` gives the same answer on an atom list and on
every rearrangement of it, whatever the fuel: the counts of the species, in the order of
`getNumOfEachType`, are the same, and the solver reads the atomic numbers only to label its
possibilities. With multiplicities at least one and enough fuel the answer is a value. -/
theorem isSpgPossible_perm (fuel : Nat) (db : WyckoffDatabase) (spg : Nat)
    (atoms atoms1 : List Nat) (h : List.Perm atoms atoms1) :
    SpgInit.isSpgPossible fuel db spg atoms = SpgInit.isSpgPossible fuel db spg atoms1 ∧
    ((∀ p ∈ SpgInit.getWyckoffPositions db spg, 1 ≤ p.multiplicity) →
      (createUsageTracker (SpgInit.getWyckoffPositions db spg)).length + atoms.length + 1
        ≤ fuel →
      ∃ b, SpgInit.isSpgPossible fuel db spg atoms = some b ∧
        SpgInit.isSpgPossible fuel db spg atoms1 = some b) := by
  have hcounts := getNumOfEachType_counts_perm atoms atoms1 h
  have heq : SpgInit.isSpgPossible fuel db spg atoms =
      SpgInit.isSpgPossible fuel db spg atoms1 := by
    have hsol : (SpgInitCombinatorics.getSystemPossibilities fuel db spg atoms true false).map
          (List.map (List.map relabel)) =
        (SpgInitCombinatorics.getSystemPossibilities fuel db spg atoms1 true false).map
          (List.map (List.map relabel)) := by
      rw [← getSystemPossibilities_relabel, ← getSystemPossibilities_relabel,
        countsOnly_eq_of_counts _ _ hcounts]
    unfold SpgInit.isSpgPossible
    simp only []
    rw [any_odd_of_counts _ _ hcounts]
    cases ho : SpgInitCombinatorics.getSystemPossibilities fuel db spg atoms true false with
    | none =>
      cases ho1 : SpgInitCombinatorics.getSystemPossibilities fuel db spg atoms1 true false with
      | none => rfl
      | some sys1 =>
        rw [ho, ho1] at hsol
        cases hsol
    | some sys =>
      cases ho1 : SpgInitCombinatorics.getSystemPossibilities fuel db spg atoms1 true false with
      | none =>
        rw [ho, ho1] at hsol
        cases hsol
      | some sys1 =>
        rw [ho, ho1] at hsol
        simp only [Option.map_some', Option.some.injEq] at hsol
        have hlen : sys.length = sys1.length := by
          have := congrArg List.length hsol
          simpa using this
        simp only [hlen]
  refine ⟨heq, ?_⟩
  intro hmult hfuel
  obtain ⟨b, hb⟩ := isSpgPossible_returns fuel db spg atoms hmult hfuel
  exact ⟨b, hb, heq ▸ hb⟩

theorem isSpgPossible_perm_witness :
    (SpgInit.isSpgPossible 10 databaseTwoUnique 1 [1, 2] =
        SpgInit.isSpgPossible 10 databaseTwoUnique 1 [2, 1] ∧
      ((∀ p ∈ SpgInit.getWyckoffPositions databaseTwoUnique 1, 1 ≤ p.multiplicity) →
        (createUsageTracker (SpgInit.getWyckoffPositions databaseTwoUnique 1)).length +
          [1, 2].length + 1 ≤ 10 →
        ∃ b, SpgInit.isSpgPossible 10 databaseTwoUnique 1 [1, 2] = some b ∧
          SpgInit.isSpgPossible 10 databaseTwoUnique 1 [2, 1] = some b)) ∧
    SpgInit.getNumOfEachType [1, 2] = [(1, 1), (1, 2)] ∧
    SpgInit.getNumOfEachType [2, 1] = [(1, 2), (1, 1)] ∧
    SpgInit.isSpgPossible 10 databaseTwoUnique 1 [1, 2] = some true :=
  ⟨isSpgPossible_perm 10 databaseTwoUnique 1 [1, 2] [2, 1] (by decide),
    by decide, by decide, by decide⟩
